import Mathlib

/-!
Structdiff: annotation-driven structural diff (`modeldiff.go`).

A shallow embedding of the Go package `modeldiff` and theorems about it.

The Go code inspects its two inputs through `reflect`.  The embedding replaces the
reflected Go value by the tree `GoValue`: every node carries the `reflect.Type`
of the value (as a `GoType`) and, for records, the per-field metadata that the
code reads (`Name`, `IsExported()`, `Tag.Get("comparedby")`).

Scope of the value universe: the kinds that `compare` dispatches on, except
interface-typed positions (booleans, signed and unsigned integers, floats,
strings, pointers, slices, arrays, structs and maps).  Values are finite trees,
so cyclic data is not represented, and pointers carry no address: two pointers
are told apart only by what they point to.

Go run-time panics are the outcome `Fault.panic`; error values returned by the
code are `Fault.err`.  Recursion is bounded by a call-depth budget (`fuel`);
exhausting it is the outcome `Fault.outOfFuel`.

Three things stand for behaviour outside the package.  The text that `fmt` gives
a float is a parameter `ff` of every function that formats.  A Go map is
ranged over in an unspecified order; the embedding ranges over the list of its
entries in order, and the result maps are association lists that are read by
key (`PathMap.get`).  `reflect.DeepEqual`, `IsZero`, `Len`, `Index`, `MapIndex`,
`FieldByName` and `Interface` are embedded as far as the value universe goes,
with their panics.

The functions that `compare` calls and that call `compare` back (`Diff` through
`deepEqual`, `compareBySlice`, the loops) take the callee as a parameter `cmp`;
`compare` passes itself with one unit of fuel less.
-/

namespace Modeldiff

/-! ## Types and values -/

/-- The part of a `reflect.Type` that the code and `reflect.DeepEqual` look at.
`name` is what `Type.Name()` returns: the identifier of a predeclared or defined
type, and the empty string for an unnamed composite type such as `[]int`.
Types are told apart by name and structure (the package path is not part of `Name()`).
Scalar and struct types are nominal leaves (`basic`). -/
inductive GoType where
  | basic (name : String)
  | ptr (name : String) (elem : GoType)
  | slice (name : String) (elem : GoType)
  | array (name : String) (len : Nat) (elem : GoType)
  | map (name : String) (key : GoType) (val : GoType)
deriving DecidableEq, Repr

/-- Value of `Type.Name()`. -/
def GoType.Name : GoType → String
  | .basic n => n
  | .ptr n _ => n
  | .slice n _ => n
  | .array n _ _ => n
  | .map n _ _ => n

/-- Scalar payloads.  `int` covers the kinds Int..Int64, `uint` the kinds Uint..Uint64
(the width is part of the `GoType`); floats are kept as their IEEE-754 bit pattern. -/
inductive Scalar where
  | bool (b : Bool)
  | int (i : Int)
  | uint (n : Nat)
  | float32 (bits : Nat)
  | float64 (bits : Nat)
  | str (s : String)
deriving DecidableEq, Repr

/-- The fields of a `reflect.StructField` that the code reads.
`Exported` is `IsExported()`, `Tag` is `Tag.Get("comparedby")`. -/
structure StructField where
  Name : String
  Exported : Bool
  Tag : String
deriving DecidableEq, Repr

/-- A Go value together with its dynamic type. -/
inductive GoValue where
  | scalar (t : GoType) (s : Scalar)
  | ptr (t : GoType) (elem : GoValue)
  | nilPtr (t : GoType)
  | slice (t : GoType) (elems : List GoValue)
  | nilSlice (t : GoType)
  | array (t : GoType) (elems : List GoValue)
  | struct (t : GoType) (fields : List (StructField × GoValue))
  | map (t : GoType) (entries : List (GoValue × GoValue))
  | nilMap (t : GoType)
deriving Repr

mutual
/-- Structural equality test on values. -/
def GoValue.beq (a b : GoValue) : Bool :=
  match a with
  | .scalar t s =>
      match b with
      | .scalar u r => t == u && s == r
      | _ => false
  | .ptr t x =>
      match b with
      | .ptr u y => t == u && GoValue.beq x y
      | _ => false
  | .nilPtr t =>
      match b with
      | .nilPtr u => t == u
      | _ => false
  | .slice t xs =>
      match b with
      | .slice u ys => t == u && beqList xs ys
      | _ => false
  | .nilSlice t =>
      match b with
      | .nilSlice u => t == u
      | _ => false
  | .array t xs =>
      match b with
      | .array u ys => t == u && beqList xs ys
      | _ => false
  | .struct t fs =>
      match b with
      | .struct u gs => t == u && beqFields fs gs
      | _ => false
  | .map t es =>
      match b with
      | .map u fs => t == u && beqEntries es fs
      | _ => false
  | .nilMap t =>
      match b with
      | .nilMap u => t == u
      | _ => false
termination_by structural a
/-- Structural equality test on lists of values. -/
def beqList (xs ys : List GoValue) : Bool :=
  match xs with
  | [] => ys.isEmpty
  | x :: xs' =>
      match ys with
      | y :: ys' => GoValue.beq x y && beqList xs' ys'
      | [] => false
termination_by structural xs
/-- Structural equality test on field lists. -/
def beqFields (fs gs : List (StructField × GoValue)) : Bool :=
  match fs with
  | [] => gs.isEmpty
  | f :: fs' =>
      match gs with
      | g :: gs' => f.1 == g.1 && GoValue.beq f.2 g.2 && beqFields fs' gs'
      | [] => false
termination_by structural fs
/-- Structural equality test on map entries. -/
def beqEntries (es fs : List (GoValue × GoValue)) : Bool :=
  match es with
  | [] => fs.isEmpty
  | e :: es' =>
      match fs with
      | f :: fs' => GoValue.beq e.1 f.1 && GoValue.beq e.2 f.2 && beqEntries es' fs'
      | [] => false
termination_by structural es
end

/-- Value of `reflect.TypeOf(v)`. -/
def GoValue.typeOf : GoValue → GoType
  | .scalar t _ => t
  | .ptr t _ => t
  | .nilPtr t => t
  | .slice t _ => t
  | .nilSlice t => t
  | .array t _ => t
  | .struct t _ => t
  | .map t _ => t
  | .nilMap t => t

/-- Value of `reflect.TypeOf(v).Name()`. -/
def GoValue.typeName (v : GoValue) : String := v.typeOf.Name

/-! ## Outcomes -/

/-- The error values the package returns (one constructor per `fmt.Errorf` site). -/
inductive DiffError where
  /-- Message "can't compare, not same type, newType:%v, oldType:%v". -/
  | notSameType (newName oldName : String)
  /-- Message "basic type can't assign comparedby, path:%v" (in `compare`). -/
  | basicTypeComparedby (path : String)
  /-- Message "can't execute compareBySlice, not valid type, type=%v". -/
  | notValidType (name : String)
  /-- Message "can't compare, is not export field". -/
  | notExportField
  /-- Message "can't find this comparedby field, comparedby=%v". -/
  | cantFindComparedby (comparedby : String)
  /-- Message "basic type can't assign comparedby" (in `getElement`). -/
  | basicTypeElement
  /-- Message "invalid type" (in `getComparedValue`). -/
  | invalidType
  /-- Message "not support key" (in `toString`). -/
  | notSupportKey
deriving DecidableEq, Repr

/-- Ways a call does not produce a value. -/
inductive Fault where
  | err (e : DiffError)
  | panic
  | outOfFuel
deriving DecidableEq, Repr

abbrev Res (α : Type) := Except Fault α

/-! ## Result maps -/

/-- A Go `map[string]interface{}` that has been allocated: association list with at most
one entry per key.  The stored value `none` is the nil interface. -/
abbrev PathMap := List (String × Option GoValue)

/-- The statement `m[k] = v`. -/
def PathMap.set (m : PathMap) (k : String) (v : Option GoValue) : PathMap :=
  m.filter (fun e => e.1 != k) ++ [(k, v)]

/-- The expression `m[k]` with its presence flag. -/
def PathMap.get : PathMap → String → Option (Option GoValue)
  | [], _ => none
  | (k', v) :: rest, k => if k' = k then some v else PathMap.get rest k

structure DiffDetails where
  Change : Option PathMap := none
  Del : Option PathMap := none
  Add : Option PathMap := none
deriving Repr

/-- Entries of a possibly nil map. -/
def entries (m : Option PathMap) : PathMap := m.getD []

/-- Go's `len(m)`. -/
def len (m : Option PathMap) : Nat := (entries m).length

/-- The statements `if diff.Change == nil { diff.Change = make(..) }; diff.Change[key] = v`. -/
def DiffDetails.setChange (diff : DiffDetails) (key : String) (v : Option GoValue) : DiffDetails :=
  { diff with Change := some ((entries diff.Change).set key v) }

/-- The statements `if diff.Del == nil { diff.Del = make(..) }; diff.Del[key] = v`. -/
def DiffDetails.setDel (diff : DiffDetails) (key : String) (v : Option GoValue) : DiffDetails :=
  { diff with Del := some ((entries diff.Del).set key v) }

/-- The statements `if diff.Add == nil { diff.Add = make(..) }; diff.Add[key] = v`. -/
def DiffDetails.setAdd (diff : DiffDetails) (key : String) (v : Option GoValue) : DiffDetails :=
  { diff with Add := some ((entries diff.Add).set key v) }

/-! ## The parts of `reflect` and `fmt` the code calls -/

/-- Whether a float32 bit pattern is a NaN. -/
def isNaN32 (bits : Nat) : Bool :=
  (bits / 2 ^ 23) % 2 ^ 8 == 2 ^ 8 - 1 && bits % 2 ^ 23 != 0

/-- Whether a float64 bit pattern is a NaN. -/
def isNaN64 (bits : Nat) : Bool :=
  (bits / 2 ^ 52) % 2 ^ 11 == 2 ^ 11 - 1 && bits % 2 ^ 52 != 0

/-- Go's `==` on two scalars of one type: IEEE equality on floats (a NaN equals nothing,
the two zeros are equal), plain equality otherwise. -/
def scalarEq : Scalar → Scalar → Bool
  | .bool a, .bool b => a == b
  | .int a, .int b => a == b
  | .uint a, .uint b => a == b
  | .str a, .str b => a == b
  | .float32 a, .float32 b =>
      !isNaN32 a && !isNaN32 b && (a == b || (a % 2 ^ 31 == 0 && b % 2 ^ 31 == 0))
  | .float64 a, .float64 b =>
      !isNaN64 a && !isNaN64 b && (a == b || (a % 2 ^ 63 == 0 && b % 2 ^ 63 == 0))
  | _, _ => false

/-- Go's `==` on comparable values, as used for map keys.  Pointers are compared through
their targets (the embedding has no addresses). -/
def goEq : GoValue → GoValue → Bool
  | .scalar t a, .scalar u b => t == u && scalarEq a b
  | .ptr t a, .ptr u b => t == u && goEq a b
  | .nilPtr t, .nilPtr u => t == u
  | .array t xs, .array u ys => t == u && goEqList xs ys
  | .struct t fs, .struct u gs => t == u && goEqFields fs gs
  | _, _ => false
where
  /-- Element-wise `==`. -/
  goEqList : List GoValue → List GoValue → Bool
    | [], [] => true
    | x :: xs, y :: ys => goEq x y && goEqList xs ys
    | _, _ => false
  /-- Field-wise `==`. -/
  goEqFields : List (StructField × GoValue) → List (StructField × GoValue) → Bool
    | [], [] => true
    | (_, x) :: xs, (_, y) :: ys => goEq x y && goEqFields xs ys
    | _, _ => false

/-- The value `m[k]` looked up in the entries of a map, with Go's key equality. -/
def lookupKey (k : GoValue) : List (GoValue × GoValue) → Option GoValue
  | [] => none
  | (k', v) :: rest => if goEq k' k then some v else lookupKey k rest

mutual
/-- Go's `reflect.DeepEqual` on two non-nil interface values: identical types at every
level, then by kind.  A nil slice or map is not deeply equal to an empty one.  The
comparison is by content: the embedding has no addresses, so the shortcut that
`reflect.DeepEqual` takes on two slices, maps or pointers that are the same object (which
makes such an object deeply equal to itself even when it holds a NaN) is not part of it. -/
def goDeepEqual (x y : GoValue) : Bool :=
  match x with
  | .scalar t a =>
      match y with
      | .scalar u b => t == u && scalarEq a b
      | _ => false
  | .ptr t a =>
      match y with
      | .ptr u b => t == u && goDeepEqual a b
      | _ => false
  | .nilPtr t =>
      match y with
      | .nilPtr u => t == u
      | _ => false
  | .slice t xs =>
      match y with
      | .slice u ys => t == u && deepEqualList xs ys
      | _ => false
  | .nilSlice t =>
      match y with
      | .nilSlice u => t == u
      | _ => false
  | .array t xs =>
      match y with
      | .array u ys => t == u && deepEqualList xs ys
      | _ => false
  | .struct t fs =>
      match y with
      | .struct u gs => t == u && deepEqualFields fs gs
      | _ => false
  | .map t es =>
      match y with
      | .map u fs => t == u && es.length == fs.length && deepEqualEntries es fs
      | _ => false
  | .nilMap t =>
      match y with
      | .nilMap u => t == u
      | _ => false
termination_by structural x
/-- Element-wise deep equality of two sequences of the same length. -/
def deepEqualList (xs ys : List GoValue) : Bool :=
  match xs with
  | [] => ys.isEmpty
  | x :: xs' =>
      match ys with
      | y :: ys' => goDeepEqual x y && deepEqualList xs' ys'
      | [] => false
termination_by structural xs
/-- Field-wise deep equality (all fields, exported or not). -/
def deepEqualFields (fs gs : List (StructField × GoValue)) : Bool :=
  match fs with
  | [] => gs.isEmpty
  | f :: fs' =>
      match gs with
      | g :: gs' => goDeepEqual f.2 g.2 && deepEqualFields fs' gs'
      | [] => false
termination_by structural fs
/-- Every key of the first map can be looked up in both maps (in its own map this needs
`k == k`, which fails for a NaN) and the two values are deeply equal. -/
def deepEqualEntries (es fs : List (GoValue × GoValue)) : Bool :=
  match es with
  | [] => true
  | e :: es' =>
      goEq e.1 e.1 &&
      (match lookupKey e.1 fs with
       | some w => goDeepEqual e.2 w
       | none => false) && deepEqualEntries es' fs
termination_by structural es
end

mutual
/-- Go's `reflect.Value.IsZero` on a valid value.  A float is zero when it equals 0
(`v.Float() == 0`), so the negative zero, whose bit pattern is the sign bit alone, is zero
too. -/
def goIsZero : GoValue → Bool
  | .scalar _ (.bool b) => !b
  | .scalar _ (.int i) => i == 0
  | .scalar _ (.uint n) => n == 0
  | .scalar _ (.float32 bits) => bits % 2 ^ 31 == 0
  | .scalar _ (.float64 bits) => bits % 2 ^ 63 == 0
  | .scalar _ (.str s) => s == ""
  | .ptr _ _ => false
  | .nilPtr _ => true
  | .slice _ _ => false
  | .nilSlice _ => true
  | .array _ xs => isZeroList xs
  | .struct _ fs => isZeroFields fs
  | .map _ _ => false
  | .nilMap _ => true
/-- All elements are zero. -/
def isZeroList : List GoValue → Bool
  | [] => true
  | x :: xs => goIsZero x && isZeroList xs
/-- All fields are zero. -/
def isZeroFields : List (StructField × GoValue) → Bool
  | [] => true
  | f :: fs => goIsZero f.2 && isZeroFields fs
end

/-- The formatting done inside `fmt` that the embedding takes as given.  `float` is the
shortest-decimal text of a float (bit size, bit pattern).  `named` is the `%v` text of a
scalar of a declared type: what its `String`, `Error` or `Format` method prints when the type
has one, the text of the payload when it has none. -/
structure Fmt where
  float : Nat → Nat → String
  named : GoType → Scalar → String

/-- The names of the predeclared scalar types.  A predeclared type has no methods. -/
def predeclared : List String :=
  ["string", "float64", "int", "bool", "int8", "int16", "int32", "int64", "uint", "uint8",
   "uint16", "uint32", "uint64", "float32"]

/-- Whether a type is one of the predeclared scalar types, told by its name: declared types
are taken not to reuse a predeclared name. -/
def GoType.isPredeclared : GoType → Bool
  | .basic n => predeclared.contains n
  | _ => false

/-- The verb `%v` applied to a scalar without methods: booleans as `true`/`false`, integers
in decimal, strings unchanged, floats in their shortest-decimal text. -/
def payloadText (ff : Fmt) : Scalar → String
  | .bool b => if b then "true" else "false"
  | .int i => Int.repr i
  | .uint n => Nat.repr n
  | .float32 bits => ff.float 32 bits
  | .float64 bits => ff.float 64 bits
  | .str s => s

/-- The verb `%v` applied to a scalar of type `t`.  `fmt` first looks for a `Format`, `Error`
or `String` method of the type and prints the payload only when there is none: for a
predeclared type it prints the payload, for a declared type the text is `ff.named`. -/
def fmtV (ff : Fmt) (t : GoType) (s : Scalar) : String :=
  if t.isPredeclared then payloadText ff s else ff.named t s

/-- The loop `for i := 0; i < v.Len(); i++ { .. v.Index(i) .. }` visits these values.
`Len` panics on kinds without a length and `Index` panics on a map or a pointer; a string
is indexed by bytes. -/
def seqItems : GoValue → Res (List GoValue)
  | .slice _ es => .ok es
  | .nilSlice _ => .ok []
  | .array _ es => .ok es
  | .scalar _ (.str s) =>
      .ok (s.toUTF8.data.toList.map (fun b => GoValue.scalar (.basic "uint8") (.uint b.toNat)))
  | .map _ [] => .ok []
  | .nilMap _ => .ok []
  | .ptr _ (.array _ []) => .ok []
  | _ => .error .panic

/-- Result of `v.FieldByName(name)` on a struct: the field of that name among the fields of
the record itself, with its metadata, and `none` for the zero Value otherwise.
`FieldByName` panics on other kinds.  `reflect` finds a field of the record itself before
any other; where the record has none of that name it goes on to the fields promoted from
embedded records, which the embedding does not search: a key field that is promoted is
outside it. -/
def fieldByName (v : GoValue) (name : String) : Res (Option (StructField × GoValue)) :=
  match v with
  | .struct _ fs => .ok (fs.find? (fun f => f.1.Name == name))
  | _ => .error .panic

/-- Result of `f.IsZero()` on the result of `FieldByName`; it panics on the zero Value. -/
def fieldIsZero : Option (StructField × GoValue) → Res Bool
  | none => .error .panic
  | some f => .ok (goIsZero f.2)

/-- Result of `f.Interface()` on the result of `FieldByName`; it panics on the zero Value
and on a value obtained from an unexported field. -/
def fieldInterface : Option (StructField × GoValue) → Res GoValue
  | none => .error .panic
  | some f => if f.1.Exported then .ok f.2 else .error .panic

/-- Result of `field.IsExported()` for `field, _ := t.FieldByName(name)`: the zero
`StructField` of a missing field has an empty `PkgPath` and so counts as exported. -/
def structFieldIsExported : Option (StructField × GoValue) → Bool
  | none => true
  | some f => f.1.Exported

/-- Result of `v.Field(i).Interface()`: panics unless `v` is a struct with more than `i`
fields whose field `i` is exported. -/
def fieldAt (v : GoValue) (i : Nat) : Res GoValue :=
  match v with
  | .struct _ fs =>
      match fs.get? i with
      | some f => if f.1.Exported then .ok f.2 else .error .panic
      | none => .error .panic
  | _ => .error .panic

/-- Entries visited by `v.MapRange()`, in the order of the list; it panics unless `v` is a
map.  Go ranges over a map in an unspecified order: the list order stands for the order of
one run, and what depends on it (which of two failing entries gives the error, which of two
entries with one path is written last) is not fixed by the code. -/
def mapRange : GoValue → Res (List (GoValue × GoValue))
  | .map _ es => .ok es
  | .nilMap _ => .ok []
  | _ => .error .panic

/-- Key type of a map type. -/
def GoType.keyType : GoType → Option GoType
  | .map _ k _ => some k
  | _ => none

/-- Result of `m.MapIndex(k)`: `none` is the zero Value (key absent).  It panics unless `m`
is a map whose key type is the type of `k`. -/
def mapIndex (m : GoValue) (k : GoValue) : Res (Option GoValue) :=
  match m with
  | .map t es => if t.keyType = some k.typeOf then .ok (lookupKey k es) else .error .panic
  | .nilMap t => if t.keyType = some k.typeOf then .ok none else .error .panic
  | _ => .error .panic

/-! ## The package -/

/-- Go: `getElement`.  On a nil pointer `value.Elem()` is the zero Value, whose kind is
Invalid, and `value.Type()` in the default branch panics. -/
def getElement : GoValue → Res GoValue
  | .ptr _ e => getElement e
  | .nilPtr _ => .error .panic
  | .struct t fs => .ok (.struct t fs)
  | _ => .error (.err .basicTypeElement)

/-- Go: `getComparedValue` on a valid Value; `ro` tells that the Value was obtained from an
unexported field, on which `value.Interface()` panics.  In the String case `fmt` is handed
the Value itself: it prints by the methods of the type when the Value can be turned into an
interface, and the payload when it cannot.  A nil pointer leads to the zero Value, which
takes the default branch. -/
def getComparedValue (ff : Fmt) (ro : Bool) : GoValue → Res String
  | .scalar t (.str s) => .ok ("\"" ++ (if ro then s else fmtV ff t (.str s)) ++ "\"")
  | .scalar t s => if ro then .error .panic else .ok (fmtV ff t s)
  | .ptr _ e => getComparedValue ff ro e
  | _ => .error (.err .invalidType)

/-- The call `getComparedValue(value.FieldByName(comparedby))`: a missing field is the zero
Value and takes the default branch. -/
def getComparedValueOf (ff : Fmt) :
    Option (StructField × GoValue) → Res String
  | none => .error (.err .invalidType)
  | some f => getComparedValue ff (!f.1.Exported) f.2

/-- Go: `generate`. -/
def generate (key name : String) : String :=
  if key = "" then name else key ++ "." ++ name

/-- Go: `toString`.  For a pointer `reflect.ValueOf(value).Interface()` is `value` again, so
the call repeats on the same argument. -/
def toString (ff : Fmt) : Nat → GoValue → Res String
  | 0, _ => .error .outOfFuel
  | fuel + 1, value =>
      match value with
      | .scalar t s => .ok (fmtV ff t s)
      | .ptr _ _ => toString ff fuel value
      | .nilPtr _ => toString ff fuel value
      | _ => .error (.err .notSupportKey)

/-- The call `strings.Split(value, ",")` on the characters of `value`. -/
def splitComma : List Char → List (List Char)
  | [] => [[]]
  | c :: cs =>
      if c = ',' then [] :: splitComma cs
      else
        match splitComma cs with
        | [] => [[c]]
        | h :: t => (c :: h) :: t

/-- Go: `parseTag`. -/
def parseTag (value : String) : String × Bool :=
  match (splitComma value.data).map String.mk with
  | [a0, a1] => (a0, a1 == "direct")
  | _ => (value, false)

/-- Go: body of the loop of `getFromSlice` after `getElement`: the two `IsZero` checks on
the key fields and their comparison with `reflect.DeepEqual`. -/
def sameKey (src value : GoValue) (comparedby : String) : Res Bool := do
  let srcFiled ← fieldByName src comparedby
  if (← fieldIsZero srcFiled) then
    throw (.err (.cantFindComparedby comparedby))
  let dstFiled ← fieldByName value comparedby
  if (← fieldIsZero dstFiled) then
    throw (.err (.cantFindComparedby comparedby))
  let a ← fieldInterface srcFiled
  let b ← fieldInterface dstFiled
  return goDeepEqual a b

/-- Go: the loop of `getFromSlice` over the elements still to visit.  `none` stands for
`reflect.Zero(value.Type())`. -/
def getFromSliceLoop (value : GoValue) (comparedby : String) : List GoValue → Res (Option GoValue)
  | [] => .ok none
  | x :: rest => do
      let src ← getElement x
      if (← sameKey src value comparedby) then
        return some src
      getFromSliceLoop value comparedby rest

/-- Go: `getFromSlice`. -/
def getFromSlice (slice : GoValue) (value : GoValue) (comparedby : String) : Res (Option GoValue) := do
  let items ← seqItems slice
  getFromSliceLoop value comparedby items

/-- Result of `v.IsZero()` on the result of `getFromSlice`. -/
def foundIsZero : Option GoValue → Bool
  | none => true
  | some v => goIsZero v

/-- The recursive entry point `compare`, as seen by the functions it calls back from. -/
abbrev Cmp := String → String → Bool → DiffDetails → GoValue → GoValue → Res DiffDetails

/-- Go: body of `Diff`, with `cmp` for `compare`. -/
def diffWith (cmp : Cmp) (new old : GoValue) : Res DiffDetails :=
  cmp "" "" false {} new old

/-- Go: `deepEqual`, with `cmp` for `compare`. -/
def deepEqual (cmp : Cmp) (new old : GoValue) : Res Bool := do
  let diff ← diffWith cmp new old
  if len diff.Change == 0 && len diff.Add == 0 && len diff.Del == 0 then
    return true
  else
    return false

/-- The text `fmt.Sprintf("%v.#(%v==%v)", key, comparedby, comparedvalue)`. -/
def selector (key comparedby comparedvalue : String) : String :=
  key ++ ".#(" ++ comparedby ++ "==" ++ comparedvalue ++ ")"

/-- The loop `for k, v := range tmp.Add { .. diff.Add[sel + "." + k] = v }`. -/
def mergeAdd (sel : String) (diff : DiffDetails) (tmp : Option PathMap) : DiffDetails :=
  (entries tmp).foldl (fun d e => d.setAdd (sel ++ "." ++ e.1) e.2) diff

/-- The loop `for k, v := range tmp.Change { .. diff.Change[sel + "." + k] = v }`. -/
def mergeChange (sel : String) (diff : DiffDetails) (tmp : Option PathMap) : DiffDetails :=
  (entries tmp).foldl (fun d e => d.setChange (sel ++ "." ++ e.1) e.2) diff

/-- The loop `for k, v := range tmp.Del { .. diff.Del[sel + "." + k] = v }`. -/
def mergeDel (sel : String) (diff : DiffDetails) (tmp : Option PathMap) : DiffDetails :=
  (entries tmp).foldl (fun d e => d.setDel (sel ++ "." ++ e.1) e.2) diff

/-- Go: body of the first loop of `compareBySlice` (one element `x` of `new`). -/
def stepNew (ff : Fmt) (cmp : Cmp) (old : GoValue) (comparedby : String)
    (isDirect : Bool) (key : String) (diff : DiffDetails) (x : GoValue) : Res DiffDetails := do
  let value ← getElement x
  let oldElement ← getFromSlice old value comparedby
  let field ← fieldByName value comparedby
  if !structFieldIsExported field then
    throw (.err .notExportField)
  let comparedvalue ← getComparedValueOf ff field
  match oldElement with
  | some oldElem =>
      if !goIsZero oldElem then
        if isDirect then
          let equal ← deepEqual cmp value oldElem
          if !equal then
            return diff.setChange (selector key comparedby comparedvalue) (some oldElem)
          else
            return diff
        else
          let tmp ← cmp "" "" isDirect {} value oldElem
          let sel := selector key comparedby comparedvalue
          return mergeDel sel (mergeChange sel (mergeAdd sel diff tmp.Add) tmp.Change) tmp.Del
      else
        return diff.setAdd (selector key comparedby comparedvalue) none
  | none => return diff.setAdd (selector key comparedby comparedvalue) none

/-- Go: body of the second loop of `compareBySlice` (one element `x` of `old`). -/
def stepOld (ff : Fmt) (new : GoValue) (comparedby : String)
    (key : String) (diff : DiffDetails) (x : GoValue) : Res DiffDetails := do
  let value ← getElement x
  let newElement ← getFromSlice new value comparedby
  let field ← fieldByName value comparedby
  let comparedvalue ← getComparedValueOf ff field
  if foundIsZero newElement then
    return diff.setDel (selector key comparedby comparedvalue) (some value)
  else
    return diff

/-- Go: the kind check at the head of `compareBySlice`
(`new.Kind() != reflect.Array && new.Kind() != reflect.Slice`), giving the elements that the
first loop visits. -/
def checkedItems (new : GoValue) : Res (List GoValue) :=
  match new with
  | .slice _ es => .ok es
  | .nilSlice _ => .ok []
  | .array _ es => .ok es
  | _ => .error (.err (.notValidType new.typeName))

/-- Go: `compareBySlice`, with `cmp` for `compare`. -/
def compareBySlice (ff : Fmt) (cmp : Cmp) (new old : GoValue)
    (comparedby : String) (isDirect : Bool) (key : String) (diff : DiffDetails) :
    Res DiffDetails := do
  let newItems ← checkedItems new
  let diff ← newItems.foldlM (stepNew ff cmp old comparedby isDirect key) diff
  let oldItems ← seqItems old
  oldItems.foldlM (stepOld ff new comparedby key) diff

/-- Go: the field loop of `compare` on a struct, from field index `i` on. -/
def compareFields (cmp : Cmp) (key : String) (old : GoValue) :
    Nat → List (StructField × GoValue) → DiffDetails → Res DiffDetails
  | _, [], diff => .ok diff
  | i, f :: rest, diff =>
      if !f.1.Exported then
        compareFields cmp key old (i + 1) rest diff
      else do
        let (comparedby, isDirect) := parseTag f.1.Tag
        let oldField ← fieldAt old i
        let diff ← cmp (generate key f.1.Name) comparedby isDirect diff f.2 oldField
        compareFields cmp key old (i + 1) rest diff

/-- Go: body of the first loop of `compare` on a map (one entry of `new`). -/
def stepMapNew (ff : Fmt) (fuel : Nat) (cmp : Cmp) (old : GoValue)
    (key comparedby : String) (isDirect : Bool) (diff : DiffDetails)
    (e : GoValue × GoValue) : Res DiffDetails := do
  let name ← toString ff fuel e.1
  match (← mapIndex old e.1) with
  | some oldValue => cmp (generate key name) comparedby isDirect diff e.2 oldValue
  | none => return diff.setAdd (generate key name) none

/-- Go: body of the second loop of `compare` on a map (one entry of `old`). -/
def stepMapOld (ff : Fmt) (fuel : Nat) (new : GoValue)
    (key : String) (diff : DiffDetails) (e : GoValue × GoValue) : Res DiffDetails := do
  let name ← toString ff fuel e.1
  match (← mapIndex new e.1) with
  | some _ => return diff
  | none => return diff.setDel (generate key name) (some e.2)

/-- Go: `compare`.  `fuel` bounds the depth of nested calls. -/
def compare (ff : Fmt) :
    Nat → String → String → Bool → DiffDetails → GoValue → GoValue → Res DiffDetails
  | 0, _, _, _, _, _, _ => .error .outOfFuel
  | fuel + 1, key, comparedby, isDirect, diff, new, old =>
      if comparedby = "-" then .ok diff
      else if new.typeName ≠ old.typeName then
        .error (.err (.notSameType new.typeName old.typeName))
      else
        match new with
        | .scalar _ _ =>
            if comparedby ≠ "" then .error (.err (.basicTypeComparedby key))
            else if !goDeepEqual new old then .ok (diff.setChange key (some old))
            else .ok diff
        | .array _ _ | .slice _ _ | .nilSlice _ =>
            if comparedby ≠ "" then
              compareBySlice ff (compare ff fuel) new old comparedby isDirect key diff
            else if !goDeepEqual new old then .ok (diff.setChange key (some old))
            else .ok diff
        | .nilPtr _ =>
            -- `new` is nil.  `old.IsNil()` panics on a kind that has no nil; with `old`
            -- nil too the code returns; otherwise it records the change and goes on to
            -- `reflect.ValueOf(new).Elem().Interface()`, which panics on the zero Value.
            match old with
            | .nilPtr _ | .nilSlice _ | .nilMap _ => .ok diff
            | _ => .error .panic
        | .ptr _ e =>
            -- `new` is not nil.  With `old` a nil pointer the code records the change and
            -- `reflect.ValueOf(old).Elem().Interface()` panics; `IsNil` or `Elem` panic on
            -- the other kinds; two non-nil pointers are compared through their targets.
            match old with
            | .ptr _ f => compare ff fuel key comparedby isDirect diff e f
            | _ => .error .panic
        | .struct _ fs =>
            if isDirect then do
              let equal ← deepEqual (compare ff fuel) new old
              if !equal then
                return diff.setChange key (some old)
              else
                return diff
            else
              compareFields (compare ff fuel) key old 0 fs diff
        | .map _ _ | .nilMap _ => do
            if comparedby ≠ "" then
              throw (.err (.basicTypeComparedby key))
            let newEntries ← mapRange new
            let oldEntries ← mapRange old
            let diff ← newEntries.foldlM
              (stepMapNew ff fuel (compare ff fuel) old key comparedby isDirect) diff
            oldEntries.foldlM (stepMapOld ff fuel new key) diff

/-- Go: `Diff`. `fuel` bounds the depth of nested calls of `compare`. -/
def Diff (ff : Fmt) (fuel : Nat) (new old : GoValue) : Res DiffDetails :=
  diffWith (compare ff fuel) new old

/-! ## The fixture of `TestCompare` -/

/-- The type `string`. -/
def tString : GoType := .basic "string"

/-- The type `float64`. -/
def tFloat64 : GoType := .basic "float64"

/-- The type `Subject`. -/
def tSubject : GoType := .basic "Subject"

/-- The type `Contacts`. -/
def tContacts : GoType := .basic "Contacts"

/-- The type `Student`. -/
def tStudent : GoType := .basic "Student"

/-- A `string` value. -/
def str (s : String) : GoValue := .scalar tString (.str s)

/-- The `float64` value 80 (bit pattern 0x4054000000000000). -/
def f80 : GoValue := .scalar tFloat64 (.float64 0x4054000000000000)

/-- The `float64` value 88 (bit pattern 0x4056000000000000). -/
def f88 : GoValue := .scalar tFloat64 (.float64 0x4056000000000000)

/-- A `Subject{Name, Score}` value. -/
def subject (name : String) (score : GoValue) : GoValue :=
  .struct tSubject [(⟨"Name", true, ""⟩, str name), (⟨"Score", true, ""⟩, score)]

/-- A `*Subject` value. -/
def subjectPtr (name : String) (score : GoValue) : GoValue :=
  .ptr (.ptr "" tSubject) (subject name score)

/-- A `[]*Subject` value. -/
def subjects (xs : List GoValue) : GoValue := .slice (.slice "" (.ptr "" tSubject)) xs

/-- A `Contacts{Phone}` value. -/
def contacts (phone : String) : GoValue := .struct tContacts [(⟨"Phone", true, ""⟩, str phone)]

/-- A `*Student` value, with the tags of the test's type declaration. -/
def student (name : String) (s1 s2 c1 c2 : GoValue) : GoValue :=
  .ptr (.ptr "" tStudent) (.struct tStudent
    [(⟨"Name", true, ""⟩, str name),
     (⟨"Subjects1", true, "Name"⟩, s1),
     (⟨"Subjects2", true, ""⟩, s2),
     (⟨"Contacts1", true, ",direct"⟩, c1),
     (⟨"Contacts2", true, ""⟩, c2)])

/-- The value `oldStudent` of `TestCompare`. -/
def oldStudent : GoValue :=
  student "LiLei"
    (subjects [subjectPtr "Math" f80, subjectPtr "Geography" f80])
    (subjects [subjectPtr "Math" f80, subjectPtr "Geography" f80])
    (contacts "12345678") (contacts "12345678")

/-- The value `newStudent` of `TestCompare`. -/
def newStudent : GoValue :=
  student "LiLei"
    (subjects [subjectPtr "Math" f88, subjectPtr "English" f88])
    (subjects [subjectPtr "Math" f88, subjectPtr "English" f88])
    (contacts "123456") (contacts "123456")

/-- A formatter used where a concrete one is needed; the inputs it is used on render no
float and no scalar of a declared type. -/
def ffNone : Fmt := ⟨fun _ _ => "", fun _ _ => ""⟩

/-! ## Notions used in the statements -/

/-- Whether a value is of kind Array or Slice. -/
def GoValue.isSeq : GoValue → Bool
  | .slice _ _ => true
  | .nilSlice _ => true
  | .array _ _ => true
  | _ => false

/-- The test `len(diff.Change) == 0 && len(diff.Add) == 0 && len(diff.Del) == 0` of
`deepEqual`: the comparison found no difference. -/
def DiffDetails.isEmpty (diff : DiffDetails) : Bool :=
  len diff.Change == 0 && len diff.Add == 0 && len diff.Del == 0

/-- A series of writes `m[k] = v`, in order. -/
def PathMap.setAll (m : PathMap) (ws : List (String × Option GoValue)) : PathMap :=
  ws.foldl (fun m w => m.set w.1 w.2) m

/-- Whether a value is of a scalar kind. -/
def GoValue.isScalar : GoValue → Bool
  | .scalar _ _ => true
  | _ => false

/-- The text `%v` of a scalar value (and the empty text for other kinds, which the code
never formats). -/
def textOf (ff : Fmt) : GoValue → String
  | .scalar t s => fmtV ff t s
  | _ => ""

/-- The Add entries the claim lists for two maps: one per key of `new` that is not in `old`,
at `generate p (text of the key)`, with the nil value. -/
def mapAdds (ff : Fmt) (p : String) (newEs oldEs : List (GoValue × GoValue)) :
    List (String × Option GoValue) :=
  newEs.filterMap (fun e =>
    match lookupKey e.1 oldEs with
    | none => some (generate p (textOf ff e.1), none)
    | some _ => none)

/-- The Change entries the claim lists for two maps with scalar values: one per key of `new`
that is in `old` with a value that is not deeply equal, carrying the old value. -/
def mapChanges (ff : Fmt) (p : String) (newEs oldEs : List (GoValue × GoValue)) :
    List (String × Option GoValue) :=
  newEs.filterMap (fun e =>
    match lookupKey e.1 oldEs with
    | some ov => if goDeepEqual e.2 ov then none else some (generate p (textOf ff e.1), some ov)
    | none => none)

/-- The Del entries the claim lists for two maps: one per key of `old` that is not in `new`,
carrying the old value. -/
def mapDels (ff : Fmt) (p : String) (newEs oldEs : List (GoValue × GoValue)) :
    List (String × Option GoValue) :=
  oldEs.filterMap (fun e =>
    match lookupKey e.1 newEs with
    | none => some (generate p (textOf ff e.1), some e.2)
    | some _ => none)

/-- The type `map[string]int`. -/
def tMapStringInt : GoType := .map "" (.basic "string") (.basic "int")

/-- An `int` value. -/
def int (i : Int) : GoValue := .scalar (.basic "int") (.int i)

/-- The representation invariant of the three result maps: at most one entry per path. -/
def DiffDetails.KeysNodup (d : DiffDetails) : Prop :=
  ((entries d.Change).map Prod.fst).Nodup ∧ ((entries d.Del).map Prod.fst).Nodup ∧
    ((entries d.Add).map Prod.fst).Nodup

/-- The entries of a nested result map, each path `q` re-keyed as `sel.q`. -/
def rekey (sel : String) (m : PathMap) : PathMap :=
  m.map (fun e => (sel ++ "." ++ e.1, e.2))

/-- The map `after` is the map `before` plus exactly the entries of the nested map `tmp`
re-keyed under `sel`: every entry `q ↦ val` of `tmp` is in `after` at `sel.q` with the same
value, and every path that is not such a re-keyed path is as in `before`. -/
def RekeyedInto (sel : String) (tmp before after : Option PathMap) : Prop :=
  (∀ q val, (entries tmp).get q = some val →
    (entries after).get (sel ++ "." ++ q) = some val) ∧
  (∀ path, (∀ q, (entries tmp).get q ≠ none → path ≠ sel ++ "." ++ q) →
    (entries after).get path = (entries before).get path)

/-- A record with one field `Subjects`, a `[]Subject` keyed by `Name` (recursive mode). -/
def roster (xs : List GoValue) : GoValue :=
  .struct (.basic "Roster")
    [(⟨"Subjects", true, "Name"⟩, .slice (.slice "" tSubject) xs)]

/-- Every entry of Add carries the nil value. -/
def DiffDetails.AddNil (d : DiffDetails) : Prop :=
  ∀ e ∈ entries d.Add, e.2 = none

/-- A property of results that every single write of the code keeps: any write into Change
or Del, and a write of the nil value into Add. -/
structure WriteClosed (P : DiffDetails → Prop) : Prop where
  change : ∀ d k v, P d → P (d.setChange k v)
  add : ∀ d k, P d → P (d.setAdd k none)
  del : ∀ d k v, P d → P (d.setDel k v)

/-- Whether `getComparedValue` can render a key value: a scalar, possibly behind
pointers. -/
def renders : GoValue → Bool
  | .scalar _ _ => true
  | .ptr _ e => renders e
  | _ => false

/-- The text `getComparedValue` gives for a key value that renders: the `%v` text of a
string in double quotes, another scalar by `%v`, a pointer by its target. -/
def keyText (ff : Fmt) : GoValue → String
  | .scalar t (.str s) => "\"" ++ fmtV ff t (.str s) ++ "\""
  | .scalar t s => fmtV ff t s
  | .ptr _ e => keyText ff e
  | _ => ""

/-- The record an element of a keyed sequence resolves to, with the value of its key field,
when the element is one that `compareBySlice` accepts: it resolves to a record whose key
field exists, is exported, is not the zero value (see `getFromSlice`) and renders. -/
def keyOf (comparedby : String) (x : GoValue) : Option (GoValue × GoValue) :=
  match getElement x with
  | .ok v =>
      match fieldByName v comparedby with
      | .ok (some fld) =>
          if fld.1.Exported && !goIsZero fld.2 && renders fld.2 then some (v, fld.2) else none
      | _ => none
  | .error _ => none

/-- The first element of the sequence whose key is deeply equal to `k` (the key of the
sequence element comes first in the comparison), as the record it resolves to. -/
def findByKey (comparedby : String) (k : GoValue) : List GoValue → Option GoValue
  | [] => none
  | x :: rest =>
      match keyOf comparedby x with
      | some (v, k') => if goDeepEqual k' k then some v else findByKey comparedby k rest
      | none => none

/-- No key of the sequence is deeply equal to `k`, in either order of comparison. -/
def freshKey (comparedby : String) (k : GoValue) (es : List GoValue) : Bool :=
  es.all (fun y =>
    match keyOf comparedby y with
    | some (_, k') => !goDeepEqual k k' && !goDeepEqual k' k
    | none => false)

/-- The elements of a keyed sequence are accepted by `compareBySlice` and their keys are
pairwise distinct (not deeply equal, in either order of comparison). -/
def distinctKeys (comparedby : String) : List GoValue → Bool
  | [] => true
  | x :: rest =>
      (match keyOf comparedby x with
       | some (_, k) => freshKey comparedby k rest
       | none => false) && distinctKeys comparedby rest

/-- The values on which comparing a value with itself finds nothing, checked along the
recursion of `compare` under the annotation `comparedby`/`isDirect` within `fuel` nested
calls: no scalar is a NaN, a pointer target, the exported fields of a record (under their
own annotations) and the values of a map are again such values, an unannotated sequence
is deeply equal to itself, the elements of a keyed sequence are accepted records with
pairwise distinct keys that are each deeply equal to themselves, map keys are scalars of
the key type that look up their own value, and no scalar or map carries an annotation. -/
def selfComparable : Nat → String → Bool → GoValue → Bool
  | 0, _, _, _ => false
  | fuel + 1, comparedby, isDirect, x =>
      comparedby == "-" ||
      match x with
      | .scalar _ s => comparedby == "" && scalarEq s s
      | .ptr _ e => selfComparable fuel comparedby isDirect e
      | .nilPtr _ => true
      | .nilSlice _ => true
      | .slice _ es =>
          if comparedby == "" then goDeepEqual x x
          else distinctKeys comparedby es && es.all (fun e =>
            match keyOf comparedby e with
            | some (v, k) => goDeepEqual k k && selfComparable fuel "" false v
            | none => false)
      | .array _ es =>
          if comparedby == "" then goDeepEqual x x
          else distinctKeys comparedby es && es.all (fun e =>
            match keyOf comparedby e with
            | some (v, k) => goDeepEqual k k && selfComparable fuel "" false v
            | none => false)
      | .struct _ fs =>
          if isDirect then selfComparable fuel "" false x
          else fs.all (fun f =>
            !f.1.Exported ||
              selfComparable fuel (parseTag f.1.Tag).1 (parseTag f.1.Tag).2 f.2)
      | .map t es =>
          comparedby == "" && es.all (fun e =>
            e.1.isScalar && t.keyType == some e.1.typeOf &&
            (match lookupKey e.1 es with
             | some w => GoValue.beq w e.2
             | none => false) &&
            selfComparable fuel "" isDirect e.2)
      | .nilMap _ => comparedby == ""

/-- The record `v` has the key field `comparedby` with value `k`, exported, non-zero and
rendering. -/
def HasKey (comparedby : String) (v k : GoValue) : Prop :=
  ∃ fld, fieldByName v comparedby = .ok (some fld) ∧ fld.2 = k ∧ fld.1.Exported = true ∧
    goIsZero k = false ∧ renders k = true

/-- The text of the key of an element of a keyed sequence (empty for an element that
`compareBySlice` does not accept). -/
def elemText (ff : Fmt) (comparedby : String) (y : GoValue) : String :=
  match keyOf comparedby y with
  | some vk => keyText ff vk.2
  | none => ""

/-- The Del entries the claim lists for a keyed sequence: one per old element whose key
matches no element of `new`, at the selector of its key, carrying the old record. -/
def seqDels (ff : Fmt) (comparedby key : String) (newEs : List GoValue)
    (l : List GoValue) : List (String × Option GoValue) :=
  l.filterMap (fun y =>
    match keyOf comparedby y with
    | some (w, k) =>
        match findByKey comparedby k newEs with
        | none => some (selector key comparedby (keyText ff k), some w)
        | some _ => none
    | none => none)

/-- The element `x` of `new` is accepted by `compareBySlice` and, when an element of `old`
matches its key, the nested comparison of the two records returns a result. -/
def nestedOk (ff : Fmt) (fuel : Nat) (comparedby : String)
    (oldEs : List GoValue) (x : GoValue) : Bool :=
  match keyOf comparedby x with
  | some (v, kv) =>
      match findByKey comparedby kv oldEs with
      | some f =>
          match compare ff fuel "" "" false {} v f with
          | .ok _ => true
          | .error _ => false
      | none => true
  | none => false

/-- A `[]Subject` value. -/
def subjectSeq (xs : List GoValue) : GoValue := .slice (.slice "" tSubject) xs

/-- The outcome `r'` is the outcome `r`, unless `r` ran out of fuel. -/
def FuelLe {α : Type} (r r' : Res α) : Prop :=
  r = .error .outOfFuel ∨ r = r'

/-- A record with one field `Contacts1` of type `Contacts` carrying the annotation `tag`. -/
def card (tag : String) (phone : String) : GoValue :=
  .struct (.basic "Card") [(⟨"Contacts1", true, tag⟩, contacts phone)]

/-- A record with one field `Age` of type `int` carrying the annotation `tag`. -/
def aged (tag : String) (age : Int) : GoValue :=
  .struct (.basic "Person") [(⟨"Age", true, tag⟩, int age)]

/-- Whether a value is of kind Map. -/
def GoValue.isMap : GoValue → Bool
  | .map _ _ => true
  | .nilMap _ => true
  | _ => false

/-- The field `Age int` with the annotation `Name,direct`. -/
def ageField : StructField × GoValue := (⟨"Age", true, "Name,direct"⟩, int 1)

/-- A `Person{Name, Age}` value whose `Age` field carries the annotation `Name,direct`. -/
def person (name : String) : GoValue :=
  .struct (.basic "Person") [(⟨"Name", true, ""⟩, str name), ageField]

/-- The result of `Diff(newStudent, oldStudent)` that `TestCompare` prints. -/
def studentResult : DiffDetails :=
  { Change := some
      [("Subjects1.#(Name==\"Math\").Score", some f80),
       ("Subjects2", some (subjects [subjectPtr "Math" f80, subjectPtr "Geography" f80])),
       ("Contacts1", some (contacts "12345678")),
       ("Contacts2.Phone", some (str "12345678"))],
    Del := some [("Subjects1.#(Name==\"Geography\")", some (subject "Geography" f80))],
    Add := some [("Subjects1.#(Name==\"English\")", none)] }

/-- Whether the key of the sequence element `x` is deeply equal to the key `k` (the key of
the sequence element comes first in the comparison); `none` for an element that
`compareBySlice` does not accept. -/
def keyMatches (comparedby : String) (k : GoValue) (x : GoValue) : Option Bool :=
  (keyOf comparedby x).map (fun p => goDeepEqual p.2 k)

/-- The three maps of a result. -/
inductive Slot where
  | change
  | add
  | del
deriving DecidableEq, Repr

/-- One of the three maps of a result. -/
def DiffDetails.slot (d : DiffDetails) : Slot → Option PathMap
  | .change => d.Change
  | .add => d.Add
  | .del => d.Del

/-- The paths that are present in one of the three maps of a result. -/
def keysAt (s : Slot) (d : DiffDetails) : List String := (entries (d.slot s)).map Prod.fst

/-- One write `diff.<map>[path] = val` (with the lazy allocation of the map). -/
structure Write where
  slot : Slot
  path : String
  val : Option GoValue

/-- The effect of one write on a result. -/
def DiffDetails.write (d : DiffDetails) (w : Write) : DiffDetails :=
  match w.slot with
  | .change => d.setChange w.path w.val
  | .add => d.setAdd w.path w.val
  | .del => d.setDel w.path w.val

/-- The effect of a series of writes on a result. -/
def DiffDetails.apply (d : DiffDetails) (ws : List Write) : DiffDetails :=
  ws.foldl DiffDetails.write d

/-- The path `p` is at or below the path `key`: it is `key` itself or `key` followed by a
dot and more.  Every path is below the empty root path. -/
def Under (key p : String) : Prop :=
  key = "" ∨ p = key ∨ ∃ s, p = key ++ "." ++ s

/-- The function `f` of the incoming result does nothing but a fixed series of writes, all
at or below `key`, or fails with a fixed fault: neither depends on the incoming result. -/
def Logged (key : String) (f : DiffDetails → Res DiffDetails) : Prop :=
  ∃ log : Res (List Write), (∀ d, f d = log.map d.apply) ∧
    ∀ ws, log = .ok ws → ∀ w ∈ ws, Under key w.path

/-- No path is in two of the three maps of the result. -/
def DiffDetails.Disjoint (r : DiffDetails) : Prop :=
  ∀ s s' p, s ≠ s' → p ∈ keysAt s r → p ∈ keysAt s' r → False

/-- A text that can stand as one segment of a path: not empty and without a dot. -/
def segment (s : String) : Bool := s != "" && !s.data.contains '.'

/-- The text that `compareBySlice` puts into the selector of the sequence element `x`
(`none` when the element has none). -/
def selText (ff : Fmt) (comparedby : String) (x : GoValue) : Option String :=
  match getElement x with
  | .ok v =>
      match fieldByName v comparedby with
      | .ok fld =>
          match getComparedValueOf ff fld with
          | .ok cv => some cv
          | .error _ => none
      | .error _ => none
  | .error _ => none

/-- Whether `getFromSlice` finds in `seq` a non-zero element for the key of the element `y`. -/
def matchedIn (comparedby : String) (seq : GoValue) (y : GoValue) : Bool :=
  match getElement y with
  | .ok w =>
      match getFromSlice seq w comparedby with
      | .ok found => !foundIsZero found
      | .error _ => false
  | .error _ => false

/-- Body of the field loop of `compare` for the field `jf.2` at index `jf.1`. -/
def fieldStep (cmp : Cmp) (key : String) (old : GoValue) (d : DiffDetails)
    (jf : Nat × (StructField × GoValue)) : Res DiffDetails :=
  if !jf.2.1.Exported then .ok d
  else
    fieldAt old jf.1 >>= fun oldField =>
      cmp (generate key jf.2.1.Name) (parseTag jf.2.1.Tag).1 (parseTag jf.2.1.Tag).2 d jf.2.2
        oldField

/-- The two values render to unambiguous paths, checked along the recursion of `compare`
under the annotation `comparedby`/`isDirect` within `n` nested calls.
In a record compared field by field the field names are pairwise distinct segments.  In two
maps the key texts are segments, the keys of `new` have pairwise distinct texts, and an old
key with the text of a new key is a key of `new`.  In two keyed sequences the selector texts
hold no closing parenthesis, the elements of `new` have pairwise distinct selector texts, and
an old element with the selector text of a new element has a match in `new`.  The same holds
below: for the two values of every exported field, of every key in both maps and of every
matched pair of elements compared field by field. -/
def unambiguous (ff : Fmt) : Nat → String → Bool → GoValue → GoValue → Bool
  | 0, _, _, _, _ => false
  | n + 1, comparedby, isDirect, new, old =>
      comparedby == "-" ||
      match new with
      | .scalar _ _ => true
      | .nilPtr _ => true
      | .ptr _ e =>
          match old with
          | .ptr _ f => unambiguous ff n comparedby isDirect e f
          | _ => true
      | .struct _ fs =>
          isDirect ||
          ((fs.map (fun f => f.1.Name)).Nodup && fs.all (fun f => segment f.1.Name) &&
            (fs.enumFrom 0).all (fun jf =>
              !jf.2.1.Exported ||
              match fieldAt old jf.1 with
              | .ok o => unambiguous ff n (parseTag jf.2.1.Tag).1 (parseTag jf.2.1.Tag).2 jf.2.2 o
              | .error _ => true))
      | .map _ _ | .nilMap _ =>
          match mapRange new, mapRange old with
          | .ok newEs, .ok oldEs =>
              (newEs.map (fun e => textOf ff e.1)).Nodup &&
              (newEs ++ oldEs).all (fun e => segment (textOf ff e.1)) &&
              newEs.all (fun e => oldEs.all (fun e' =>
                textOf ff e.1 != textOf ff e'.1 ||
                match mapIndex new e'.1 with
                | .ok (some _) => true
                | _ => false)) &&
              newEs.all (fun e =>
                match mapIndex old e.1 with
                | .ok (some ov) => unambiguous ff n "" isDirect e.2 ov
                | _ => true)
          | _, _ => true
      | .slice _ _ | .nilSlice _ | .array _ _ =>
          comparedby == "" ||
          match checkedItems new, seqItems old with
          | .ok newEs, .ok oldEs =>
              (newEs.map (selText ff comparedby)).Nodup &&
              (newEs ++ oldEs).all (fun x =>
                match selText ff comparedby x with
                | some cv => !cv.data.contains ')'
                | none => true) &&
              newEs.all (fun x => oldEs.all (fun y =>
                selText ff comparedby x != selText ff comparedby y ||
                matchedIn comparedby new y)) &&
              newEs.all (fun x =>
                match getElement x with
                | .ok v =>
                    match getFromSlice old v comparedby with
                    | .ok (some f) => isDirect || unambiguous ff n "" false v f
                    | _ => true
                | .error _ => true)
          | _, _ => true
/-- The type `map[string]map[string]int`. -/
def tMapOfMaps : GoType := .map "" (.basic "string") tMapStringInt

/-- The field metadata of the record types, by type name: what the type declarations say. -/
abbrev Decls := String → List StructField

mutual
/-- Every record in the value has the fields that its type declares. -/
def conforms (Γ : Decls) : GoValue → Bool
  | .scalar _ _ => true
  | .ptr _ e => conforms Γ e
  | .nilPtr _ => true
  | .slice _ es => conformsList Γ es
  | .nilSlice _ => true
  | .array _ es => conformsList Γ es
  | .struct t fs => decide (fs.map Prod.fst = Γ t.Name) && conformsFields Γ fs
  | .map _ es => conformsEntries Γ es
  | .nilMap _ => true
/-- All elements conform. -/
def conformsList (Γ : Decls) : List GoValue → Bool
  | [] => true
  | x :: xs => conforms Γ x && conformsList Γ xs
/-- All field values conform. -/
def conformsFields (Γ : Decls) : List (StructField × GoValue) → Bool
  | [] => true
  | f :: fs => conforms Γ f.2 && conformsFields Γ fs
/-- All keys and values conform. -/
def conformsEntries (Γ : Decls) : List (GoValue × GoValue) → Bool
  | [] => true
  | e :: es => conforms Γ e.1 && conforms Γ e.2 && conformsEntries Γ es
end

/-- Two lists agree position by position under `r`. -/
def agreeList (r : GoValue → GoValue → Bool) : List GoValue → List GoValue → Bool
  | [], [] => true
  | x :: xs, y :: ys => r x y && agreeList r xs ys
  | _, _ => false

/-- Two field lists have the same metadata and agree field by field: the values of an
exported field under `r` at the field's own annotation, the values of an unexported field by
being equal unless the field is annotated `-`. -/
def agreeFields (r : String → GoValue → GoValue → Bool) :
    List (StructField × GoValue) → List (StructField × GoValue) → Bool
  | [], [] => true
  | f :: fs, g :: gs =>
      f.1 == g.1 &&
      (if f.1.Exported then r (parseTag f.1.Tag).1 f.2 g.2
       else ((parseTag f.1.Tag).1 == "-" || GoValue.beq f.2 g.2)) &&
      agreeFields r fs gs
  | _, _ => false

/-- Two entry lists have the same keys in the same order and values that agree under `r`. -/
def agreeEntries (r : GoValue → GoValue → Bool) :
    List (GoValue × GoValue) → List (GoValue × GoValue) → Bool
  | [], [] => true
  | e :: es, f :: fs => GoValue.beq e.1 f.1 && r e.2 f.2 && agreeEntries r es fs
  | _, _ => false

/-- The key field of an element of a keyed sequence, with its metadata (`none` when the
element does not resolve to a record with that field). -/
def keyField (comparedby : String) (x : GoValue) : Option (StructField × GoValue) :=
  match getElement x with
  | .ok v =>
      match fieldByName v comparedby with
      | .ok o => o
      | .error _ => none
  | .error _ => none

/-- Whether two results of `FieldByName` are the same field with the same value, found
among the fields of the record itself. -/
def sameField : Option (StructField × GoValue) → Option (StructField × GoValue) → Bool
  | none, none => false
  | some f, some g => f.1 == g.1 && GoValue.beq f.2 g.2
  | _, _ => false

/-- The values `x` and `y` differ only in the values held by fields annotated `-` that the
field-by-field recursion of `compare` reaches, starting under the annotation `comparedby`,
within `n` levels: a field annotated `-` may hold anything; scalars and sequences without a
key annotation (which are compared whole) are equal; pointers agree on their targets, records
on their fields, maps on their keys and, below, on their values; the elements of a keyed
sequence agree one by one and have the same key field, which is a field of the element's
record itself (not one promoted from an embedded record). -/
def sameButExcluded : Nat → String → GoValue → GoValue → Bool
  | 0, _, _, _ => false
  | n + 1, comparedby, x, y =>
      comparedby == "-" ||
      match x with
      | .scalar _ _ => GoValue.beq x y
      | .nilPtr _ => GoValue.beq x y
      | .nilSlice _ => GoValue.beq x y
      | .nilMap _ => GoValue.beq x y
      | .ptr t e =>
          match y with
          | .ptr u f => t == u && sameButExcluded n comparedby e f
          | _ => false
      | .slice t es =>
          match y with
          | .slice u fs =>
              t == u &&
              (if comparedby == "" then beqList es fs
               else agreeList (fun a b =>
                 sameButExcluded n "" a b &&
                   sameField (keyField comparedby a) (keyField comparedby b))
                 es fs)
          | _ => false
      | .array t es =>
          match y with
          | .array u fs =>
              t == u &&
              (if comparedby == "" then beqList es fs
               else agreeList (fun a b =>
                 sameButExcluded n "" a b &&
                   sameField (keyField comparedby a) (keyField comparedby b))
                 es fs)
          | _ => false
      | .struct t fs =>
          match y with
          | .struct u gs => t == u && agreeFields (sameButExcluded n) fs gs
          | _ => false
      | .map t es =>
          match y with
          | .map u fs => t == u && agreeEntries (sameButExcluded n "") es fs
          | _ => false

/-- The two results have the same paths in each of the three maps. -/
def SamePaths (d d' : DiffDetails) : Prop := ∀ s p, p ∈ keysAt s d ↔ p ∈ keysAt s d'

/-- The two outcomes are the same fault, or two results with the same paths. -/
def SimOut (a b : Res DiffDetails) : Prop :=
  match a, b with
  | .ok r, .ok r' => SamePaths r r'
  | .error e, .error e' => e = e'
  | _, _ => False
/-- The lookups of `getFromSlice` in the sequences `s` and `s'` agree: for two records with
the same key field they fail with the same fault, or both find nothing, or find two records
that differ only in excluded fields. -/
def LookupSim (Γ : Decls) (comparedby : String) (s s' : GoValue) : Prop :=
  ∀ v v', fieldByName v comparedby = fieldByName v' comparedby →
    (∀ e, getFromSlice s v comparedby = .error e → getFromSlice s' v' comparedby = .error e) ∧
    (getFromSlice s v comparedby = .ok none → getFromSlice s' v' comparedby = .ok none) ∧
    (∀ f, getFromSlice s v comparedby = .ok (some f) →
      ∃ f' m, getFromSlice s' v' comparedby = .ok (some f') ∧
        sameButExcluded m "" f f' = true ∧ conforms Γ f = true)

/-- The comparison `cmp` on two pairs of conforming values that differ only in excluded
fields gives the same fault or results with the same paths. -/
def CmpSim (Γ : Decls) (cmp : Cmp) : Prop :=
  ∀ (n m : Nat) (key cb : String) (isDirect : Bool) (d d' : DiffDetails)
    (new new' old old' : GoValue),
    conforms Γ new = true → conforms Γ old = true →
    sameButExcluded n cb new new' = true → sameButExcluded m cb old old' = true →
    SamePaths d d' →
    SimOut (cmp key cb isDirect d new old) (cmp key cb isDirect d' new' old')
/-- An `Item{Id, Note, Qty}` value; the field `Note` is annotated `-`. -/
def item (id note : String) (qty : Int) : GoValue :=
  .struct (.basic "Item")
    [(⟨"Id", true, ""⟩, str id), (⟨"Note", true, "-"⟩, str note), (⟨"Qty", true, ""⟩, int qty)]

/-- An `Account{Name, Secret, Items}` value; the field `Secret` is annotated `-` and the
field `Items`, a `[]Item`, is keyed by `Id`. -/
def account (name secret : String) (items : List GoValue) : GoValue :=
  .struct (.basic "Account")
    [(⟨"Name", true, ""⟩, str name), (⟨"Secret", true, "-"⟩, str secret),
     (⟨"Items", true, "Id"⟩, .slice (.slice "" (.basic "Item")) items)]

/-- The declarations of `Account` and `Item`. -/
def accountDecls : Decls := fun name =>
  if name = "Account" then [⟨"Name", true, ""⟩, ⟨"Secret", true, "-"⟩, ⟨"Items", true, "Id"⟩]
  else if name = "Item" then [⟨"Id", true, ""⟩, ⟨"Note", true, "-"⟩, ⟨"Qty", true, ""⟩]
  else []

/-- A `Box{Items}` value whose field `Items`, a `[]Item`, carries no annotation. -/
def box (items : List GoValue) : GoValue :=
  .struct (.basic "Box") [(⟨"Items", true, ""⟩, .slice (.slice "" (.basic "Item")) items)]

/-- The fields of the `Account` value used as an example. -/
def accountFields : List (StructField × GoValue) :=
  [(⟨"Name", true, ""⟩, str "a"), (⟨"Secret", true, "-"⟩, str "s1"),
   (⟨"Items", true, "Id"⟩, .slice (.slice "" (.basic "Item")) [item "x" "n1" 1])]

/-- The result of comparing the two example accounts. -/
def accountResult : DiffDetails :=
  { Change := some [("Name", some (str "b")), ("Items.#(Id==\"x\").Qty", some (int 2))],
    Del := some [("Items.#(Id==\"y\")", some (item "y" "m" 3))] }

/-- The exchange of Add and Del. -/
def Slot.swap : Slot → Slot
  | .add => .del
  | .del => .add
  | .change => .change

/-- Every path of `r` is a path of `r'`, with Add and Del exchanged. -/
def SwapInto (r r' : DiffDetails) : Prop :=
  ∀ s p, p ∈ keysAt s r → p ∈ keysAt s.swap r'

/-- Two field lists have the same metadata, and the values of every exported field are
related by `r` at the annotation of the field. -/
def swapFields (r : String → Bool → GoValue → GoValue → Bool) :
    List (StructField × GoValue) → List (StructField × GoValue) → Bool
  | [], [] => true
  | f :: fs, g :: gs =>
      f.1 == g.1 &&
      (!f.1.Exported || r (parseTag f.1.Tag).1 (parseTag f.1.Tag).2 f.2 g.2) &&
      swapFields r fs gs
  | _, _ => false

/-- The keys of the entries of a map are pairwise distinct under Go's `==` (in either order
of comparison), as they are in every Go map. -/
def distinctMapKeys : List (GoValue × GoValue) → Bool
  | [] => true
  | e :: rest =>
      rest.all (fun f => !goEq e.1 f.1 && !goEq f.1 e.1) && distinctMapKeys rest

/-- The values `a` and `b` are of one shape, their keys are pairwise distinct and equal keys
render alike, checked along the recursion of `compare` under the annotation
`comparedby`/`isDirect` within `n` nested calls.  Scalars face scalars, pointers pointers,
records records with the same field metadata, maps maps and sequences sequences.  A sequence
compared whole is one on which `reflect.DeepEqual` gives the same answer in both orders.  The
keys of each map are pairwise distinct, and a key of `a` and a key of `b` that are equal have
the same text.  The elements of each keyed sequence are accepted records with pairwise
distinct keys (`distinctKeys`), and a key of `a` and a key of `b` that are deeply equal have
the same text.  The same holds below, for the values of the exported fields, of the entries
with equal keys and of the elements with equal keys. -/
def swappable (ff : Fmt) :
    Nat → String → Bool → GoValue → GoValue → Bool
  | 0, _, _, _, _ => false
  | n + 1, comparedby, isDirect, a, b =>
      comparedby == "-" ||
      match a with
      | .scalar _ _ => b.isScalar
      | .nilPtr _ =>
          match b with
          | .nilPtr _ => true
          | .ptr _ _ => true
          | _ => false
      | .ptr _ e =>
          match b with
          | .ptr _ f => swappable ff n comparedby isDirect e f
          | .nilPtr _ => true
          | _ => false
      | .struct _ fs =>
          match b with
          | .struct _ gs => swapFields (swappable ff n) fs gs
          | _ => false
      | .map _ _ | .nilMap _ =>
          match mapRange a, mapRange b with
          | .ok aEs, .ok bEs =>
              distinctMapKeys aEs && distinctMapKeys bEs &&
              aEs.all (fun e => bEs.all (fun f =>
                !goEq f.1 e.1 ||
                  (textOf ff f.1 == textOf ff e.1 && swappable ff n "" isDirect e.2 f.2)))
          | _, _ => false
      | .slice _ _ | .nilSlice _ | .array _ _ =>
          b.isSeq &&
          if comparedby == "" then goDeepEqual a b == goDeepEqual b a
          else
            match checkedItems a, checkedItems b with
            | .ok aEs, .ok bEs =>
                distinctKeys comparedby aEs && distinctKeys comparedby bEs &&
                aEs.all (fun x => bEs.all (fun y =>
                  match keyOf comparedby x, keyOf comparedby y with
                  | some (vx, kx), some (vy, ky) =>
                      !goDeepEqual ky kx ||
                        (keyText ff ky == keyText ff kx && swappable ff n "" false vx vy)
                  | _, _ => true))
            | _, _ => false
/-- A formatter that is right on the two zeros of `float64` (Go prints `0` and `-0`) and
gives the empty text elsewhere. -/
def ffZeros : Fmt :=
  ⟨fun _ bits => if bits = 0 then "0" else if bits = 2 ^ 63 then "-0" else "", fun _ _ => ""⟩

/-- The type `map[float64]int`. -/
def tMapFloatInt : GoType := .map "" (.basic "float64") (.basic "int")

/-- The map `map[float64]int{0: 1}`. -/
def posZeroMap : GoValue := .map tMapFloatInt [(.scalar tFloat64 (.float64 0), int 1)]

/-- The map `map[float64]int{-0: 2}`, its key the negative zero (bit pattern 1 << 63). -/
def negZeroMap : GoValue :=
  .map tMapFloatInt [(.scalar tFloat64 (.float64 (2 ^ 63)), int 2)]

/-- A result with the one entry `Change[path] = v`. -/
def changeOnly (path : String) (v : GoValue) : DiffDetails :=
  { Change := some [(path, some v)] }

/-- The result of `Diff(oldStudent, newStudent)`, the arguments of `TestCompare` exchanged. -/
def swappedStudentResult : DiffDetails :=
  { Change := some
      [("Subjects1.#(Name==\"Math\").Score", some f88),
       ("Subjects2", some (subjects [subjectPtr "Math" f88, subjectPtr "English" f88])),
       ("Contacts1", some (contacts "123456")),
       ("Contacts2.Phone", some (str "123456"))],
    Del := some [("Subjects1.#(Name==\"English\")", some (subject "English" f88))],
    Add := some [("Subjects1.#(Name==\"Geography\")", none)] }

/-- A `Vault{Label, pin}` value; the field `pin` is not exported. -/
def vault (pin : Int) : GoValue :=
  .struct (.basic "Vault") [(⟨"Label", true, ""⟩, str "a"), (⟨"pin", false, ""⟩, int pin)]

/-- The `float64` NaN with bit pattern 0x7FF8000000000000. -/
def nanKey : GoValue := .scalar tFloat64 (.float64 0x7FF8000000000000)

/-- A `Reading{Value}` value holding a NaN. -/
def reading : GoValue := .struct (.basic "Reading") [(⟨"Value", true, ""⟩, nanKey)]

/-- A result with the one entry `Del[path] = v`. -/
def delOnly (path : String) (v : GoValue) : DiffDetails :=
  { Del := some [(path, some v)] }

/-! ## Decidable equality of values -/

mutual
theorem GoValue.beq_iff (a b : GoValue) : GoValue.beq a b = true ↔ a = b := by
  cases a <;> cases b <;> simp [GoValue.beq]
  case ptr.ptr t x u y => intro _; exact GoValue.beq_iff x y
  case slice.slice t xs u ys => intro _; exact beqList_iff xs ys
  case array.array t xs u ys => intro _; exact beqList_iff xs ys
  case struct.struct t xs u ys => intro _; exact beqFields_iff xs ys
  case map.map t xs u ys => intro _; exact beqEntries_iff xs ys
theorem beqList_iff (xs ys : List GoValue) : beqList xs ys = true ↔ xs = ys := by
  cases xs <;> cases ys <;> simp [beqList]
  case cons.cons x xs y ys => rw [GoValue.beq_iff x y, beqList_iff xs ys]
theorem beqFields_iff (fs gs : List (StructField × GoValue)) :
    beqFields fs gs = true ↔ fs = gs := by
  cases fs <;> cases gs <;> simp [beqFields]
  case cons.cons f fs g gs =>
    obtain ⟨f1, f2⟩ := f
    obtain ⟨g1, g2⟩ := g
    simp only [Prod.mk.injEq]
    rw [GoValue.beq_iff f2 g2, beqFields_iff fs gs, and_assoc]
theorem beqEntries_iff (es fs : List (GoValue × GoValue)) :
    beqEntries es fs = true ↔ es = fs := by
  cases es <;> cases fs <;> simp [beqEntries]
  case cons.cons e es f fs =>
    obtain ⟨e1, e2⟩ := e
    obtain ⟨f1, f2⟩ := f
    simp only [Prod.mk.injEq]
    rw [GoValue.beq_iff e1 f1, GoValue.beq_iff e2 f2, beqEntries_iff es fs, and_assoc]
end

instance : DecidableEq GoValue := fun a b =>
  decidable_of_iff (GoValue.beq a b = true) (GoValue.beq_iff a b)

deriving instance DecidableEq for DiffDetails

deriving instance DecidableEq for Except

/-! ## Theorems -/

/-! ### Result maps -/

theorem PathMap.get_append (a b : PathMap) (k : String) :
    PathMap.get (a ++ b) k = (PathMap.get a k).orElse (fun _ => PathMap.get b k) := by
  induction a with
  | nil => simp [PathMap.get]
  | cons e rest ih =>
    obtain ⟨k0, v0⟩ := e
    by_cases h : k0 = k
    · simp [PathMap.get, h]
    · simp [PathMap.get, h, ih]

theorem PathMap.get_filter_self (m : PathMap) (k : String) :
    PathMap.get (m.filter (fun e => e.1 != k)) k = none := by
  induction m with
  | nil => simp [PathMap.get]
  | cons e rest ih =>
    obtain ⟨k0, v0⟩ := e
    by_cases h : k0 = k
    · simp [List.filter_cons, h, ih]
    · simp [List.filter_cons, h, ih, PathMap.get]

theorem PathMap.get_filter_other (m : PathMap) (k k' : String) (hk : k' ≠ k) :
    PathMap.get (m.filter (fun e => e.1 != k)) k' = PathMap.get m k' := by
  induction m with
  | nil => simp [PathMap.get]
  | cons e rest ih =>
    obtain ⟨k0, v0⟩ := e
    by_cases h : k0 = k
    · have h2 : ¬ k = k' := fun e => hk e.symm
      subst h
      simp [List.filter_cons, ih, PathMap.get, h2]
    · by_cases h2 : k0 = k'
      · subst h2
        simp [List.filter_cons, hk, PathMap.get]
      · simp [List.filter_cons, h, ih, PathMap.get, h2]

theorem PathMap.get_set_self (m : PathMap) (k : String) (v : Option GoValue) :
    (m.set k v).get k = some v := by
  simp [PathMap.set, PathMap.get_append, PathMap.get_filter_self, PathMap.get]

theorem PathMap.get_set_other (m : PathMap) (k k' : String) (v : Option GoValue) (hk : k' ≠ k) :
    (m.set k v).get k' = m.get k' := by
  have h2 : ¬ k = k' := fun e => hk e.symm
  simp [PathMap.set, PathMap.get_append, PathMap.get_filter_other _ _ _ hk, PathMap.get, h2]

theorem PathMap.get_set (m : PathMap) (k k' : String) (v : Option GoValue) :
    (m.set k v).get k' = if k' = k then some v else m.get k' := by
  by_cases h : k' = k
  · subst h; simp [PathMap.get_set_self]
  · simp [h, PathMap.get_set_other _ _ _ _ h]
/-! ### Annotation parser -/

theorem splitComma_ne_nil (l : List Char) : splitComma l ≠ [] := by
  induction l with
  | nil => simp [splitComma]
  | cons c cs ih =>
    unfold splitComma
    split
    · simp
    · split <;> simp

theorem splitComma_no_comma (l : List Char) (h : ',' ∉ l) : splitComma l = [l] := by
  induction l with
  | nil => simp [splitComma]
  | cons c cs ih =>
    have hc : c ≠ ',' := fun e => h (by simp [e])
    have hcs : ',' ∉ cs := fun e => h (by simp [e])
    simp [splitComma, hc, ih hcs]

theorem splitComma_append_comma (l r : List Char) (h : ',' ∉ l) :
    splitComma (l ++ ',' :: r) = l :: splitComma r := by
  induction l with
  | nil => simp [splitComma]
  | cons c cs ih =>
    have hc : c ≠ ',' := fun e => h (by simp [e])
    have hcs : ',' ∉ cs := fun e => h (by simp [e])
    simp [splitComma, hc, ih hcs]

theorem parseTag_plain (name : String) (h : ',' ∉ name.data) : parseTag name = (name, false) := by
  simp [parseTag, splitComma_no_comma _ h]

theorem parseTag_direct (name : String) (h : ',' ∉ name.data) :
    parseTag (name ++ ",direct") = (name, true) := by
  have hd : (name ++ ",direct").data = name.data ++ ',' :: "direct".data := by
    simp [String.data_append]
  have hs : splitComma "direct".data = ["direct".data] := by decide
  simp [parseTag, hd, splitComma_append_comma _ _ h, hs]

theorem compare_excluded (ff : Fmt) (fuel : Nat) (key : String) (isDirect : Bool)
    (diff : DiffDetails) (new old : GoValue) :
    compare ff (fuel + 1) key "-" isDirect diff new old = .ok diff := by
  simp [compare]

/-- C10: `parseTag` implements the annotation table: the empty annotation and a name without
a comma come back unchanged with direct mode off, `name,direct` gives the name with direct
mode on, and `-` comes back unchanged as the key, on which `compare` leaves the result
untouched. -/
theorem C10_parseTag_table (name : String) (h : ',' ∉ name.data)
    (ff : Fmt) (fuel : Nat) (key : String) (isDirect : Bool)
    (diff : DiffDetails) (new old : GoValue) :
    parseTag "" = ("", false) ∧
    parseTag name = (name, false) ∧
    parseTag (name ++ ",direct") = (name, true) ∧
    parseTag "-" = ("-", false) ∧
    compare ff (fuel + 1) key (parseTag "-").1 isDirect diff new old = .ok diff := by
  refine ⟨by decide, parseTag_plain name h, parseTag_direct name h, by decide, ?_⟩
  have : (parseTag "-").1 = "-" := by decide
  rw [this]
  exact compare_excluded ff fuel key isDirect diff new old

theorem C10_parseTag_table_witness :
    ',' ∉ "Name".data ∧
    (parseTag "" = ("", false) ∧
     parseTag "Name" = ("Name", false) ∧
     parseTag ("Name" ++ ",direct") = ("Name", true) ∧
     parseTag "-" = ("-", false) ∧
     compare ffNone (0 + 1) "Subjects1" (parseTag "-").1 false {} (str "a") (str "b") = .ok {}) :=
  ⟨by decide, C10_parseTag_table "Name" (by decide) ffNone 0 "Subjects1" false {} (str "a") (str "b")⟩

/-! ### Type check -/

theorem compare_name_mismatch (ff : Fmt) (fuel : Nat) (key comparedby : String)
    (isDirect : Bool) (diff : DiffDetails) (new old : GoValue)
    (hcb : comparedby ≠ "-") (h : new.typeName ≠ old.typeName) :
    compare ff (fuel + 1) key comparedby isDirect diff new old =
      .error (.err (.notSameType new.typeName old.typeName)) := by
  simp [compare, hcb, h]

/-- C9 (as amended): when the two values report different type names, `Diff` returns the
type-mismatch error naming both, and no result. -/
theorem C9_name_mismatch (ff : Fmt) (fuel : Nat) (new old : GoValue)
    (h : new.typeName ≠ old.typeName) :
    Diff ff (fuel + 1) new old = .error (.err (.notSameType new.typeName old.typeName)) := by
  simp [Diff, diffWith, compare, h]

theorem C9_name_mismatch_witness :
    (str "a").typeName ≠ (GoValue.scalar (.basic "int") (.int 1)).typeName ∧
    Diff ffNone (0 + 1) (str "a") (GoValue.scalar (.basic "int") (.int 1)) =
      .error (.err (.notSameType (str "a").typeName
        (GoValue.scalar (.basic "int") (.int 1)).typeName)) :=
  ⟨by decide, C9_name_mismatch ffNone 0 (str "a") (GoValue.scalar (.basic "int") (.int 1))
    (by decide)⟩

/-- C9, counterexample: a `[]int` and a `[]string` are values of different types (their
element types differ), yet `Diff` returns no error: both type names are empty, and the
result is a Change entry at the root path. -/
theorem C9_counterexample :
    (GoValue.slice (.slice "" (.basic "int")) [.scalar (.basic "int") (.int 1)]).typeOf ≠
      (GoValue.slice (.slice "" (.basic "string")) [str "a"]).typeOf ∧
    Diff ffNone 1 (GoValue.slice (.slice "" (.basic "int")) [.scalar (.basic "int") (.int 1)])
      (GoValue.slice (.slice "" (.basic "string")) [str "a"]) =
      .ok { Change := some [("", some (GoValue.slice (.slice "" (.basic "string")) [str "a"]))] } := by
  decide

/-! ### Pointers -/

/-- C8, the code at the failing input: with a nil `*Student` on one side and a non-nil one on
the other, `compare` does not return after recording the change; it goes on to
`Elem().Interface()` of the nil pointer, which panics.  With both nil it returns the result
unchanged. -/
theorem C8_one_nil_panics :
    Diff ffNone 5 (.nilPtr (.ptr "" tStudent)) oldStudent = .error .panic ∧
    Diff ffNone 5 oldStudent (.nilPtr (.ptr "" tStudent)) = .error .panic ∧
    Diff ffNone 5 (.nilPtr (.ptr "" tStudent)) (.nilPtr (.ptr "" tStudent)) = .ok {} := by
  decide

theorem compare_one_nil (ff : Fmt) (fuel : Nat) (key comparedby : String)
    (isDirect : Bool) (diff : DiffDetails) (t u : GoType) (e : GoValue)
    (hcb : comparedby ≠ "-") (hname : t.Name = u.Name) :
    compare ff (fuel + 1) key comparedby isDirect diff (.nilPtr t) (.ptr u e) = .error .panic ∧
    compare ff (fuel + 1) key comparedby isDirect diff (.ptr u e) (.nilPtr t) = .error .panic := by
  simp [compare, hcb, GoValue.typeName, GoValue.typeOf, hname]

/-! ### Sequences without a key annotation -/

theorem deepEqualList_length (xs ys : List GoValue) (h : deepEqualList xs ys = true) :
    xs.length = ys.length := by
  induction xs generalizing ys with
  | nil => cases ys <;> simp_all [deepEqualList]
  | cons x xs ih =>
    cases ys with
    | nil => simp [deepEqualList] at h
    | cons y ys =>
      simp [deepEqualList] at h
      simp [ih ys h.2]

theorem compare_unkeyed_seq (ff : Fmt) (fuel : Nat) (p : String)
    (isDirect : Bool) (diff : DiffDetails) (new old : GoValue)
    (hseq : new.isSeq = true) (hname : new.typeName = old.typeName) :
    compare ff (fuel + 1) p "" isDirect diff new old =
      .ok (if goDeepEqual new old then diff else diff.setChange p (some old)) := by
  cases new <;> simp [GoValue.isSeq] at hseq <;>
    simp [compare, hname] <;> cases goDeepEqual _ old <;> simp

/-- C7: for a sequence without key annotation at path `p` (new and old of one type name),
`compare` succeeds; when the two sequences are deeply equal the result is unchanged, and
when they are not (in particular when their lengths differ) the result is the given one with
the single write `Change[p] = old`: Add and Del are untouched and Change is untouched at
every other path. -/
theorem C7_unkeyed_sequence (ff : Fmt) (fuel : Nat) (p : String)
    (isDirect : Bool) (diff : DiffDetails) (new old : GoValue)
    (hseq : new.isSeq = true) (hname : new.typeName = old.typeName) :
    ∃ r, compare ff (fuel + 1) p "" isDirect diff new old = .ok r ∧
      r.Add = diff.Add ∧ r.Del = diff.Del ∧
      (goDeepEqual new old = true → r = diff) ∧
      (goDeepEqual new old = false →
        (entries r.Change).get p = some (some old) ∧
        ∀ q, q ≠ p → (entries r.Change).get q = (entries diff.Change).get q) ∧
      (∀ xs ys, seqItems new = .ok xs → seqItems old = .ok ys → xs.length ≠ ys.length →
        goDeepEqual new old = false) := by
  refine ⟨_, compare_unkeyed_seq ff fuel p isDirect diff new old hseq hname, ?_, ?_, ?_, ?_, ?_⟩
  · cases goDeepEqual new old <;> simp [DiffDetails.setChange]
  · cases goDeepEqual new old <;> simp [DiffDetails.setChange]
  · intro h; simp [h]
  · intro h
    simp [h, DiffDetails.setChange, entries, PathMap.get_set_self]
    intro q hq
    exact PathMap.get_set_other _ _ _ _ hq
  · intro xs ys hx hy hlen
    cases new <;> simp [GoValue.isSeq] at hseq <;> cases old <;>
      simp_all [seqItems, goDeepEqual]
    all_goals
      intro _
      cases hd : deepEqualList xs ys
      · rfl
      · exact absurd (deepEqualList_length _ _ hd) hlen

theorem C7_unkeyed_sequence_witness :
    ((subjects [subjectPtr "Math" f88]).isSeq = true ∧
      (subjects [subjectPtr "Math" f88]).typeName =
        (subjects [subjectPtr "Math" f80, subjectPtr "Geography" f80]).typeName) ∧
    ∃ r, compare ffNone (0 + 1) "Subjects2" "" false {} (subjects [subjectPtr "Math" f88])
        (subjects [subjectPtr "Math" f80, subjectPtr "Geography" f80]) = .ok r ∧
      r.Add = ({} : DiffDetails).Add ∧ r.Del = ({} : DiffDetails).Del ∧
      (goDeepEqual (subjects [subjectPtr "Math" f88])
        (subjects [subjectPtr "Math" f80, subjectPtr "Geography" f80]) = true → r = {}) ∧
      (goDeepEqual (subjects [subjectPtr "Math" f88])
        (subjects [subjectPtr "Math" f80, subjectPtr "Geography" f80]) = false →
        (entries r.Change).get "Subjects2" =
          some (some (subjects [subjectPtr "Math" f80, subjectPtr "Geography" f80])) ∧
        ∀ q, q ≠ "Subjects2" →
          (entries r.Change).get q = (entries ({} : DiffDetails).Change).get q) ∧
      (∀ xs ys, seqItems (subjects [subjectPtr "Math" f88]) = .ok xs →
        seqItems (subjects [subjectPtr "Math" f80, subjectPtr "Geography" f80]) = .ok ys →
        xs.length ≠ ys.length →
        goDeepEqual (subjects [subjectPtr "Math" f88])
          (subjects [subjectPtr "Math" f80, subjectPtr "Geography" f80]) = false) :=
  ⟨⟨by decide, by decide⟩,
   C7_unkeyed_sequence ffNone 0 "Subjects2" false {} (subjects [subjectPtr "Math" f88])
     (subjects [subjectPtr "Math" f80, subjectPtr "Geography" f80]) (by decide) (by decide)⟩

/-! ### Outcomes -/

@[simp] theorem ok_bind {α β : Type} (a : α) (f : α → Res β) :
    (Except.ok a >>= f) = f a := rfl

@[simp] theorem error_bind {α β : Type} (e : Fault) (f : α → Res β) :
    ((Except.error e : Res α) >>= f) = Except.error e := rfl

@[simp] theorem pure_eq_ok {α : Type} (a : α) : (pure a : Res α) = Except.ok a := rfl

@[simp] theorem throw_eq_error {α : Type} (e : Fault) : (throw e : Res α) = Except.error e := rfl

/-! ### Direct mode -/

theorem deepEqual_eq (cmp : Cmp) (new old : GoValue) (r : DiffDetails)
    (h : diffWith cmp new old = .ok r) : deepEqual cmp new old = .ok r.isEmpty := by
  simp only [deepEqual, h, DiffDetails.isEmpty, ok_bind]
  split <;> simp_all

theorem isZeroFields_of_find (fs : List (StructField × GoValue)) (p : StructField × GoValue → Bool)
    (f : StructField × GoValue) (h : fs.find? p = some f) (hz : goIsZero f.2 = false) :
    isZeroFields fs = false := by
  induction fs with
  | nil => simp at h
  | cons g rest ih =>
    simp only [List.find?_cons] at h
    cases hp : p g
    · simp only [hp] at h
      simp [isZeroFields, ih h]
    · simp only [hp, Option.some.injEq] at h
      subst h
      simp [isZeroFields, hz]

theorem getElement_struct : ∀ (x v : GoValue), getElement x = .ok v → ∃ t fs, v = .struct t fs
  | .ptr _ e, v, h => getElement_struct e v (by simpa [getElement] using h)
  | .struct t fs, v, h => ⟨t, fs, by simpa [getElement] using h.symm⟩
  | .scalar _ _, _, h => by simp [getElement] at h
  | .nilPtr _, _, h => by simp [getElement] at h
  | .slice _ _, _, h => by simp [getElement] at h
  | .nilSlice _, _, h => by simp [getElement] at h
  | .array _ _, _, h => by simp [getElement] at h
  | .map _ _, _, h => by simp [getElement] at h
  | .nilMap _, _, h => by simp [getElement] at h

/-- What a successful `sameKey` tells: both key fields exist, are exported and non-zero, and
the answer is their deep equality. -/
theorem sameKey_ok (src value : GoValue) (comparedby : String) (b : Bool)
    (h : sameKey src value comparedby = .ok b) :
    ∃ f g, fieldByName src comparedby = .ok (some f) ∧ fieldByName value comparedby = .ok (some g) ∧
      goIsZero f.2 = false ∧ goIsZero g.2 = false ∧ f.1.Exported = true ∧ g.1.Exported = true ∧
      b = goDeepEqual f.2 g.2 := by
  unfold sameKey at h
  cases hs : fieldByName src comparedby with
  | error e => simp [hs] at h
  | ok sf =>
    cases sf with
    | none => simp [hs, fieldIsZero] at h
    | some f =>
      cases hz : goIsZero f.2
      · cases hv : fieldByName value comparedby with
        | error e => simp [hs, hv, fieldIsZero, hz] at h
        | ok df =>
          cases df with
          | none => simp [hs, hv, fieldIsZero, hz] at h
          | some g =>
            cases hgz : goIsZero g.2
            · cases hfe : f.1.Exported
              · simp [hs, hv, fieldIsZero, hz, hgz, fieldInterface, hfe] at h
              · cases hge : g.1.Exported
                · simp [hs, hv, fieldIsZero, hz, hgz, fieldInterface, hfe, hge] at h
                · simp [hs, hv, fieldIsZero, hz, hgz, fieldInterface, hfe, hge] at h
                  exact ⟨f, g, rfl, rfl, hz, hgz, hfe, hge, h.symm⟩
            · simp [hs, hv, fieldIsZero, hz, hgz] at h
      · simp [hs, fieldIsZero, hz] at h

theorem getFromSliceLoop_nonzero (value : GoValue) (comparedby : String) (items : List GoValue)
    (f : GoValue) (h : getFromSliceLoop value comparedby items = .ok (some f)) :
    goIsZero f = false := by
  induction items with
  | nil => simp [getFromSliceLoop] at h
  | cons x rest ih =>
    unfold getFromSliceLoop at h
    cases hx : getElement x with
    | error e => simp [hx] at h
    | ok src =>
      cases hk : sameKey src value comparedby with
      | error e => simp [hx, hk] at h
      | ok b =>
        cases b
        · simp [hx, hk] at h
          exact ih h
        · simp [hx, hk] at h
          subst h
          obtain ⟨t, fs, rfl⟩ := getElement_struct x src hx
          obtain ⟨fld, g, hf, -, hz, -⟩ := sameKey_ok _ _ _ _ hk
          simp only [fieldByName, Except.ok.injEq] at hf
          simp [goIsZero, isZeroFields_of_find fs _ fld hf hz]

theorem getFromSlice_nonzero (slice value : GoValue) (comparedby : String) (f : GoValue)
    (h : getFromSlice slice value comparedby = .ok (some f)) : goIsZero f = false := by
  unfold getFromSlice at h
  cases hs : seqItems slice with
  | error e => simp [hs] at h
  | ok items =>
    simp only [hs, ok_bind] at h
    exact getFromSliceLoop_nonzero value comparedby items f h

theorem compare_struct_direct (ff : Fmt) (fuel : Nat) (p comparedby : String)
    (diff : DiffDetails) (t : GoType) (fs : List (StructField × GoValue)) (old : GoValue)
    (r : DiffDetails) (hcb : comparedby ≠ "-")
    (hname : (GoValue.struct t fs).typeName = old.typeName)
    (hsub : Diff ff fuel (.struct t fs) old = .ok r) :
    compare ff (fuel + 1) p comparedby true diff (.struct t fs) old =
      .ok (if r.isEmpty then diff else diff.setChange p (some old)) := by
  have hd := deepEqual_eq (compare ff fuel) (.struct t fs) old r hsub
  simp only [compare, hcb, hname, hd]
  cases r.isEmpty <;> simp

theorem stepNew_direct (ff : Fmt) (cmp : Cmp) (oldSeq : GoValue)
    (comparedby key : String) (diff : DiffDetails) (x v f : GoValue)
    (fld : Option (StructField × GoValue)) (cv : String) (r : DiffDetails)
    (hx : getElement x = .ok v) (hfound : getFromSlice oldSeq v comparedby = .ok (some f))
    (hfld : fieldByName v comparedby = .ok fld) (hexp : structFieldIsExported fld = true)
    (hcv : getComparedValueOf ff fld = .ok cv) (hsub : diffWith cmp v f = .ok r) :
    stepNew ff cmp oldSeq comparedby true key diff x =
      .ok (if r.isEmpty then diff else diff.setChange (selector key comparedby cv) (some f)) := by
  have hd := deepEqual_eq cmp v f r hsub
  have hz := getFromSlice_nonzero _ _ _ _ hfound
  simp only [stepNew, hx, hfound, hfld, hexp, hcv, hz, hd, ok_bind]
  cases r.isEmpty <;> simp

/-! ### Series of writes -/

theorem PathMap.get_setAll (m : PathMap) (ws : List (String × Option GoValue)) (k : String) :
    (m.setAll ws).get k = (PathMap.get ws.reverse k).orElse (fun _ => m.get k) := by
  induction ws generalizing m with
  | nil => simp [PathMap.setAll, PathMap.get]
  | cons w ws ih =>
    have h : PathMap.setAll m (w :: ws) = PathMap.setAll (m.set w.1 w.2) ws := rfl
    rw [h, ih, List.reverse_cons, PathMap.get_append, PathMap.get_set]
    cases PathMap.get ws.reverse k with
    | some v => simp
    | none =>
      by_cases hk : k = w.1
      · simp [PathMap.get, hk]
      · have : ¬ w.1 = k := fun e => hk e.symm
        simp [PathMap.get, hk, this]

theorem PathMap.get_eq_some_of_mem (ws : PathMap) (k : String) (v : Option GoValue)
    (hnd : (ws.map Prod.fst).Nodup) (hmem : (k, v) ∈ ws) : PathMap.get ws k = some v := by
  induction ws with
  | nil => simp at hmem
  | cons w rest ih =>
    obtain ⟨k0, v0⟩ := w
    simp only [List.map_cons, List.nodup_cons] at hnd
    simp only [List.mem_cons, Prod.mk.injEq] at hmem
    rcases hmem with ⟨rfl, rfl⟩ | hmem
    · simp [PathMap.get]
    · have hne : ¬ k0 = k := by
        intro e
        subst e
        exact hnd.1 (List.mem_map.mpr ⟨(k0, v), hmem, rfl⟩)
      simp [PathMap.get, hne, ih hnd.2 hmem]

theorem PathMap.mem_of_get_eq_some (ws : PathMap) (k : String) (v : Option GoValue)
    (h : PathMap.get ws k = some v) : (k, v) ∈ ws := by
  induction ws with
  | nil => simp [PathMap.get] at h
  | cons w rest ih =>
    obtain ⟨k0, v0⟩ := w
    by_cases hk : k0 = k
    · simp [PathMap.get, hk] at h
      simp [hk, h]
    · simp [PathMap.get, hk] at h
      simp [ih h]

theorem PathMap.get_iff_mem (ws : PathMap) (k : String) (v : Option GoValue)
    (hnd : (ws.map Prod.fst).Nodup) : PathMap.get ws k = some v ↔ (k, v) ∈ ws :=
  ⟨PathMap.mem_of_get_eq_some ws k v, PathMap.get_eq_some_of_mem ws k v hnd⟩

/-- With pairwise distinct written keys, the entries of `[].setAll ws` are the writes. -/
theorem PathMap.get_setAll_nil (ws : List (String × Option GoValue)) (k : String)
    (v : Option GoValue) (hnd : (ws.map Prod.fst).Nodup) :
    (PathMap.setAll [] ws).get k = some v ↔ (k, v) ∈ ws := by
  rw [PathMap.get_setAll]
  have hnd' : (ws.reverse.map Prod.fst).Nodup := by
    rw [List.map_reverse]; exact List.nodup_reverse.mpr hnd
  have : PathMap.get ([] : PathMap) k = none := rfl
  rw [this]
  cases hg : PathMap.get ws.reverse k with
  | none =>
    simp only [Option.orElse]
    constructor
    · intro h; cases h
    · intro hm
      have := PathMap.get_eq_some_of_mem ws.reverse k v hnd' (List.mem_reverse.mpr hm)
      rw [hg] at this; cases this
  | some w =>
    simp only [Option.orElse]
    rw [← hg, PathMap.get_iff_mem _ _ _ hnd', List.mem_reverse]

/-! ### Writes into the three maps -/

theorem entries_setChange (d : DiffDetails) (k : String) (v : Option GoValue) :
    entries (d.setChange k v).Change = (entries d.Change).set k v := rfl

theorem entries_setAdd (d : DiffDetails) (k : String) (v : Option GoValue) :
    entries (d.setAdd k v).Add = (entries d.Add).set k v := rfl

theorem entries_setDel (d : DiffDetails) (k : String) (v : Option GoValue) :
    entries (d.setDel k v).Del = (entries d.Del).set k v := rfl

/-! ### Paths -/

theorem generate_injective (p a b : String) (h : generate p a = generate p b) : a = b := by
  unfold generate at h
  split at h
  · exact h
  · have h2 := congrArg String.data h
    simp only [String.data_append, List.append_assoc] at h2
    exact String.ext (List.append_cancel_left (List.append_cancel_left h2))

theorem nodup_filterMap_keys {α β : Type} (l : List α) (f : α → Option (String × β))
    (g : α → String) (hg : ∀ e w, f e = some w → w.1 = g e) (hnd : (l.map g).Nodup) :
    ((l.filterMap f).map Prod.fst).Nodup := by
  induction l with
  | nil => simp
  | cons e l ih =>
    simp only [List.map_cons, List.nodup_cons] at hnd
    cases hf : f e with
    | none => simpa [List.filterMap_cons, hf] using ih hnd.2
    | some w =>
      simp only [List.filterMap_cons, hf, List.map_cons, List.nodup_cons]
      refine ⟨?_, ih hnd.2⟩
      intro hmem
      obtain ⟨w', hw', hkey⟩ := List.mem_map.mp hmem
      obtain ⟨e', he', hfe'⟩ := List.mem_filterMap.mp hw'
      apply hnd.1
      rw [← hg e w hf, ← hkey, hg e' w' hfe']
      exact List.mem_map.mpr ⟨e', he', rfl⟩

/-! ### Maps -/

theorem mapIndex_of_mapRange (m k : GoValue) (es : List (GoValue × GoValue))
    (hm : mapRange m = .ok es) (hk : m.typeOf.keyType = some k.typeOf) :
    mapIndex m k = .ok (lookupKey k es) := by
  cases m <;> simp [mapRange] at hm <;> simp_all [mapIndex, GoValue.typeOf, lookupKey]

theorem compare_scalar (ff : Fmt) (fuel : Nat) (p : String) (isDirect : Bool)
    (diff : DiffDetails) (new old : GoValue) (hs : new.isScalar = true)
    (hname : new.typeName = old.typeName) :
    compare ff (fuel + 1) p "" isDirect diff new old =
      .ok (if goDeepEqual new old then diff else diff.setChange p (some old)) := by
  cases new <;> simp [GoValue.isScalar] at hs
  simp [compare, hname]
  cases goDeepEqual _ old <;> simp

theorem toString_scalar (ff : Fmt) (fuel : Nat) (k : GoValue)
    (hk : k.isScalar = true) : toString ff (fuel + 1) k = .ok (textOf ff k) := by
  cases k <;> simp [GoValue.isScalar] at hk
  simp [toString, textOf]

/-- The first loop of the map case, on maps with scalar keys and scalar values. -/
theorem mapNewLoop (ff : Fmt) (fuel : Nat) (p : String) (isDirect : Bool)
    (old : GoValue) (oldEs : List (GoValue × GoValue)) (hold : mapRange old = .ok oldEs)
    (l : List (GoValue × GoValue)) (diff : DiffDetails)
    (hkey : ∀ e ∈ l, e.1.isScalar = true ∧ old.typeOf.keyType = some e.1.typeOf)
    (hval : ∀ e ∈ l, e.2.isScalar = true ∧
      ∀ ov ∈ lookupKey e.1 oldEs, e.2.typeName = ov.typeName) :
    ∃ r, l.foldlM (stepMapNew ff (fuel + 1) (compare ff (fuel + 1)) old p "" isDirect) diff = .ok r ∧
      entries r.Add = (entries diff.Add).setAll (mapAdds ff p l oldEs) ∧
      entries r.Change = (entries diff.Change).setAll (mapChanges ff p l oldEs) ∧
      r.Del = diff.Del := by
  induction l generalizing diff with
  | nil => exact ⟨diff, rfl, rfl, rfl, rfl⟩
  | cons e l ih =>
    have hk := hkey e (by simp)
    have hv := hval e (by simp)
    have ih' := fun d => ih d (fun x hx => hkey x (by simp [hx])) (fun x hx => hval x (by simp [hx]))
    simp only [List.foldlM_cons, stepMapNew, toString_scalar ff fuel e.1 hk.1,
      mapIndex_of_mapRange old e.1 oldEs hold hk.2, ok_bind]
    cases hl : lookupKey e.1 oldEs with
    | none =>
      obtain ⟨r, hr, hA, hC, hD⟩ := ih' (diff.setAdd (generate p (textOf ff e.1)) none)
      refine ⟨r, by simpa using hr, ?_, ?_, ?_⟩
      · rw [hA]; simp [mapAdds, List.filterMap_cons, hl, PathMap.setAll, entries_setAdd]
      · rw [hC]; simp [mapChanges, List.filterMap_cons, hl, DiffDetails.setAdd]
      · rw [hD]; rfl
    | some ov =>
      simp only [compare_scalar ff fuel _ isDirect diff e.2 ov hv.1 (hv.2 ov hl), ok_bind]
      cases hde : goDeepEqual e.2 ov
      · obtain ⟨r, hr, hA, hC, hD⟩ := ih' (diff.setChange (generate p (textOf ff e.1)) (some ov))
        refine ⟨r, by simpa using hr, ?_, ?_, ?_⟩
        · rw [hA]; simp [mapAdds, List.filterMap_cons, hl, DiffDetails.setChange]
        · rw [hC]
          simp [mapChanges, List.filterMap_cons, hl, hde, PathMap.setAll, entries_setChange]
        · rw [hD]; rfl
      · obtain ⟨r, hr, hA, hC, hD⟩ := ih' diff
        refine ⟨r, by simpa using hr, ?_, ?_, ?_⟩
        · rw [hA]; simp [mapAdds, List.filterMap_cons, hl]
        · rw [hC]; simp [mapChanges, List.filterMap_cons, hl, hde]
        · rw [hD]

/-- The second loop of the map case, on maps with scalar keys. -/
theorem mapOldLoop (ff : Fmt) (fuel : Nat) (p : String)
    (new : GoValue) (newEs : List (GoValue × GoValue)) (hnew : mapRange new = .ok newEs)
    (l : List (GoValue × GoValue)) (diff : DiffDetails)
    (hkey : ∀ e ∈ l, e.1.isScalar = true ∧ new.typeOf.keyType = some e.1.typeOf) :
    ∃ r, l.foldlM (stepMapOld ff (fuel + 1) new p) diff = .ok r ∧
      entries r.Del = (entries diff.Del).setAll (mapDels ff p newEs l) ∧
      r.Add = diff.Add ∧ r.Change = diff.Change := by
  induction l generalizing diff with
  | nil => exact ⟨diff, rfl, rfl, rfl, rfl⟩
  | cons e l ih =>
    have hk := hkey e (by simp)
    have ih' := fun d => ih d (fun x hx => hkey x (by simp [hx]))
    simp only [List.foldlM_cons, stepMapOld, toString_scalar ff fuel e.1 hk.1,
      mapIndex_of_mapRange new e.1 newEs hnew hk.2, ok_bind]
    cases hl : lookupKey e.1 newEs with
    | none =>
      obtain ⟨r, hr, hD, hA, hC⟩ := ih' (diff.setDel (generate p (textOf ff e.1)) (some e.2))
      refine ⟨r, by simpa using hr, ?_, ?_, ?_⟩
      · rw [hD]; simp [mapDels, List.filterMap_cons, hl, PathMap.setAll, entries_setDel]
      · rw [hA]; rfl
      · rw [hC]; rfl
    | some nv =>
      obtain ⟨r, hr, hD, hA, hC⟩ := ih' diff
      refine ⟨r, by simpa using hr, ?_, ?_, ?_⟩
      · rw [hD]; simp [mapDels, List.filterMap_cons, hl]
      · rw [hA]
      · rw [hC]

theorem nodup_generate (ff : Fmt) (p : String) (es : List (GoValue × GoValue))
    (h : (es.map (fun e => textOf ff e.1)).Nodup) :
    (es.map (fun e => generate p (textOf ff e.1))).Nodup := by
  have hinj : Function.Injective (generate p) := fun a b hab => generate_injective p a b hab
  have := List.Nodup.map hinj h
  simpa [List.map_map, Function.comp] using this

theorem mem_mapAdds (ff : Fmt) (p : String) (newEs oldEs : List (GoValue × GoValue))
    (path : String) (v : Option GoValue) :
    (path, v) ∈ mapAdds ff p newEs oldEs ↔
      ∃ e ∈ newEs, lookupKey e.1 oldEs = none ∧ path = generate p (textOf ff e.1) ∧ v = none := by
  simp only [mapAdds, List.mem_filterMap]
  constructor
  · rintro ⟨e, he, h⟩
    cases hl : lookupKey e.1 oldEs with
    | none => simp [hl] at h; exact ⟨e, he, hl, h.1.symm, h.2.symm⟩
    | some ov => simp [hl] at h
  · rintro ⟨e, he, hl, rfl, rfl⟩
    exact ⟨e, he, by simp [hl]⟩

theorem mem_mapDels (ff : Fmt) (p : String) (newEs oldEs : List (GoValue × GoValue))
    (path : String) (v : Option GoValue) :
    (path, v) ∈ mapDels ff p newEs oldEs ↔
      ∃ e ∈ oldEs, lookupKey e.1 newEs = none ∧ path = generate p (textOf ff e.1) ∧
        v = some e.2 := by
  simp only [mapDels, List.mem_filterMap]
  constructor
  · rintro ⟨e, he, h⟩
    cases hl : lookupKey e.1 newEs with
    | none => simp [hl] at h; exact ⟨e, he, hl, h.1.symm, h.2.symm⟩
    | some ov => simp [hl] at h
  · rintro ⟨e, he, hl, rfl, rfl⟩
    exact ⟨e, he, by simp [hl]⟩

theorem mem_mapChanges (ff : Fmt) (p : String)
    (newEs oldEs : List (GoValue × GoValue)) (path : String) (v : Option GoValue) :
    (path, v) ∈ mapChanges ff p newEs oldEs ↔
      ∃ e ∈ newEs, ∃ ov, lookupKey e.1 oldEs = some ov ∧ goDeepEqual e.2 ov = false ∧
        path = generate p (textOf ff e.1) ∧ v = some ov := by
  simp only [mapChanges, List.mem_filterMap]
  constructor
  · rintro ⟨e, he, h⟩
    cases hl : lookupKey e.1 oldEs with
    | none => simp [hl] at h
    | some ov =>
      cases hde : goDeepEqual e.2 ov
      · simp [hl, hde] at h; exact ⟨e, he, ov, hl, hde, h.1.symm, h.2.symm⟩
      · simp [hl, hde] at h
  · rintro ⟨e, he, ov, hl, hde, rfl, rfl⟩
    exact ⟨e, he, by simp [hl, hde]⟩

theorem compare_map (ff : Fmt) (fuel : Nat) (p : String) (isDirect : Bool)
    (diff : DiffDetails) (new old : GoValue) (newEs oldEs : List (GoValue × GoValue))
    (hnew : mapRange new = .ok newEs) (hold : mapRange old = .ok oldEs)
    (hname : new.typeName = old.typeName) :
    compare ff (fuel + 1) p "" isDirect diff new old =
      (newEs.foldlM (stepMapNew ff fuel (compare ff fuel) old p "" isDirect) diff >>=
        fun d => oldEs.foldlM (stepMapOld ff fuel new p) d) := by
  cases new <;> simp only [mapRange, Except.ok.injEq, reduceCtorEq] at hnew <;> subst hnew <;>
    rw [compare] <;> simp [hname, hold] <;> rfl

/-- C3 (as amended): two maps with scalar keys and scalar values, in each of which no two
keys have the same text, compared at path `p` with an empty annotation from an empty result.  `compare` succeeds and the result holds exactly: in Add,
`generate p k` with the nil value for every key of `new` absent from `old`; in Del,
`generate p k` with the old value for every key of `old` absent from `new`; in Change,
`generate p k` with the old value for every key of both whose values are not deeply equal.
A key of both with deeply equal values contributes nothing.  A key is absent from a map when
the lookup of the key in the map finds nothing (a NaN key is never found). -/
theorem C3_map_entries (ff : Fmt) (fuel : Nat) (p : String) (isDirect : Bool)
    (new old : GoValue) (newEs oldEs : List (GoValue × GoValue))
    (hnew : mapRange new = .ok newEs) (hold : mapRange old = .ok oldEs)
    (hname : new.typeName = old.typeName)
    (hkn : ∀ e ∈ newEs, e.1.isScalar = true ∧ old.typeOf.keyType = some e.1.typeOf)
    (hko : ∀ e ∈ oldEs, e.1.isScalar = true ∧ new.typeOf.keyType = some e.1.typeOf)
    (hval : ∀ e ∈ newEs, e.2.isScalar = true ∧
      ∀ ov ∈ lookupKey e.1 oldEs, e.2.typeName = ov.typeName)
    (hndn : (newEs.map (fun e => textOf ff e.1)).Nodup)
    (hndo : (oldEs.map (fun e => textOf ff e.1)).Nodup) :
    ∃ r, compare ff (fuel + 2) p "" isDirect {} new old = .ok r ∧
      (∀ path v, (entries r.Add).get path = some v ↔
        ∃ e ∈ newEs, lookupKey e.1 oldEs = none ∧ path = generate p (textOf ff e.1) ∧
          v = none) ∧
      (∀ path v, (entries r.Del).get path = some v ↔
        ∃ e ∈ oldEs, lookupKey e.1 newEs = none ∧ path = generate p (textOf ff e.1) ∧
          v = some e.2) ∧
      (∀ path v, (entries r.Change).get path = some v ↔
        ∃ e ∈ newEs, ∃ ov, lookupKey e.1 oldEs = some ov ∧ goDeepEqual e.2 ov = false ∧
          path = generate p (textOf ff e.1) ∧ v = some ov) := by
  obtain ⟨r1, hr1, hA1, hC1, hD1⟩ :=
    mapNewLoop ff fuel p isDirect old oldEs hold newEs {} hkn hval
  obtain ⟨r, hr, hD, hA, hC⟩ := mapOldLoop ff fuel p new newEs hnew oldEs r1 hko
  have hrun : compare ff (fuel + 2) p "" isDirect {} new old = .ok r := by
    rw [compare_map ff (fuel + 1) p isDirect {} new old newEs oldEs hnew hold hname, hr1]
    exact hr
  refine ⟨r, hrun, ?_, ?_, ?_⟩
  · intro path v
    rw [hA, hA1, ← mem_mapAdds]
    exact PathMap.get_setAll_nil _ _ _
      (nodup_filterMap_keys newEs _ (fun e => generate p (textOf ff e.1))
        (by
          intro e w hw
          cases hl : lookupKey e.1 oldEs <;> simp [hl] at hw
          rw [← hw])
        (nodup_generate ff p newEs hndn))
  · intro path v
    rw [hD, hD1, ← mem_mapDels]
    exact PathMap.get_setAll_nil _ _ _
      (nodup_filterMap_keys oldEs _ (fun e => generate p (textOf ff e.1))
        (by
          intro e w hw
          cases hl : lookupKey e.1 newEs <;> simp [hl] at hw
          rw [← hw])
        (nodup_generate ff p oldEs hndo))
  · intro path v
    rw [hC, hC1, ← mem_mapChanges]
    exact PathMap.get_setAll_nil _ _ _
      (nodup_filterMap_keys newEs _ (fun e => generate p (textOf ff e.1))
        (by
          intro e w hw
          cases hl : lookupKey e.1 oldEs <;> simp [hl] at hw
          rw [← hw.2])
        (nodup_generate ff p newEs hndn))

theorem C3_map_entries_witness :
    (mapRange (.map tMapStringInt [(str "a", int 1), (str "b", int 2), (str "d", int 5)]) =
        .ok [(str "a", int 1), (str "b", int 2), (str "d", int 5)] ∧
     mapRange (.map tMapStringInt [(str "a", int 1), (str "b", int 3), (str "c", int 4)]) =
        .ok [(str "a", int 1), (str "b", int 3), (str "c", int 4)] ∧
     (GoValue.map tMapStringInt [(str "a", int 1), (str "b", int 2), (str "d", int 5)]).typeName =
       (GoValue.map tMapStringInt [(str "a", int 1), (str "b", int 3), (str "c", int 4)]).typeName ∧
     (∀ e ∈ [(str "a", int 1), (str "b", int 2), (str "d", int 5)], e.1.isScalar = true ∧
       (GoValue.map tMapStringInt
         [(str "a", int 1), (str "b", int 3), (str "c", int 4)]).typeOf.keyType =
         some e.1.typeOf) ∧
     (∀ e ∈ [(str "a", int 1), (str "b", int 3), (str "c", int 4)], e.1.isScalar = true ∧
       (GoValue.map tMapStringInt
         [(str "a", int 1), (str "b", int 2), (str "d", int 5)]).typeOf.keyType =
         some e.1.typeOf) ∧
     (∀ e ∈ [(str "a", int 1), (str "b", int 2), (str "d", int 5)], e.2.isScalar = true ∧
       ∀ ov ∈ lookupKey e.1 [(str "a", int 1), (str "b", int 3), (str "c", int 4)],
         e.2.typeName = ov.typeName) ∧
     ([(str "a", int 1), (str "b", int 2), (str "d", int 5)].map
       (fun e => textOf ffNone e.1)).Nodup ∧
     ([(str "a", int 1), (str "b", int 3), (str "c", int 4)].map
       (fun e => textOf ffNone e.1)).Nodup) ∧
    ∃ r, compare ffNone (0 + 2) "M" "" false {}
        (.map tMapStringInt [(str "a", int 1), (str "b", int 2), (str "d", int 5)])
        (.map tMapStringInt [(str "a", int 1), (str "b", int 3), (str "c", int 4)]) = .ok r ∧
      (∀ path v, (entries r.Add).get path = some v ↔
        ∃ e ∈ [(str "a", int 1), (str "b", int 2), (str "d", int 5)],
          lookupKey e.1 [(str "a", int 1), (str "b", int 3), (str "c", int 4)] = none ∧
          path = generate "M" (textOf ffNone e.1) ∧ v = none) ∧
      (∀ path v, (entries r.Del).get path = some v ↔
        ∃ e ∈ [(str "a", int 1), (str "b", int 3), (str "c", int 4)],
          lookupKey e.1 [(str "a", int 1), (str "b", int 2), (str "d", int 5)] = none ∧
          path = generate "M" (textOf ffNone e.1) ∧ v = some e.2) ∧
      (∀ path v, (entries r.Change).get path = some v ↔
        ∃ e ∈ [(str "a", int 1), (str "b", int 2), (str "d", int 5)], ∃ ov,
          lookupKey e.1 [(str "a", int 1), (str "b", int 3), (str "c", int 4)] = some ov ∧
          goDeepEqual e.2 ov = false ∧ path = generate "M" (textOf ffNone e.1) ∧ v = some ov) :=
  ⟨⟨by decide, by decide, by decide, by decide, by decide, by decide, by decide, by decide⟩,
   C3_map_entries ffNone 0 "M" false
     (.map tMapStringInt [(str "a", int 1), (str "b", int 2), (str "d", int 5)])
     (.map tMapStringInt [(str "a", int 1), (str "b", int 3), (str "c", int 4)])
     [(str "a", int 1), (str "b", int 2), (str "d", int 5)]
     [(str "a", int 1), (str "b", int 3), (str "c", int 4)]
     (by decide) (by decide) (by decide) (by decide) (by decide) (by decide) (by decide)
     (by decide)⟩

/-- C3, counterexample: the old map holds two entries under NaN keys (a NaN equals no key,
itself included, so every `m[NaN] = v` adds an entry) and the new map is empty.  Both keys
are absent from `new`, so the claim lists `Del[M.k]` with the value 1 and with the value 2;
the two entries have one path and the run keeps a single value.  And when each of the two
maps holds one entry under a NaN key, with the same value, the run records an Add and a Del
at the path of the key, where the claim lists no entry for a key of both maps with equal
values.  The results are the same whatever the text of the NaN. -/
theorem C3_counterexample :
    isNaN64 0x7FF8000000000000 = true ∧
    lookupKey nanKey [] = none ∧
    lookupKey nanKey [(nanKey, int 1)] = none ∧
    ∀ ff : Fmt,
      compare ff 2 "M" "" false {} (.map tMapFloatInt [])
          (.map tMapFloatInt [(nanKey, int 1), (nanKey, int 2)]) =
        .ok (delOnly (generate "M" (textOf ff nanKey)) (int 2)) ∧
      (entries (delOnly (generate "M" (textOf ff nanKey)) (int 2)).Del).get
          (generate "M" (textOf ff nanKey)) = some (some (int 2)) ∧
      compare ff 2 "M" "" false {} (.map tMapFloatInt [(nanKey, int 1)])
          (.map tMapFloatInt [(nanKey, int 1)]) =
        .ok { Del := some [(generate "M" (textOf ff nanKey), some (int 1))],
              Add := some [(generate "M" (textOf ff nanKey), none)] } := by
  have hk : goEq nanKey nanKey = false := by decide
  simp only [nanKey, tFloat64] at hk
  refine ⟨by decide, by decide, by decide, fun ff => ⟨?_, ?_, ?_⟩⟩
  · simp [compare, GoValue.typeName, GoValue.typeOf, mapRange, stepMapNew, stepMapOld,
      toString, mapIndex, tMapFloatInt, GoType.keyType, nanKey, tFloat64, lookupKey, delOnly,
      DiffDetails.setDel, PathMap.set, entries, textOf]
  · simp [delOnly, entries, PathMap.get]
  · simp [compare, GoValue.typeName, GoValue.typeOf, mapRange, stepMapNew, stepMapOld,
      toString, mapIndex, tMapFloatInt, GoType.keyType, nanKey, tFloat64, lookupKey, hk,
      DiffDetails.setDel, DiffDetails.setAdd, PathMap.set, entries, textOf]

/-! ### Properties kept by every write -/

theorem foldlM_keeps {α : Type} (P : DiffDetails → Prop) (step : DiffDetails → α → Res DiffDetails)
    (l : List α) (hstep : ∀ d x r, x ∈ l → P d → step d x = .ok r → P r)
    (d r : DiffDetails) (hd : P d) (h : l.foldlM step d = .ok r) : P r := by
  induction l generalizing d with
  | nil => simp at h; subst h; exact hd
  | cons x l ih =>
    simp only [List.foldlM_cons] at h
    cases hx : step d x with
    | error e => simp [hx] at h
    | ok d' =>
      simp only [hx, ok_bind] at h
      exact ih (fun d x r hm => hstep d x r (by simp [hm])) d' (hstep d x d' (by simp) hd hx) h

theorem foldl_keeps {α : Type} (P : DiffDetails → Prop) (step : DiffDetails → α → DiffDetails)
    (l : List α) (hstep : ∀ d x, x ∈ l → P d → P (step d x)) (d : DiffDetails) (hd : P d) :
    P (l.foldl step d) := by
  induction l generalizing d with
  | nil => exact hd
  | cons x l ih =>
    exact ih (fun d y hy => hstep d y (by simp [hy])) (step d x) (hstep d x (by simp) hd)

theorem stepNew_keeps (P : DiffDetails → Prop) (hP : WriteClosed P) (ff : Fmt)
    (cmp : Cmp) (old : GoValue) (comparedby : String) (isDirect : Bool) (key : String)
    (d : DiffDetails) (x : GoValue) (r : DiffDetails)
    (hAdd : ∀ v f tmp, cmp "" "" false {} v f = .ok tmp → tmp.AddNil) (hd : P d)
    (h : stepNew ff cmp old comparedby isDirect key d x = .ok r) : P r := by
  unfold stepNew at h
  cases h1 : getElement x with
  | error e => simp [h1] at h
  | ok value =>
  cases h2 : getFromSlice old value comparedby with
  | error e => simp [h1, h2] at h
  | ok oldElement =>
  cases h3 : fieldByName value comparedby with
  | error e => simp [h1, h2, h3] at h
  | ok field =>
  cases h4 : structFieldIsExported field with
  | false => simp [h1, h2, h3, h4] at h
  | true =>
  cases h5 : getComparedValueOf ff field with
  | error e => simp [h1, h2, h3, h4, h5] at h
  | ok cv =>
  simp only [h1, h2, h3, h4, h5, ok_bind] at h
  cases oldElement with
  | none => simp at h; subst h; exact hP.add _ _ hd
  | some f =>
    cases hz : goIsZero f
    · cases isDirect
      · cases h6 : cmp "" "" false {} value f with
        | error e => simp [hz, h6] at h
        | ok tmp =>
          simp [hz, h6] at h
          subst h
          exact foldl_keeps P _ _ (fun d e _ hd => hP.del _ _ _ hd) _
            (foldl_keeps P _ _ (fun d e _ hd => hP.change _ _ _ hd) _
              (foldl_keeps P _ _ (fun d e he hd => by
                rw [hAdd value f tmp h6 e he]; exact hP.add _ _ hd) _ hd))
      · cases h6 : deepEqual cmp value f with
        | error e => simp [hz, h6] at h
        | ok eq =>
          cases eq <;> simp [hz, h6] at h <;> subst h
          · exact hP.change _ _ _ hd
          · exact hd
    · simp [hz] at h; subst h; exact hP.add _ _ hd

theorem stepOld_keeps (P : DiffDetails → Prop) (hP : WriteClosed P) (ff : Fmt)
    (new : GoValue) (comparedby : String) (key : String)
    (d : DiffDetails) (x : GoValue) (r : DiffDetails) (hd : P d)
    (h : stepOld ff new comparedby key d x = .ok r) : P r := by
  unfold stepOld at h
  cases h1 : getElement x with
  | error e => simp [h1] at h
  | ok value =>
  cases h2 : getFromSlice new value comparedby with
  | error e => simp [h1, h2] at h
  | ok newElement =>
  cases h3 : fieldByName value comparedby with
  | error e => simp [h1, h2, h3] at h
  | ok field =>
  cases h5 : getComparedValueOf ff field with
  | error e => simp [h1, h2, h3, h5] at h
  | ok cv =>
  simp only [h1, h2, h3, h5, ok_bind] at h
  cases hz : foundIsZero newElement <;> simp [hz] at h <;> subst h
  · exact hd
  · exact hP.del _ _ _ hd

theorem compareBySlice_keeps (P : DiffDetails → Prop) (hP : WriteClosed P)
    (ff : Fmt) (cmp : Cmp) (new old : GoValue) (comparedby : String)
    (isDirect : Bool) (key : String) (d r : DiffDetails)
    (hAdd : ∀ v f tmp, cmp "" "" false {} v f = .ok tmp → tmp.AddNil) (hd : P d)
    (h : compareBySlice ff cmp new old comparedby isDirect key d = .ok r) : P r := by
  unfold compareBySlice at h
  cases h0 : checkedItems new with
  | error e => simp [h0] at h
  | ok newItems =>
    simp only [h0, ok_bind] at h
    cases h1 : newItems.foldlM (stepNew ff cmp old comparedby isDirect key) d with
    | error e => simp [h1] at h
    | ok d1 =>
      have hd1 : P d1 := foldlM_keeps P _ newItems
        (fun d x r _ hd hs =>
          stepNew_keeps P hP ff cmp old comparedby isDirect key d x r hAdd hd hs)
        d d1 hd h1
      simp only [h1, ok_bind] at h
      cases h2 : seqItems old with
      | error e => simp [h2] at h
      | ok oldItems =>
        simp only [h2, ok_bind] at h
        exact foldlM_keeps P _ oldItems
          (fun d x r _ hd hs => stepOld_keeps P hP ff new comparedby key d x r hd hs) d1 r hd1 h

theorem compareFields_keeps (P : DiffDetails → Prop) (cmp : Cmp)
    (hcmp : ∀ key cb isDirect d new old r, P d → cmp key cb isDirect d new old = .ok r → P r)
    (key : String) (old : GoValue) (fs : List (StructField × GoValue)) (i : Nat)
    (d r : DiffDetails) (hd : P d) (h : compareFields cmp key old i fs d = .ok r) : P r := by
  induction fs generalizing i d with
  | nil => simp [compareFields] at h; subst h; exact hd
  | cons f rest ih =>
    unfold compareFields at h
    cases hexp : f.1.Exported
    · simp only [hexp] at h
      exact ih (i + 1) d hd (by simpa using h)
    · simp only [hexp] at h
      cases h1 : fieldAt old i with
      | error e => simp [h1] at h
      | ok oldField =>
        cases h2 : cmp (generate key f.1.Name) (parseTag f.1.Tag).1 (parseTag f.1.Tag).2 d f.2
            oldField with
        | error e => simp [h1, h2] at h
        | ok d' =>
          simp [h1, h2] at h
          exact ih (i + 1) d' (hcmp _ _ _ _ _ _ _ hd h2) h

theorem stepMapNew_keeps (P : DiffDetails → Prop) (hP : WriteClosed P) (ff : Fmt)
    (fuel : Nat) (cmp : Cmp)
    (hcmp : ∀ key cb isDirect d new old r, P d → cmp key cb isDirect d new old = .ok r → P r)
    (old : GoValue) (key comparedby : String) (isDirect : Bool) (d : DiffDetails)
    (e : GoValue × GoValue) (r : DiffDetails) (hd : P d)
    (h : stepMapNew ff fuel cmp old key comparedby isDirect d e = .ok r) : P r := by
  unfold stepMapNew at h
  cases h1 : toString ff fuel e.1 with
  | error e => simp [h1] at h
  | ok name =>
    cases h2 : mapIndex old e.1 with
    | error e => simp [h1, h2] at h
    | ok ov =>
      cases ov with
      | none => simp [h1, h2] at h; subst h; exact hP.add _ _ hd
      | some ov => simp [h1, h2] at h; exact hcmp _ _ _ _ _ _ _ hd h

theorem stepMapOld_keeps (P : DiffDetails → Prop) (hP : WriteClosed P) (ff : Fmt)
    (fuel : Nat) (new : GoValue) (key : String) (d : DiffDetails)
    (e : GoValue × GoValue) (r : DiffDetails) (hd : P d)
    (h : stepMapOld ff fuel new key d e = .ok r) : P r := by
  unfold stepMapOld at h
  cases h1 : toString ff fuel e.1 with
  | error e => simp [h1] at h
  | ok name =>
    cases h2 : mapIndex new e.1 with
    | error e => simp [h1, h2] at h
    | ok nv =>
      cases nv with
      | none => simp [h1, h2] at h; subst h; exact hP.del _ _ _ hd
      | some nv => simp [h1, h2] at h; subst h; exact hd

theorem addNil_writeClosed : WriteClosed DiffDetails.AddNil where
  change := fun _ _ _ h => h
  add := fun d k h e he => by
    simp only [DiffDetails.setAdd, entries, Option.getD_some, PathMap.set, List.mem_append,
      List.mem_singleton] at he
    rcases he with he | he
    · exact h e (List.mem_filter.mp he).1
    · rw [he]
  del := fun _ _ _ h => h

theorem addNil_empty : DiffDetails.AddNil {} := by
  intro e he
  simp [entries] at he

/-- Every property that each single write of the code keeps is kept by `compare`. -/
theorem compare_keeps (ff : Fmt) :
    ∀ (fuel : Nat) (P : DiffDetails → Prop), WriteClosed P →
      ∀ (key cb : String) (isDirect : Bool) (d : DiffDetails) (new old : GoValue)
        (r : DiffDetails), P d → compare ff fuel key cb isDirect d new old = .ok r → P r := by
  intro fuel
  induction fuel with
  | zero => intro P _ key cb isDirect d new old r _ h; simp [compare] at h
  | succ fuel ih0 =>
    intro P hP key cb isDirect d new old r hd h
    have ih := ih0 P hP
    have hAdd : ∀ v f tmp, compare ff fuel "" "" false {} v f = .ok tmp → tmp.AddNil :=
      fun v f tmp ht => ih0 _ addNil_writeClosed "" "" false {} v f tmp addNil_empty ht
    by_cases hcb : cb = "-"
    · rw [hcb, compare_excluded] at h
      simp at h; subst h; exact hd
    · by_cases hname : new.typeName = old.typeName
      · cases new with
        | scalar t s =>
          rw [compare] at h
          simp only [hcb, hname, if_false, ne_eq, not_true_eq_false] at h
          by_cases hc : cb = ""
          · cases hde : goDeepEqual (.scalar t s) old <;> simp [hc, hde] at h <;> subst h
            · exact hP.change _ _ _ hd
            · exact hd
          · simp [hc] at h
        | ptr t e =>
          cases old <;> simp [compare, hcb, hname] at h
          exact ih _ _ _ _ _ _ _ hd h
        | nilPtr t =>
          cases old <;> simp [compare, hcb, hname] at h <;> subst h <;> exact hd
        | slice t es =>
          rw [compare] at h
          simp only [hcb, hname, if_false, ne_eq, not_true_eq_false] at h
          by_cases hc : cb = ""
          · cases hde : goDeepEqual (.slice t es) old <;> simp [hc, hde] at h <;> subst h
            · exact hP.change _ _ _ hd
            · exact hd
          · simp [hc] at h
            exact compareBySlice_keeps P hP ff _ _ _ _ _ _ d r hAdd hd h
        | nilSlice t =>
          rw [compare] at h
          simp only [hcb, hname, if_false, ne_eq, not_true_eq_false] at h
          by_cases hc : cb = ""
          · cases hde : goDeepEqual (.nilSlice t) old <;> simp [hc, hde] at h <;> subst h
            · exact hP.change _ _ _ hd
            · exact hd
          · simp [hc] at h
            exact compareBySlice_keeps P hP ff _ _ _ _ _ _ d r hAdd hd h
        | array t es =>
          rw [compare] at h
          simp only [hcb, hname, if_false, ne_eq, not_true_eq_false] at h
          by_cases hc : cb = ""
          · cases hde : goDeepEqual (.array t es) old <;> simp [hc, hde] at h <;> subst h
            · exact hP.change _ _ _ hd
            · exact hd
          · simp [hc] at h
            exact compareBySlice_keeps P hP ff _ _ _ _ _ _ d r hAdd hd h
        | struct t fs =>
          rw [compare] at h
          simp only [hcb, hname, if_false, ne_eq, not_true_eq_false] at h
          cases isDirect
          · simp at h
            exact compareFields_keeps P _ ih key old fs 0 d r hd h
          · simp at h
            cases h1 : deepEqual (compare ff fuel) (.struct t fs) old with
            | error e => simp [h1] at h
            | ok eq =>
              cases eq <;> simp [h1] at h <;> subst h
              · exact hP.change _ _ _ hd
              · exact hd
        | map t es =>
          by_cases hc : cb = ""
          · subst hc
            cases h0 : mapRange old with
            | error e =>
              cases old <;> simp [mapRange] at h0 <;> simp [compare, hname, mapRange] at h
            | ok oldEs =>
              rw [compare_map ff fuel key isDirect d (.map t es) old es oldEs rfl h0 hname] at h
              cases h1 : es.foldlM (stepMapNew ff fuel (compare ff fuel) old key "" isDirect) d with
              | error e => simp [h1] at h
              | ok d1 =>
                simp only [h1, ok_bind] at h
                have hd1 : P d1 := foldlM_keeps P _ es
                  (fun d x r _ hd hs => stepMapNew_keeps P hP ff fuel _ ih old key "" isDirect
                    d x r hd hs) d d1 hd h1
                exact foldlM_keeps P _ oldEs
                  (fun d x r _ hd hs => stepMapOld_keeps P hP ff fuel _ key d x r hd hs)
                  d1 r hd1 h
          · rw [compare] at h
            simp [hcb, hname, hc] at h
        | nilMap t =>
          by_cases hc : cb = ""
          · subst hc
            cases h0 : mapRange old with
            | error e =>
              cases old <;> simp [mapRange] at h0 <;> simp [compare, hname, mapRange] at h
            | ok oldEs =>
              rw [compare_map ff fuel key isDirect d (.nilMap t) old [] oldEs rfl h0 hname] at h
              simp only [List.foldlM_nil, pure_eq_ok, ok_bind] at h
              exact foldlM_keeps P _ oldEs
                (fun d x r _ hd hs => stepMapOld_keeps P hP ff fuel _ key d x r hd hs)
                d r hd h
          · rw [compare] at h
            simp [hcb, hname, hc] at h
      · rw [compare_name_mismatch ff fuel key cb isDirect d new old hcb hname] at h
        simp at h

/-! ### One entry per path -/

theorem PathMap.set_nodup (m : PathMap) (k : String) (v : Option GoValue)
    (h : (m.map Prod.fst).Nodup) : ((m.set k v).map Prod.fst).Nodup := by
  unfold PathMap.set
  rw [List.map_append, List.nodup_append]
  refine ⟨?_, by simp, ?_⟩
  · exact List.Nodup.sublist (List.Sublist.map _ (List.filter_sublist m)) h
  · intro a ha hb
    simp only [List.map_cons, List.map_nil, List.mem_singleton] at hb
    subst hb
    obtain ⟨e, he, rfl⟩ := List.mem_map.mp ha
    simpa using (List.mem_filter.mp he).2

theorem keysNodup_writeClosed : WriteClosed DiffDetails.KeysNodup where
  change := fun _ k v h => ⟨PathMap.set_nodup _ k v h.1, h.2.1, h.2.2⟩
  add := fun _ k h => ⟨h.1, h.2.1, PathMap.set_nodup _ k none h.2.2⟩
  del := fun _ k v h => ⟨h.1, PathMap.set_nodup _ k v h.2.1, h.2.2⟩

theorem keysNodup_empty : DiffDetails.KeysNodup {} := by
  simp [DiffDetails.KeysNodup, entries]

/-- A successful `Diff` returns maps with one entry per path. -/
theorem Diff_keysNodup (ff : Fmt) (fuel : Nat) (new old : GoValue)
    (r : DiffDetails) (h : Diff ff fuel new old = .ok r) : r.KeysNodup :=
  compare_keeps ff fuel _ keysNodup_writeClosed "" "" false {} new old r keysNodup_empty h

/-- A successful `Diff` returns an Add map whose values are all nil. -/
theorem Diff_addNil (ff : Fmt) (fuel : Nat) (new old : GoValue)
    (r : DiffDetails) (h : Diff ff fuel new old = .ok r) : r.AddNil :=
  compare_keeps ff fuel _ addNil_writeClosed "" "" false {} new old r addNil_empty h

/-! ### Re-keying the result of a nested comparison -/

theorem PathMap.get_eq_none (l : PathMap) (k : String) (h : ∀ e ∈ l, e.1 ≠ k) :
    PathMap.get l k = none := by
  induction l with
  | nil => rfl
  | cons e rest ih =>
    have h1 : ¬ e.1 = k := h e (by simp)
    simp [PathMap.get, h1, ih (fun x hx => h x (by simp [hx]))]

theorem dot_append_injective (sel a b : String) (h : sel ++ "." ++ a = sel ++ "." ++ b) :
    a = b := by
  have h2 := congrArg String.data h
  simp only [String.data_append, List.append_assoc] at h2
  exact String.ext (List.append_cancel_left (List.append_cancel_left h2))

theorem rekey_nodup (sel : String) (ws : PathMap) (h : (ws.map Prod.fst).Nodup) :
    ((rekey sel ws).map Prod.fst).Nodup := by
  have hinj : Function.Injective (fun q : String => sel ++ "." ++ q) :=
    fun a b hab => dot_append_injective sel a b hab
  have := List.Nodup.map hinj h
  simpa [rekey, List.map_map, Function.comp] using this

theorem rekeyedInto_setAll (sel : String) (tmp : Option PathMap) (before after : Option PathMap)
    (hnd : ((entries tmp).map Prod.fst).Nodup)
    (h : entries after = (entries before).setAll (rekey sel (entries tmp))) :
    RekeyedInto sel tmp before after := by
  have hnd' : (((rekey sel (entries tmp)).reverse).map Prod.fst).Nodup := by
    rw [List.map_reverse]; exact List.nodup_reverse.mpr (rekey_nodup sel _ hnd)
  constructor
  · intro q val hq
    rw [h, PathMap.get_setAll]
    have hmem : (sel ++ "." ++ q, val) ∈ (rekey sel (entries tmp)).reverse := by
      rw [List.mem_reverse]
      exact List.mem_map.mpr ⟨(q, val), PathMap.mem_of_get_eq_some _ _ _ hq, rfl⟩
    rw [PathMap.get_eq_some_of_mem _ _ _ hnd' hmem]
    rfl
  · intro path hpath
    rw [h, PathMap.get_setAll, PathMap.get_eq_none]
    · rfl
    · intro e he
      rw [List.mem_reverse] at he
      obtain ⟨e0, he0, rfl⟩ := List.mem_map.mp he
      intro heq
      refine hpath e0.1 ?_ heq.symm
      rw [PathMap.get_eq_some_of_mem _ e0.1 e0.2 hnd he0]
      simp

theorem mergeAdd_eq (sel : String) (diff : DiffDetails) (tmp : Option PathMap) :
    entries (mergeAdd sel diff tmp).Add = (entries diff.Add).setAll (rekey sel (entries tmp)) ∧
    (mergeAdd sel diff tmp).Change = diff.Change ∧ (mergeAdd sel diff tmp).Del = diff.Del := by
  unfold mergeAdd
  generalize entries tmp = l
  induction l generalizing diff with
  | nil => exact ⟨rfl, rfl, rfl⟩
  | cons e l ih =>
    obtain ⟨h1, h2, h3⟩ := ih (diff.setAdd (sel ++ "." ++ e.1) e.2)
    exact ⟨by simpa [rekey, PathMap.setAll] using h1, h2, h3⟩

theorem mergeChange_eq (sel : String) (diff : DiffDetails) (tmp : Option PathMap) :
    entries (mergeChange sel diff tmp).Change =
      (entries diff.Change).setAll (rekey sel (entries tmp)) ∧
    (mergeChange sel diff tmp).Add = diff.Add ∧ (mergeChange sel diff tmp).Del = diff.Del := by
  unfold mergeChange
  generalize entries tmp = l
  induction l generalizing diff with
  | nil => exact ⟨rfl, rfl, rfl⟩
  | cons e l ih =>
    obtain ⟨h1, h2, h3⟩ := ih (diff.setChange (sel ++ "." ++ e.1) e.2)
    exact ⟨by simpa [rekey, PathMap.setAll] using h1, h2, h3⟩

theorem mergeDel_eq (sel : String) (diff : DiffDetails) (tmp : Option PathMap) :
    entries (mergeDel sel diff tmp).Del = (entries diff.Del).setAll (rekey sel (entries tmp)) ∧
    (mergeDel sel diff tmp).Add = diff.Add ∧ (mergeDel sel diff tmp).Change = diff.Change := by
  unfold mergeDel
  generalize entries tmp = l
  induction l generalizing diff with
  | nil => exact ⟨rfl, rfl, rfl⟩
  | cons e l ih =>
    obtain ⟨h1, h2, h3⟩ := ih (diff.setDel (sel ++ "." ++ e.1) e.2)
    exact ⟨by simpa [rekey, PathMap.setAll] using h1, h2, h3⟩

theorem stepNew_recursive (ff : Fmt) (cmp : Cmp) (oldSeq : GoValue)
    (comparedby key : String) (diff : DiffDetails) (x v f : GoValue)
    (fld : Option (StructField × GoValue)) (cv : String) (tmp : DiffDetails)
    (hx : getElement x = .ok v) (hfound : getFromSlice oldSeq v comparedby = .ok (some f))
    (hfld : fieldByName v comparedby = .ok fld) (hexp : structFieldIsExported fld = true)
    (hcv : getComparedValueOf ff fld = .ok cv) (hsub : cmp "" "" false {} v f = .ok tmp) :
    stepNew ff cmp oldSeq comparedby false key diff x =
      .ok (mergeDel (selector key comparedby cv)
        (mergeChange (selector key comparedby cv)
          (mergeAdd (selector key comparedby cv) diff tmp.Add) tmp.Change) tmp.Del) := by
  have hz := getFromSlice_nonzero _ _ _ _ hfound
  simp [stepNew, hx, hfound, hfld, hexp, hcv, hz, hsub]

/-- C4: a keyed sequence at path `p` with key field `k` in recursive mode.  When the element
`x` of `new` (which resolves to the record `v`) is matched with the old element `f`, and the
nested comparison `Diff(v, f)` (started at the empty path) gives `tmp`, the loop body
succeeds and changes each of Add, Change and Del by exactly the entries of the same map of
`tmp`, each nested path `q` re-keyed as `p.#(k==text).q`, with the same value.  On
old = [{Math,80}], new = [{Math,88}] under the field `Subjects` the whole result is the
single entry Change[`Subjects.#(Name=="Math").Score`] = 80. -/
theorem C4_rekeyed_nested_entries (ff : Fmt) (fuel : Nat) (oldSeq : GoValue)
    (k p : String) (diff : DiffDetails) (x v f : GoValue)
    (fld : Option (StructField × GoValue)) (cv : String) (tmp : DiffDetails)
    (hx : getElement x = .ok v) (hfound : getFromSlice oldSeq v k = .ok (some f))
    (hfld : fieldByName v k = .ok fld) (hexp : structFieldIsExported fld = true)
    (hcv : getComparedValueOf ff fld = .ok cv) (hsub : Diff ff fuel v f = .ok tmp) :
    (∃ r, stepNew ff (compare ff fuel) oldSeq k false p diff x = .ok r ∧
      RekeyedInto (selector p k cv) tmp.Add diff.Add r.Add ∧
      RekeyedInto (selector p k cv) tmp.Change diff.Change r.Change ∧
      RekeyedInto (selector p k cv) tmp.Del diff.Del r.Del) ∧
    Diff ff 4 (roster [subject "Math" f88]) (roster [subject "Math" f80]) =
      .ok { Change := some [("Subjects.#(Name==\"Math\").Score", some f80)] } := by
  have hnd := Diff_keysNodup ff fuel v f tmp hsub
  refine ⟨⟨_, stepNew_recursive ff (compare ff fuel) oldSeq k p diff x v f fld cv tmp
    hx hfound hfld hexp hcv hsub, ?_, ?_, ?_⟩, of_decide_eq_true (by rfl)⟩
  · apply rekeyedInto_setAll _ _ _ _ hnd.2.2
    rw [(mergeDel_eq _ _ _).2.1, (mergeChange_eq _ _ _).2.1, (mergeAdd_eq _ _ _).1]
  · apply rekeyedInto_setAll _ _ _ _ hnd.1
    rw [(mergeDel_eq _ _ _).2.2, (mergeChange_eq _ _ _).1, (mergeAdd_eq _ _ _).2.1]
  · apply rekeyedInto_setAll _ _ _ _ hnd.2.1
    rw [(mergeDel_eq _ _ _).1, (mergeChange_eq _ _ _).2.2, (mergeAdd_eq _ _ _).2.2]

theorem C4_rekeyed_nested_entries_witness :
    (getElement (subject "Math" f88) = .ok (subject "Math" f88) ∧
     getFromSlice (.slice (.slice "" tSubject) [subject "Math" f80]) (subject "Math" f88) "Name" =
       .ok (some (subject "Math" f80)) ∧
     fieldByName (subject "Math" f88) "Name" = .ok (some (⟨"Name", true, ""⟩, str "Math")) ∧
     structFieldIsExported (some (⟨"Name", true, ""⟩, str "Math")) = true ∧
     getComparedValueOf ffNone (some (⟨"Name", true, ""⟩, str "Math")) = .ok "\"Math\"" ∧
     Diff ffNone 2 (subject "Math" f88) (subject "Math" f80) =
       .ok { Change := some [("Score", some f80)] }) ∧
    ((∃ r, stepNew ffNone (compare ffNone 2) (.slice (.slice "" tSubject) [subject "Math" f80])
        "Name" false "Subjects" {} (subject "Math" f88) = .ok r ∧
      RekeyedInto (selector "Subjects" "Name" "\"Math\"")
        ({ Change := some [("Score", some f80)] } : DiffDetails).Add
        ({} : DiffDetails).Add r.Add ∧
      RekeyedInto (selector "Subjects" "Name" "\"Math\"")
        ({ Change := some [("Score", some f80)] } : DiffDetails).Change
        ({} : DiffDetails).Change r.Change ∧
      RekeyedInto (selector "Subjects" "Name" "\"Math\"")
        ({ Change := some [("Score", some f80)] } : DiffDetails).Del
        ({} : DiffDetails).Del r.Del) ∧
     Diff ffNone 4 (roster [subject "Math" f88]) (roster [subject "Math" f80]) =
       .ok { Change := some [("Subjects.#(Name==\"Math\").Score", some f80)] }) :=
  ⟨⟨by decide, by decide, by decide, by decide, by decide, by decide⟩,
   C4_rekeyed_nested_entries ffNone 2 (.slice (.slice "" tSubject) [subject "Math" f80])
     "Name" "Subjects" {} (subject "Math" f88) (subject "Math" f88) (subject "Math" f80)
     (some (⟨"Name", true, ""⟩, str "Math")) "\"Math\"" { Change := some [("Score", some f80)] }
     (by decide) (by decide) (by decide) (by decide) (by decide) (by decide)⟩

/-! ### Elements of a keyed sequence -/

theorem getElement_resolved (x v : GoValue) (h : getElement x = .ok v) :
    getElement v = .ok v := by
  obtain ⟨t, fs, rfl⟩ := getElement_struct x v h
  rfl

theorem keyOf_some (comparedby : String) (x v k : GoValue)
    (h : keyOf comparedby x = some (v, k)) :
    getElement x = .ok v ∧ HasKey comparedby v k := by
  unfold keyOf at h
  cases hx : getElement x with
  | error e => simp [hx] at h
  | ok v' =>
    simp only [hx] at h
    cases hf : fieldByName v' comparedby with
    | error e => simp [hf] at h
    | ok o =>
      cases o with
      | none => simp [hf] at h
      | some fld =>
        simp only [hf] at h
        split at h
        · rename_i hc
          simp only [Option.some.injEq, Prod.mk.injEq] at h
          obtain ⟨rfl, rfl⟩ := h
          simp only [Bool.and_eq_true, Bool.not_eq_true', Bool.not_eq_eq_eq_not, Bool.not_true] at hc
          exact ⟨rfl, fld, hf, rfl, hc.1.1, hc.1.2, hc.2⟩
        · simp at h

theorem keyOf_resolved (comparedby : String) (x v k : GoValue)
    (h : keyOf comparedby x = some (v, k)) : keyOf comparedby v = some (v, k) := by
  obtain ⟨hx, fld, hf, hk, he, hz, hr⟩ := keyOf_some comparedby x v k h
  subst hk
  simp [keyOf, getElement_resolved x v hx, hf, he, hz, hr]

theorem getComparedValue_renders (ff : Fmt) :
    ∀ (k : GoValue), renders k = true → getComparedValue ff false k = .ok (keyText ff k)
  | .scalar _ (.str _), _ => by simp [getComparedValue, keyText]
  | .scalar _ (.bool _), _ => by simp [getComparedValue, keyText]
  | .scalar _ (.int _), _ => by simp [getComparedValue, keyText]
  | .scalar _ (.uint _), _ => by simp [getComparedValue, keyText]
  | .scalar _ (.float32 _), _ => by simp [getComparedValue, keyText]
  | .scalar _ (.float64 _), _ => by simp [getComparedValue, keyText]
  | .ptr _ e, h => by
      simp only [getComparedValue, keyText]
      exact getComparedValue_renders ff e (by simpa [renders] using h)
  | .nilPtr _, h => by simp [renders] at h
  | .slice _ _, h => by simp [renders] at h
  | .nilSlice _, h => by simp [renders] at h
  | .array _ _, h => by simp [renders] at h
  | .struct _ _, h => by simp [renders] at h
  | .map _ _, h => by simp [renders] at h
  | .nilMap _, h => by simp [renders] at h

theorem hasKey_text (ff : Fmt) (comparedby : String) (v k : GoValue)
    (h : HasKey comparedby v k) :
    ∃ fld, fieldByName v comparedby = .ok fld ∧ structFieldIsExported fld = true ∧
      getComparedValueOf ff fld = .ok (keyText ff k) := by
  obtain ⟨fld, hf, hk, he, -, hr⟩ := h
  subst hk
  refine ⟨some fld, hf, he, ?_⟩
  simp [getComparedValueOf, he, getComparedValue_renders ff fld.2 hr]

theorem sameKey_good (comparedby : String) (src value ks kv : GoValue)
    (hs : HasKey comparedby src ks) (hv : HasKey comparedby value kv) :
    sameKey src value comparedby = .ok (goDeepEqual ks kv) := by
  obtain ⟨f, hf, rfl, hfe, hfz, -⟩ := hs
  obtain ⟨g, hg, rfl, hge, hgz, -⟩ := hv
  simp [sameKey, hf, hg, fieldIsZero, hfz, hgz, fieldInterface, hfe, hge]

theorem getFromSliceLoop_good (comparedby : String) (value kv : GoValue)
    (hv : HasKey comparedby value kv) (items : List GoValue)
    (hitems : ∀ x ∈ items, keyOf comparedby x ≠ none) :
    getFromSliceLoop value comparedby items = .ok (findByKey comparedby kv items) := by
  induction items with
  | nil => rfl
  | cons x rest ih =>
    have hx := hitems x (by simp)
    cases hk : keyOf comparedby x with
    | none => exact absurd hk hx
    | some p =>
      obtain ⟨v, k⟩ := p
      obtain ⟨hel, hkey⟩ := keyOf_some comparedby x v k hk
      simp only [getFromSliceLoop, hel, ok_bind, sameKey_good comparedby v value k kv hkey hv,
        findByKey, hk]
      cases goDeepEqual k kv
      · simpa using ih (fun y hy => hitems y (by simp [hy]))
      · simp

theorem findByKey_nonzero (comparedby : String) (k f : GoValue) (items : List GoValue)
    (h : findByKey comparedby k items = some f) : goIsZero f = false := by
  induction items with
  | nil => simp [findByKey] at h
  | cons x rest ih =>
    unfold findByKey at h
    cases hk : keyOf comparedby x with
    | none => simp [hk] at h
    | some p =>
      obtain ⟨v, k'⟩ := p
      simp only [hk] at h
      cases hde : goDeepEqual k' k
      · simp only [hde] at h
        exact ih (by simpa using h)
      · simp only [hde, if_true, Option.some.injEq] at h
        subst h
        obtain ⟨hel, fld, hf, hkk, -, hz, -⟩ := keyOf_some comparedby x v k' hk
        obtain ⟨t, fs, rfl⟩ := getElement_struct x v hel
        subst hkk
        simp only [fieldByName, Except.ok.injEq] at hf
        simp [goIsZero, isZeroFields_of_find fs _ fld hf hz]

/-! ### Looking an element up in a sequence -/

theorem seqItems_of_checkedItems (new : GoValue) (es : List GoValue)
    (h : checkedItems new = .ok es) : seqItems new = .ok es := by
  cases new <;> simp [checkedItems] at h <;> simp [seqItems, h]

theorem getFromSlice_good (comparedby : String) (slice value kv : GoValue)
    (items : List GoValue) (hs : seqItems slice = .ok items)
    (hv : HasKey comparedby value kv) (hitems : ∀ x ∈ items, keyOf comparedby x ≠ none) :
    getFromSlice slice value comparedby = .ok (findByKey comparedby kv items) := by
  simp [getFromSlice, hs, getFromSliceLoop_good comparedby value kv hv items hitems]

theorem findByKey_fresh (comparedby : String) (k : GoValue) (es : List GoValue)
    (h : freshKey comparedby k es = true) : findByKey comparedby k es = none := by
  induction es with
  | nil => rfl
  | cons x rest ih =>
    simp only [freshKey, List.all_cons, Bool.and_eq_true] at h
    cases hk : keyOf comparedby x with
    | none => simp [findByKey, hk]
    | some p =>
      obtain ⟨v, k'⟩ := p
      have h1 := h.1
      simp only [hk, Bool.and_eq_true, Bool.not_eq_true'] at h1
      simp only [findByKey, hk, h1.2]
      exact ih (by simpa [freshKey] using h.2)

theorem distinctKeys_good (comparedby : String) (es : List GoValue)
    (h : distinctKeys comparedby es = true) : ∀ x ∈ es, keyOf comparedby x ≠ none := by
  induction es with
  | nil => simp
  | cons x rest ih =>
    simp only [distinctKeys, Bool.and_eq_true] at h
    intro y hy
    simp only [List.mem_cons] at hy
    rcases hy with rfl | hy
    · intro hk
      simp [hk] at h
    · exact ih h.2 y hy

/-- In a sequence with pairwise distinct keys, an element whose key is deeply equal to
itself is the first match of its own key. -/
theorem findByKey_self (comparedby : String) (es : List GoValue)
    (hd : distinctKeys comparedby es = true) (x v k : GoValue) (hx : x ∈ es)
    (hk : keyOf comparedby x = some (v, k)) (hkk : goDeepEqual k k = true) :
    findByKey comparedby k es = some v := by
  induction es with
  | nil => simp at hx
  | cons y rest ih =>
    simp only [distinctKeys, Bool.and_eq_true] at hd
    cases hy : keyOf comparedby y with
    | none => simp [hy] at hd
    | some p =>
      obtain ⟨vy, ky⟩ := p
      simp only [hy] at hd
      by_cases hxy : x = y
      · subst hxy
        rw [hk] at hy
        simp only [Option.some.injEq, Prod.mk.injEq] at hy
        obtain ⟨rfl, rfl⟩ := hy
        simp [findByKey, hk, hkk]
      · have hx' : x ∈ rest := by
          simp only [List.mem_cons] at hx
          rcases hx with h | h
          · exact absurd h hxy
          · exact h
        have hfresh := hd.1
        simp only [freshKey, List.all_eq_true] at hfresh
        have := hfresh x hx'
        simp only [hk, Bool.and_eq_true, Bool.not_eq_true'] at this
        simp only [findByKey, hy, this.1]
        exact ih hd.2 hx'

/-! ### The loop bodies of `compareBySlice` on accepted elements -/

theorem stepNew_unmatched (ff : Fmt) (cmp : Cmp) (old : GoValue)
    (oldEs : List GoValue) (comparedby : String) (isDirect : Bool) (key : String)
    (d : DiffDetails) (x v k : GoValue)
    (hold : seqItems old = .ok oldEs) (hgood : ∀ y ∈ oldEs, keyOf comparedby y ≠ none)
    (hk : keyOf comparedby x = some (v, k)) (hfind : findByKey comparedby k oldEs = none) :
    stepNew ff cmp old comparedby isDirect key d x =
      .ok (d.setAdd (selector key comparedby (keyText ff k)) none) := by
  obtain ⟨hx, hkey⟩ := keyOf_some comparedby x v k hk
  obtain ⟨fld, hf, he, hcv⟩ := hasKey_text ff comparedby v k hkey
  simp [stepNew, hx, getFromSlice_good comparedby old v k oldEs hold hkey hgood, hfind, hf, he,
    hcv]

theorem stepNew_matched_empty (ff : Fmt) (cmp : Cmp) (old : GoValue)
    (oldEs : List GoValue) (comparedby : String) (isDirect : Bool) (key : String)
    (d : DiffDetails) (x v k f : GoValue)
    (hold : seqItems old = .ok oldEs) (hgood : ∀ y ∈ oldEs, keyOf comparedby y ≠ none)
    (hk : keyOf comparedby x = some (v, k)) (hfind : findByKey comparedby k oldEs = some f)
    (hcmp : cmp "" "" false {} v f = .ok {}) :
    stepNew ff cmp old comparedby isDirect key d x = .ok d := by
  obtain ⟨hx, hkey⟩ := keyOf_some comparedby x v k hk
  obtain ⟨fld, hf, he, hcv⟩ := hasKey_text ff comparedby v k hkey
  have hfound := getFromSlice_good comparedby old v k oldEs hold hkey hgood
  rw [hfind] at hfound
  cases isDirect
  · rw [stepNew_recursive ff cmp old comparedby key d x v f fld (keyText ff k) {} hx hfound hf
      he hcv hcmp]
    rfl
  · rw [stepNew_direct ff cmp old comparedby key d x v f fld (keyText ff k) {} hx hfound hf
      he hcv hcmp]
    rfl

theorem stepOld_good (ff : Fmt) (new : GoValue) (newEs : List GoValue)
    (comparedby key : String) (d : DiffDetails) (y w k : GoValue)
    (hnew : seqItems new = .ok newEs) (hgood : ∀ x ∈ newEs, keyOf comparedby x ≠ none)
    (hk : keyOf comparedby y = some (w, k)) :
    stepOld ff new comparedby key d y =
      .ok (match findByKey comparedby k newEs with
        | none => d.setDel (selector key comparedby (keyText ff k)) (some w)
        | some _ => d) := by
  obtain ⟨hy, hkey⟩ := keyOf_some comparedby y w k hk
  obtain ⟨fld, hf, he, hcv⟩ := hasKey_text ff comparedby w k hkey
  simp only [stepOld, hy, getFromSlice_good comparedby new w k newEs hnew hkey hgood, hf, hcv,
    ok_bind]
  cases hfind : findByKey comparedby k newEs with
  | none => simp [foundIsZero]
  | some f => simp [foundIsZero, findByKey_nonzero comparedby k f newEs hfind]

/-! ### Comparing a value with itself -/

theorem foldlM_fixed {α : Type} (step : DiffDetails → α → Res DiffDetails) (l : List α)
    (d : DiffDetails) (h : ∀ x ∈ l, step d x = .ok d) : l.foldlM step d = .ok d := by
  induction l with
  | nil => rfl
  | cons x l ih =>
    simp only [List.foldlM_cons, h x (by simp), ok_bind]
    exact ih (fun y hy => h y (by simp [hy]))

theorem compareBySlice_self (ff : Fmt) (cmp : Cmp) (x : GoValue)
    (es : List GoValue) (comparedby : String) (isDirect : Bool) (key : String)
    (d : DiffDetails) (hx : checkedItems x = .ok es)
    (hd : distinctKeys comparedby es = true)
    (hall : ∀ e ∈ es, ∃ v k, keyOf comparedby e = some (v, k) ∧ goDeepEqual k k = true ∧
      cmp "" "" false {} v v = .ok {}) :
    compareBySlice ff cmp x x comparedby isDirect key d = .ok d := by
  have hs := seqItems_of_checkedItems x es hx
  have hgood := distinctKeys_good comparedby es hd
  have h1 : es.foldlM (stepNew ff cmp x comparedby isDirect key) d = .ok d := by
    apply foldlM_fixed
    intro e he
    obtain ⟨v, k, hk, hkk, hcmp⟩ := hall e he
    exact stepNew_matched_empty ff cmp x es comparedby isDirect key d e v k v hs hgood hk
      (findByKey_self comparedby es hd e v k he hk hkk) hcmp
  have h2 : es.foldlM (stepOld ff x comparedby key) d = .ok d := by
    apply foldlM_fixed
    intro e he
    obtain ⟨v, k, hk, hkk, -⟩ := hall e he
    rw [stepOld_good ff x es comparedby key d e v k hs hgood hk,
      findByKey_self comparedby es hd e v k he hk hkk]
  simp [compareBySlice, hx, h1, hs, h2]

theorem compareFields_self (cmp : Cmp) (key : String) (t : GoType)
    (all : List (StructField × GoValue)) :
    ∀ (fs pre : List (StructField × GoValue)) (d : DiffDetails), all = pre ++ fs →
      (∀ f ∈ fs, f.1.Exported = true →
        ∀ k d, cmp k (parseTag f.1.Tag).1 (parseTag f.1.Tag).2 d f.2 f.2 = .ok d) →
      compareFields cmp key (.struct t all) pre.length fs d = .ok d := by
  intro fs
  induction fs with
  | nil => intro pre d _ _; rfl
  | cons f rest ih =>
    intro pre d hall hf
    have hrest : compareFields cmp key (.struct t all) (pre.length + 1) rest d = .ok d := by
      have := ih (pre ++ [f]) d (by simp [hall]) (fun g hg => hf g (by simp [hg]))
      simpa using this
    unfold compareFields
    cases hexp : f.1.Exported
    · simpa using hrest
    · have hget : all.get? pre.length = some f := by
        rw [hall, List.get?_eq_getElem?, List.getElem?_append_right (le_refl _)]
        simp
      simp only [fieldAt, hget, hexp, if_true, ok_bind, hf f (by simp) hexp, hrest,
        Bool.not_true, Bool.false_eq_true, if_false]

theorem mapLoops_self (ff : Fmt) (fuel : Nat) (x : GoValue)
    (es : List (GoValue × GoValue)) (key : String) (isDirect : Bool) (d : DiffDetails)
    (hx : mapRange x = .ok es)
    (hall : ∀ e ∈ es, e.1.isScalar = true ∧ x.typeOf.keyType = some e.1.typeOf ∧
      lookupKey e.1 es = some e.2 ∧
      ∀ k d, compare ff (fuel + 1) k "" isDirect d e.2 e.2 = .ok d) :
    es.foldlM (stepMapNew ff (fuel + 1) (compare ff (fuel + 1)) x key "" isDirect) d = .ok d ∧
    es.foldlM (stepMapOld ff (fuel + 1) x key) d = .ok d := by
  constructor
  · apply foldlM_fixed
    intro e he
    obtain ⟨h1, h2, h3, h4⟩ := hall e he
    simp [stepMapNew, toString_scalar ff fuel e.1 h1, mapIndex_of_mapRange x e.1 es hx h2, h3, h4]
  · apply foldlM_fixed
    intro e he
    obtain ⟨h1, h2, h3, -⟩ := hall e he
    simp [stepMapOld, toString_scalar ff fuel e.1 h1, mapIndex_of_mapRange x e.1 es hx h2, h3]

theorem selfComparable_pos (fuel : Nat) (cb : String) (isDirect : Bool) (x : GoValue)
    (h : selfComparable fuel cb isDirect x = true) : ∃ n, fuel = n + 1 := by
  cases fuel with
  | zero => simp [selfComparable] at h
  | succ n => exact ⟨n, rfl⟩

theorem selfComparable_keyed (fuel : Nat) (cb : String) (es : List GoValue)
    (h : (distinctKeys cb es && es.all (fun e =>
      match keyOf cb e with
      | some (v, k) => goDeepEqual k k && selfComparable fuel "" false v
      | none => false)) = true) :
    distinctKeys cb es = true ∧ ∀ e ∈ es, ∃ v k, keyOf cb e = some (v, k) ∧
      goDeepEqual k k = true ∧ selfComparable fuel "" false v = true := by
  rw [Bool.and_eq_true, List.all_eq_true] at h
  refine ⟨h.1, fun e he => ?_⟩
  have := h.2 e he
  cases hk : keyOf cb e with
  | none => simp [hk] at this
  | some p =>
    obtain ⟨v, k⟩ := p
    simp only [hk, Bool.and_eq_true] at this
    exact ⟨v, k, rfl, this.1, this.2⟩

/-- Comparing a self-comparable value with itself leaves the result as it is. -/
theorem compare_self (ff : Fmt) :
    ∀ (fuel : Nat) (cb : String) (isDirect : Bool) (x : GoValue) (key : String)
      (d : DiffDetails), selfComparable fuel cb isDirect x = true →
      compare ff fuel key cb isDirect d x x = .ok d := by
  intro fuel
  induction fuel with
  | zero => intro cb isDirect x key d h; simp [selfComparable] at h
  | succ fuel ih =>
    intro cb isDirect x key d h
    by_cases hcb : cb = "-"
    · rw [hcb]; exact compare_excluded ff fuel key isDirect d x x
    · have hcb' : (cb == "-") = false := by simp [hcb]
      cases x with
      | scalar t s =>
        simp [selfComparable, hcb] at h
        simp [compare, hcb, h.1, goDeepEqual, h.2]
      | ptr t e =>
        simp [selfComparable, hcb] at h
        simp [compare, hcb, ih cb isDirect e key d h]
      | nilPtr t => simp [compare, hcb]
      | nilSlice t =>
        by_cases hc : cb = ""
        · simp [compare, hc, goDeepEqual]
        · simp [compare, hcb, hc, compareBySlice, checkedItems, seqItems]
      | slice t es =>
        rw [selfComparable] at h
        simp only [hcb', Bool.false_or] at h
        by_cases hc : cb = ""
        · simp only [hc, beq_self_eq_true, if_true] at h
          simp [compare, hc, h]
        · have hc' : (cb == "") = false := by simp [hc]
          simp only [hc', Bool.false_eq_true, if_false] at h
          obtain ⟨hd, hall⟩ := selfComparable_keyed fuel cb es h
          simp only [compare, hcb, hc, if_false, ne_eq, not_true_eq_false, not_false_eq_true,
            if_true]
          refine compareBySlice_self ff _ _ es cb isDirect key d rfl hd ?_
          intro e he
          obtain ⟨v, k, hk, hkk, hv⟩ := hall e he
          exact ⟨v, k, hk, hkk, ih "" false v "" {} hv⟩
      | array t es =>
        rw [selfComparable] at h
        simp only [hcb', Bool.false_or] at h
        by_cases hc : cb = ""
        · simp only [hc, beq_self_eq_true, if_true] at h
          simp [compare, hc, h]
        · have hc' : (cb == "") = false := by simp [hc]
          simp only [hc', Bool.false_eq_true, if_false] at h
          obtain ⟨hd, hall⟩ := selfComparable_keyed fuel cb es h
          simp only [compare, hcb, hc, if_false, ne_eq, not_true_eq_false, not_false_eq_true,
            if_true]
          refine compareBySlice_self ff _ _ es cb isDirect key d rfl hd ?_
          intro e he
          obtain ⟨v, k, hk, hkk, hv⟩ := hall e he
          exact ⟨v, k, hk, hkk, ih "" false v "" {} hv⟩
      | struct t fs =>
        rw [selfComparable] at h
        simp only [hcb', Bool.false_or] at h
        cases isDirect
        · simp only [Bool.false_eq_true, if_false, List.all_eq_true, Bool.or_eq_true,
            Bool.not_eq_true'] at h
          simp only [compare, hcb, if_false, ne_eq, not_true_eq_false, Bool.false_eq_true]
          refine compareFields_self _ key t fs fs [] d rfl ?_
          intro f hf hexp k d'
          rcases h f hf with h1 | h1
          · rw [hexp] at h1; cases h1
          · exact ih _ _ f.2 k d' h1
        · simp only [if_true] at h
          have hsub := ih "" false (.struct t fs) "" {} h
          have hde := deepEqual_eq (compare ff fuel) (.struct t fs) (.struct t fs) {} hsub
          simp only [compare, hcb, if_false, ne_eq, not_true_eq_false, if_true, hde, ok_bind]
          rfl
      | map t es =>
        rw [selfComparable] at h
        simp only [hcb', Bool.false_or, Bool.and_eq_true, beq_iff_eq, List.all_eq_true] at h
        obtain ⟨hc, hes⟩ := h
        subst hc
        rw [compare_map ff fuel key isDirect d (.map t es) (.map t es) es es rfl rfl rfl]
        cases es with
        | nil => rfl
        | cons e0 rest =>
          obtain ⟨n, rfl⟩ := selfComparable_pos fuel "" isDirect e0.2 (hes e0 (by simp)).2
          have hl := mapLoops_self ff n (.map t (e0 :: rest)) (e0 :: rest) key isDirect d rfl
            (by
              intro e he
              obtain ⟨⟨⟨h1, h2⟩, h3⟩, h4⟩ := hes e he
              refine ⟨h1, h2, ?_, fun k d' => ih "" isDirect e.2 k d' h4⟩
              cases hl : lookupKey e.1 (e0 :: rest) with
              | none => simp [hl] at h3
              | some w =>
                simp only [hl] at h3
                rw [(GoValue.beq_iff w e.2).mp h3])
          rw [hl.1]
          exact hl.2
      | nilMap t =>
        rw [selfComparable] at h
        simp only [hcb', Bool.false_or, beq_iff_eq] at h
        subst h
        rw [compare_map ff fuel key isDirect d (.nilMap t) (.nilMap t) [] [] rfl rfl rfl]
        rfl

/-- C1, counterexample: a record whose keyed sequence holds two elements with the same key
(`Math`).  Each new element is compared with the first old element of its key, so
`Diff(x, x)` reports a Change for the second element. -/
theorem C1_counterexample :
    Diff ffNone 4 (roster [subject "Math" f80, subject "Math" f88])
      (roster [subject "Math" f80, subject "Math" f88]) =
      .ok { Change := some [("Subjects.#(Name==\"Math\").Score", some f80)] } := by
  decide

/-! ### Keyed sequences: additions and deletions -/

theorem foldlM_ok {α : Type} (step : DiffDetails → α → Res DiffDetails) (l : List α)
    (h : ∀ d, ∀ x ∈ l, ∃ r, step d x = .ok r) (d : DiffDetails) :
    ∃ r, l.foldlM step d = .ok r := by
  induction l generalizing d with
  | nil => exact ⟨d, rfl⟩
  | cons x l ih =>
    obtain ⟨d', hd'⟩ := h d x (by simp)
    obtain ⟨r, hr⟩ := ih (fun d y hy => h d y (by simp [hy])) d'
    exact ⟨r, by simp [List.foldlM_cons, hd', hr]⟩

theorem foldlM_append_ok {α : Type} (step : DiffDetails → α → Res DiffDetails)
    (a b : List α) (d r : DiffDetails) (h : (a ++ b).foldlM step d = .ok r) :
    ∃ d', a.foldlM step d = .ok d' ∧ b.foldlM step d' = .ok r := by
  rw [List.foldlM_append] at h
  cases ha : a.foldlM step d with
  | error e => simp [ha] at h
  | ok d' => exact ⟨d', rfl, by simpa [ha] using h⟩

theorem selector_injective (key comparedby a b : String)
    (h : selector key comparedby a = selector key comparedby b) : a = b := by
  have h2 := congrArg String.data h
  simp only [selector, String.data_append, List.append_assoc] at h2
  have h3 := List.append_cancel_left (List.append_cancel_left (List.append_cancel_left
    (List.append_cancel_left h2)))
  exact String.ext (List.append_cancel_right h3)

theorem stepNew_good_ok (ff : Fmt) (cmp : Cmp) (old : GoValue)
    (oldEs : List GoValue) (comparedby key : String) (d : DiffDetails) (x : GoValue)
    (hold : seqItems old = .ok oldEs) (hgood : ∀ y ∈ oldEs, keyOf comparedby y ≠ none)
    (hx : keyOf comparedby x ≠ none)
    (hnested : ∀ v kv f, keyOf comparedby x = some (v, kv) →
      findByKey comparedby kv oldEs = some f → ∃ tmp, cmp "" "" false {} v f = .ok tmp) :
    ∃ r, stepNew ff cmp old comparedby false key d x = .ok r := by
  cases hk : keyOf comparedby x with
  | none => exact absurd hk hx
  | some p =>
    obtain ⟨v, kv⟩ := p
    cases hfind : findByKey comparedby kv oldEs with
    | none =>
      exact ⟨_, stepNew_unmatched ff cmp old oldEs comparedby false key d x v kv hold hgood hk
        hfind⟩
    | some f =>
      obtain ⟨tmp, htmp⟩ := hnested v kv f hk hfind
      obtain ⟨hel, hkey⟩ := keyOf_some comparedby x v kv hk
      obtain ⟨fld, hf, he, hcv⟩ := hasKey_text ff comparedby v kv hkey
      have hfound := getFromSlice_good comparedby old v kv oldEs hold hkey hgood
      rw [hfind] at hfound
      exact ⟨_, stepNew_recursive ff cmp old comparedby key d x v f fld (keyText ff kv) tmp hel
        hfound hf he hcv htmp⟩

/-- The second loop of `compareBySlice` on accepted elements. -/
theorem oldLoop (ff : Fmt) (new : GoValue) (newEs : List GoValue)
    (comparedby key : String) (hnew : seqItems new = .ok newEs)
    (hgood : ∀ x ∈ newEs, keyOf comparedby x ≠ none) (l : List GoValue)
    (hl : ∀ y ∈ l, keyOf comparedby y ≠ none) (d : DiffDetails) :
    ∃ r, l.foldlM (stepOld ff new comparedby key) d = .ok r ∧
      entries r.Del = (entries d.Del).setAll (seqDels ff comparedby key newEs l) ∧
      r.Add = d.Add ∧ r.Change = d.Change := by
  induction l generalizing d with
  | nil => exact ⟨d, rfl, rfl, rfl, rfl⟩
  | cons y l ih =>
    have hy := hl y (by simp)
    cases hk : keyOf comparedby y with
    | none => exact absurd hk hy
    | some p =>
      obtain ⟨w, k⟩ := p
      have hstep := stepOld_good ff new newEs comparedby key d y w k hnew hgood hk
      have ih' := fun d => ih (fun z hz => hl z (by simp [hz])) d
      cases hfind : findByKey comparedby k newEs with
      | none =>
        rw [hfind] at hstep
        obtain ⟨r, hr, hD, hA, hC⟩ :=
          ih' (d.setDel (selector key comparedby (keyText ff k)) (some w))
        refine ⟨r, by simp [List.foldlM_cons, hstep, hr], ?_, ?_, ?_⟩
        · rw [hD]; simp [seqDels, List.filterMap_cons, hk, hfind, PathMap.setAll, entries_setDel]
        · rw [hA]; rfl
        · rw [hC]; rfl
      | some f =>
        rw [hfind] at hstep
        obtain ⟨r, hr, hD, hA, hC⟩ := ih' d
        refine ⟨r, by simp [List.foldlM_cons, hstep, hr], ?_, hA, hC⟩
        rw [hD]; simp [seqDels, List.filterMap_cons, hk, hfind]

theorem seqDels_nodup (ff : Fmt) (comparedby key : String)
    (newEs l : List GoValue) (h : (l.map (elemText ff comparedby)).Nodup) :
    ((seqDels ff comparedby key newEs l).map Prod.fst).Nodup := by
  refine nodup_filterMap_keys l _ (fun y => selector key comparedby (elemText ff comparedby y))
    ?_ ?_
  · intro y w hw
    cases hk : keyOf comparedby y with
    | none => simp [hk] at hw
    | some p =>
      obtain ⟨v, k⟩ := p
      cases hfind : findByKey comparedby k newEs with
      | none =>
        simp [hk, hfind] at hw
        rw [← hw]
        simp [elemText, hk]
      | some f => simp [hk, hfind] at hw
  · have hinj : Function.Injective (selector key comparedby) :=
      fun a b hab => selector_injective key comparedby a b hab
    have := List.Nodup.map hinj h
    simpa [List.map_map, Function.comp] using this

theorem addAt_writeClosed (path : String) :
    WriteClosed (fun d => (entries d.Add).get path = some none) where
  change := fun _ _ _ h => h
  add := fun d k h => by
    rw [entries_setAdd, PathMap.get_set]
    split
    · rfl
    · exact h
  del := fun _ _ _ h => h

theorem compare_addNil (ff : Fmt) (fuel : Nat) (v f : GoValue)
    (tmp : DiffDetails) (h : compare ff fuel "" "" false {} v f = .ok tmp) : tmp.AddNil :=
  compare_keeps ff fuel _ addNil_writeClosed "" "" false {} v f tmp addNil_empty h

/-- Once the first loop has written Add at the selector of an unmatched element, the entry
stays nil to the end of the loop. -/
theorem newLoop_add (ff : Fmt) (fuel : Nat) (old : GoValue)
    (oldEs : List GoValue) (comparedby key : String) (hold : seqItems old = .ok oldEs)
    (hgood : ∀ y ∈ oldEs, keyOf comparedby y ≠ none) (l : List GoValue)
    (d r : DiffDetails)
    (h : l.foldlM (stepNew ff (compare ff fuel) old comparedby false key) d = .ok r)
    (x v kv : GoValue) (hx : x ∈ l) (hk : keyOf comparedby x = some (v, kv))
    (hfind : findByKey comparedby kv oldEs = none) :
    (entries r.Add).get (selector key comparedby (keyText ff kv)) = some none := by
  obtain ⟨a, b, rfl⟩ := List.append_of_mem hx
  obtain ⟨da, -, hb⟩ := foldlM_append_ok _ a (x :: b) d r h
  rw [List.foldlM_cons, stepNew_unmatched ff _ old oldEs comparedby false key da x v kv hold
    hgood hk hfind, ok_bind] at hb
  refine foldlM_keeps
    (fun d => (entries d.Add).get (selector key comparedby (keyText ff kv)) = some none)
    _ b ?_ _ r ?_ hb
  · intro d0 y r0 _ hd0 hs
    exact stepNew_keeps _ (addAt_writeClosed _) ff _ old comparedby false key d0 y r0
      (compare_addNil ff fuel) hd0 hs
  · show (entries (da.setAdd (selector key comparedby (keyText ff kv)) none).Add).get
      (selector key comparedby (keyText ff kv)) = some none
    rw [entries_setAdd, PathMap.get_set_self]

/-- In recursive mode the first loop writes Change only below the selector of an element of
`new`. -/
theorem newLoop_change (ff : Fmt) (cmp : Cmp) (old : GoValue)
    (oldEs : List GoValue) (comparedby key : String) (hold : seqItems old = .ok oldEs)
    (hgood : ∀ y ∈ oldEs, keyOf comparedby y ≠ none) (newEs l : List GoValue)
    (hsub : ∀ x ∈ l, x ∈ newEs) (hl : ∀ x ∈ l, keyOf comparedby x ≠ none)
    (d0 d r : DiffDetails)
    (h : l.foldlM (stepNew ff cmp old comparedby false key) d = .ok r)
    (hd : ∀ path val, (entries d.Change).get path = some val →
      (entries d0.Change).get path = some val ∨
      ∃ x ∈ newEs, ∃ v kv q, keyOf comparedby x = some (v, kv) ∧
        path = selector key comparedby (keyText ff kv) ++ "." ++ q) :
    ∀ path val, (entries r.Change).get path = some val →
      (entries d0.Change).get path = some val ∨
      ∃ x ∈ newEs, ∃ v kv q, keyOf comparedby x = some (v, kv) ∧
        path = selector key comparedby (keyText ff kv) ++ "." ++ q := by
  refine foldlM_keeps (fun d => ∀ path val, (entries d.Change).get path = some val →
      (entries d0.Change).get path = some val ∨
      ∃ x ∈ newEs, ∃ v kv q, keyOf comparedby x = some (v, kv) ∧
        path = selector key comparedby (keyText ff kv) ++ "." ++ q) _ l ?_ d r hd h
  intro d1 x r1 hx hd1 hs
  cases hk : keyOf comparedby x with
  | none => exact absurd hk (hl x hx)
  | some p =>
    obtain ⟨v, kv⟩ := p
    cases hfind : findByKey comparedby kv oldEs with
    | none =>
      rw [stepNew_unmatched ff cmp old oldEs comparedby false key d1 x v kv hold hgood hk
        hfind] at hs
      simp only [Except.ok.injEq] at hs
      subst hs
      exact hd1
    | some f =>
      obtain ⟨hel, hkey⟩ := keyOf_some comparedby x v kv hk
      obtain ⟨fld, hf, he, hcv⟩ := hasKey_text ff comparedby v kv hkey
      have hfound := getFromSlice_good comparedby old v kv oldEs hold hkey hgood
      rw [hfind] at hfound
      cases htmp : cmp "" "" false {} v f with
      | error e =>
        have hz := getFromSlice_nonzero _ _ _ _ hfound
        simp [stepNew, hel, hfound, hf, he, hcv, hz, htmp] at hs
      | ok tmp =>
        rw [stepNew_recursive ff cmp old comparedby key d1 x v f fld (keyText ff kv) tmp hel
          hfound hf he hcv htmp] at hs
        simp only [Except.ok.injEq] at hs
        subst hs
        intro path val hget
        rw [(mergeDel_eq _ _ _).2.2, (mergeChange_eq _ _ _).1, (mergeAdd_eq _ _ _).2.1,
          PathMap.get_setAll] at hget
        cases hrev : PathMap.get (rekey (selector key comparedby (keyText ff kv))
            (entries tmp.Change)).reverse path with
        | none =>
          rw [hrev] at hget
          exact hd1 path val hget
        | some w =>
          have hmem := PathMap.mem_of_get_eq_some _ _ _ hrev
          rw [List.mem_reverse] at hmem
          obtain ⟨e, -, he⟩ := List.mem_map.mp hmem
          simp only [Prod.mk.injEq] at he
          exact Or.inr ⟨x, hsub x hx, v, kv, e.1, hk, he.1.symm⟩

/-! ### Renaming the key of one element -/

theorem freshKey_cons (cb : String) (k y : GoValue) (es : List GoValue) :
    freshKey cb k (y :: es) =
      ((match keyOf cb y with
        | some (_, k') => !goDeepEqual k k' && !goDeepEqual k' k
        | none => false) && freshKey cb k es) := by
  rfl

theorem freshKey_append (cb : String) (k : GoValue) (a b : List GoValue) :
    freshKey cb k (a ++ b) = (freshKey cb k a && freshKey cb k b) := by
  simp [freshKey, List.all_append]

theorem distinctKeys_replace (cb : String) (x x' v' k' : GoValue) (post : List GoValue)
    (hx' : keyOf cb x' = some (v', k')) :
    ∀ (pre : List GoValue), distinctKeys cb (pre ++ x :: post) = true →
      freshKey cb k' (pre ++ x :: post) = true → distinctKeys cb (pre ++ x' :: post) = true := by
  intro pre
  induction pre with
  | nil =>
    intro hd hf
    simp only [List.nil_append, distinctKeys, Bool.and_eq_true] at hd ⊢
    simp only [List.nil_append, freshKey_cons, Bool.and_eq_true] at hf
    exact ⟨by simpa [hx'] using hf.2, hd.2⟩
  | cons y pre ih =>
    intro hd hf
    simp only [List.cons_append, distinctKeys, Bool.and_eq_true, List.append_eq] at hd ⊢
    simp only [List.cons_append, freshKey_cons, Bool.and_eq_true] at hf
    refine ⟨?_, ih hd.2 hf.2⟩
    cases hy : keyOf cb y with
    | none => simp [hy] at hd
    | some p =>
      obtain ⟨vy, ky⟩ := p
      have h1 := hd.1
      have h2 := hf.1
      simp only [hy, freshKey_append, freshKey_cons, Bool.and_eq_true] at h1 h2 ⊢
      refine ⟨h1.1, ?_, h1.2.2⟩
      simp only [hx', Bool.and_eq_true]
      exact ⟨h2.2, h2.1⟩

theorem fresh_of_distinct (cb : String) (x vx kx : GoValue) (post : List GoValue)
    (hx : keyOf cb x = some (vx, kx)) :
    ∀ (pre : List GoValue), distinctKeys cb (pre ++ x :: post) = true →
      freshKey cb kx (pre ++ post) = true := by
  intro pre
  induction pre with
  | nil =>
    intro hd
    simp only [List.nil_append, distinctKeys, Bool.and_eq_true] at hd
    simpa [hx] using hd.1
  | cons y pre ih =>
    intro hd
    simp only [List.cons_append, distinctKeys, Bool.and_eq_true, List.append_eq] at hd
    simp only [List.cons_append, freshKey_cons, Bool.and_eq_true]
    refine ⟨?_, ih hd.2⟩
    cases hy : keyOf cb y with
    | none => simp [hy] at hd
    | some p =>
      obtain ⟨vy, ky⟩ := p
      have h1 := hd.1
      simp only [hy, freshKey_append, freshKey_cons, hx, Bool.and_eq_true] at h1
      simp only [Bool.and_eq_true]
      exact ⟨h1.2.1.2, h1.2.1.1⟩

/-- Renaming the key of one element of a self-comparable keyed sequence to a fresh value:
the whole of `compareBySlice` writes one Add (new key selector) and one Del (old key
selector, with the old record) and nothing else. -/
theorem compareBySlice_rename (ff : Fmt) (fuel : Nat) (k p : String)
    (diff : DiffDetails) (t u : GoType) (pre post : List GoValue) (x x' vx kx v' k' : GoValue)
    (hk : k ≠ "" ∧ k ≠ "-")
    (hself : selfComparable (fuel + 1) k false (.slice u (pre ++ x :: post)) = true)
    (hx : keyOf k x = some (vx, kx)) (hx' : keyOf k x' = some (v', k'))
    (hfresh : freshKey k k' (pre ++ x :: post) = true) :
    compareBySlice ff (compare ff fuel) (.slice t (pre ++ x' :: post))
        (.slice u (pre ++ x :: post)) k false p diff =
      .ok ((diff.setAdd (selector p k (keyText ff k')) none).setDel
        (selector p k (keyText ff kx)) (some vx)) := by
  have hk1 : (k == "-") = false := by simp [hk.2]
  have hk2 : (k == "") = false := by simp [hk.1]
  rw [selfComparable] at hself
  simp only [hk1, hk2, Bool.false_or, Bool.false_eq_true, if_false] at hself
  obtain ⟨hdO, hallO⟩ := selfComparable_keyed fuel k _ hself
  have hgoodO := distinctKeys_good k _ hdO
  have hdN := distinctKeys_replace k x x' v' k' post hx' pre hdO hfresh
  have hgoodN := distinctKeys_good k _ hdN
  have hsO : seqItems (.slice u (pre ++ x :: post)) = .ok (pre ++ x :: post) := rfl
  have hsN : seqItems (.slice t (pre ++ x' :: post)) = .ok (pre ++ x' :: post) := rfl
  -- the unchanged elements
  have hsame : ∀ e, e ∈ pre ∨ e ∈ post → ∃ v kv, keyOf k e = some (v, kv) ∧
      findByKey k kv (pre ++ x :: post) = some v ∧
      findByKey k kv (pre ++ x' :: post) = some v ∧
      compare ff fuel "" "" false {} v v = .ok {} := by
    intro e he
    have heO : e ∈ pre ++ x :: post := by
      rcases he with h | h <;> simp [h]
    have heN : e ∈ pre ++ x' :: post := by
      rcases he with h | h <;> simp [h]
    obtain ⟨v, kv, hke, hkk, hv⟩ := hallO e heO
    exact ⟨v, kv, hke, findByKey_self k _ hdO e v kv heO hke hkk,
      findByKey_self k _ hdN e v kv heN hke hkk, compare_self ff fuel "" false v "" {} hv⟩
  have hnewStep : ∀ d e, e ∈ pre ∨ e ∈ post →
      stepNew ff (compare ff fuel) (.slice u (pre ++ x :: post)) k false p d e = .ok d := by
    intro d e he
    obtain ⟨v, kv, hke, hfO, -, hcmp⟩ := hsame e he
    exact stepNew_matched_empty ff _ _ _ k false p d e v kv v hsO hgoodO hke hfO hcmp
  have holdStep : ∀ d e, e ∈ pre ∨ e ∈ post →
      stepOld ff (.slice t (pre ++ x' :: post)) k p d e = .ok d := by
    intro d e he
    obtain ⟨v, kv, hke, -, hfN, -⟩ := hsame e he
    rw [stepOld_good ff _ _ k p d e v kv hsN hgoodN hke, hfN]
  -- the renamed element
  have hnewX : ∀ d, stepNew ff (compare ff fuel) (.slice u (pre ++ x :: post)) k false p d x' =
      .ok (d.setAdd (selector p k (keyText ff k')) none) := fun d =>
    stepNew_unmatched ff _ _ _ k false p d x' v' k' hsO hgoodO hx'
      (findByKey_fresh k k' _ hfresh)
  have hfreshX : freshKey k kx (pre ++ x' :: post) = true := by
    have h1 := fresh_of_distinct k x vx kx post hx pre hdO
    have h2 : freshKey k k' (x :: post) = true := by
      rw [freshKey_append, Bool.and_eq_true] at hfresh
      exact hfresh.2
    rw [freshKey_cons, hx, Bool.and_eq_true, Bool.and_eq_true] at h2
    rw [freshKey_append, Bool.and_eq_true] at h1 ⊢
    refine ⟨h1.1, ?_⟩
    rw [freshKey_cons, hx', Bool.and_eq_true, Bool.and_eq_true]
    exact ⟨⟨h2.1.2, h2.1.1⟩, h1.2⟩
  have holdX : ∀ d, stepOld ff (.slice t (pre ++ x' :: post)) k p d x =
      .ok (d.setDel (selector p k (keyText ff kx)) (some vx)) := by
    intro d
    rw [stepOld_good ff _ _ k p d x vx kx hsN hgoodN hx, findByKey_fresh k kx _ hfreshX]
  have hloop1 : (pre ++ x' :: post).foldlM
      (stepNew ff (compare ff fuel) (.slice u (pre ++ x :: post)) k false p) diff =
      .ok (diff.setAdd (selector p k (keyText ff k')) none) := by
    rw [List.foldlM_append, foldlM_fixed _ pre diff (fun e he => hnewStep diff e (Or.inl he)),
      ok_bind, List.foldlM_cons, hnewX, ok_bind]
    exact foldlM_fixed _ post _ (fun e he => hnewStep _ e (Or.inr he))
  have hloop2 : ∀ d, (pre ++ x :: post).foldlM
      (stepOld ff (.slice t (pre ++ x' :: post)) k p) d =
      .ok (d.setDel (selector p k (keyText ff kx)) (some vx)) := by
    intro d
    rw [List.foldlM_append, foldlM_fixed _ pre d (fun e he => holdStep d e (Or.inl he)),
      ok_bind, List.foldlM_cons, holdX, ok_bind]
    exact foldlM_fixed _ post _ (fun e he => holdStep _ e (Or.inr he))
  simp only [compareBySlice, checkedItems, ok_bind, hloop1, hsO, hloop2]

theorem nestedOk_spec (ff : Fmt) (fuel : Nat) (comparedby : String)
    (oldEs : List GoValue) (x : GoValue) (h : nestedOk ff fuel comparedby oldEs x = true) :
    keyOf comparedby x ≠ none ∧
    ∀ v kv f, keyOf comparedby x = some (v, kv) → findByKey comparedby kv oldEs = some f →
      ∃ tmp, compare ff fuel "" "" false {} v f = .ok tmp := by
  unfold nestedOk at h
  cases hk : keyOf comparedby x with
  | none => simp [hk] at h
  | some p =>
    obtain ⟨v, kv⟩ := p
    refine ⟨by simp, ?_⟩
    intro v' kv' f hk' hf
    simp only [Option.some.injEq, Prod.mk.injEq] at hk'
    obtain ⟨rfl, rfl⟩ := hk'
    simp only [hk, hf] at h
    cases hc : compare ff fuel "" "" false {} v f with
    | error e => simp [hc] at h
    | ok tmp => exact ⟨tmp, rfl⟩

/-- C5 (as amended): a keyed sequence at path `p` with key field `k` in recursive mode, all
elements accepted by `compareBySlice`, nested comparisons of matched elements returning, and
old elements with pairwise distinct key texts.  The comparison succeeds; every new element
whose key matches no old element has Add[`p.#(k==text)`] = nil; every old element whose key
matches no new element has Del[`p.#(k==text)`] = that old record; every Change entry that
was not there before lies below the selector of a new element (`p.#(k==text).q`), none at a
selector itself.  And renaming the key of one element of a self-comparable sequence to a
fresh value gives exactly one Add (new key selector) plus one Del (old key selector) and
nothing else. -/
theorem C5_keyed_add_del (ff : Fmt) (fuel : Nat) (new old : GoValue)
    (newEs oldEs : List GoValue) (k p : String) (diff : DiffDetails)
    (t u : GoType) (pre post : List GoValue) (x x' vx kx v' k' : GoValue)
    (hnew : checkedItems new = .ok newEs) (hold : seqItems old = .ok oldEs)
    (hgn : ∀ e ∈ newEs, nestedOk ff fuel k oldEs e = true)
    (hgo : ∀ y ∈ oldEs, (keyOf k y).isSome = true)
    (hdist : (oldEs.map (elemText ff k)).Nodup)
    (hk : k ≠ "" ∧ k ≠ "-")
    (hself : selfComparable (fuel + 1) k false (.slice u (pre ++ x :: post)) = true)
    (hx : keyOf k x = some (vx, kx)) (hx' : keyOf k x' = some (v', k'))
    (hfresh : freshKey k k' (pre ++ x :: post) = true) :
    (∃ r, compareBySlice ff (compare ff fuel) new old k false p diff = .ok r ∧
      (∀ e ∈ newEs, ∀ v kv, keyOf k e = some (v, kv) → findByKey k kv oldEs = none →
        (entries r.Add).get (selector p k (keyText ff kv)) = some none) ∧
      (∀ y ∈ oldEs, ∀ w kw, keyOf k y = some (w, kw) → findByKey k kw newEs = none →
        (entries r.Del).get (selector p k (keyText ff kw)) = some (some w)) ∧
      (∀ path val, (entries r.Change).get path = some val →
        (entries diff.Change).get path = some val ∨
        ∃ e ∈ newEs, ∃ v kv q, keyOf k e = some (v, kv) ∧
          path = selector p k (keyText ff kv) ++ "." ++ q)) ∧
    compareBySlice ff (compare ff fuel) (.slice t (pre ++ x' :: post))
        (.slice u (pre ++ x :: post)) k false p diff =
      .ok ((diff.setAdd (selector p k (keyText ff k')) none).setDel
        (selector p k (keyText ff kx)) (some vx)) := by
  refine ⟨?_, compareBySlice_rename ff fuel k p diff t u pre post x x' vx kx v' k' hk hself hx
    hx' hfresh⟩
  have hgoodN : ∀ e ∈ newEs, keyOf k e ≠ none := fun e he => (nestedOk_spec _ _ _ _ _ (hgn e he)).1
  have hgoodO : ∀ y ∈ oldEs, keyOf k y ≠ none := by
    intro y hy h0
    have := hgo y hy
    simp [h0] at this
  have hsN := seqItems_of_checkedItems new newEs hnew
  obtain ⟨r1, h1⟩ := foldlM_ok (stepNew ff (compare ff fuel) old k false p) newEs
    (fun d e he => stepNew_good_ok ff _ old oldEs k p d e hold hgoodO (hgoodN e he)
      (nestedOk_spec _ _ _ _ _ (hgn e he)).2) diff
  obtain ⟨r, h2, hD, hA, hC⟩ := oldLoop ff new newEs k p hsN hgoodN oldEs hgoodO r1
  refine ⟨r, by simp [compareBySlice, hnew, h1, hold, h2], ?_, ?_, ?_⟩
  · intro e he v kv hke hfind
    rw [hA]
    exact newLoop_add ff fuel old oldEs k p hold hgoodO newEs diff r1 h1 e v kv he hke hfind
  · intro y hy w kw hky hfind
    rw [hD, PathMap.get_setAll]
    have hnd := seqDels_nodup ff k p newEs oldEs hdist
    have hnd' : ((seqDels ff k p newEs oldEs).reverse.map Prod.fst).Nodup := by
      rw [List.map_reverse]; exact List.nodup_reverse.mpr hnd
    have hmem : (selector p k (keyText ff kw), some w) ∈ (seqDels ff k p newEs oldEs).reverse := by
      rw [List.mem_reverse]
      exact List.mem_filterMap.mpr ⟨y, hy, by simp [hky, hfind]⟩
    rw [PathMap.get_eq_some_of_mem _ _ _ hnd' hmem]
    rfl
  · rw [hC]
    exact newLoop_change ff _ old oldEs k p hold hgoodO newEs newEs (fun _ h => h) hgoodN diff
      diff r1 h1 (fun path val h => Or.inl h)

/-- C5, counterexample: the old sequence holds two elements with the key `Math` and the new
sequence is empty.  Both old elements match no new element, but Del at their common selector
holds only the second: the first old element {Math,80} is not recorded. -/
theorem C5_counterexample :
    Diff ffNone 4 (roster []) (roster [subject "Math" f80, subject "Math" f88]) =
      .ok { Del := some [("Subjects.#(Name==\"Math\")", some (subject "Math" f88))] } := by
  decide

theorem C5_keyed_add_del_witness :
    (checkedItems (subjectSeq [subject "Math" f88, subject "English" f88]) =
       .ok [subject "Math" f88, subject "English" f88] ∧
     seqItems (subjectSeq [subject "Math" f80, subject "Geography" f80]) =
       .ok [subject "Math" f80, subject "Geography" f80] ∧
     (∀ e ∈ [subject "Math" f88, subject "English" f88],
       nestedOk ffNone 2 "Name" [subject "Math" f80, subject "Geography" f80] e = true) ∧
     (∀ y ∈ [subject "Math" f80, subject "Geography" f80], (keyOf "Name" y).isSome = true) ∧
     ([subject "Math" f80, subject "Geography" f80].map (elemText ffNone "Name")).Nodup ∧
     ("Name" ≠ "" ∧ "Name" ≠ "-") ∧
     selfComparable (2 + 1) "Name" false
       (.slice (.slice "" tSubject)
         ([subject "Math" f80] ++ (subject "Geography" f80) :: [])) = true ∧
     keyOf "Name" (subject "Geography" f80) =
       some ((subject "Geography" f80), str "Geography") ∧
     keyOf "Name" (subject "English" f80) = some ((subject "English" f80), str "English") ∧
     freshKey "Name" (str "English")
       ([subject "Math" f80] ++ (subject "Geography" f80) :: []) = true) ∧
    ((∃ r, compareBySlice ffNone (compare ffNone 2)
        (subjectSeq [subject "Math" f88, subject "English" f88])
        (subjectSeq [subject "Math" f80, subject "Geography" f80])
        "Name" false "Subjects1" {} = .ok r ∧
      (∀ e ∈ [subject "Math" f88, subject "English" f88], ∀ v kv,
        keyOf "Name" e = some (v, kv) →
        findByKey "Name" kv [subject "Math" f80, subject "Geography" f80] = none →
        (entries r.Add).get (selector "Subjects1" "Name" (keyText ffNone kv)) = some none) ∧
      (∀ y ∈ [subject "Math" f80, subject "Geography" f80], ∀ w kw,
        keyOf "Name" y = some (w, kw) →
        findByKey "Name" kw [subject "Math" f88, subject "English" f88] = none →
        (entries r.Del).get (selector "Subjects1" "Name" (keyText ffNone kw)) =
          some (some w)) ∧
      (∀ path val, (entries r.Change).get path = some val →
        (entries ({} : DiffDetails).Change).get path = some val ∨
        ∃ e ∈ [subject "Math" f88, subject "English" f88], ∃ v kv q,
          keyOf "Name" e = some (v, kv) ∧
          path = selector "Subjects1" "Name" (keyText ffNone kv) ++ "." ++ q)) ∧
    compareBySlice ffNone (compare ffNone 2)
        (.slice (.slice "" tSubject) ([subject "Math" f80] ++ (subject "English" f80) :: []))
        (.slice (.slice "" tSubject) ([subject "Math" f80] ++ (subject "Geography" f80) :: []))
        "Name" false "Subjects1" {} =
      .ok ((({} : DiffDetails).setAdd
          (selector "Subjects1" "Name" (keyText ffNone (str "English"))) none).setDel
        (selector "Subjects1" "Name" (keyText ffNone (str "Geography")))
        (some (subject "Geography" f80)))) :=
  ⟨⟨by decide, by decide, by decide, by decide, by decide, by decide, by decide, by decide,
     by decide, by decide⟩,
   C5_keyed_add_del ffNone 2
     (subjectSeq [subject "Math" f88, subject "English" f88])
     (subjectSeq [subject "Math" f80, subject "Geography" f80])
     [subject "Math" f88, subject "English" f88] [subject "Math" f80, subject "Geography" f80]
     "Name" "Subjects1" {} (.slice "" tSubject) (.slice "" tSubject)
     [subject "Math" f80] [] (subject "Geography" f80) (subject "English" f80)
     (subject "Geography" f80) (str "Geography") (subject "English" f80) (str "English")
     (by decide) (by decide) (by decide) (by decide) (by decide) (by decide) (by decide)
     (by decide) (by decide) (by decide)⟩

/-! ### More fuel does not change an outcome -/

theorem FuelLe.refl {α : Type} (r : Res α) : FuelLe r r := Or.inr rfl

theorem FuelLe.bind {α β : Type} (m m' : Res α) (f f' : α → Res β)
    (hm : FuelLe m m') (hf : ∀ a, FuelLe (f a) (f' a)) : FuelLe (m >>= f) (m' >>= f') := by
  rcases hm with hm | hm
  · left; rw [hm]; rfl
  · subst hm
    cases m with
    | error e => right; rfl
    | ok a => exact hf a

theorem FuelLe.foldlM {α : Type} (step step' : DiffDetails → α → Res DiffDetails)
    (l : List α) (h : ∀ d x, FuelLe (step d x) (step' d x)) (d : DiffDetails) :
    FuelLe (l.foldlM step d) (l.foldlM step' d) := by
  induction l generalizing d with
  | nil => exact FuelLe.refl _
  | cons x l ih =>
    simp only [List.foldlM_cons]
    exact FuelLe.bind _ _ _ _ (h d x) ih

theorem toString_le (ff : Fmt) (fuel : Nat) (v : GoValue) :
    FuelLe (toString ff fuel v) (toString ff (fuel + 1) v) := by
  induction fuel with
  | zero => left; rfl
  | succ n ih =>
    cases v with
    | ptr t e => simpa [toString] using ih
    | nilPtr t => simpa [toString] using ih
    | _ => right; rfl

theorem deepEqual_le (cmp cmp' : Cmp)
    (h : ∀ key cb d diff new old, FuelLe (cmp key cb d diff new old) (cmp' key cb d diff new old))
    (new old : GoValue) : FuelLe (deepEqual cmp new old) (deepEqual cmp' new old) := by
  unfold deepEqual diffWith
  exact FuelLe.bind _ _ _ _ (h _ _ _ _ _ _) (fun _ => FuelLe.refl _)

theorem stepNew_le (ff : Fmt) (cmp cmp' : Cmp)
    (h : ∀ key cb d diff new old, FuelLe (cmp key cb d diff new old) (cmp' key cb d diff new old))
    (old : GoValue) (comparedby : String) (isDirect : Bool) (key : String) (d : DiffDetails)
    (x : GoValue) :
    FuelLe (stepNew ff cmp old comparedby isDirect key d x)
      (stepNew ff cmp' old comparedby isDirect key d x) := by
  unfold stepNew
  refine FuelLe.bind _ _ _ _ (FuelLe.refl _) (fun value => ?_)
  refine FuelLe.bind _ _ _ _ (FuelLe.refl _) (fun oldElement => ?_)
  refine FuelLe.bind _ _ _ _ (FuelLe.refl _) (fun field => ?_)
  dsimp only
  split
  · exact Or.inr rfl
  refine FuelLe.bind _ _ _ _ (FuelLe.refl _) (fun _ => ?_)
  refine FuelLe.bind _ _ _ _ (FuelLe.refl _) (fun cv => ?_)
  cases oldElement with
  | none => exact FuelLe.refl _
  | some f =>
    simp only
    split
    · split
      · exact FuelLe.bind _ _ _ _ (deepEqual_le cmp cmp' h _ _) (fun _ => FuelLe.refl _)
      · exact FuelLe.bind _ _ _ _ (h _ _ _ _ _ _) (fun _ => FuelLe.refl _)
    · exact FuelLe.refl _

theorem compareBySlice_le (ff : Fmt) (cmp cmp' : Cmp)
    (h : ∀ key cb d diff new old, FuelLe (cmp key cb d diff new old) (cmp' key cb d diff new old))
    (new old : GoValue) (comparedby : String) (isDirect : Bool) (key : String)
    (d : DiffDetails) :
    FuelLe (compareBySlice ff cmp new old comparedby isDirect key d)
      (compareBySlice ff cmp' new old comparedby isDirect key d) := by
  unfold compareBySlice
  refine FuelLe.bind _ _ _ _ (FuelLe.refl _) (fun items => ?_)
  refine FuelLe.bind _ _ _ _ ?_ (fun _ => FuelLe.refl _)
  exact FuelLe.foldlM _ _ items (fun d x => stepNew_le ff cmp cmp' h old comparedby isDirect key d x) d

theorem compareFields_le (cmp cmp' : Cmp)
    (h : ∀ key cb d diff new old, FuelLe (cmp key cb d diff new old) (cmp' key cb d diff new old))
    (key : String) (old : GoValue) (fs : List (StructField × GoValue)) (i : Nat)
    (d : DiffDetails) :
    FuelLe (compareFields cmp key old i fs d) (compareFields cmp' key old i fs d) := by
  induction fs generalizing i d with
  | nil => exact FuelLe.refl _
  | cons f rest ih =>
    unfold compareFields
    split
    · exact ih _ _
    · dsimp only
      refine FuelLe.bind _ _ _ _ (FuelLe.refl _) (fun oldField => ?_)
      exact FuelLe.bind _ _ _ _ (h _ _ _ _ _ _) (fun d' => ih _ d')

theorem stepMapNew_le (ff : Fmt) (fuel : Nat) (cmp cmp' : Cmp)
    (h : ∀ key cb d diff new old, FuelLe (cmp key cb d diff new old) (cmp' key cb d diff new old))
    (old : GoValue) (key comparedby : String) (isDirect : Bool) (d : DiffDetails)
    (e : GoValue × GoValue) :
    FuelLe (stepMapNew ff fuel cmp old key comparedby isDirect d e)
      (stepMapNew ff (fuel + 1) cmp' old key comparedby isDirect d e) := by
  unfold stepMapNew
  refine FuelLe.bind _ _ _ _ (toString_le ff fuel e.1) (fun name => ?_)
  refine FuelLe.bind _ _ _ _ (FuelLe.refl _) (fun ov => ?_)
  cases ov with
  | none => exact FuelLe.refl _
  | some v => exact h _ _ _ _ _ _

theorem stepMapOld_le (ff : Fmt) (fuel : Nat) (new : GoValue) (key : String)
    (d : DiffDetails) (e : GoValue × GoValue) :
    FuelLe (stepMapOld ff fuel new key d e) (stepMapOld ff (fuel + 1) new key d e) := by
  unfold stepMapOld
  exact FuelLe.bind _ _ _ _ (toString_le ff fuel e.1) (fun name => FuelLe.refl _)

/-- One more unit of fuel leaves every outcome of `compare` as it is, except running out of
fuel. -/
theorem compare_le (ff : Fmt) :
    ∀ (fuel : Nat) (key cb : String) (isDirect : Bool) (d : DiffDetails) (new old : GoValue),
      FuelLe (compare ff fuel key cb isDirect d new old)
        (compare ff (fuel + 1) key cb isDirect d new old) := by
  intro fuel
  induction fuel with
  | zero => intro key cb isDirect d new old; left; rfl
  | succ n ih =>
    intro key cb isDirect d new old
    by_cases hcb : cb = "-"
    · right; rw [hcb, compare_excluded, compare_excluded]
    by_cases hname : new.typeName = old.typeName
    swap
    · right
      rw [compare_name_mismatch ff _ key cb isDirect d new old hcb hname,
        compare_name_mismatch ff _ key cb isDirect d new old hcb hname]
    cases new with
    | scalar t s => right; simp [compare]
    | ptr t e =>
      cases old with
      | ptr u f => simpa [compare, hcb, hname] using ih key cb isDirect d e f
      | _ => right; simp [compare, hcb, hname]
    | nilPtr t => cases old <;> right <;> simp [compare, hcb, hname]
    | nilSlice t =>
      by_cases hc : cb = ""
      · right; simp [compare, hc]
      · simpa [compare, hcb, hname, hc] using
          compareBySlice_le ff _ _ ih (.nilSlice t) old cb isDirect key d
    | slice t es =>
      by_cases hc : cb = ""
      · right; simp [compare, hc]
      · simpa [compare, hcb, hname, hc] using
          compareBySlice_le ff _ _ ih (.slice t es) old cb isDirect key d
    | array t es =>
      by_cases hc : cb = ""
      · right; simp [compare, hc]
      · simpa [compare, hcb, hname, hc] using
          compareBySlice_le ff _ _ ih (.array t es) old cb isDirect key d
    | struct t fs =>
      cases isDirect
      · simpa [compare, hcb, hname] using compareFields_le _ _ ih key old fs 0 d
      · simp only [compare, hcb, hname, if_false, ne_eq, not_true_eq_false, if_true]
        exact FuelLe.bind _ _ _ _ (deepEqual_le _ _ ih _ _) (fun _ => FuelLe.refl _)
    | map t es =>
      by_cases hc : cb = ""
      · subst hc
        cases h0 : mapRange old with
        | error e =>
          right
          cases old <;> simp [mapRange] at h0 <;> simp [compare, hname, mapRange]
        | ok oldEs =>
          rw [compare_map ff n key isDirect d (.map t es) old es oldEs rfl h0 hname,
            compare_map ff (n + 1) key isDirect d (.map t es) old es oldEs rfl h0 hname]
          refine FuelLe.bind _ _ _ _ ?_ (fun d' => ?_)
          · exact FuelLe.foldlM _ _ es
              (fun d x => stepMapNew_le ff n _ _ ih old key "" isDirect d x) d
          · exact FuelLe.foldlM _ _ oldEs (fun d x => stepMapOld_le ff n _ key d x) d'
      · right; simp [compare, hcb, hname, hc]
    | nilMap t =>
      by_cases hc : cb = ""
      · subst hc
        cases h0 : mapRange old with
        | error e =>
          right
          cases old <;> simp [mapRange] at h0 <;> simp [compare, hname, mapRange]
        | ok oldEs =>
          rw [compare_map ff n key isDirect d (.nilMap t) old [] oldEs rfl h0 hname,
            compare_map ff (n + 1) key isDirect d (.nilMap t) old [] oldEs rfl h0 hname]
          refine FuelLe.bind _ _ _ _ (FuelLe.refl _) (fun d' => ?_)
          exact FuelLe.foldlM _ _ oldEs (fun d x => stepMapOld_le ff n _ key d x) d'
      · right; simp [compare, hcb, hname, hc]

/-- An outcome of `compare` other than running out of fuel is the outcome with any larger
fuel. -/
theorem compare_mono (ff : Fmt) (fuel : Nat) (key cb : String) (isDirect : Bool)
    (d : DiffDetails) (new old : GoValue) (res : Res DiffDetails)
    (h : compare ff fuel key cb isDirect d new old = res) (hres : res ≠ .error .outOfFuel)
    (fuel' : Nat) (hle : fuel ≤ fuel') : compare ff fuel' key cb isDirect d new old = res := by
  induction fuel' with
  | zero =>
    have : fuel = 0 := Nat.le_zero.mp hle
    subst this; exact h
  | succ m ih =>
    by_cases hm : fuel ≤ m
    · rcases compare_le ff m key cb isDirect d new old with h1 | h1
      · rw [ih hm] at h1; exact absurd h1 hres
      · rw [← h1]; exact ih hm
    · have : fuel = m + 1 := by omega
      subst this; exact h

/-- A result or failure of `Diff` obtained within some fuel is the outcome with any larger
fuel. -/
theorem Diff_mono (ff : Fmt) (fuel : Nat) (new old : GoValue)
    (res : Res DiffDetails) (h : Diff ff fuel new old = res) (hres : res ≠ .error .outOfFuel)
    (fuel' : Nat) (hle : fuel ≤ fuel') : Diff ff fuel' new old = res :=
  compare_mono ff fuel "" "" false {} new old res h hres fuel' hle

/-! ### The end-to-end test and the comparison of a value with itself -/

theorem student_diff_at (ff : Fmt) :
    Diff ff 5 newStudent oldStudent = .ok
      { Change := some
          [("Subjects1.#(Name==\"Math\").Score", some f80),
           ("Subjects2", some (subjects [subjectPtr "Math" f80, subjectPtr "Geography" f80])),
           ("Contacts1", some (contacts "12345678")),
           ("Contacts2.Phone", some (str "12345678"))],
        Del := some [("Subjects1.#(Name==\"Geography\")", some (subject "Geography" f80))],
        Add := some [("Subjects1.#(Name==\"English\")", none)] } := by
  exact of_decide_eq_true (by rfl)

/-- C2: on the Student values of `TestCompare`, `Diff(newStudent, oldStudent)` succeeds
(with any fuel from 5 on) and its result is exactly the four Change entries, the one Del
entry and the one Add entry of the claim, whatever the float formatter (the entries of each
map stand in the order in which they are written). -/
theorem C2_student_diff (ff : Fmt) (fuel : Nat) (hfuel : 5 ≤ fuel) :
    Diff ff fuel newStudent oldStudent = .ok
      { Change := some
          [("Subjects1.#(Name==\"Math\").Score", some f80),
           ("Subjects2", some (subjects [subjectPtr "Math" f80, subjectPtr "Geography" f80])),
           ("Contacts1", some (contacts "12345678")),
           ("Contacts2.Phone", some (str "12345678"))],
        Del := some [("Subjects1.#(Name==\"Geography\")", some (subject "Geography" f80))],
        Add := some [("Subjects1.#(Name==\"English\")", none)] } :=
  Diff_mono ff 5 newStudent oldStudent _ (student_diff_at ff) (by simp) fuel hfuel

theorem C2_student_diff_witness :
    5 ≤ 8 ∧
    Diff ffNone 8 newStudent oldStudent = .ok
      { Change := some
          [("Subjects1.#(Name==\"Math\").Score", some f80),
           ("Subjects2", some (subjects [subjectPtr "Math" f80, subjectPtr "Geography" f80])),
           ("Contacts1", some (contacts "12345678")),
           ("Contacts2.Phone", some (str "12345678"))],
        Del := some [("Subjects1.#(Name==\"Geography\")", some (subject "Geography" f80))],
        Add := some [("Subjects1.#(Name==\"English\")", none)] } :=
  ⟨by decide, C2_student_diff ffNone 8 (by decide)⟩

/-- C1 (as amended): for every self-comparable value `x` (see `selfComparable`: no NaN,
accepted keyed sequences with pairwise distinct keys, scalar map keys, no annotation on
scalars and maps), `Diff(x, x)` returns no error and a result in which Change, Add and Del
are all empty, with the fuel of the check and with any larger fuel. -/
theorem C1_diff_self_empty (ff : Fmt) (fuel : Nat) (x : GoValue)
    (h : selfComparable fuel "" false x = true) (fuel' : Nat) (hle : fuel ≤ fuel') :
    Diff ff fuel' x x = .ok {} :=
  Diff_mono ff fuel x x _ (compare_self ff fuel "" false x "" {} h) (by simp) fuel' hle

theorem C1_diff_self_empty_witness :
    (selfComparable 5 "" false oldStudent = true ∧ 5 ≤ 6) ∧
    Diff ffNone 6 oldStudent oldStudent = .ok {} :=
  ⟨⟨by decide, by decide⟩, C1_diff_self_empty ffNone 5 oldStudent (by decide) 6 (by decide)⟩

/-! ### Annotations on record, scalar and map fields -/

theorem compareFields_cons (cmp : Cmp) (key : String) (old : GoValue) (i : Nat)
    (f : StructField × GoValue) (rest : List (StructField × GoValue)) (d : DiffDetails)
    (hexp : f.1.Exported = true) :
    compareFields cmp key old i (f :: rest) d =
      (fieldAt old i >>= fun oldField =>
        cmp (generate key f.1.Name) (parseTag f.1.Tag).1 (parseTag f.1.Tag).2 d f.2 oldField >>=
          fun d' => compareFields cmp key old (i + 1) rest d') := by
  simp [compareFields, hexp]

theorem compareFields_append (cmp : Cmp) (key : String) (old : GoValue) :
    ∀ (pre : List (StructField × GoValue)) (i : Nat) (rest : List (StructField × GoValue))
      (d : DiffDetails),
      compareFields cmp key old i (pre ++ rest) d =
        (compareFields cmp key old i pre d >>= fun d' =>
          compareFields cmp key old (i + pre.length) rest d')
  | [], i, rest, d => by simp [compareFields]
  | f :: pre, i, rest, d => by
      cases hexp : f.1.Exported
      · simp only [List.cons_append, compareFields, hexp, Bool.not_false, if_true,
          List.length_cons]
        have ih := compareFields_append cmp key old pre (i + 1) rest d
        simp only [Nat.add_assoc, Nat.add_comm 1] at ih ⊢
        exact ih
      · rw [List.cons_append, compareFields_cons _ _ _ _ _ _ _ hexp,
          compareFields_cons _ _ _ _ _ _ _ hexp]
        cases fieldAt old i with
        | error e => rfl
        | ok oldField =>
          simp only [ok_bind]
          cases cmp (generate key f.1.Name) (parseTag f.1.Tag).1 (parseTag f.1.Tag).2 d f.2
            oldField with
          | error e => rfl
          | ok d1 =>
            simp only [ok_bind, List.length_cons]
            rw [compareFields_append cmp key old pre (i + 1) rest d1]
            simp [Nat.add_assoc, Nat.add_comm 1]

/-- C11 (as amended): the annotation that selects Direct mode on a record field is `,direct`
(an empty key field, a comma, `direct`): `parseTag` gives no key field and direct mode, and
the field loop of `compare` then records a difference inside the field as the one entry
`Change[path of the field] = old value of the field`, and nothing when the nested comparison
finds no difference.  A bare `direct` has no comma: `parseTag` returns it as the key field
with direct mode off, and on a record `compare` goes through the fields one by one. -/
theorem C11_direct_annotation (ff : Fmt) (fuel : Nat) (key : String) (i : Nat)
    (f : StructField × GoValue) (rest : List (StructField × GoValue))
    (oldRec oldField : GoValue) (diff : DiffDetails) (t : GoType)
    (fs : List (StructField × GoValue)) (r : DiffDetails)
    (hexp : f.1.Exported = true) (htag : f.1.Tag = ",direct") (hval : f.2 = .struct t fs)
    (hold : fieldAt oldRec i = .ok oldField) (hname : f.2.typeName = oldField.typeName)
    (hsub : Diff ff fuel f.2 oldField = .ok r) :
    parseTag ",direct" = ("", true) ∧
    compareFields (compare ff (fuel + 1)) key oldRec i (f :: rest) diff =
      compareFields (compare ff (fuel + 1)) key oldRec (i + 1) rest
        (if r.isEmpty then diff else diff.setChange (generate key f.1.Name) (some oldField)) ∧
    parseTag "direct" = ("direct", false) ∧
    compare ff (fuel + 1) (generate key f.1.Name) (parseTag "direct").1 (parseTag "direct").2
        diff f.2 oldField =
      compareFields (compare ff fuel) (generate key f.1.Name) oldField 0 fs diff := by
  have hp : parseTag ",direct" = ("", true) := by decide
  have hb : parseTag "direct" = ("direct", false) := by decide
  refine ⟨hp, ?_, hb, ?_⟩
  · rw [compareFields_cons _ _ _ _ _ _ _ hexp, hold, htag, hp]
    simp only [ok_bind]
    rw [hval] at hname hsub ⊢
    rw [compare_struct_direct ff fuel _ "" diff t fs oldField r (by decide) hname hsub]
    rfl
  · rw [hb]
    rw [hval] at hname ⊢
    simp [compare, hname]

theorem C11_direct_annotation_witness :
    ((⟨"Contacts1", true, ",direct"⟩, contacts "123456") :
      StructField × GoValue).1.Exported = true ∧
    ((⟨"Contacts1", true, ",direct"⟩, contacts "123456") :
      StructField × GoValue).1.Tag = ",direct" ∧
    ((⟨"Contacts1", true, ",direct"⟩, contacts "123456") : StructField × GoValue).2 =
      .struct tContacts [(⟨"Phone", true, ""⟩, str "123456")] ∧
    fieldAt (card ",direct" "12345678") 0 = .ok (contacts "12345678") ∧
    (contacts "123456").typeName = (contacts "12345678").typeName ∧
    Diff ffNone 2 (contacts "123456") (contacts "12345678") =
      .ok { Change := some [("Phone", some (str "12345678"))] } ∧
    (parseTag ",direct" = ("", true) ∧
     compareFields (compare ffNone (2 + 1)) "" (card ",direct" "12345678") 0
         [(⟨"Contacts1", true, ",direct"⟩, contacts "123456")] {} =
       compareFields (compare ffNone (2 + 1)) "" (card ",direct" "12345678") (0 + 1) []
         (if ({ Change := some [("Phone", some (str "12345678"))] } : DiffDetails).isEmpty
          then {}
          else ({} : DiffDetails).setChange (generate "" "Contacts1")
            (some (contacts "12345678"))) ∧
     parseTag "direct" = ("direct", false) ∧
     compare ffNone (2 + 1) (generate "" "Contacts1") (parseTag "direct").1
         (parseTag "direct").2 {} (contacts "123456") (contacts "12345678") =
       compareFields (compare ffNone 2) (generate "" "Contacts1") (contacts "12345678") 0
         [(⟨"Phone", true, ""⟩, str "123456")] {}) :=
  ⟨by decide, by decide, by decide, by decide, by decide, by decide,
   C11_direct_annotation ffNone 2 "" 0 (⟨"Contacts1", true, ",direct"⟩, contacts "123456") []
     (card ",direct" "12345678") (contacts "12345678") {} tContacts
     [(⟨"Phone", true, ""⟩, str "123456")]
     { Change := some [("Phone", some (str "12345678"))] }
     (by decide) (by decide) (by decide) (by decide) (by decide) (by decide)⟩

/-- C11, counterexample: `parseTag "direct"` is the key field `direct` with direct mode off,
not direct mode with no key field; and on a record field annotated with a bare `direct` a
difference inside the field is reported at the nested path `Contacts1.Phone`, whereas the
annotation `,direct` reports it at the path `Contacts1` of the field. -/
theorem C11_counterexample :
    parseTag "direct" = ("direct", false) ∧
    Diff ffNone 4 (card "direct" "123456") (card "direct" "12345678") =
      .ok { Change := some [("Contacts1.Phone", some (str "12345678"))] } ∧
    Diff ffNone 4 (card ",direct" "123456") (card ",direct" "12345678") =
      .ok { Change := some [("Contacts1", some (contacts "12345678"))] } := by
  decide
theorem compare_annotated (ff : Fmt) (fuel : Nat) (p cb : String)
    (isDirect : Bool) (diff : DiffDetails) (new old : GoValue)
    (hkind : new.isScalar = true ∨ new.isMap = true)
    (hcb : cb ≠ "" ∧ cb ≠ "-") (hname : new.typeName = old.typeName) :
    compare ff (fuel + 1) p cb isDirect diff new old = .error (.err (.basicTypeComparedby p)) := by
  cases new <;> simp [GoValue.isScalar, GoValue.isMap] at hkind <;>
    simp [compare, hcb.1, hcb.2, hname]

/-- C12 (as amended): a record with an exported field that holds a scalar or a map and whose
annotation has a key-field part (what `parseTag` returns as `comparedby`) that is neither
empty nor `-`: when the fields before it compare without error and the two values of the
field report the same type name, `Diff` fails with the invalid-annotation error naming the
path of the field.  The annotation `,direct` has an empty key-field part. -/
theorem C12_annotated_scalar_or_map (ff : Fmt) (fuel : Nat) (t : GoType)
    (pre post : List (StructField × GoValue)) (f : StructField × GoValue)
    (old oldField : GoValue) (d : DiffDetails)
    (hexp : f.1.Exported = true) (hkind : f.2.isScalar = true ∨ f.2.isMap = true)
    (hcb : (parseTag f.1.Tag).1 ≠ "" ∧ (parseTag f.1.Tag).1 ≠ "-")
    (hname : (GoValue.struct t (pre ++ f :: post)).typeName = old.typeName)
    (hpre : compareFields (compare ff (fuel + 1)) "" old 0 pre {} = .ok d)
    (hold : fieldAt old pre.length = .ok oldField)
    (hfname : f.2.typeName = oldField.typeName) :
    Diff ff (fuel + 2) (.struct t (pre ++ f :: post)) old =
      .error (.err (.basicTypeComparedby f.1.Name)) ∧
    (parseTag ",direct").1 = "" := by
  refine ⟨?_, by decide⟩
  have h1 : Diff ff (fuel + 2) (.struct t (pre ++ f :: post)) old =
      compareFields (compare ff (fuel + 1)) "" old 0 (pre ++ f :: post) {} := by
    simp [Diff, diffWith, compare, hname]
  rw [h1, compareFields_append, hpre]
  simp only [ok_bind, Nat.zero_add]
  rw [compareFields_cons _ _ _ _ _ _ _ hexp, hold]
  simp only [ok_bind]
  rw [compare_annotated ff fuel _ _ _ d f.2 oldField hkind hcb hfname]
  simp [generate]

theorem C12_annotated_scalar_or_map_witness :
    ageField.1.Exported = true ∧
    (ageField.2.isScalar = true ∨ ageField.2.isMap = true) ∧
    ((parseTag ageField.1.Tag).1 ≠ "" ∧ (parseTag ageField.1.Tag).1 ≠ "-") ∧
    (GoValue.struct (.basic "Person")
      ([(⟨"Name", true, ""⟩, str "a")] ++ ageField :: [])).typeName = (person "b").typeName ∧
    compareFields (compare ffNone (0 + 1)) "" (person "b") 0 [(⟨"Name", true, ""⟩, str "a")] {} =
      .ok { Change := some [("Name", some (str "b"))] } ∧
    fieldAt (person "b") [((⟨"Name", true, ""⟩ : StructField), str "a")].length = .ok (int 1) ∧
    ageField.2.typeName = (int 1).typeName ∧
    (Diff ffNone (0 + 2)
        (.struct (.basic "Person") ([(⟨"Name", true, ""⟩, str "a")] ++ ageField :: []))
        (person "b") = .error (.err (.basicTypeComparedby ageField.1.Name)) ∧
     (parseTag ",direct").1 = "") :=
  ⟨by decide, by decide, by decide, by decide, by decide, by decide, by decide,
   C12_annotated_scalar_or_map ffNone 0 (.basic "Person") [(⟨"Name", true, ""⟩, str "a")] []
     ageField (person "b") (int 1) { Change := some [("Name", some (str "b"))] }
     (by decide) (by decide) (by decide) (by decide) (by decide) (by decide) (by decide)⟩

/-- C12, counterexample: the annotation `,direct` on an exported `int` field is non-empty and
is not `-`, yet `Diff` returns no error: the key-field part of the annotation is empty, and
the difference is recorded as usual.  The same holds on a map field. -/
theorem C12_counterexample :
    Diff ffNone 2 (aged ",direct" 1) (aged ",direct" 2) =
      .ok { Change := some [("Age", some (int 2))] } ∧
    Diff ffNone 2
      (.struct (.basic "Book") [(⟨"Tags", true, ",direct"⟩, .nilMap tMapStringInt)])
      (.struct (.basic "Book") [(⟨"Tags", true, ",direct"⟩, .nilMap tMapStringInt)]) =
      .ok {} := by
  decide

/-! ### The values of Add -/

/-- C15: in the result of a successful `Diff` every entry of Add carries the nil value,
whatever wrote it (a map key only in `new`, an unmatched element of a keyed sequence, or the
merge of a nested comparison of two matched elements). -/
theorem C15_add_values_nil (ff : Fmt) (fuel : Nat) (new old : GoValue)
    (r : DiffDetails) (h : Diff ff fuel new old = .ok r) :
    ∀ path v, (entries r.Add).get path = some v → v = none := by
  intro path v hv
  exact Diff_addNil ff fuel new old r h (path, v) (PathMap.mem_of_get_eq_some _ _ _ hv)

theorem C15_add_values_nil_witness :
    Diff ffNone 5 newStudent oldStudent = .ok studentResult ∧
    ∀ path v, (entries studentResult.Add).get path = some v → v = none :=
  ⟨by decide, C15_add_values_nil ffNone 5 newStudent oldStudent studentResult (by decide)⟩

/-! ### The zero test on key fields -/

/-- C16, the code at the failing input: every element is a `Subject` with the exported
string field `Name`, and one key is the empty string.  `getFromSlice` tests the key field
with `IsZero`, so the zero value of the key is reported as a missing key field; the same
happens for the keys `0` and `false`.  A key field that is really absent makes `IsZero`
panic instead. -/
theorem C16_zero_key_rejected :
    getFromSlice (subjectSeq [subject "Math" f80]) (subject "" f88) "Name" =
      .error (.err (.cantFindComparedby "Name")) ∧
    Diff ffNone 4 (roster [subject "" f88]) (roster [subject "Math" f80]) =
      .error (.err (.cantFindComparedby "Name")) ∧
    Diff ffNone 4 (roster [subject "Math" f88]) (roster [subject "" f80]) =
      .error (.err (.cantFindComparedby "Name")) ∧
    sameKey (.struct (.basic "Item") [(⟨"Id", true, ""⟩, int 7)])
      (.struct (.basic "Item") [(⟨"Id", true, ""⟩, int 0)]) "Id" =
      .error (.err (.cantFindComparedby "Id")) ∧
    sameKey (.struct (.basic "Flag") [(⟨"On", true, ""⟩, .scalar (.basic "bool") (.bool true))])
      (.struct (.basic "Flag") [(⟨"On", true, ""⟩, .scalar (.basic "bool") (.bool false))])
      "On" = .error (.err (.cantFindComparedby "On")) ∧
    getFromSlice (subjectSeq [subject "Math" f80]) (subject "Math" f88) "Title" =
      .error .panic := by
  decide

/-- The negative zero is a zero value for `IsZero`, as the positive zero is. -/
theorem negZero_isZero :
    goIsZero (.scalar tFloat64 (.float64 (2 ^ 63))) = true ∧
    goIsZero (.scalar tFloat64 (.float64 0)) = true ∧
    keyOf "Score" (subject "Math" (.scalar tFloat64 (.float64 (2 ^ 63)))) = none := by
  decide

/-! ### The two renderings of a scalar -/

/-- C17 (as amended): for every scalar, `toString` (the text of a map key) is the `%v` text,
and `getComparedValue` (the text of a selector value) is the `%v` text too unless the scalar
is a string, whose `%v` text it encloses in double quotes; so the two agree on booleans,
integers and floats.  On a scalar of a predeclared type the `%v` text is bare (`true`/`false`,
decimal digits, the string itself); on a scalar of a declared type it is what `fmt` prints
for that type, by its `String`, `Error` or `Format` method when it has one. -/
theorem C17_scalar_rendering (ff : Fmt) (fuel : Nat) (t : GoType) (s : Scalar) :
    toString ff (fuel + 1) (.scalar t s) = .ok (fmtV ff t s) ∧
    getComparedValue ff false (.scalar t s) =
      .ok (match s with
        | .str _ => "\"" ++ fmtV ff t s ++ "\""
        | _ => fmtV ff t s) ∧
    ((∀ x, s ≠ .str x) →
      toString ff (fuel + 1) (.scalar t s) = getComparedValue ff false (.scalar t s)) ∧
    (t.isPredeclared = true →
      (∀ b : Bool, s = .bool b → fmtV ff t s = if b then "true" else "false") ∧
      (∀ i : Int, s = .int i → fmtV ff t s = Int.repr i) ∧
      (∀ n : Nat, s = .uint n → fmtV ff t s = Nat.repr n) ∧
      (∀ x : String, s = .str x → fmtV ff t s = x)) ∧
    (t.isPredeclared = false → fmtV ff t s = ff.named t s) := by
  refine ⟨by simp [toString], ?_, ?_, ?_, ?_⟩
  · cases s <;> simp [getComparedValue]
  · intro hs
    cases s <;> simp [toString, getComparedValue]
    exact absurd rfl (hs _)
  · intro ht
    refine ⟨?_, ?_, ?_, ?_⟩ <;> intro x hx <;> subst hx <;> simp [fmtV, ht, payloadText]
  · intro ht
    simp [fmtV, ht]

/-- C17, counterexample: on the string `a` the map-key text is `a`, bare, and the selector
text is `"a"`, in double quotes: the two renderings differ. -/
theorem C17_counterexample :
    toString ffNone 1 (str "a") = .ok "a" ∧
    getComparedValue ffNone false (str "a") = .ok "\"a\"" ∧
    toString ffNone 1 (str "a") ≠ getComparedValue ffNone false (str "a") := by
  decide

/-! ### Map keys that are not scalars -/

theorem toString_ptr (ff : Fmt) (t : GoType) (e : GoValue) :
    ∀ fuel, toString ff fuel (.ptr t e) = .error .outOfFuel
  | 0 => rfl
  | fuel + 1 => by
      rw [toString]
      exact toString_ptr ff t e fuel

/-- C18, the code at the failing input: on a pointer key `toString` calls itself on the
same value (`reflect.ValueOf(value).Interface()` is `value`), so no depth of calls is enough
for it to return, and `Diff` over a map with such a key returns neither a result nor an
error.  On a record or an array key `toString` does return the unsupported-key error. -/
theorem C18_pointer_key_diverges (ff : Fmt) (fuel : Nat) (t mt : GoType)
    (e v : GoValue) (rest : List (GoValue × GoValue)) (u : GoType)
    (fs : List (StructField × GoValue)) (es : List GoValue) :
    toString ff fuel (.ptr t e) = .error .outOfFuel ∧
    Diff ff fuel (.map mt ((.ptr t e, v) :: rest)) (.map mt ((.ptr t e, v) :: rest)) =
      .error .outOfFuel ∧
    toString ff (fuel + 1) (.struct u fs) = .error (.err .notSupportKey) ∧
    toString ff (fuel + 1) (.array u es) = .error (.err .notSupportKey) := by
  refine ⟨toString_ptr ff t e fuel, ?_, by simp [toString], by simp [toString]⟩
  cases fuel with
  | zero => rfl
  | succ n =>
    simp [Diff, diffWith, compare, mapRange, stepMapNew, toString_ptr]

/-! ### First match wins -/

theorem findByKey_eq_none (comparedby : String) (k : GoValue) (items : List GoValue)
    (hitems : ∀ x ∈ items, keyOf comparedby x ≠ none) :
    findByKey comparedby k items = none ↔
      ∀ y ∈ items, ∀ w kj, keyOf comparedby y = some (w, kj) → goDeepEqual kj k = false := by
  induction items with
  | nil => simp [findByKey]
  | cons x rest ih =>
    have ih' := ih (fun y hy => hitems y (by simp [hy]))
    cases hk : keyOf comparedby x with
    | none => exact absurd hk (hitems x (by simp))
    | some p =>
      obtain ⟨v, k'⟩ := p
      cases hde : goDeepEqual k' k
      · simp only [findByKey, hk, hde, Bool.false_eq_true, if_false, ih', List.mem_cons,
          forall_eq_or_imp, Option.some.injEq, Prod.mk.injEq, and_imp]
        constructor
        · intro h
          refine ⟨?_, h⟩
          intro w kj _ hkj
          rw [← hkj]
          exact hde
        · intro h
          exact h.2
      · simp only [findByKey, hk, hde, if_true, List.mem_cons, forall_eq_or_imp,
          Option.some.injEq, Prod.mk.injEq, and_imp, false_iff, not_and, reduceCtorEq]
        intro h
        have := h v k' rfl rfl
        rw [hde] at this
        exact absurd this (by decide)

theorem findByKey_eq_some (comparedby : String) (k v : GoValue) (items : List GoValue)
    (hitems : ∀ x ∈ items, keyOf comparedby x ≠ none) :
    findByKey comparedby k items = some v ↔
      ∃ (i : Nat) (x ki : GoValue), items[i]? = some x ∧ keyOf comparedby x = some (v, ki) ∧
        goDeepEqual ki k = true ∧
        ∀ (j : Nat) (y w kj : GoValue), j < i → items[j]? = some y → keyOf comparedby y = some (w, kj) →
          goDeepEqual kj k = false := by
  induction items with
  | nil => simp [findByKey]
  | cons x rest ih =>
    have ih' := ih (fun y hy => hitems y (by simp [hy]))
    cases hk : keyOf comparedby x with
    | none => exact absurd hk (hitems x (by simp))
    | some p =>
      obtain ⟨v0, k0⟩ := p
      cases hde : goDeepEqual k0 k
      · simp only [findByKey, hk, hde, Bool.false_eq_true, if_false, ih']
        constructor
        · rintro ⟨i, y, ki, hi, hy, hd, hlt⟩
          refine ⟨i + 1, y, ki, by simpa using hi, hy, hd, ?_⟩
          intro j z w kj hj hz hkz
          cases j with
          | zero =>
            simp only [List.getElem?_cons_zero, Option.some.injEq] at hz
            subst hz
            rw [hk] at hkz
            simp only [Option.some.injEq, Prod.mk.injEq] at hkz
            rw [← hkz.2]
            exact hde
          | succ j =>
            exact hlt j z w kj (by omega) (by simpa using hz) hkz
        · rintro ⟨i, y, ki, hi, hy, hd, hlt⟩
          cases i with
          | zero =>
            simp only [List.getElem?_cons_zero, Option.some.injEq] at hi
            subst hi
            rw [hk] at hy
            simp only [Option.some.injEq, Prod.mk.injEq] at hy
            rw [hy.2, hd] at hde
            exact absurd hde (by decide)
          | succ i =>
            refine ⟨i, y, ki, by simpa using hi, hy, hd, ?_⟩
            intro j z w kj hj hz hkz
            exact hlt (j + 1) z w kj (by omega) (by simpa using hz) hkz
      · simp only [findByKey, hk, hde, if_true, Option.some.injEq]
        constructor
        · intro h
          subst h
          exact ⟨0, x, k0, by simp, hk, hde, fun j _ _ _ hj => absurd hj (by omega)⟩
        · rintro ⟨i, y, ki, hi, hy, hd, hlt⟩
          cases i with
          | zero =>
            simp only [List.getElem?_cons_zero, Option.some.injEq] at hi
            subst hi
            rw [hk] at hy
            simp only [Option.some.injEq, Prod.mk.injEq] at hy
            exact hy.1
          | succ i =>
            have := hlt 0 x v0 k0 (by omega) (by simp) hk
            rw [hde] at this
            exact absurd this (by decide)

theorem getFromSliceLoop_first (comparedby : String) (value kv y v1 k1 : GoValue)
    (hv : HasKey comparedby value kv) (rest : List GoValue)
    (hy : keyOf comparedby y = some (v1, k1)) (hyk : goDeepEqual k1 kv = true) :
    ∀ (pre : List GoValue), (∀ z ∈ pre, keyMatches comparedby kv z = some false) →
      getFromSliceLoop value comparedby (pre ++ y :: rest) = .ok (some v1)
  | [], _ => by
      obtain ⟨hel, hkey⟩ := keyOf_some comparedby y v1 k1 hy
      simp [getFromSliceLoop, hel, sameKey_good comparedby v1 value k1 kv hkey hv, hyk]
  | z :: pre, hpre => by
      have hz := hpre z (by simp)
      unfold keyMatches at hz
      cases hk : keyOf comparedby z with
      | none => simp [hk] at hz
      | some p =>
        obtain ⟨w, kz⟩ := p
        simp only [hk, Option.map_some', Option.some.injEq] at hz
        obtain ⟨hel, hkey⟩ := keyOf_some comparedby z w kz hk
        simp only [List.cons_append, getFromSliceLoop, hel, ok_bind,
          sameKey_good comparedby w value kz kv hkey hv, hz]
        simpa using getFromSliceLoop_first comparedby value kv y v1 k1 hv rest hy hyk pre
          (fun z' hz' => hpre z' (by simp [hz']))

theorem getFromSliceLoop_stuck (comparedby : String) (value kv z0 : GoValue) (e0 : Fault)
    (hv : HasKey comparedby value kv) (rest : List GoValue)
    (hz0 : getElement z0 = .error e0) :
    ∀ (pre : List GoValue), (∀ z ∈ pre, keyMatches comparedby kv z = some false) →
      getFromSliceLoop value comparedby (pre ++ z0 :: rest) = .error e0
  | [], _ => by
      simp [getFromSliceLoop, hz0]
  | z :: pre, hpre => by
      have hz := hpre z (by simp)
      unfold keyMatches at hz
      cases hk : keyOf comparedby z with
      | none => simp [hk] at hz
      | some p =>
        obtain ⟨w, kz⟩ := p
        simp only [hk, Option.map_some', Option.some.injEq] at hz
        obtain ⟨hel, hkey⟩ := keyOf_some comparedby z w kz hk
        simp only [List.cons_append, getFromSliceLoop, hel, ok_bind,
          sameKey_good comparedby w value kz kv hkey hv, hz]
        simpa using getFromSliceLoop_stuck comparedby value kv z0 e0 hv rest hz0 pre
          (fun z' hz' => hpre z' (by simp [hz']))

/-- C19 (as amended): on a sequence `s` whose elements are accepted (they resolve to records
with an exported, non-zero key field that renders) and for such a record `e` with key `kv`,
`getFromSlice` returns a result; it is the record of the element of lowest index whose key is
deeply equal to `kv`, and it is the zero value exactly when no element has such a key.
Consequently the loop body of `compareBySlice` for a new element `x` looks at the first old
element with the key of `x` only: what follows that element in `old` (further elements with
the same key included) does not change its outcome.  An element that does not resolve to a
record makes `getFromSlice` fail with the error of `getElement` when the scan reaches it
before a match. -/
theorem C19_first_match_wins (ff : Fmt) (cmp : Cmp) (k : String)
    (s e kv : GoValue) (items : List GoValue)
    (t : GoType) (pre rest rest' : List GoValue) (x vx kx y v1 k1 : GoValue)
    (isDirect : Bool) (key : String) (d : DiffDetails)
    (hs : seqItems s = .ok items) (he : HasKey k e kv)
    (hitems : ∀ z ∈ items, keyOf k z ≠ none)
    (hx : keyOf k x = some (vx, kx))
    (hpre : ∀ z ∈ pre, keyMatches k kx z = some false)
    (hy : keyOf k y = some (v1, k1)) (hyk : goDeepEqual k1 kx = true) :
    (∃ found, getFromSlice s e k = .ok found ∧
      (∀ v, found = some v ↔
        ∃ (i : Nat) (z ki : GoValue), items[i]? = some z ∧ keyOf k z = some (v, ki) ∧
          goDeepEqual ki kv = true ∧
          ∀ (j : Nat) (z' w kj : GoValue), j < i → items[j]? = some z' →
            keyOf k z' = some (w, kj) → goDeepEqual kj kv = false) ∧
      (found = none ↔
        ∀ z ∈ items, ∀ w kj, keyOf k z = some (w, kj) → goDeepEqual kj kv = false)) ∧
    getFromSlice (.slice t (pre ++ y :: rest)) vx k = .ok (some v1) ∧
    stepNew ff cmp (.slice t (pre ++ y :: rest)) k isDirect key d x =
      stepNew ff cmp (.slice t (pre ++ y :: rest')) k isDirect key d x ∧
    (∀ (z0 : GoValue) (e0 : Fault) (rest0 : List GoValue), getElement z0 = .error e0 →
      getFromSlice (.slice t (pre ++ z0 :: rest0)) vx k = .error e0) := by
  obtain ⟨hxe, hxk⟩ := keyOf_some k x vx kx hx
  have h1 : ∀ r, getFromSlice (.slice t (pre ++ y :: r)) vx k = .ok (some v1) := by
    intro r
    simp only [getFromSlice, seqItems, ok_bind]
    exact getFromSliceLoop_first k vx kx y v1 k1 hxk r hy hyk pre hpre
  refine ⟨⟨findByKey k kv items, getFromSlice_good k s e kv items hs he hitems, ?_, ?_⟩,
    h1 rest, ?_, ?_⟩
  · intro v
    exact findByKey_eq_some k kv v items hitems
  · exact findByKey_eq_none k kv items hitems
  · simp only [stepNew, hxe, ok_bind, h1 rest, h1 rest']
  · intro z0 e0 rest0 hz0
    simp only [getFromSlice, seqItems, ok_bind]
    exact getFromSliceLoop_stuck k vx kx z0 e0 hxk rest0 hz0 pre hpre

theorem C19_first_match_wins_witness :
    (seqItems (subjectSeq [subject "Geography" f80, subject "Math" f80, subject "Math" f88]) =
       .ok [subject "Geography" f80, subject "Math" f80, subject "Math" f88] ∧
     HasKey "Name" (subject "Math" f88) (str "Math") ∧
     (∀ z ∈ [subject "Geography" f80, subject "Math" f80, subject "Math" f88],
       keyOf "Name" z ≠ none) ∧
     keyOf "Name" (subject "Math" f88) = some (subject "Math" f88, str "Math") ∧
     (∀ z ∈ [subject "Geography" f80], keyMatches "Name" (str "Math") z = some false) ∧
     keyOf "Name" (subject "Math" f80) = some (subject "Math" f80, str "Math") ∧
     goDeepEqual (str "Math") (str "Math") = true) ∧
    ((∃ found,
        getFromSlice
          (subjectSeq [subject "Geography" f80, subject "Math" f80, subject "Math" f88])
          (subject "Math" f88) "Name" = .ok found ∧
        (∀ v, found = some v ↔
          ∃ (i : Nat) (z ki : GoValue),
            [subject "Geography" f80, subject "Math" f80, subject "Math" f88][i]? = some z ∧
            keyOf "Name" z = some (v, ki) ∧ goDeepEqual ki (str "Math") = true ∧
            ∀ (j : Nat) (z' w kj : GoValue), j < i →
              [subject "Geography" f80, subject "Math" f80, subject "Math" f88][j]? = some z' →
              keyOf "Name" z' = some (w, kj) → goDeepEqual kj (str "Math") = false) ∧
        (found = none ↔
          ∀ z ∈ [subject "Geography" f80, subject "Math" f80, subject "Math" f88],
            ∀ w kj, keyOf "Name" z = some (w, kj) → goDeepEqual kj (str "Math") = false)) ∧
     getFromSlice
       (.slice (.slice "" tSubject)
         ([subject "Geography" f80] ++ subject "Math" f80 :: [subject "Math" f88]))
       (subject "Math" f88) "Name" = .ok (some (subject "Math" f80)) ∧
     stepNew ffNone (compare ffNone 2)
       (.slice (.slice "" tSubject)
         ([subject "Geography" f80] ++ subject "Math" f80 :: [subject "Math" f88]))
       "Name" false "Subjects" {} (subject "Math" f88) =
     stepNew ffNone (compare ffNone 2)
       (.slice (.slice "" tSubject) ([subject "Geography" f80] ++ subject "Math" f80 :: []))
       "Name" false "Subjects" {} (subject "Math" f88) ∧
     (∀ (z0 : GoValue) (e0 : Fault) (rest0 : List GoValue), getElement z0 = .error e0 →
       getFromSlice (.slice (.slice "" tSubject) ([subject "Geography" f80] ++ z0 :: rest0))
         (subject "Math" f88) "Name" = .error e0)) :=
  ⟨⟨by decide, ⟨(⟨"Name", true, ""⟩, str "Math"), by decide, rfl, by decide, by decide,
      by decide⟩, by decide, by decide, by decide, by decide, by decide⟩,
   C19_first_match_wins ffNone (compare ffNone 2) "Name"
     (subjectSeq [subject "Geography" f80, subject "Math" f80, subject "Math" f88])
     (subject "Math" f88) (str "Math")
     [subject "Geography" f80, subject "Math" f80, subject "Math" f88]
     (.slice "" tSubject) [subject "Geography" f80] [subject "Math" f88] []
     (subject "Math" f88) (subject "Math" f88) (str "Math")
     (subject "Math" f80) (subject "Math" f80) (str "Math") false "Subjects" {}
     (by decide) ⟨(⟨"Name", true, ""⟩, str "Math"), by decide, rfl, by decide, by decide,
      by decide⟩ (by decide) (by decide) (by decide) (by decide) (by decide)⟩

/-- C19, counterexample: on a sequence whose elements do not resolve to records (here a
`[]int`) no element has a key equal to that of `e`, yet `getFromSlice` does not return the
zero value for "no match": it fails with the error of `getElement`. -/
theorem C19_counterexample :
    getFromSlice (.slice (.slice "" (.basic "int")) [int 1]) (subject "Math" f80) "Name" =
      .error (.err .basicTypeElement) := by
  decide

/-! ### The writes of a comparison do not depend on the incoming result -/

theorem mem_keys_set (m : PathMap) (k : String) (v : Option GoValue) (p : String) :
    p ∈ (m.set k v).map Prod.fst ↔ p ∈ m.map Prod.fst ∨ p = k := by
  simp only [PathMap.set, List.map_append, List.mem_append, List.mem_map, List.mem_filter,
    List.map_cons, List.map_nil, List.mem_singleton, bne_iff_ne, ne_eq]
  constructor
  · rintro (⟨e, ⟨he, -⟩, rfl⟩ | h)
    · exact Or.inl ⟨e, he, rfl⟩
    · exact Or.inr h
  · rintro (⟨e, he, rfl⟩ | h)
    · by_cases hk : e.1 = k
      · exact Or.inr hk
      · exact Or.inl ⟨e, ⟨he, hk⟩, rfl⟩
    · exact Or.inr h

theorem mem_keysAt_write (s : Slot) (d : DiffDetails) (w : Write) (p : String) :
    p ∈ keysAt s (d.write w) ↔ p ∈ keysAt s d ∨ (w.slot = s ∧ p = w.path) := by
  obtain ⟨ws, wp, wv⟩ := w
  cases ws <;> cases s <;>
    simp only [keysAt, DiffDetails.write, DiffDetails.slot, DiffDetails.setChange,
      DiffDetails.setAdd, DiffDetails.setDel, entries, Option.getD_some, mem_keys_set,
      reduceCtorEq, false_and, or_false, true_and]

theorem mem_keysAt_apply (s : Slot) (ws : List Write) (d : DiffDetails) (p : String) :
    p ∈ keysAt s (d.apply ws) ↔ p ∈ keysAt s d ∨ ∃ w ∈ ws, w.slot = s ∧ p = w.path := by
  induction ws generalizing d with
  | nil => simp [DiffDetails.apply]
  | cons w ws ih =>
    simp only [DiffDetails.apply, List.foldl_cons] at ih ⊢
    rw [ih, mem_keysAt_write]
    simp only [List.mem_cons, exists_eq_or_imp]
    tauto

theorem apply_append (d : DiffDetails) (ws ws' : List Write) :
    d.apply (ws ++ ws') = (d.apply ws).apply ws' := by
  simp [DiffDetails.apply]

theorem keysAt_empty (s : Slot) : keysAt s {} = [] := by
  cases s <;> rfl

theorem under_self (key : String) : Under key key := Or.inr (Or.inl rfl)

theorem under_generate (key name : String) : Under key (generate key name) := by
  unfold generate
  split
  · exact Or.inl ‹_›
  · exact Or.inr (Or.inr ⟨name, rfl⟩)

theorem under_selector (key cb cv : String) : Under key (selector key cb cv) := by
  refine Or.inr (Or.inr ⟨"#(" ++ cb ++ "==" ++ cv ++ ")", ?_⟩)
  apply String.ext
  simp [selector, String.data_append]

theorem under_dot (key p q : String) (h : Under key p) : Under key (p ++ "." ++ q) := by
  rcases h with h | h | ⟨s, h⟩
  · exact Or.inl h
  · subst h
    exact Or.inr (Or.inr ⟨q, rfl⟩)
  · subst h
    refine Or.inr (Or.inr ⟨s ++ "." ++ q, ?_⟩)
    apply String.ext
    simp [String.data_append]

theorem under_trans (key p q : String) (hp : Under key p) (hq : Under p q) : Under key q := by
  rcases hq with hq | hq | ⟨s, hq⟩
  · subst hq
    rcases hp with hp | hp | ⟨s, hp⟩
    · exact Or.inl hp
    · exact Or.inl hp.symm
    · have := congrArg String.data hp
      simp [String.data_append] at this
  · subst hq
    exact hp
  · subst hq
    exact under_dot key p s hp

theorem logged_ok (key : String) : Logged key (fun d => .ok d) :=
  ⟨.ok [], fun _ => rfl, by simp⟩

theorem logged_error (key : String) (e : Fault) : Logged key (fun _ => .error e) :=
  ⟨.error e, fun _ => rfl, by simp⟩

theorem Logged.writes (key : String) (ws : List Write) (h : ∀ w ∈ ws, Under key w.path) :
    Logged key (fun d => .ok (d.apply ws)) :=
  ⟨.ok ws, fun _ => rfl, by
    intro ws' hws
    cases hws
    exact h⟩

theorem logged_write (key : String) (w : Write) (h : Under key w.path) :
    Logged key (fun d => .ok (d.write w)) :=
  Logged.writes key [w] (by simpa using h)

theorem logged_bind (key : String) (f g : DiffDetails → Res DiffDetails)
    (hf : Logged key f) (hg : Logged key g) : Logged key (fun d => f d >>= g) := by
  obtain ⟨lf, hlf, huf⟩ := hf
  obtain ⟨lg, hlg, hug⟩ := hg
  cases lf with
  | error e => exact ⟨.error e, fun d => by simp [hlf d, Except.map], by simp⟩
  | ok ws =>
    cases lg with
    | error e => exact ⟨.error e, fun d => by simp [hlf d, hlg, Except.map], by simp⟩
    | ok ws' =>
      refine ⟨.ok (ws ++ ws'), fun d => by simp [hlf d, hlg, Except.map, apply_append], ?_⟩
      intro l hl w hw
      cases hl
      rcases List.mem_append.mp hw with hw | hw
      · exact huf ws rfl w hw
      · exact hug ws' rfl w hw

theorem logged_foldlM {α : Type} (key : String) (step : DiffDetails → α → Res DiffDetails)
    (l : List α) (h : ∀ x ∈ l, Logged key (fun d => step d x)) :
    Logged key (fun d => l.foldlM step d) := by
  induction l with
  | nil => exact logged_ok key
  | cons x l ih =>
    simp only [List.foldlM_cons]
    exact logged_bind key _ _ (h x (by simp)) (ih (fun y hy => h y (by simp [hy])))

theorem Logged.mono (key key' : String) (f : DiffDetails → Res DiffDetails)
    (hk : Under key key') (hf : Logged key' f) : Logged key f := by
  obtain ⟨log, hl, hu⟩ := hf
  exact ⟨log, hl, fun ws hws w hw => under_trans key key' _ hk (hu ws hws w hw)⟩
theorem Logged.congr (key : String) (f g : DiffDetails → Res DiffDetails)
    (h : ∀ d, f d = g d) (hg : Logged key g) : Logged key f := by
  obtain ⟨log, hl, hu⟩ := hg
  exact ⟨log, fun d => (h d).trans (hl d), hu⟩

theorem logged_setChange (key k : String) (v : Option GoValue) (h : Under key k) :
    Logged key (fun d => .ok (d.setChange k v)) :=
  logged_write key ⟨.change, k, v⟩ h

theorem logged_setAdd (key k : String) (v : Option GoValue) (h : Under key k) :
    Logged key (fun d => .ok (d.setAdd k v)) :=
  logged_write key ⟨.add, k, v⟩ h

theorem logged_setDel (key k : String) (v : Option GoValue) (h : Under key k) :
    Logged key (fun d => .ok (d.setDel k v)) :=
  logged_write key ⟨.del, k, v⟩ h

/-- The writes that merge a nested result under the selector `sel`: its Add entries, then its
Change entries, then its Del entries, each at `sel.q`. -/
theorem merge_apply (sel : String) (diff tmp : DiffDetails) :
    mergeDel sel (mergeChange sel (mergeAdd sel diff tmp.Add) tmp.Change) tmp.Del =
      diff.apply
        ((entries tmp.Add).map (fun e => ⟨.add, sel ++ "." ++ e.1, e.2⟩) ++
          ((entries tmp.Change).map (fun e => ⟨.change, sel ++ "." ++ e.1, e.2⟩) ++
            (entries tmp.Del).map (fun e => ⟨.del, sel ++ "." ++ e.1, e.2⟩))) := by
  simp only [mergeDel, mergeChange, mergeAdd, DiffDetails.apply, List.foldl_append,
    List.foldl_map]
  rfl

theorem stepNew_logged (ff : Fmt) (cmp : Cmp) (old : GoValue)
    (comparedby : String) (isDirect : Bool) (key : String) (x : GoValue) :
    Logged key (fun d => stepNew ff cmp old comparedby isDirect key d x) := by
  cases h1 : getElement x with
  | error e =>
    exact Logged.congr key _ (fun _ => .error e) (fun d => by simp [stepNew, h1])
      (logged_error key e)
  | ok value =>
  cases h2 : getFromSlice old value comparedby with
  | error e =>
    exact Logged.congr key _ (fun _ => .error e) (fun d => by simp [stepNew, h1, h2])
      (logged_error key e)
  | ok oldElement =>
  cases h3 : fieldByName value comparedby with
  | error e =>
    exact Logged.congr key _ (fun _ => .error e) (fun d => by simp [stepNew, h1, h2, h3])
      (logged_error key e)
  | ok field =>
  cases h4 : structFieldIsExported field with
  | false =>
    exact Logged.congr key _ (fun _ => .error (.err .notExportField))
      (fun d => by simp [stepNew, h1, h2, h3, h4]) (logged_error key _)
  | true =>
  cases h5 : getComparedValueOf ff field with
  | error e =>
    exact Logged.congr key _ (fun _ => .error e)
      (fun d => by simp [stepNew, h1, h2, h3, h4, h5]) (logged_error key e)
  | ok cv =>
  have hsel : Under key (selector key comparedby cv) := under_selector key comparedby cv
  cases oldElement with
  | none =>
    exact Logged.congr key _ (fun d => .ok (d.setAdd (selector key comparedby cv) none))
      (fun d => by simp [stepNew, h1, h2, h3, h4, h5]) (logged_setAdd key _ _ hsel)
  | some f =>
    cases hz : goIsZero f
    · cases isDirect
      · cases h6 : cmp "" "" false {} value f with
        | error e =>
          exact Logged.congr key _ (fun _ => .error e)
            (fun d => by simp [stepNew, h1, h2, h3, h4, h5, hz, h6]) (logged_error key e)
        | ok tmp =>
          refine Logged.congr key _ _
            (fun d => by
              simp only [stepNew, h1, h2, h3, h4, h5, hz, h6, ok_bind, Bool.not_true,
                Bool.not_false, Bool.false_eq_true, if_false, if_true, pure_eq_ok]
              rw [merge_apply])
            (Logged.writes key _ ?_)
          intro w hw
          simp only [List.mem_append, List.mem_map] at hw
          rcases hw with ⟨e, -, rfl⟩ | ⟨e, -, rfl⟩ | ⟨e, -, rfl⟩ <;>
            exact under_dot key _ _ hsel
      · cases h6 : deepEqual cmp value f with
        | error e =>
          exact Logged.congr key _ (fun _ => .error e)
            (fun d => by simp [stepNew, h1, h2, h3, h4, h5, hz, h6]) (logged_error key e)
        | ok eq =>
          cases eq
          · exact Logged.congr key _
              (fun d => .ok (d.setChange (selector key comparedby cv) (some f)))
              (fun d => by simp [stepNew, h1, h2, h3, h4, h5, hz, h6])
              (logged_setChange key _ _ hsel)
          · exact Logged.congr key _ (fun d => .ok d)
              (fun d => by simp [stepNew, h1, h2, h3, h4, h5, hz, h6]) (logged_ok key)
    · exact Logged.congr key _ (fun d => .ok (d.setAdd (selector key comparedby cv) none))
        (fun d => by simp [stepNew, h1, h2, h3, h4, h5, hz]) (logged_setAdd key _ _ hsel)

theorem stepOld_logged (ff : Fmt) (new : GoValue) (comparedby : String)
    (key : String) (x : GoValue) :
    Logged key (fun d => stepOld ff new comparedby key d x) := by
  cases h1 : getElement x with
  | error e =>
    exact Logged.congr key _ (fun _ => .error e) (fun d => by simp [stepOld, h1])
      (logged_error key e)
  | ok value =>
  cases h2 : getFromSlice new value comparedby with
  | error e =>
    exact Logged.congr key _ (fun _ => .error e) (fun d => by simp [stepOld, h1, h2])
      (logged_error key e)
  | ok newElement =>
  cases h3 : fieldByName value comparedby with
  | error e =>
    exact Logged.congr key _ (fun _ => .error e) (fun d => by simp [stepOld, h1, h2, h3])
      (logged_error key e)
  | ok field =>
  cases h5 : getComparedValueOf ff field with
  | error e =>
    exact Logged.congr key _ (fun _ => .error e) (fun d => by simp [stepOld, h1, h2, h3, h5])
      (logged_error key e)
  | ok cv =>
  cases hz : foundIsZero newElement
  · exact Logged.congr key _ (fun d => .ok d)
      (fun d => by simp [stepOld, h1, h2, h3, h5, hz]) (logged_ok key)
  · exact Logged.congr key _ (fun d => .ok (d.setDel (selector key comparedby cv) (some value)))
      (fun d => by simp [stepOld, h1, h2, h3, h5, hz])
      (logged_setDel key _ _ (under_selector key comparedby cv))

theorem compareBySlice_logged (ff : Fmt) (cmp : Cmp) (new old : GoValue)
    (comparedby : String) (isDirect : Bool) (key : String) :
    Logged key (fun d => compareBySlice ff cmp new old comparedby isDirect key d) := by
  cases h1 : checkedItems new with
  | error e =>
    exact Logged.congr key _ (fun _ => .error e) (fun d => by simp [compareBySlice, h1])
      (logged_error key e)
  | ok newItems =>
  cases h2 : seqItems old with
  | error e =>
    refine Logged.congr key _
      (fun d => newItems.foldlM (stepNew ff cmp old comparedby isDirect key) d >>=
        fun _ => .error e)
      (fun d => by simp [compareBySlice, h1, h2]) ?_
    exact logged_bind key _ _
      (logged_foldlM key _ _ (fun x _ => stepNew_logged ff cmp old comparedby isDirect key x))
      (logged_error key e)
  | ok oldItems =>
    refine Logged.congr key _
      (fun d => newItems.foldlM (stepNew ff cmp old comparedby isDirect key) d >>=
        fun d' => oldItems.foldlM (stepOld ff new comparedby key) d')
      (fun d => by simp [compareBySlice, h1, h2]) ?_
    exact logged_bind key _ _
      (logged_foldlM key _ _ (fun x _ => stepNew_logged ff cmp old comparedby isDirect key x))
      (logged_foldlM key _ _ (fun x _ => stepOld_logged ff new comparedby key x))

theorem compareFields_logged (cmp : Cmp)
    (hcmp : ∀ key cb isDirect new old, Logged key (fun d => cmp key cb isDirect d new old))
    (key : String) (old : GoValue) :
    ∀ (fs : List (StructField × GoValue)) (i : Nat),
      Logged key (fun d => compareFields cmp key old i fs d)
  | [], _ => Logged.congr key _ (fun d => .ok d) (fun d => by simp [compareFields])
      (logged_ok key)
  | f :: rest, i => by
      cases hexp : f.1.Exported
      · exact Logged.congr key _ (fun d => compareFields cmp key old (i + 1) rest d)
          (fun d => by simp [compareFields, hexp]) (compareFields_logged cmp hcmp key old rest _)
      · cases hold : fieldAt old i with
        | error e =>
          exact Logged.congr key _ (fun _ => .error e)
            (fun d => by rw [compareFields_cons _ _ _ _ _ _ _ hexp, hold]; rfl)
            (logged_error key e)
        | ok oldField =>
          refine Logged.congr key _
            (fun d => cmp (generate key f.1.Name) (parseTag f.1.Tag).1 (parseTag f.1.Tag).2 d
              f.2 oldField >>= fun d' => compareFields cmp key old (i + 1) rest d')
            (fun d => by rw [compareFields_cons _ _ _ _ _ _ _ hexp, hold]; rfl) ?_
          exact logged_bind key _ _
            (Logged.mono key _ _ (under_generate key f.1.Name) (hcmp _ _ _ _ _))
            (compareFields_logged cmp hcmp key old rest _)

theorem stepMapNew_logged (ff : Fmt) (fuel : Nat) (cmp : Cmp)
    (hcmp : ∀ key cb isDirect new old, Logged key (fun d => cmp key cb isDirect d new old))
    (old : GoValue) (key comparedby : String) (isDirect : Bool) (e : GoValue × GoValue) :
    Logged key (fun d => stepMapNew ff fuel cmp old key comparedby isDirect d e) := by
  cases h1 : toString ff fuel e.1 with
  | error err =>
    exact Logged.congr key _ (fun _ => .error err) (fun d => by simp [stepMapNew, h1])
      (logged_error key err)
  | ok name =>
  cases h2 : mapIndex old e.1 with
  | error err =>
    exact Logged.congr key _ (fun _ => .error err) (fun d => by simp [stepMapNew, h1, h2])
      (logged_error key err)
  | ok found =>
    cases found with
    | none =>
      exact Logged.congr key _ (fun d => .ok (d.setAdd (generate key name) none))
        (fun d => by simp [stepMapNew, h1, h2]) (logged_setAdd key _ _ (under_generate key name))
    | some oldValue =>
      exact Logged.congr key _
        (fun d => cmp (generate key name) comparedby isDirect d e.2 oldValue)
        (fun d => by simp [stepMapNew, h1, h2])
        (Logged.mono key _ _ (under_generate key name) (hcmp _ _ _ _ _))

theorem stepMapOld_logged (ff : Fmt) (fuel : Nat) (new : GoValue)
    (key : String) (e : GoValue × GoValue) :
    Logged key (fun d => stepMapOld ff fuel new key d e) := by
  cases h1 : toString ff fuel e.1 with
  | error err =>
    exact Logged.congr key _ (fun _ => .error err) (fun d => by simp [stepMapOld, h1])
      (logged_error key err)
  | ok name =>
  cases h2 : mapIndex new e.1 with
  | error err =>
    exact Logged.congr key _ (fun _ => .error err) (fun d => by simp [stepMapOld, h1, h2])
      (logged_error key err)
  | ok found =>
    cases found with
    | none =>
      exact Logged.congr key _ (fun d => .ok (d.setDel (generate key name) (some e.2)))
        (fun d => by simp [stepMapOld, h1, h2]) (logged_setDel key _ _ (under_generate key name))
    | some _ =>
      exact Logged.congr key _ (fun d => .ok d) (fun d => by simp [stepMapOld, h1, h2])
        (logged_ok key)
/-! ### The cases of `compare` -/

theorem compare_keyed (ff : Fmt) (fuel : Nat) (key cb : String)
    (isDirect : Bool) (d : DiffDetails) (new old : GoValue) (hseq : new.isSeq = true)
    (hcb : cb ≠ "-") (hc : cb ≠ "") (hname : new.typeName = old.typeName) :
    compare ff (fuel + 1) key cb isDirect d new old =
      compareBySlice ff (compare ff fuel) new old cb isDirect key d := by
  cases new <;> simp [GoValue.isSeq] at hseq <;> simp [compare, hcb, hc, hname]

theorem compare_ptr (ff : Fmt) (fuel : Nat) (key cb : String)
    (isDirect : Bool) (d : DiffDetails) (t u : GoType) (e f : GoValue) (hcb : cb ≠ "-")
    (hname : (GoValue.ptr t e).typeName = (GoValue.ptr u f).typeName) :
    compare ff (fuel + 1) key cb isDirect d (.ptr t e) (.ptr u f) =
      compare ff fuel key cb isDirect d e f := by
  simp [compare, hcb, hname]

theorem compare_ptr_panic (ff : Fmt) (fuel : Nat) (key cb : String)
    (isDirect : Bool) (d : DiffDetails) (t : GoType) (e old : GoValue) (hcb : cb ≠ "-")
    (hname : (GoValue.ptr t e).typeName = old.typeName) (hold : ∀ u f, old ≠ .ptr u f) :
    compare ff (fuel + 1) key cb isDirect d (.ptr t e) old = .error .panic := by
  cases old <;> simp [compare, hcb, hname]
  exact absurd rfl (hold _ _)

theorem compare_nilPtr (ff : Fmt) (fuel : Nat) (key cb : String)
    (isDirect : Bool) (d : DiffDetails) (t : GoType) (old : GoValue) (hcb : cb ≠ "-")
    (hname : (GoValue.nilPtr t).typeName = old.typeName) :
    compare ff (fuel + 1) key cb isDirect d (.nilPtr t) old =
      (match old with
       | .nilPtr _ | .nilSlice _ | .nilMap _ => .ok d
       | _ => .error .panic) := by
  cases old <;> simp [compare, hcb, hname]

theorem compare_struct_fields (ff : Fmt) (fuel : Nat) (key cb : String)
    (d : DiffDetails) (t : GoType) (fs : List (StructField × GoValue)) (old : GoValue)
    (hcb : cb ≠ "-") (hname : (GoValue.struct t fs).typeName = old.typeName) :
    compare ff (fuel + 1) key cb false d (.struct t fs) old =
      compareFields (compare ff fuel) key old 0 fs d := by
  simp [compare, hcb, hname]

theorem compare_struct_whole (ff : Fmt) (fuel : Nat) (key cb : String)
    (d : DiffDetails) (t : GoType) (fs : List (StructField × GoValue)) (old : GoValue)
    (hcb : cb ≠ "-") (hname : (GoValue.struct t fs).typeName = old.typeName) :
    compare ff (fuel + 1) key cb true d (.struct t fs) old =
      (deepEqual (compare ff fuel) (.struct t fs) old >>= fun equal =>
        .ok (if equal then d else d.setChange key (some old))) := by
  simp only [compare, hcb, hname, if_false, ne_eq, not_true_eq_false, if_true]
  cases deepEqual (compare ff fuel) (.struct t fs) old with
  | error e => rfl
  | ok eq => cases eq <;> rfl

theorem compare_map_panic (ff : Fmt) (fuel : Nat) (key : String)
    (isDirect : Bool) (d : DiffDetails) (new old : GoValue) (hmap : new.isMap = true)
    (hname : new.typeName = old.typeName) (e : Fault) (hold : mapRange old = .error e) :
    compare ff (fuel + 1) key "" isDirect d new old = .error .panic := by
  cases new <;> simp [GoValue.isMap] at hmap <;>
    cases old <;> simp [mapRange] at hold <;> simp [compare, hname, mapRange]

theorem compare_logged (ff : Fmt) :
    ∀ (fuel : Nat) (key cb : String) (isDirect : Bool) (new old : GoValue),
      Logged key (fun d => compare ff fuel key cb isDirect d new old) := by
  intro fuel
  induction fuel with
  | zero =>
    intro key cb isDirect new old
    exact Logged.congr key _ (fun _ => .error .outOfFuel) (fun d => by simp [compare])
      (logged_error key _)
  | succ fuel ih =>
    intro key cb isDirect new old
    by_cases hcb : cb = "-"
    · subst hcb
      exact Logged.congr key _ (fun d => .ok d) (fun d => compare_excluded ff fuel key _ d _ _)
        (logged_ok key)
    by_cases hname : new.typeName = old.typeName
    swap
    · exact Logged.congr key _ (fun _ => .error (.err (.notSameType new.typeName old.typeName)))
        (fun d => compare_name_mismatch ff fuel key cb isDirect d new old hcb hname)
        (logged_error key _)
    have hwhole : Logged key (fun d => (Except.ok
        (if goDeepEqual new old then d else d.setChange key (some old)) : Res DiffDetails)) := by
      cases goDeepEqual new old
      · exact logged_setChange key key _ (under_self key)
      · exact logged_ok key
    have hkeyed : new.isSeq = true →
        Logged key (fun d => compare ff (fuel + 1) key cb isDirect d new old) := by
      intro hseq
      by_cases hc : cb = ""
      · subst hc
        exact Logged.congr key _ _
          (fun d => compare_unkeyed_seq ff fuel key isDirect d new old hseq hname) hwhole
      · exact Logged.congr key _ _
          (fun d => compare_keyed ff fuel key cb isDirect d new old hseq hcb hc hname)
          (compareBySlice_logged ff _ new old cb isDirect key)
    have hmap : new.isMap = true →
        Logged key (fun d => compare ff (fuel + 1) key cb isDirect d new old) := by
      intro hm
      by_cases hc : cb = ""
      · subst hc
        cases hnew : mapRange new with
        | error e => cases new <;> simp [GoValue.isMap] at hm <;> simp [mapRange] at hnew
        | ok newEs =>
          cases hold : mapRange old with
          | error e =>
            exact Logged.congr key _ (fun _ => .error .panic)
              (fun d => compare_map_panic ff fuel key isDirect d new old hm hname e hold)
              (logged_error key _)
          | ok oldEs =>
            exact Logged.congr key _ _
              (fun d => compare_map ff fuel key isDirect d new old newEs oldEs hnew hold hname)
              (logged_bind key _ _
                (logged_foldlM key _ _
                  (fun e _ => stepMapNew_logged ff fuel _ ih old key "" isDirect e))
                (logged_foldlM key _ _ (fun e _ => stepMapOld_logged ff fuel new key e)))
      · exact Logged.congr key _ (fun _ => .error (.err (.basicTypeComparedby key)))
          (fun d => compare_annotated ff fuel key cb isDirect d new old (Or.inr hm) ⟨hc, hcb⟩
            hname)
          (logged_error key _)
    cases new with
    | scalar t s =>
      by_cases hc : cb = ""
      · subst hc
        exact Logged.congr key _ _
          (fun d => compare_scalar ff fuel key isDirect d (.scalar t s) old rfl hname) hwhole
      · exact Logged.congr key _ (fun _ => .error (.err (.basicTypeComparedby key)))
          (fun d => compare_annotated ff fuel key cb isDirect d (.scalar t s) old (Or.inl rfl)
            ⟨hc, hcb⟩ hname)
          (logged_error key _)
    | ptr t e =>
      cases old with
      | ptr u f =>
        exact Logged.congr key _ _
          (fun d => compare_ptr ff fuel key cb isDirect d t u e f hcb hname) (ih _ _ _ _ _)
      | _ =>
        exact Logged.congr key _ (fun _ => .error .panic)
          (fun d => compare_ptr_panic ff fuel key cb isDirect d t e _ hcb hname
            (fun _ _ h => by cases h))
          (logged_error key _)
    | nilPtr t =>
      refine Logged.congr key _ _
        (fun d => compare_nilPtr ff fuel key cb isDirect d t old hcb hname) ?_
      cases old <;> first | exact logged_ok key | exact logged_error key _
    | slice t es => exact hkeyed rfl
    | nilSlice t => exact hkeyed rfl
    | array t es => exact hkeyed rfl
    | struct t fs =>
      cases isDirect
      · exact Logged.congr key _ _
          (fun d => compare_struct_fields ff fuel key cb d t fs old hcb hname)
          (compareFields_logged _ ih key old fs 0)
      · refine Logged.congr key _ _
          (fun d => compare_struct_whole ff fuel key cb d t fs old hcb hname) ?_
        cases deepEqual (compare ff fuel) (.struct t fs) old with
        | error e => exact logged_error key e
        | ok eq =>
          cases eq
          · exact logged_setChange key key _ (under_self key)
          · exact logged_ok key
    | map t es => exact hmap rfl
    | nilMap t => exact hmap rfl
/-! ### The paths of a result, from the paths written on an empty result -/

theorem Logged.error_iff (key : String) (f : DiffDetails → Res DiffDetails)
    (h : Logged key f) (d : DiffDetails) (e : Fault) : f d = .error e ↔ f {} = .error e := by
  obtain ⟨log, hl, -⟩ := h
  rw [hl d, hl {}]
  cases log <;> simp [Except.map]

theorem Logged.keys (key : String) (f : DiffDetails → Res DiffDetails)
    (h : Logged key f) (d r : DiffDetails) (hr : f d = .ok r) :
    ∃ r0, f {} = .ok r0 ∧
      ∀ s p, p ∈ keysAt s r ↔ p ∈ keysAt s d ∨ p ∈ keysAt s r0 := by
  obtain ⟨log, hl, -⟩ := h
  rw [hl d] at hr
  cases log with
  | error e => simp [Except.map] at hr
  | ok ws =>
    simp only [Except.map, Except.ok.injEq] at hr
    subst hr
    refine ⟨({} : DiffDetails).apply ws, by rw [hl {}]; rfl, ?_⟩
    intro s p
    rw [mem_keysAt_apply, mem_keysAt_apply, keysAt_empty]
    simp

theorem Logged.of_empty (key : String) (f : DiffDetails → Res DiffDetails)
    (h : Logged key f) (d r0 : DiffDetails) (hr : f {} = .ok r0) :
    ∃ r, f d = .ok r ∧ ∀ s p, p ∈ keysAt s r ↔ p ∈ keysAt s d ∨ p ∈ keysAt s r0 := by
  cases hd : f d with
  | error e =>
    rw [(Logged.error_iff key f h d e).mp hd] at hr
    cases hr
  | ok r =>
    obtain ⟨r0', h0, hk⟩ := Logged.keys key f h d r hd
    rw [hr] at h0
    cases h0
    exact ⟨r, rfl, hk⟩

theorem Logged.under (key : String) (f : DiffDetails → Res DiffDetails)
    (h : Logged key f) (r0 : DiffDetails) (hr : f {} = .ok r0) :
    ∀ s p, p ∈ keysAt s r0 → Under key p := by
  obtain ⟨log, hl, hu⟩ := h
  rw [hl {}] at hr
  cases log with
  | error e => simp [Except.map] at hr
  | ok ws =>
    simp only [Except.map, Except.ok.injEq] at hr
    subst hr
    intro s p hp
    rw [mem_keysAt_apply, keysAt_empty] at hp
    simp only [List.not_mem_nil, false_or] at hp
    obtain ⟨w, hw, -, rfl⟩ := hp
    exact hu ws rfl w hw

/-- The paths in the result of a loop are those of the incoming result and those that each
step writes on an empty result. -/
theorem foldlM_keys {α : Type} (key : String) (step : DiffDetails → α → Res DiffDetails)
    (l : List α) (hstep : ∀ x ∈ l, Logged key (fun d => step d x)) (d r : DiffDetails)
    (h : l.foldlM step d = .ok r) :
    (∀ x ∈ l, ∃ rx, step {} x = .ok rx) ∧
    ∀ s p, p ∈ keysAt s r ↔
      p ∈ keysAt s d ∨ ∃ x ∈ l, ∃ rx, step {} x = .ok rx ∧ p ∈ keysAt s rx := by
  induction l generalizing d with
  | nil =>
    simp only [List.foldlM_nil, pure_eq_ok, Except.ok.injEq] at h
    subst h
    simp
  | cons x l ih =>
    simp only [List.foldlM_cons] at h
    cases h1 : step d x with
    | error e => simp [h1] at h
    | ok d1 =>
      simp only [h1, ok_bind] at h
      obtain ⟨hall, hk⟩ := ih (fun y hy => hstep y (by simp [hy])) d1 h
      obtain ⟨rx, hrx, hkx⟩ := Logged.keys key _ (hstep x (by simp)) d d1 h1
      refine ⟨?_, ?_⟩
      · intro y hy
        rcases List.mem_cons.mp hy with rfl | hy
        · exact ⟨rx, hrx⟩
        · exact hall y hy
      · intro s p
        rw [hk s p, hkx s p]
        simp only [List.mem_cons, exists_eq_or_imp, hrx, Except.ok.injEq, exists_eq_left']
        tauto

theorem foldlM_of_steps {α : Type} (key : String) (step : DiffDetails → α → Res DiffDetails)
    (l : List α) (hstep : ∀ x ∈ l, Logged key (fun d => step d x))
    (hok : ∀ x ∈ l, ∃ rx, step {} x = .ok rx) (d : DiffDetails) :
    ∃ r, l.foldlM step d = .ok r := by
  induction l generalizing d with
  | nil => exact ⟨d, rfl⟩
  | cons x l ih =>
    obtain ⟨rx, hrx⟩ := hok x (by simp)
    obtain ⟨d1, h1, -⟩ := Logged.of_empty key _ (hstep x (by simp)) d rx hrx
    obtain ⟨r, hr⟩ := ih (fun y hy => hstep y (by simp [hy])) (fun y hy => hok y (by simp [hy])) d1
    exact ⟨r, by simp [List.foldlM_cons, h1, hr]⟩

/-! ### Paths that cannot collide -/

theorem prefix_unique (stop : Char) :
    ∀ (a b ta tb : List Char), stop ∉ a → stop ∉ b →
      (ta = [] ∨ ∃ s, ta = stop :: s) → (tb = [] ∨ ∃ s, tb = stop :: s) →
      a ++ ta = b ++ tb → a = b
  | [], [], _, _, _, _, _, _, _ => rfl
  | [], c :: b, ta, tb, _, hb, hta, _, h => by
      rcases hta with rfl | ⟨s, rfl⟩
      · simp at h
      · simp only [List.nil_append, List.cons_append, List.cons.injEq] at h
        exact absurd h.1.symm (fun e => hb (by simp [e]))
  | c :: a, [], ta, tb, ha, _, _, htb, h => by
      rcases htb with rfl | ⟨s, rfl⟩
      · simp at h
      · simp only [List.nil_append, List.cons_append, List.cons.injEq] at h
        exact absurd h.1 (fun e => ha (by simp [e]))
  | c :: a, c' :: b, ta, tb, ha, hb, hta, htb, h => by
      simp only [List.cons_append, List.cons.injEq] at h
      rw [h.1, prefix_unique stop a b ta tb (fun e => ha (by simp [e]))
        (fun e => hb (by simp [e])) hta htb h.2]

theorem generate_data (key : String) :
    ∃ pre, ∀ n : String, (generate key n).data = pre ++ n.data := by
  by_cases hk : key = ""
  · exact ⟨[], fun n => by simp [generate, hk]⟩
  · exact ⟨key.data ++ ['.'], fun n => by simp [generate, hk, String.data_append]⟩

theorem generate_ne_empty (key name : String) (h : name ≠ "") : generate key name ≠ "" := by
  intro he
  unfold generate at he
  split at he
  · exact h he
  · have := congrArg String.data he
    simp [String.data_append] at this

theorem under_data (a p : String) (h : Under a p) (ha : a ≠ "") :
    ∃ t, p.data = a.data ++ t ∧ (t = [] ∨ ∃ s, t = '.' :: s) := by
  rcases h with h | h | ⟨s, h⟩
  · exact absurd h ha
  · exact ⟨[], by simp [h], Or.inl rfl⟩
  · exact ⟨'.' :: s.data, by simp [h, String.data_append], Or.inr ⟨_, rfl⟩⟩

theorem segment_spec (s : String) (h : segment s = true) : s ≠ "" ∧ '.' ∉ s.data := by
  simpa [segment] using h

theorem sep_generate (key a b p : String) (ha : segment a = true) (hb : segment b = true)
    (hpa : Under (generate key a) p) (hpb : Under (generate key b) p) : a = b := by
  obtain ⟨ha1, ha2⟩ := segment_spec a ha
  obtain ⟨hb1, hb2⟩ := segment_spec b hb
  obtain ⟨ta, hta, hta'⟩ := under_data _ p hpa (generate_ne_empty key a ha1)
  obtain ⟨tb, htb, htb'⟩ := under_data _ p hpb (generate_ne_empty key b hb1)
  obtain ⟨pre, hpre⟩ := generate_data key
  rw [hpre a, List.append_assoc] at hta
  rw [hpre b, List.append_assoc, hta] at htb
  exact String.ext (prefix_unique '.' a.data b.data ta tb ha2 hb2 hta' htb'
    (List.append_cancel_left htb))

theorem sep_selector (key cb a b p : String) (ha : ')' ∉ a.data) (hb : ')' ∉ b.data)
    (hpa : Under (selector key cb a) p) (hpb : Under (selector key cb b) p) : a = b := by
  have hne : ∀ c, selector key cb c ≠ "" := by
    intro c he
    have := congrArg String.data he
    simp [selector, String.data_append] at this
  obtain ⟨ta, hta, -⟩ := under_data _ p hpa (hne a)
  obtain ⟨tb, htb, -⟩ := under_data _ p hpb (hne b)
  rw [hta] at htb
  simp only [selector, String.data_append, List.append_assoc] at htb
  have h3 := List.append_cancel_left (List.append_cancel_left (List.append_cancel_left
    (List.append_cancel_left htb)))
  exact String.ext (prefix_unique ')' a.data b.data _ _ ha hb (Or.inr ⟨_, rfl⟩)
    (Or.inr ⟨_, rfl⟩) h3)
theorem mem_rekeyed_writes (s0 s : Slot) (sel : String) (l : PathMap) (p : String) :
    (∃ w ∈ l.map (fun e => (⟨s0, sel ++ "." ++ e.1, e.2⟩ : Write)), w.slot = s ∧ p = w.path) ↔
      s0 = s ∧ ∃ q, q ∈ l.map Prod.fst ∧ p = sel ++ "." ++ q := by
  simp only [List.mem_map]
  constructor
  · rintro ⟨w, ⟨e, he, rfl⟩, hs, hp⟩
    exact ⟨hs, e.1, ⟨e, he, rfl⟩, hp⟩
  · rintro ⟨hs, q, ⟨e, he, rfl⟩, hp⟩
    exact ⟨_, ⟨e, he, rfl⟩, hs, hp⟩

theorem merge_keys (sel : String) (d tmp : DiffDetails) (s : Slot) (p : String) :
    p ∈ keysAt s
        (mergeDel sel (mergeChange sel (mergeAdd sel d tmp.Add) tmp.Change) tmp.Del) ↔
      p ∈ keysAt s d ∨ ∃ q, q ∈ keysAt s tmp ∧ p = sel ++ "." ++ q := by
  rw [merge_apply, mem_keysAt_apply]
  apply or_congr Iff.rfl
  simp only [List.mem_append, or_and_right, exists_or, mem_rekeyed_writes]
  cases s <;> simp [keysAt, DiffDetails.slot]

theorem disjoint_empty : DiffDetails.Disjoint {} := by
  intro s s' p _ h _
  rw [keysAt_empty] at h
  simp at h

theorem disjoint_write (w : Write) : (({} : DiffDetails).write w).Disjoint := by
  intro s s' p hne h h'
  rw [mem_keysAt_write, keysAt_empty] at h h'
  simp only [List.not_mem_nil, false_or] at h h'
  exact hne (h.1.symm.trans h'.1)

theorem disjoint_merge (sel : String) (tmp : DiffDetails) (h : tmp.Disjoint) :
    (mergeDel sel (mergeChange sel (mergeAdd sel {} tmp.Add) tmp.Change) tmp.Del).Disjoint := by
  intro s s' p hne hp hp'
  rw [merge_keys, keysAt_empty] at hp hp'
  simp only [List.not_mem_nil, false_or] at hp hp'
  obtain ⟨q, hq, rfl⟩ := hp
  obtain ⟨q', hq', he⟩ := hp'
  rw [dot_append_injective sel q q' he] at hq
  exact h s s' q' hne hq hq'

theorem stepNew_paths (ff : Fmt) (cmp : Cmp) (old : GoValue)
    (comparedby : String) (isDirect : Bool) (key : String) (x : GoValue) (rx : DiffDetails)
    (h : stepNew ff cmp old comparedby isDirect key {} x = .ok rx) :
    ∃ v cv, getElement x = .ok v ∧ selText ff comparedby x = some cv ∧
      (∀ s p, p ∈ keysAt s rx → Under (selector key comparedby cv) p) ∧
      ((∀ f tmp, getFromSlice old v comparedby = .ok (some f) → isDirect = false →
          cmp "" "" false {} v f = .ok tmp → tmp.Disjoint) → rx.Disjoint) := by
  unfold stepNew at h
  cases h1 : getElement x with
  | error e => simp [h1] at h
  | ok value =>
  cases h2 : getFromSlice old value comparedby with
  | error e => simp [h1, h2] at h
  | ok oldElement =>
  cases h3 : fieldByName value comparedby with
  | error e => simp [h1, h2, h3] at h
  | ok field =>
  cases h4 : structFieldIsExported field with
  | false => simp [h1, h2, h3, h4] at h
  | true =>
  cases h5 : getComparedValueOf ff field with
  | error e => simp [h1, h2, h3, h4, h5] at h
  | ok cv =>
  simp only [h1, h2, h3, h4, h5, ok_bind] at h
  have hsel : selText ff comparedby x = some cv := by simp [selText, h1, h3, h5]
  have hone : ∀ w : Write, w.path = selector key comparedby cv →
      (∀ s p, p ∈ keysAt s (({} : DiffDetails).write w) → Under (selector key comparedby cv) p) := by
    intro w hw s p hp
    rw [mem_keysAt_write, keysAt_empty] at hp
    simp only [List.not_mem_nil, false_or] at hp
    rw [hp.2, hw]
    exact under_self _
  refine ⟨value, cv, rfl, hsel, ?_⟩
  cases oldElement with
  | none =>
    simp at h; subst h
    exact ⟨hone ⟨.add, _, none⟩ rfl, fun _ => disjoint_write ⟨.add, _, none⟩⟩
  | some f =>
    cases hz : goIsZero f
    · cases isDirect
      · cases h6 : cmp "" "" false {} value f with
        | error e => simp [hz, h6] at h
        | ok tmp =>
          simp [hz, h6] at h
          subst h
          refine ⟨?_, fun hn => disjoint_merge _ tmp (hn f tmp h2 rfl h6)⟩
          intro s p hp
          rw [merge_keys, keysAt_empty] at hp
          simp only [List.not_mem_nil, false_or] at hp
          obtain ⟨q, -, rfl⟩ := hp
          exact under_dot _ _ _ (under_self _)
      · cases h6 : deepEqual cmp value f with
        | error e => simp [hz, h6] at h
        | ok eq =>
          cases eq <;> simp [hz, h6] at h <;> subst h
          · exact ⟨hone ⟨.change, _, some f⟩ rfl, fun _ => disjoint_write ⟨.change, _, some f⟩⟩
          · refine ⟨?_, fun _ => disjoint_empty⟩
            intro s p hp
            rw [keysAt_empty] at hp
            simp at hp
    · simp [hz] at h; subst h
      exact ⟨hone ⟨.add, _, none⟩ rfl, fun _ => disjoint_write ⟨.add, _, none⟩⟩

theorem stepOld_paths (ff : Fmt) (new : GoValue) (comparedby : String)
    (key : String) (y : GoValue) (ry : DiffDetails)
    (h : stepOld ff new comparedby key {} y = .ok ry) :
    ∀ s p, p ∈ keysAt s ry → s = .del ∧ matchedIn comparedby new y = false ∧
      ∃ cv, selText ff comparedby y = some cv ∧ p = selector key comparedby cv := by
  unfold stepOld at h
  cases h1 : getElement y with
  | error e => simp [h1] at h
  | ok value =>
  cases h2 : getFromSlice new value comparedby with
  | error e => simp [h1, h2] at h
  | ok newElement =>
  cases h3 : fieldByName value comparedby with
  | error e => simp [h1, h2, h3] at h
  | ok field =>
  cases h5 : getComparedValueOf ff field with
  | error e => simp [h1, h2, h3, h5] at h
  | ok cv =>
  simp only [h1, h2, h3, h5, ok_bind] at h
  intro s p hp
  cases hz : foundIsZero newElement <;> simp [hz] at h <;> subst h
  · rw [keysAt_empty] at hp
    simp at hp
  · have hp' : p ∈ keysAt s (({} : DiffDetails).write ⟨.del, selector key comparedby cv,
        some value⟩) := hp
    rw [mem_keysAt_write, keysAt_empty] at hp'
    simp only [List.not_mem_nil, false_or] at hp'
    exact ⟨hp'.1.symm, by simp [matchedIn, h1, h2, hz], cv, by simp [selText, h1, h3, h5],
      hp'.2⟩
theorem toString_ok (ff : Fmt) :
    ∀ (fuel : Nat) (k : GoValue) (name : String), toString ff fuel k = .ok name →
      k.isScalar = true ∧ name = textOf ff k
  | 0, _, _, h => by simp [toString] at h
  | fuel + 1, .scalar _ _, name, h => by
      simp only [toString, Except.ok.injEq] at h
      exact ⟨rfl, h.symm⟩
  | fuel + 1, .ptr t e, name, h => by
      rw [toString_ptr] at h
      cases h
  | fuel + 1, .nilPtr t, name, h => by
      rw [toString] at h
      exact absurd (toString_ok ff fuel (.nilPtr t) name h).1 (by simp [GoValue.isScalar])
  | fuel + 1, .slice _ _, _, h => by simp [toString] at h
  | fuel + 1, .nilSlice _, _, h => by simp [toString] at h
  | fuel + 1, .array _ _, _, h => by simp [toString] at h
  | fuel + 1, .struct _ _, _, h => by simp [toString] at h
  | fuel + 1, .map _ _, _, h => by simp [toString] at h
  | fuel + 1, .nilMap _, _, h => by simp [toString] at h

theorem stepMapNew_paths (ff : Fmt) (fuel : Nat) (cmp : Cmp)
    (hcmp : ∀ key cb isDirect new old, Logged key (fun d => cmp key cb isDirect d new old))
    (old : GoValue) (key comparedby : String) (isDirect : Bool) (e : GoValue × GoValue)
    (re : DiffDetails)
    (h : stepMapNew ff fuel cmp old key comparedby isDirect {} e = .ok re) :
    e.1.isScalar = true ∧
    (∀ s p, p ∈ keysAt s re → Under (generate key (textOf ff e.1)) p) ∧
    ((∀ ov r, mapIndex old e.1 = .ok (some ov) →
        cmp (generate key (textOf ff e.1)) comparedby isDirect {} e.2 ov = .ok r →
        r.Disjoint) → re.Disjoint) := by
  unfold stepMapNew at h
  cases h1 : toString ff fuel e.1 with
  | error err => simp [h1] at h
  | ok name =>
  obtain ⟨hs, rfl⟩ := toString_ok ff fuel e.1 name h1
  cases h2 : mapIndex old e.1 with
  | error err => simp [h1, h2] at h
  | ok found =>
    cases found with
    | none =>
      simp [h1, h2] at h
      subst h
      refine ⟨hs, ?_, fun _ => disjoint_write ⟨.add, _, none⟩⟩
      intro s p hp
      have hp' : p ∈ keysAt s (({} : DiffDetails).write
          ⟨.add, generate key (textOf ff e.1), none⟩) := hp
      rw [mem_keysAt_write, keysAt_empty] at hp'
      simp only [List.not_mem_nil, false_or] at hp'
      rw [hp'.2]
      exact under_self _
    | some ov =>
      simp [h1, h2] at h
      exact ⟨hs, Logged.under _ _ (hcmp _ _ _ _ _) re h, fun hn => hn ov re rfl h⟩

theorem stepMapOld_paths (ff : Fmt) (fuel : Nat) (new : GoValue)
    (key : String) (e : GoValue × GoValue) (re : DiffDetails)
    (h : stepMapOld ff fuel new key {} e = .ok re) :
    ∀ s p, p ∈ keysAt s re → s = .del ∧ mapIndex new e.1 = .ok none ∧
      p = generate key (textOf ff e.1) := by
  unfold stepMapOld at h
  cases h1 : toString ff fuel e.1 with
  | error err => simp [h1] at h
  | ok name =>
  obtain ⟨hs, rfl⟩ := toString_ok ff fuel e.1 name h1
  intro s p hp
  cases h2 : mapIndex new e.1 with
  | error err => simp [h1, h2] at h
  | ok found =>
    cases found with
    | none =>
      simp [h1, h2] at h
      subst h
      have hp' : p ∈ keysAt s (({} : DiffDetails).write
          ⟨.del, generate key (textOf ff e.1), some e.2⟩) := hp
      rw [mem_keysAt_write, keysAt_empty] at hp'
      simp only [List.not_mem_nil, false_or] at hp'
      exact ⟨hp'.1.symm, rfl, hp'.2⟩
    | some _ =>
      simp [h1, h2] at h
      subst h
      rw [keysAt_empty] at hp
      simp at hp

theorem compareFields_enum (cmp : Cmp) (key : String) (old : GoValue) :
    ∀ (fs : List (StructField × GoValue)) (i : Nat) (d : DiffDetails),
      compareFields cmp key old i fs d = (fs.enumFrom i).foldlM (fieldStep cmp key old) d
  | [], _, _ => rfl
  | f :: rest, i, d => by
      cases hexp : f.1.Exported
      · simp only [compareFields, hexp, Bool.not_false, if_true, List.enumFrom_cons,
          List.foldlM_cons, fieldStep, ok_bind]
        exact compareFields_enum cmp key old rest (i + 1) d
      · rw [compareFields_cons _ _ _ _ _ _ _ hexp]
        simp only [List.enumFrom_cons, List.foldlM_cons, fieldStep, hexp, Bool.not_true,
          Bool.false_eq_true, if_false]
        cases fieldAt old i with
        | error e => rfl
        | ok o =>
          simp only [ok_bind]
          cases cmp (generate key f.1.Name) (parseTag f.1.Tag).1 (parseTag f.1.Tag).2 d f.2 o with
          | error e => rfl
          | ok d1 =>
            simp only [ok_bind]
            exact compareFields_enum cmp key old rest (i + 1) d1

theorem fieldStep_logged (cmp : Cmp)
    (hcmp : ∀ key cb isDirect new old, Logged key (fun d => cmp key cb isDirect d new old))
    (key : String) (old : GoValue) (jf : Nat × (StructField × GoValue)) :
    Logged key (fun d => fieldStep cmp key old d jf) := by
  cases hexp : jf.2.1.Exported
  · exact Logged.congr key _ (fun d => .ok d) (fun d => by simp [fieldStep, hexp])
      (logged_ok key)
  · cases hold : fieldAt old jf.1 with
    | error e =>
      exact Logged.congr key _ (fun _ => .error e) (fun d => by simp [fieldStep, hexp, hold])
        (logged_error key e)
    | ok o =>
      exact Logged.congr key _
        (fun d => cmp (generate key jf.2.1.Name) (parseTag jf.2.1.Tag).1 (parseTag jf.2.1.Tag).2
          d jf.2.2 o)
        (fun d => by simp [fieldStep, hexp, hold])
        (Logged.mono key _ _ (under_generate key jf.2.1.Name) (hcmp _ _ _ _ _))

theorem mem_enumFrom_snd {α : Type} :
    ∀ (l : List α) (i j : Nat) (x : α), (j, x) ∈ l.enumFrom i → x ∈ l
  | [], _, _, _, h => by simp at h
  | a :: l, i, j, x, h => by
      simp only [List.enumFrom_cons, List.mem_cons, Prod.mk.injEq] at h
      rcases h with h | h
      · simp [h.2]
      · exact List.mem_cons_of_mem _ (mem_enumFrom_snd l (i + 1) j x h)

theorem enumFrom_unique {α β : Type} (g : α → β) :
    ∀ (l : List α) (i : Nat), (l.map g).Nodup →
      ∀ jx ∈ l.enumFrom i, ∀ jy ∈ l.enumFrom i, g jx.2 = g jy.2 → jx = jy
  | [], _, _, jx, hx, _, _, _ => by simp at hx
  | a :: l, i, hnd, jx, hx, jy, hy, hg => by
      simp only [List.map_cons, List.nodup_cons, List.mem_map, not_exists, not_and] at hnd
      simp only [List.enumFrom_cons, List.mem_cons] at hx hy
      rcases hx with hx | hx <;> rcases hy with hy | hy
      · rw [hx, hy]
      · subst hx
        exact absurd hg.symm (hnd.1 jy.2 (mem_enumFrom_snd l (i + 1) jy.1 jy.2 hy))
      · subst hy
        exact absurd hg (hnd.1 jx.2 (mem_enumFrom_snd l (i + 1) jx.1 jx.2 hx))
      · exact enumFrom_unique g l (i + 1) hnd.2 jx hx jy hy hg
theorem compareBySlice_disjoint (ff : Fmt) (cmp : Cmp) (new old : GoValue)
    (comparedby : String) (isDirect : Bool) (key : String) (r : DiffDetails)
    (newEs oldEs : List GoValue)
    (hnew : checkedItems new = .ok newEs) (hold : seqItems old = .ok oldEs)
    (hnd : (newEs.map (selText ff comparedby)).Nodup)
    (hparen : ∀ x ∈ newEs ++ oldEs, ∀ cv, selText ff comparedby x = some cv → ')' ∉ cv.data)
    (hcross : ∀ x ∈ newEs, ∀ y ∈ oldEs, selText ff comparedby x = selText ff comparedby y →
      matchedIn comparedby new y = true)
    (hnest : ∀ x ∈ newEs, ∀ v f tmp, getElement x = .ok v →
      getFromSlice old v comparedby = .ok (some f) → isDirect = false →
      cmp "" "" false {} v f = .ok tmp → tmp.Disjoint)
    (h : compareBySlice ff cmp new old comparedby isDirect key {} = .ok r) : r.Disjoint := by
  simp only [compareBySlice, hnew, hold, ok_bind] at h
  cases h1 : newEs.foldlM (stepNew ff cmp old comparedby isDirect key) {} with
  | error e => simp [h1] at h
  | ok d1 =>
  simp only [h1, ok_bind] at h
  obtain ⟨-, hk1⟩ := foldlM_keys key _ newEs
    (fun x _ => stepNew_logged ff cmp old comparedby isDirect key x) {} d1 h1
  obtain ⟨-, hk2⟩ := foldlM_keys key _ oldEs
    (fun y _ => stepOld_logged ff new comparedby key y) d1 r h
  -- where a path of the result comes from
  have hsrc : ∀ s p, p ∈ keysAt s r →
      (∃ x ∈ newEs, ∃ rx, stepNew ff cmp old comparedby isDirect key {} x = .ok rx ∧
        p ∈ keysAt s rx) ∨
      (∃ y ∈ oldEs, ∃ ry, stepOld ff new comparedby key {} y = .ok ry ∧ p ∈ keysAt s ry) := by
    intro s p hp
    rcases (hk2 s p).mp hp with hp | hp
    · rcases (hk1 s p).mp hp with hp | hp
      · rw [keysAt_empty] at hp
        simp at hp
      · exact Or.inl hp
    · exact Or.inr hp
  have hnewOld : ∀ s s' p x rx y ry, x ∈ newEs → y ∈ oldEs →
      stepNew ff cmp old comparedby isDirect key {} x = .ok rx → p ∈ keysAt s rx →
      stepOld ff new comparedby key {} y = .ok ry → p ∈ keysAt s' ry → False := by
    intro s s' p x rx y ry hx hy hrx hpx hry hpy
    obtain ⟨v, cv, -, hcv, hu, -⟩ := stepNew_paths ff cmp old comparedby isDirect key x rx hrx
    obtain ⟨-, hm, cv', hcv', rfl⟩ := stepOld_paths ff new comparedby key y ry hry s' p hpy
    have hcc : cv = cv' := sep_selector key comparedby cv cv' _
      (hparen x (by simp [hx]) cv hcv) (hparen y (by simp [hy]) cv' hcv') (hu s _ hpx)
      (under_self _)
    rw [hcross x hx y hy (by rw [hcv, hcv', hcc])] at hm
    cases hm
  intro s s' p hne hp hp'
  rcases hsrc s p hp with ⟨x, hx, rx, hrx, hpx⟩ | ⟨y, hy, ry, hry, hpy⟩
  · rcases hsrc s' p hp' with ⟨x', hx', rx', hrx', hpx'⟩ | ⟨y, hy, ry, hry, hpy⟩
    · obtain ⟨v, cv, hv, hcv, hu, hdisj⟩ :=
        stepNew_paths ff cmp old comparedby isDirect key x rx hrx
      obtain ⟨v', cv', -, hcv', hu', -⟩ :=
        stepNew_paths ff cmp old comparedby isDirect key x' rx' hrx'
      have hcc : cv = cv' := sep_selector key comparedby cv cv' p
        (hparen x (by simp [hx]) cv hcv) (hparen x' (by simp [hx']) cv' hcv') (hu s p hpx)
        (hu' s' p hpx')
      have hxx : x = x' := List.inj_on_of_nodup_map hnd hx hx' (by rw [hcv, hcv', hcc])
      subst hxx
      rw [hrx] at hrx'
      cases hrx'
      exact hdisj (fun f tmp hf hd ht => hnest x hx v f tmp hv hf hd ht) s s' p hne hpx hpx'
    · exact hnewOld s s' p x rx y ry hx hy hrx hpx hry hpy
  · rcases hsrc s' p hp' with ⟨x', hx', rx', hrx', hpx'⟩ | ⟨y', hy', ry', hry', hpy'⟩
    · exact hnewOld s' s p x' rx' y ry hx' hy hrx' hpx' hry hpy
    · obtain ⟨hs, -⟩ := stepOld_paths ff new comparedby key y ry hry s p hpy
      obtain ⟨hs', -⟩ := stepOld_paths ff new comparedby key y' ry' hry' s' p hpy'
      exact hne (hs.trans hs'.symm)

theorem mapLoops_disjoint (ff : Fmt) (fuel : Nat) (cmp : Cmp)
    (hcmp : ∀ key cb isDirect new old, Logged key (fun d => cmp key cb isDirect d new old))
    (new old : GoValue) (key : String) (isDirect : Bool) (r : DiffDetails)
    (newEs oldEs : List (GoValue × GoValue))
    (hnd : (newEs.map (fun e => textOf ff e.1)).Nodup)
    (hseg : ∀ e ∈ newEs ++ oldEs, segment (textOf ff e.1) = true)
    (hcross : ∀ e ∈ newEs, ∀ e' ∈ oldEs, textOf ff e.1 = textOf ff e'.1 →
      ∃ v, mapIndex new e'.1 = .ok (some v))
    (hnest : ∀ e ∈ newEs, ∀ ov rr, mapIndex old e.1 = .ok (some ov) →
      cmp (generate key (textOf ff e.1)) "" isDirect {} e.2 ov = .ok rr → rr.Disjoint)
    (h : (newEs.foldlM (stepMapNew ff fuel cmp old key "" isDirect) {} >>=
      fun d => oldEs.foldlM (stepMapOld ff fuel new key) d) = .ok r) : r.Disjoint := by
  cases h1 : newEs.foldlM (stepMapNew ff fuel cmp old key "" isDirect) {} with
  | error e => simp [h1] at h
  | ok d1 =>
  simp only [h1, ok_bind] at h
  obtain ⟨-, hk1⟩ := foldlM_keys key _ newEs
    (fun e _ => stepMapNew_logged ff fuel cmp hcmp old key "" isDirect e) {} d1 h1
  obtain ⟨-, hk2⟩ := foldlM_keys key _ oldEs
    (fun e _ => stepMapOld_logged ff fuel new key e) d1 r h
  have hsrc : ∀ s p, p ∈ keysAt s r →
      (∃ e ∈ newEs, ∃ re, stepMapNew ff fuel cmp old key "" isDirect {} e = .ok re ∧
        p ∈ keysAt s re) ∨
      (∃ e ∈ oldEs, ∃ re, stepMapOld ff fuel new key {} e = .ok re ∧ p ∈ keysAt s re) := by
    intro s p hp
    rcases (hk2 s p).mp hp with hp | hp
    · rcases (hk1 s p).mp hp with hp | hp
      · rw [keysAt_empty] at hp
        simp at hp
      · exact Or.inl hp
    · exact Or.inr hp
  have hnewOld : ∀ s s' p e re e' re', e ∈ newEs → e' ∈ oldEs →
      stepMapNew ff fuel cmp old key "" isDirect {} e = .ok re → p ∈ keysAt s re →
      stepMapOld ff fuel new key {} e' = .ok re' → p ∈ keysAt s' re' → False := by
    intro s s' p e re e' re' he he' hre hpe hre' hpe'
    obtain ⟨-, hu, -⟩ := stepMapNew_paths ff fuel cmp hcmp old key "" isDirect e re hre
    obtain ⟨-, hm, rfl⟩ := stepMapOld_paths ff fuel new key e' re' hre' s' p hpe'
    have htt := sep_generate key _ _ _ (hseg e (by simp [he])) (hseg e' (by simp [he']))
      (hu s _ hpe) (under_self _)
    obtain ⟨v, hv⟩ := hcross e he e' he' htt
    rw [hv] at hm
    cases hm
  intro s s' p hne hp hp'
  rcases hsrc s p hp with ⟨e, he, re, hre, hpe⟩ | ⟨e, he, re, hre, hpe⟩
  · rcases hsrc s' p hp' with ⟨e', he', re', hre', hpe'⟩ | ⟨e', he', re', hre', hpe'⟩
    · obtain ⟨-, hu, hdisj⟩ := stepMapNew_paths ff fuel cmp hcmp old key "" isDirect e re hre
      obtain ⟨-, hu', -⟩ := stepMapNew_paths ff fuel cmp hcmp old key "" isDirect e' re' hre'
      have htt := sep_generate key _ _ _ (hseg e (by simp [he])) (hseg e' (by simp [he']))
        (hu s p hpe) (hu' s' p hpe')
      have hee : e = e' := List.inj_on_of_nodup_map hnd he he' htt
      subst hee
      rw [hre] at hre'
      cases hre'
      exact hdisj (fun ov rr hov hrr => hnest e he ov rr hov hrr) s s' p hne hpe hpe'
    · exact hnewOld s s' p e re e' re' he he' hre hpe hre' hpe'
  · rcases hsrc s' p hp' with ⟨e', he', re', hre', hpe'⟩ | ⟨e', he', re', hre', hpe'⟩
    · exact hnewOld s' s p e' re' e re he' he hre' hpe' hre hpe
    · obtain ⟨hs, -⟩ := stepMapOld_paths ff fuel new key e re hre s p hpe
      obtain ⟨hs', -⟩ := stepMapOld_paths ff fuel new key e' re' hre' s' p hpe'
      exact hne (hs.trans hs'.symm)

theorem compareFields_disjoint (cmp : Cmp)
    (hcmp : ∀ key cb isDirect new old, Logged key (fun d => cmp key cb isDirect d new old))
    (key : String) (old : GoValue) (fs : List (StructField × GoValue)) (r : DiffDetails)
    (hnd : (fs.map (fun f => f.1.Name)).Nodup)
    (hseg : ∀ f ∈ fs, segment f.1.Name = true)
    (hnest : ∀ jf ∈ fs.enumFrom 0, jf.2.1.Exported = true → ∀ o rf, fieldAt old jf.1 = .ok o →
      cmp (generate key jf.2.1.Name) (parseTag jf.2.1.Tag).1 (parseTag jf.2.1.Tag).2 {}
        jf.2.2 o = .ok rf → rf.Disjoint)
    (h : compareFields cmp key old 0 fs {} = .ok r) : r.Disjoint := by
  rw [compareFields_enum] at h
  obtain ⟨-, hk⟩ := foldlM_keys key _ (fs.enumFrom 0)
    (fun jf _ => fieldStep_logged cmp hcmp key old jf) {} r h
  have hshape : ∀ jf ∈ fs.enumFrom 0, ∀ rf, fieldStep cmp key old {} jf = .ok rf →
      rf.Disjoint ∧ ∀ s p, p ∈ keysAt s rf → Under (generate key jf.2.1.Name) p := by
    intro jf hjf rf hrf
    unfold fieldStep at hrf
    cases hexp : jf.2.1.Exported
    · simp [hexp] at hrf
      subst hrf
      refine ⟨disjoint_empty, ?_⟩
      intro s p hp
      rw [keysAt_empty] at hp
      simp at hp
    · cases hold : fieldAt old jf.1 with
      | error e => simp [hexp, hold] at hrf
      | ok o =>
        simp [hexp, hold] at hrf
        exact ⟨hnest jf hjf hexp o rf hold hrf, Logged.under _ _ (hcmp _ _ _ _ _) rf hrf⟩
  intro s s' p hne hp hp'
  rw [hk s p, keysAt_empty] at hp
  rw [hk s' p, keysAt_empty] at hp'
  simp only [List.not_mem_nil, false_or] at hp hp'
  obtain ⟨jf, hjf, rf, hrf, hpf⟩ := hp
  obtain ⟨jf', hjf', rf', hrf', hpf'⟩ := hp'
  obtain ⟨hd, hu⟩ := hshape jf hjf rf hrf
  obtain ⟨-, hu'⟩ := hshape jf' hjf' rf' hrf'
  have hnn := sep_generate key _ _ p
    (hseg jf.2 (mem_enumFrom_snd fs 0 jf.1 jf.2 hjf))
    (hseg jf'.2 (mem_enumFrom_snd fs 0 jf'.1 jf'.2 hjf')) (hu s p hpf) (hu' s' p hpf')
  have hjj : jf = jf' := enumFrom_unique (fun f => f.1.Name) fs 0 hnd jf hjf jf' hjf' hnn
  subst hjj
  rw [hrf] at hrf'
  cases hrf'
  exact hd s s' p hne hpf hpf'
theorem disjoint_whole (d : DiffDetails) (b : Bool) (key : String) (v : Option GoValue)
    (r : DiffDetails)
    (h : (Except.ok (if b then ({} : DiffDetails) else ({} : DiffDetails).setChange key v) :
      Res DiffDetails) = .ok r) (_hd : d = {}) : r.Disjoint := by
  cases b <;> simp at h <;> subst h
  · exact disjoint_write ⟨.change, key, v⟩
  · exact disjoint_empty

theorem compare_disjoint (ff : Fmt) :
    ∀ (fuel n : Nat) (key cb : String) (isDirect : Bool) (new old : GoValue) (r : DiffDetails),
      unambiguous ff n cb isDirect new old = true →
      compare ff fuel key cb isDirect {} new old = .ok r → r.Disjoint := by
  intro fuel
  induction fuel with
  | zero => intro n key cb isDirect new old r _ h; simp [compare] at h
  | succ fuel ih =>
    intro n key cb isDirect new old r hu h
    cases n with
    | zero => simp [unambiguous] at hu
    | succ n =>
    by_cases hcb : cb = "-"
    · rw [hcb, compare_excluded] at h
      cases h
      exact disjoint_empty
    by_cases hname : new.typeName = old.typeName
    swap
    · rw [compare_name_mismatch ff fuel key cb isDirect {} new old hcb hname] at h
      cases h
    have hseq : new.isSeq = true →
        (cb = "" ∨ ∀ newEs oldEs, checkedItems new = .ok newEs → seqItems old = .ok oldEs →
          (newEs.map (selText ff cb)).Nodup ∧
          (∀ x ∈ newEs ++ oldEs, ∀ cv, selText ff cb x = some cv → ')' ∉ cv.data) ∧
          (∀ x ∈ newEs, ∀ y ∈ oldEs, selText ff cb x = selText ff cb y →
            matchedIn cb new y = true) ∧
          (∀ x ∈ newEs, ∀ v f, getElement x = .ok v →
            getFromSlice old v cb = .ok (some f) → isDirect = false →
            unambiguous ff n "" false v f = true)) → r.Disjoint := by
      intro hs hcond
      by_cases hc : cb = ""
      · subst hc
        rw [compare_unkeyed_seq ff fuel key isDirect {} new old hs hname] at h
        exact disjoint_whole {} _ key _ r h rfl
      · rw [compare_keyed ff fuel key cb isDirect {} new old hs hcb hc hname] at h
        cases hn : checkedItems new with
        | error e => simp [compareBySlice, hn] at h
        | ok newEs =>
        cases ho : seqItems old with
        | error e =>
          simp only [compareBySlice, hn, ho, ok_bind] at h
          cases hf : newEs.foldlM (stepNew ff (compare ff fuel) old cb isDirect key) {} with
          | error e => simp [hf] at h
          | ok d1 => simp [hf] at h
        | ok oldEs =>
          rcases hcond with hcond | hcond
          · exact absurd hcond hc
          obtain ⟨c1, c2, c3, c4⟩ := hcond newEs oldEs hn ho
          exact compareBySlice_disjoint ff _ new old cb isDirect key r newEs oldEs hn ho c1 c2 c3
            (fun x hx v f tmp hv hf hd ht => ih n "" "" false v f tmp (c4 x hx v f hv hf hd) ht)
            h
    have hmap : new.isMap = true →
        (∀ newEs oldEs, mapRange new = .ok newEs → mapRange old = .ok oldEs →
          (newEs.map (fun e => textOf ff e.1)).Nodup ∧
          (∀ e ∈ newEs ++ oldEs, segment (textOf ff e.1) = true) ∧
          (∀ e ∈ newEs, ∀ e' ∈ oldEs, textOf ff e.1 = textOf ff e'.1 →
            ∃ v, mapIndex new e'.1 = .ok (some v)) ∧
          (∀ e ∈ newEs, ∀ ov, mapIndex old e.1 = .ok (some ov) →
            unambiguous ff n "" isDirect e.2 ov = true)) → r.Disjoint := by
      intro hm hcond
      by_cases hc : cb = ""
      · subst hc
        cases hnew : mapRange new with
        | error e => cases new <;> simp [GoValue.isMap] at hm <;> simp [mapRange] at hnew
        | ok newEs =>
          cases hold : mapRange old with
          | error e =>
            rw [compare_map_panic ff fuel key isDirect {} new old hm hname e hold] at h
            cases h
          | ok oldEs =>
            rw [compare_map ff fuel key isDirect {} new old newEs oldEs hnew hold hname] at h
            obtain ⟨c1, c2, c3, c4⟩ := hcond newEs oldEs hnew hold
            exact mapLoops_disjoint ff fuel _ (compare_logged ff fuel) new old key isDirect r
              newEs oldEs c1 c2 c3
              (fun e he ov rr hov hrr => ih n _ "" isDirect e.2 ov rr (c4 e he ov hov) hrr) h
      · rw [compare_annotated ff fuel key cb isDirect {} new old (Or.inr hm) ⟨hc, hcb⟩ hname] at h
        cases h
    have hmapc : ∀ (newEs oldEs : List (GoValue × GoValue)),
        ((newEs.map (fun e => textOf ff e.1)).Nodup &&
          (newEs ++ oldEs).all (fun e => segment (textOf ff e.1)) &&
          newEs.all (fun e => oldEs.all (fun e' =>
            textOf ff e.1 != textOf ff e'.1 ||
            match mapIndex new e'.1 with
            | .ok (some _) => true
            | _ => false)) &&
          newEs.all (fun e =>
            match mapIndex old e.1 with
            | .ok (some ov) => unambiguous ff n "" isDirect e.2 ov
            | _ => true)) = true →
        (newEs.map (fun e => textOf ff e.1)).Nodup ∧
          (∀ e ∈ newEs ++ oldEs, segment (textOf ff e.1) = true) ∧
          (∀ e ∈ newEs, ∀ e' ∈ oldEs, textOf ff e.1 = textOf ff e'.1 →
            ∃ v, mapIndex new e'.1 = .ok (some v)) ∧
          (∀ e ∈ newEs, ∀ ov, mapIndex old e.1 = .ok (some ov) →
            unambiguous ff n "" isDirect e.2 ov = true) := by
      intro newEs oldEs hb
      simp only [Bool.and_eq_true, decide_eq_true_eq, List.all_eq_true, Bool.or_eq_true,
        bne_iff_ne, ne_eq] at hb
      obtain ⟨⟨⟨c1, c2⟩, c3⟩, c4⟩ := hb
      refine ⟨c1, c2, ?_, ?_⟩
      · intro e he e' he' ht
        rcases c3 e he e' he' with hc | hc
        · exact absurd ht hc
        · cases hmi : mapIndex new e'.1 with
          | error err => simp [hmi] at hc
          | ok o =>
            cases o with
            | none => simp [hmi] at hc
            | some v => exact ⟨v, rfl⟩
      · intro e he ov hov
        have := c4 e he
        simpa [hov] using this
    have hseqc : ∀ (newEs oldEs : List GoValue),
        ((newEs.map (selText ff cb)).Nodup &&
          (newEs ++ oldEs).all (fun x =>
            match selText ff cb x with
            | some cv => !cv.data.contains ')'
            | none => true) &&
          newEs.all (fun x => oldEs.all (fun y =>
            selText ff cb x != selText ff cb y || matchedIn cb new y)) &&
          newEs.all (fun x =>
            match getElement x with
            | .ok v =>
                match getFromSlice old v cb with
                | .ok (some f) => isDirect || unambiguous ff n "" false v f
                | _ => true
            | .error _ => true)) = true →
        (newEs.map (selText ff cb)).Nodup ∧
          (∀ x ∈ newEs ++ oldEs, ∀ cv, selText ff cb x = some cv → ')' ∉ cv.data) ∧
          (∀ x ∈ newEs, ∀ y ∈ oldEs, selText ff cb x = selText ff cb y →
            matchedIn cb new y = true) ∧
          (∀ x ∈ newEs, ∀ v f, getElement x = .ok v →
            getFromSlice old v cb = .ok (some f) → isDirect = false →
            unambiguous ff n "" false v f = true) := by
      intro newEs oldEs hb
      simp only [Bool.and_eq_true, decide_eq_true_eq, List.all_eq_true, Bool.or_eq_true,
        bne_iff_ne, ne_eq] at hb
      obtain ⟨⟨⟨c1, c2⟩, c3⟩, c4⟩ := hb
      refine ⟨c1, ?_, ?_, ?_⟩
      · intro x hx cv hcv
        have := c2 x hx
        simpa [hcv] using this
      · intro x hx y hy ht
        rcases c3 x hx y hy with hc | hc
        · exact absurd ht hc
        · exact hc
      · intro x hx v f hv hf hd
        have := c4 x hx
        simpa [hv, hf, hd] using this
    cases new with
    | scalar t s =>
      by_cases hc : cb = ""
      · subst hc
        rw [compare_scalar ff fuel key isDirect {} (.scalar t s) old rfl hname] at h
        exact disjoint_whole {} _ key _ r h rfl
      · rw [compare_annotated ff fuel key cb isDirect {} (.scalar t s) old (Or.inl rfl)
          ⟨hc, hcb⟩ hname] at h
        cases h
    | ptr t e =>
      cases old with
      | ptr u f =>
        rw [compare_ptr ff fuel key cb isDirect {} t u e f hcb hname] at h
        simp only [unambiguous, Bool.or_eq_true, beq_iff_eq, hcb, false_or] at hu
        exact ih n key cb isDirect e f r hu h
      | _ =>
        rw [compare_ptr_panic ff fuel key cb isDirect {} t e _ hcb hname
          (fun _ _ h => by cases h)] at h
        cases h
    | nilPtr t =>
      rw [compare_nilPtr ff fuel key cb isDirect {} t old hcb hname] at h
      cases old <;> simp at h <;> subst h <;> exact disjoint_empty
    | slice t es =>
      refine hseq rfl ?_
      simp only [unambiguous, Bool.or_eq_true, beq_iff_eq, hcb, false_or] at hu
      rcases hu with hu | hu
      · exact Or.inl hu
      · right
        intro newEs oldEs hn ho
        rw [hn, ho] at hu
        exact hseqc newEs oldEs hu
    | nilSlice t =>
      refine hseq rfl ?_
      simp only [unambiguous, Bool.or_eq_true, beq_iff_eq, hcb, false_or] at hu
      rcases hu with hu | hu
      · exact Or.inl hu
      · right
        intro newEs oldEs hn ho
        rw [hn, ho] at hu
        exact hseqc newEs oldEs hu
    | array t es =>
      refine hseq rfl ?_
      simp only [unambiguous, Bool.or_eq_true, beq_iff_eq, hcb, false_or] at hu
      rcases hu with hu | hu
      · exact Or.inl hu
      · right
        intro newEs oldEs hn ho
        rw [hn, ho] at hu
        exact hseqc newEs oldEs hu
    | struct t fs =>
      cases isDirect
      · rw [compare_struct_fields ff fuel key cb {} t fs old hcb hname] at h
        simp only [unambiguous, Bool.or_eq_true, beq_iff_eq, hcb, false_or, Bool.false_eq_true,
          Bool.and_eq_true, decide_eq_true_eq, List.all_eq_true, Bool.not_eq_true'] at hu
        obtain ⟨⟨c1, c2⟩, c3⟩ := hu
        refine compareFields_disjoint _ (compare_logged ff fuel) key old fs r c1 c2 ?_ h
        intro jf hjf hexp o rf ho hrf
        rcases c3 jf hjf with hc | hc
        · rw [hexp] at hc
          cases hc
        · rw [ho] at hc
          exact ih n _ _ _ _ _ rf hc hrf
      · rw [compare_struct_whole ff fuel key cb {} t fs old hcb hname] at h
        cases hde : deepEqual (compare ff fuel) (.struct t fs) old with
        | error e => simp [hde] at h
        | ok eq =>
          simp only [hde, ok_bind] at h
          exact disjoint_whole {} _ key _ r h rfl
    | map t es =>
      refine hmap rfl ?_
      intro newEs oldEs hn ho
      simp only [unambiguous, Bool.or_eq_true, beq_iff_eq, hcb, false_or] at hu
      rw [hn, ho] at hu
      exact hmapc newEs oldEs hu
    | nilMap t =>
      refine hmap rfl ?_
      intro newEs oldEs hn ho
      simp only [unambiguous, Bool.or_eq_true, beq_iff_eq, hcb, false_or] at hu
      rw [hn, ho] at hu
      exact hmapc newEs oldEs hu
/-- C14 (as amended): when the two values render to unambiguous paths (`unambiguous`: field
names and map-key texts are non-empty and without a dot, selector texts hold no closing
parenthesis, the keys of a new map and the elements of a new keyed sequence have pairwise
distinct texts, and an old key or element with the text of a new one is matched in `new`), no
path of a successful `Diff` is in two of the three maps. -/
theorem C14_paths_disjoint (ff : Fmt) (fuel n : Nat) (new old : GoValue)
    (r : DiffDetails) (hu : unambiguous ff n "" false new old = true)
    (h : Diff ff fuel new old = .ok r) :
    ∀ p,
      ¬(p ∈ (entries r.Change).map Prod.fst ∧ p ∈ (entries r.Add).map Prod.fst) ∧
      ¬(p ∈ (entries r.Change).map Prod.fst ∧ p ∈ (entries r.Del).map Prod.fst) ∧
      ¬(p ∈ (entries r.Add).map Prod.fst ∧ p ∈ (entries r.Del).map Prod.fst) := by
  have hd := compare_disjoint ff fuel n "" "" false new old r hu h
  intro p
  exact ⟨fun hp => hd .change .add p (by decide) hp.1 hp.2,
    fun hp => hd .change .del p (by decide) hp.1 hp.2,
    fun hp => hd .add .del p (by decide) hp.1 hp.2⟩

theorem C14_paths_disjoint_witness :
    unambiguous ffNone 5 "" false newStudent oldStudent = true ∧
    Diff ffNone 5 newStudent oldStudent = .ok studentResult ∧
    ∀ p,
      ¬(p ∈ (entries studentResult.Change).map Prod.fst ∧
        p ∈ (entries studentResult.Add).map Prod.fst) ∧
      ¬(p ∈ (entries studentResult.Change).map Prod.fst ∧
        p ∈ (entries studentResult.Del).map Prod.fst) ∧
      ¬(p ∈ (entries studentResult.Add).map Prod.fst ∧
        p ∈ (entries studentResult.Del).map Prod.fst) :=
  ⟨by decide, by decide,
   C14_paths_disjoint ffNone 5 5 newStudent oldStudent studentResult (by decide) (by decide)⟩

/-- C14, counterexample: two values of type `map[string]map[string]int`.  The key `b.c` is
only in `new`, and under the key `b`, which is in both, the inner key `c` is only in `old`:
the two places render to the same path `b.c`, which `Diff` puts into both Add and Del. -/
theorem C14_counterexample :
    Diff ffNone 3
      (.map tMapOfMaps [(str "b.c", .map tMapStringInt []), (str "b", .map tMapStringInt [])])
      (.map tMapOfMaps [(str "b", .map tMapStringInt [(str "c", int 1)])]) =
      .ok { Del := some [("b.c", some (int 1))], Add := some [("b.c", none)] } ∧
    "b.c" ∈ (entries (some [("b.c", (none : Option GoValue))])).map Prod.fst ∧
    "b.c" ∈ (entries (some [("b.c", some (int 1))])).map Prod.fst := by
  decide

/-! ### Two runs that write the same paths -/

@[simp] theorem valueBeq_eq (x y : GoValue) : (GoValue.beq x y = true) = (x = y) :=
  propext (GoValue.beq_iff x y)

@[simp] theorem beqList_eq (xs ys : List GoValue) : (beqList xs ys = true) = (xs = ys) :=
  propext (beqList_iff xs ys)

@[simp] theorem sameField_eq (a b : Option (StructField × GoValue)) :
    (sameField a b = true) = (a = b ∧ a.isSome = true) := by
  apply propext
  cases a <;> cases b <;> simp [sameField]
  rename_i f g
  obtain ⟨f1, f2⟩ := f
  obtain ⟨g1, g2⟩ := g
  simp

theorem samePaths_refl (d : DiffDetails) : SamePaths d d := fun _ _ => Iff.rfl

theorem samePaths_write (d d' : DiffDetails) (h : SamePaths d d') (w w' : Write)
    (hs : w.slot = w'.slot) (hp : w.path = w'.path) : SamePaths (d.write w) (d'.write w') := by
  intro s p
  rw [mem_keysAt_write, mem_keysAt_write, h s p, hs, hp]

theorem samePaths_setChange (d d' : DiffDetails) (h : SamePaths d d') (k : String)
    (v v' : Option GoValue) : SamePaths (d.setChange k v) (d'.setChange k v') :=
  samePaths_write d d' h ⟨.change, k, v⟩ ⟨.change, k, v'⟩ rfl rfl

theorem samePaths_setAdd (d d' : DiffDetails) (h : SamePaths d d') (k : String)
    (v v' : Option GoValue) : SamePaths (d.setAdd k v) (d'.setAdd k v') :=
  samePaths_write d d' h ⟨.add, k, v⟩ ⟨.add, k, v'⟩ rfl rfl

theorem samePaths_setDel (d d' : DiffDetails) (h : SamePaths d d') (k : String)
    (v v' : Option GoValue) : SamePaths (d.setDel k v) (d'.setDel k v') :=
  samePaths_write d d' h ⟨.del, k, v⟩ ⟨.del, k, v'⟩ rfl rfl

theorem SamePaths.merge (sel : String) (d d' tmp tmp' : DiffDetails) (h : SamePaths d d')
    (ht : SamePaths tmp tmp') :
    SamePaths (mergeDel sel (mergeChange sel (mergeAdd sel d tmp.Add) tmp.Change) tmp.Del)
      (mergeDel sel (mergeChange sel (mergeAdd sel d' tmp'.Add) tmp'.Change) tmp'.Del) := by
  intro s p
  rw [merge_keys, merge_keys, h s p]
  simp only [ht s]

theorem isEmpty_iff (r : DiffDetails) : r.isEmpty = true ↔ ∀ s, keysAt s r = [] := by
  simp only [DiffDetails.isEmpty, len, Bool.and_eq_true, beq_iff_eq, List.length_eq_zero]
  constructor
  · rintro ⟨⟨h1, h2⟩, h3⟩ s
    cases s <;> simp [keysAt, DiffDetails.slot, h1, h2, h3]
  · intro h
    have h1 := h .change
    have h2 := h .add
    have h3 := h .del
    simp only [keysAt, DiffDetails.slot, List.map_eq_nil_iff] at h1 h2 h3
    exact ⟨⟨h1, h2⟩, h3⟩

theorem SamePaths.isEmpty (r r' : DiffDetails) (h : SamePaths r r') : r.isEmpty = r'.isEmpty := by
  have key : ∀ a b : DiffDetails, SamePaths a b → a.isEmpty = true → b.isEmpty = true := by
    intro a b hab ha
    rw [isEmpty_iff] at ha ⊢
    intro s
    apply List.eq_nil_iff_forall_not_mem.mpr
    intro p hp
    have := (hab s p).mpr hp
    rw [ha s] at this
    simp at this
  cases h1 : r.isEmpty <;> cases h2 : r'.isEmpty
  · rfl
  · have := key r' r (fun s p => (h s p).symm) h2
    rw [h1] at this
    cases this
  · have := key r r' h h1
    rw [h2] at this
    cases this
  · rfl

theorem simOut_bind (a b : Res DiffDetails) (g g' : DiffDetails → Res DiffDetails)
    (h : SimOut a b) (hg : ∀ r r', SamePaths r r' → SimOut (g r) (g' r')) :
    SimOut (a >>= g) (b >>= g') := by
  cases a <;> cases b <;> simp only [SimOut] at h
  · subst h
    rfl
  · exact hg _ _ h

theorem simOut_error (e : Fault) : SimOut (.error e) (.error e) := rfl

theorem simOut_ok (r r' : DiffDetails) (h : SamePaths r r') : SimOut (.ok r) (.ok r') := h

theorem foldlM_sim {α β : Type} (R : α → β → Prop)
    (step : DiffDetails → α → Res DiffDetails) (step' : DiffDetails → β → Res DiffDetails)
    (l : List α) (l' : List β) (hl : List.Forall₂ R l l')
    (hstep : ∀ x x', R x x' → ∀ d d', SamePaths d d' → SimOut (step d x) (step' d' x'))
    (d d' : DiffDetails) (hd : SamePaths d d') :
    SimOut (l.foldlM step d) (l'.foldlM step' d') := by
  induction hl generalizing d d' with
  | nil => exact hd
  | cons hx _ ih =>
    simp only [List.foldlM_cons]
    exact simOut_bind _ _ _ _ (hstep _ _ hx d d' hd) (fun r r' hr => ih r r' hr)

theorem Logged.sim (key : String) (f : DiffDetails → Res DiffDetails) (h : Logged key f)
    (d d' : DiffDetails) (hd : SamePaths d d') : SimOut (f d) (f d') := by
  obtain ⟨log, hl, -⟩ := h
  rw [hl d, hl d']
  cases log with
  | error e => rfl
  | ok ws =>
    intro s p
    show p ∈ keysAt s (d.apply ws) ↔ p ∈ keysAt s (d'.apply ws)
    rw [mem_keysAt_apply, mem_keysAt_apply, hd s p]

theorem agreeList_iff (r : GoValue → GoValue → Bool) :
    ∀ (l l' : List GoValue), agreeList r l l' = true ↔ List.Forall₂ (fun a b => r a b = true) l l'
  | [], [] => by simp [agreeList]
  | [], _ :: _ => by simp [agreeList]
  | _ :: _, [] => by simp [agreeList]
  | x :: xs, y :: ys => by
      simp [agreeList, agreeList_iff r xs ys]

theorem agreeEntries_iff (r : GoValue → GoValue → Bool) :
    ∀ (l l' : List (GoValue × GoValue)), agreeEntries r l l' = true ↔
      List.Forall₂ (fun a b => a.1 = b.1 ∧ r a.2 b.2 = true) l l'
  | [], [] => by simp [agreeEntries]
  | [], _ :: _ => by simp [agreeEntries]
  | _ :: _, [] => by simp [agreeEntries]
  | x :: xs, y :: ys => by
      simp [agreeEntries, agreeEntries_iff r xs ys, and_assoc]

theorem agreeFields_iff (r : String → GoValue → GoValue → Bool) :
    ∀ (l l' : List (StructField × GoValue)), agreeFields r l l' = true ↔
      List.Forall₂ (fun f g => f.1 = g.1 ∧
        (if f.1.Exported then r (parseTag f.1.Tag).1 f.2 g.2
         else ((parseTag f.1.Tag).1 == "-" || GoValue.beq f.2 g.2)) = true) l l'
  | [], [] => by simp [agreeFields]
  | [], _ :: _ => by simp [agreeFields]
  | _ :: _, [] => by simp [agreeFields]
  | x :: xs, y :: ys => by
      simp only [agreeFields, Bool.and_eq_true, beq_iff_eq, agreeFields_iff r xs ys,
        List.forall₂_cons, and_assoc]
theorem same_inv_eq (n : Nat) (cb : String) (x y : GoValue) (hcb : cb ≠ "-")
    (hx : x.isScalar = true ∨ (∃ t, x = .nilPtr t) ∨ (∃ t, x = .nilSlice t) ∨
      (∃ t, x = .nilMap t) ∨ (x.isSeq = true ∧ cb = ""))
    (h : sameButExcluded (n + 1) cb x y = true) : y = x := by
  rcases hx with hx | ⟨t, rfl⟩ | ⟨t, rfl⟩ | ⟨t, rfl⟩ | ⟨hx, rfl⟩
  · cases x <;> simp [GoValue.isScalar] at hx
    simp [sameButExcluded, hcb] at h
    exact h.symm
  · simp [sameButExcluded, hcb] at h
    exact h.symm
  · simp [sameButExcluded, hcb] at h
    exact h.symm
  · simp [sameButExcluded, hcb] at h
    exact h.symm
  · cases x <;> simp [GoValue.isSeq] at hx
    · cases y <;> simp [sameButExcluded] at h
      rw [h.1, h.2]
    · simp [sameButExcluded] at h
      exact h.symm
    · cases y <;> simp [sameButExcluded] at h
      rw [h.1, h.2]

theorem same_inv_ptr (n : Nat) (cb : String) (t : GoType) (e y : GoValue) (hcb : cb ≠ "-")
    (h : sameButExcluded (n + 1) cb (.ptr t e) y = true) :
    ∃ e', y = .ptr t e' ∧ sameButExcluded n cb e e' = true := by
  cases y <;> simp [sameButExcluded, hcb] at h
  exact ⟨_, by rw [h.1], h.2⟩

theorem same_inv_keyed (n : Nat) (cb : String) (x y : GoValue) (hcb : cb ≠ "-")
    (hc : cb ≠ "") (hx : x.isSeq = true) (es : List GoValue) (hes : checkedItems x = .ok es)
    (h : sameButExcluded (n + 1) cb x y = true) :
    y.isSeq = true ∧ y.typeOf = x.typeOf ∧ ∃ es', checkedItems y = .ok es' ∧
      List.Forall₂ (fun a b => sameButExcluded n "" a b = true ∧ keyField cb a = keyField cb b)
        es es' := by
  cases x <;> simp [GoValue.isSeq] at hx
  · cases y <;> simp [sameButExcluded, hcb, hc] at h
    simp only [checkedItems, Except.ok.injEq] at hes
    subst hes
    refine ⟨rfl, by simp [GoValue.typeOf, h.1], _, rfl, ?_⟩
    have h2 := (agreeList_iff _ _ _).mp h.2
    simp only [Bool.and_eq_true, sameField_eq] at h2
    exact h2.imp (fun _ _ hh => ⟨hh.1, hh.2.1⟩)
  · rename_i t
    have hy : y = .nilSlice t := by
      simp [sameButExcluded, hcb] at h
      exact h.symm
    subst hy
    simp only [checkedItems, Except.ok.injEq] at hes
    subst hes
    exact ⟨rfl, rfl, [], rfl, List.Forall₂.nil⟩
  · cases y <;> simp [sameButExcluded, hcb, hc] at h
    simp only [checkedItems, Except.ok.injEq] at hes
    subst hes
    refine ⟨rfl, by simp [GoValue.typeOf, h.1], _, rfl, ?_⟩
    have h2 := (agreeList_iff _ _ _).mp h.2
    simp only [Bool.and_eq_true, sameField_eq] at h2
    exact h2.imp (fun _ _ hh => ⟨hh.1, hh.2.1⟩)

theorem same_inv_struct (n : Nat) (cb : String) (t : GoType)
    (fs : List (StructField × GoValue)) (y : GoValue) (hcb : cb ≠ "-")
    (h : sameButExcluded (n + 1) cb (.struct t fs) y = true) :
    ∃ gs, y = .struct t gs ∧
      List.Forall₂ (fun f g => f.1 = g.1 ∧
        (if f.1.Exported then sameButExcluded n (parseTag f.1.Tag).1 f.2 g.2
         else ((parseTag f.1.Tag).1 == "-" || GoValue.beq f.2 g.2)) = true) fs gs := by
  cases y <;> simp [sameButExcluded, hcb] at h
  exact ⟨_, by rw [h.1], (agreeFields_iff _ _ _).mp h.2⟩

theorem same_inv_map (n : Nat) (cb : String) (t : GoType)
    (es : List (GoValue × GoValue)) (y : GoValue) (hcb : cb ≠ "-")
    (h : sameButExcluded (n + 1) cb (.map t es) y = true) :
    ∃ fs, y = .map t fs ∧
      List.Forall₂ (fun a b => a.1 = b.1 ∧ sameButExcluded n "" a.2 b.2 = true) es fs := by
  cases y <;> simp [sameButExcluded, hcb] at h
  exact ⟨_, by rw [h.1], (agreeEntries_iff _ _ _).mp h.2⟩

theorem same_typeOf (n : Nat) (cb : String) (x y : GoValue) (hcb : cb ≠ "-")
    (h : sameButExcluded n cb x y = true) : y.typeOf = x.typeOf := by
  cases n with
  | zero => simp [sameButExcluded] at h
  | succ n =>
    cases x with
    | scalar t s => rw [same_inv_eq n cb (.scalar t s) y hcb (Or.inl rfl) h]
    | nilPtr t => rw [same_inv_eq n cb (.nilPtr t) y hcb (Or.inr (Or.inl ⟨t, rfl⟩)) h]
    | nilSlice t => rw [same_inv_eq n cb (.nilSlice t) y hcb (Or.inr (Or.inr (Or.inl ⟨t, rfl⟩))) h]
    | nilMap t => rw [same_inv_eq n cb (.nilMap t) y hcb (Or.inr (Or.inr (Or.inr (Or.inl ⟨t, rfl⟩)))) h]
    | ptr t e =>
      obtain ⟨e', rfl, -⟩ := same_inv_ptr n cb t e y hcb h
      rfl
    | slice t es =>
      cases y <;> simp [sameButExcluded, hcb] at h
      simp [GoValue.typeOf, h.1]
    | array t es =>
      cases y <;> simp [sameButExcluded, hcb] at h
      simp [GoValue.typeOf, h.1]
    | struct t fs =>
      obtain ⟨gs, rfl, -⟩ := same_inv_struct n cb t fs y hcb h
      rfl
    | map t es =>
      obtain ⟨fs, rfl, -⟩ := same_inv_map n cb t es y hcb h
      rfl

theorem getElement_sim :
    ∀ (n : Nat) (x x' : GoValue), sameButExcluded n "" x x' = true →
      (∀ e, getElement x = .error e → getElement x' = .error e) ∧
      (∀ v, getElement x = .ok v →
        ∃ v' m, getElement x' = .ok v' ∧ sameButExcluded m "" v v' = true)
  | 0, _, _, h => by simp [sameButExcluded] at h
  | n + 1, .ptr t e, x', h => by
      obtain ⟨e', rfl, he⟩ := same_inv_ptr n "" t e x' (by decide) h
      simpa only [getElement] using getElement_sim n e e' he
  | n + 1, .struct t fs, x', h => by
      obtain ⟨gs, rfl, -⟩ := same_inv_struct n "" t fs x' (by decide) h
      refine ⟨fun e he => by simp [getElement] at he, fun v hv => ?_⟩
      simp only [getElement, Except.ok.injEq] at hv
      subst hv
      exact ⟨_, n + 1, rfl, h⟩
  | n + 1, .scalar t s, x', h => by
      rw [same_inv_eq n "" (.scalar t s) x' (by decide) (Or.inl rfl) h]
      exact ⟨fun e he => he, fun v hv => by simp [getElement] at hv⟩
  | n + 1, .nilPtr t, x', h => by
      rw [same_inv_eq n "" (.nilPtr t) x' (by decide) (Or.inr (Or.inl ⟨t, rfl⟩)) h]
      exact ⟨fun e he => he, fun v hv => by simp [getElement] at hv⟩
  | n + 1, .nilSlice t, x', h => by
      rw [same_inv_eq n "" (.nilSlice t) x' (by decide) (Or.inr (Or.inr (Or.inl ⟨t, rfl⟩))) h]
      exact ⟨fun e he => he, fun v hv => by simp [getElement] at hv⟩
  | n + 1, .nilMap t, x', h => by
      rw [same_inv_eq n "" (.nilMap t) x' (by decide) (Or.inr (Or.inr (Or.inr (Or.inl ⟨t, rfl⟩)))) h]
      exact ⟨fun e he => he, fun v hv => by simp [getElement] at hv⟩
  | n + 1, .slice t es, x', h => by
      rw [same_inv_eq n "" (.slice t es) x' (by decide) (Or.inr (Or.inr (Or.inr (Or.inr ⟨rfl, rfl⟩)))) h]
      exact ⟨fun e he => he, fun v hv => by simp [getElement] at hv⟩
  | n + 1, .array t es, x', h => by
      rw [same_inv_eq n "" (.array t es) x' (by decide) (Or.inr (Or.inr (Or.inr (Or.inr ⟨rfl, rfl⟩)))) h]
      exact ⟨fun e he => he, fun v hv => by simp [getElement] at hv⟩
  | n + 1, .map t es, x', h => by
      obtain ⟨fs, rfl, -⟩ := same_inv_map n "" t es x' (by decide) h
      exact ⟨fun e he => by simpa [getElement] using he,
        fun v hv => by simp [getElement] at hv⟩

theorem fieldByName_keyField (comparedby : String) (x v : GoValue)
    (h : getElement x = .ok v) : fieldByName v comparedby = .ok (keyField comparedby x) := by
  obtain ⟨t, fs, rfl⟩ := getElement_struct x _ h
  simp [keyField, h, fieldByName]

mutual
theorem conforms_getElement (Γ : Decls) :
    ∀ (x v : GoValue), conforms Γ x = true → getElement x = .ok v → conforms Γ v = true
  | .ptr _ e, v, hc, h => conforms_getElement Γ e v (by simpa [conforms] using hc)
      (by simpa [getElement] using h)
  | .struct t fs, v, hc, h => by
      simp only [getElement, Except.ok.injEq] at h
      rw [← h]
      exact hc
  | .scalar _ _, _, _, h => by simp [getElement] at h
  | .nilPtr _, _, _, h => by simp [getElement] at h
  | .slice _ _, _, _, h => by simp [getElement] at h
  | .nilSlice _, _, _, h => by simp [getElement] at h
  | .array _ _, _, _, h => by simp [getElement] at h
  | .map _ _, _, _, h => by simp [getElement] at h
  | .nilMap _, _, _, h => by simp [getElement] at h
end

theorem conformsList_mem (Γ : Decls) :
    ∀ (l : List GoValue), conformsList Γ l = true → ∀ x ∈ l, conforms Γ x = true
  | [], _, _, hx => by simp at hx
  | a :: l, h, x, hx => by
      simp only [conformsList, Bool.and_eq_true] at h
      rcases List.mem_cons.mp hx with rfl | hx
      · exact h.1
      · exact conformsList_mem Γ l h.2 x hx

theorem conformsFields_mem (Γ : Decls) :
    ∀ (l : List (StructField × GoValue)), conformsFields Γ l = true →
      ∀ f ∈ l, conforms Γ f.2 = true
  | [], _, _, hx => by simp at hx
  | a :: l, h, x, hx => by
      simp only [conformsFields, Bool.and_eq_true] at h
      rcases List.mem_cons.mp hx with rfl | hx
      · exact h.1
      · exact conformsFields_mem Γ l h.2 x hx

theorem conformsEntries_mem (Γ : Decls) :
    ∀ (l : List (GoValue × GoValue)), conformsEntries Γ l = true →
      ∀ e ∈ l, conforms Γ e.2 = true
  | [], _, _, hx => by simp at hx
  | a :: l, h, x, hx => by
      simp only [conformsEntries, Bool.and_eq_true] at h
      rcases List.mem_cons.mp hx with rfl | hx
      · exact h.1.2
      · exact conformsEntries_mem Γ l h.2 x hx

theorem conforms_seqItems (Γ : Decls) (x : GoValue) (l : List GoValue)
    (hc : conforms Γ x = true) (h : seqItems x = .ok l) : ∀ y ∈ l, conforms Γ y = true := by
  intro y hy
  cases x with
  | slice t es =>
    simp only [seqItems, Except.ok.injEq] at h
    subst h
    exact conformsList_mem Γ _ (by simpa [conforms] using hc) y hy
  | array t es =>
    simp only [seqItems, Except.ok.injEq] at h
    subst h
    exact conformsList_mem Γ _ (by simpa [conforms] using hc) y hy
  | nilSlice t =>
    simp only [seqItems, Except.ok.injEq] at h
    subst h
    simp at hy
  | nilMap t =>
    simp only [seqItems, Except.ok.injEq] at h
    subst h
    simp at hy
  | scalar t s =>
    cases s <;> simp [seqItems] at h
    subst h
    simp only [List.mem_map] at hy
    obtain ⟨b, -, rfl⟩ := hy
    rfl
  | map t es =>
    cases es <;> simp [seqItems] at h
    subst h
    simp at hy
  | ptr t e =>
    cases e <;> simp [seqItems] at h
    rename_i u es
    cases es <;> simp [seqItems] at h
    subst h
    simp at hy
  | nilPtr t => simp [seqItems] at h
  | struct t fs => simp [seqItems] at h
theorem sameKey_congr (src src' value value' : GoValue) (comparedby : String)
    (hs : fieldByName src comparedby = fieldByName src' comparedby)
    (hv : fieldByName value comparedby = fieldByName value' comparedby) :
    sameKey src value comparedby = sameKey src' value' comparedby := by
  simp only [sameKey, hs, hv]

theorem getFromSliceLoop_sim (Γ : Decls) (n : Nat) (comparedby : String)
    (value value' : GoValue)
    (hv : fieldByName value comparedby = fieldByName value' comparedby)
    (items items' : List GoValue)
    (hl : List.Forall₂ (fun a b => (sameButExcluded n "" a b = true ∧
      keyField comparedby a = keyField comparedby b) ∧ conforms Γ a = true) items items') :
    (∀ e, getFromSliceLoop value comparedby items = .error e →
      getFromSliceLoop value' comparedby items' = .error e) ∧
    (getFromSliceLoop value comparedby items = .ok none →
      getFromSliceLoop value' comparedby items' = .ok none) ∧
    (∀ f, getFromSliceLoop value comparedby items = .ok (some f) →
      ∃ f' m, getFromSliceLoop value' comparedby items' = .ok (some f') ∧
        sameButExcluded m "" f f' = true ∧ conforms Γ f = true) := by
  induction hl with
  | nil => simp [getFromSliceLoop]
  | @cons x x' l l' hx _ ih =>
    obtain ⟨⟨hrel, hkey⟩, hconf⟩ := hx
    obtain ⟨herr, hok⟩ := getElement_sim n x x' hrel
    cases h1 : getElement x with
    | error e =>
      have h1' := herr e h1
      simp [getFromSliceLoop, h1, h1']
    | ok v =>
      obtain ⟨v', m, h1', hvv⟩ := hok v h1
      have hsk : sameKey v value comparedby = sameKey v' value' comparedby :=
        sameKey_congr v v' value value' comparedby
          (by rw [fieldByName_keyField comparedby x v h1,
            fieldByName_keyField comparedby x' v' h1', hkey]) hv
      simp only [getFromSliceLoop, h1, h1', ok_bind, hsk]
      cases sameKey v' value' comparedby with
      | error e => simp
      | ok b =>
        cases b
        · simpa using ih
        · simp only [ok_bind, if_true, pure_eq_ok, Except.ok.injEq, Option.some.injEq,
            reduceCtorEq, false_implies, implies_true, true_and, forall_eq']
          exact ⟨v', m, rfl, hvv, conforms_getElement Γ x v hconf h1⟩

theorem forall₂_and_mem {α β : Type} (R : α → β → Prop) (P : α → Prop) (l : List α)
    (l' : List β) (h : List.Forall₂ R l l') (hp : ∀ x ∈ l, P x) :
    List.Forall₂ (fun a b => R a b ∧ P a) l l' := by
  induction h with
  | nil => exact List.Forall₂.nil
  | cons hx _ ih =>
    exact List.Forall₂.cons ⟨hx, hp _ (by simp)⟩ (ih (fun y hy => hp y (by simp [hy])))

theorem lookupSim_of_items (Γ : Decls) (n : Nat) (comparedby : String) (s s' : GoValue)
    (l l' : List GoValue) (hs : seqItems s = .ok l) (hs' : seqItems s' = .ok l')
    (hl : List.Forall₂ (fun a b => sameButExcluded n "" a b = true ∧
        keyField comparedby a = keyField comparedby b) l l' ∨
      (l' = l ∧ ∀ x ∈ l, ∃ e, getElement x = .error e))
    (hc : ∀ x ∈ l, conforms Γ x = true) : LookupSim Γ comparedby s s' := by
  intro v v' hv
  simp only [getFromSlice, hs, hs', ok_bind]
  rcases hl with hl | ⟨rfl, hfail⟩
  · exact getFromSliceLoop_sim Γ n comparedby v v' hv l l' (forall₂_and_mem _ _ l l' hl hc)
  · cases l' with
    | nil => simp [getFromSliceLoop]
    | cons x rest =>
      obtain ⟨e, he⟩ := hfail x (by simp)
      simp [getFromSliceLoop, he]

theorem lookupSim_of_error (Γ : Decls) (comparedby : String) (s s' : GoValue) (e : Fault)
    (hs : seqItems s = .error e) (hs' : seqItems s' = .error e) :
    LookupSim Γ comparedby s s' := by
  intro v v' _
  simp [getFromSlice, hs, hs']

theorem deepEqual_sim (cmp : Cmp) (v f v' f' : GoValue)
    (h : SimOut (diffWith cmp v f) (diffWith cmp v' f')) :
    deepEqual cmp v f = deepEqual cmp v' f' := by
  cases h1 : diffWith cmp v f with
  | error e =>
    cases h2 : diffWith cmp v' f' with
    | error e' =>
      rw [h1, h2] at h
      simp only [SimOut] at h
      simp [deepEqual, h1, h2, h]
    | ok r' => rw [h1, h2] at h; exact absurd h (by simp [SimOut])
  | ok r =>
    cases h2 : diffWith cmp v' f' with
    | error e' => rw [h1, h2] at h; exact absurd h (by simp [SimOut])
    | ok r' =>
      rw [h1, h2] at h
      rw [deepEqual_eq cmp v f r h1, deepEqual_eq cmp v' f' r' h2, SamePaths.isEmpty r r' h]

theorem stepNew_sim (Γ : Decls) (ff : Fmt) (cmp : Cmp) (hcmp : CmpSim Γ cmp)
    (old old' : GoValue) (comparedby : String) (isDirect : Bool) (key : String)
    (hlook : LookupSim Γ comparedby old old') (n : Nat) (x x' : GoValue)
    (hx : sameButExcluded n "" x x' = true) (hkey : keyField comparedby x = keyField comparedby x')
    (hcx : conforms Γ x = true) (d d' : DiffDetails) (hd : SamePaths d d') :
    SimOut (stepNew ff cmp old comparedby isDirect key d x)
      (stepNew ff cmp old' comparedby isDirect key d' x') := by
  obtain ⟨herr, hok⟩ := getElement_sim n x x' hx
  cases h1 : getElement x with
  | error e =>
    have h1' := herr e h1
    simp only [stepNew, h1, h1', error_bind]
    exact simOut_error e
  | ok v =>
  obtain ⟨v', m, h1', hvv⟩ := hok v h1
  have hf : fieldByName v' comparedby = fieldByName v comparedby := by
    rw [fieldByName_keyField comparedby x v h1, fieldByName_keyField comparedby x' v' h1', hkey]
  obtain ⟨ge, gn, gs⟩ := hlook v v' hf.symm
  cases h2 : getFromSlice old v comparedby with
  | error e =>
    have h2' := ge e h2
    simp only [stepNew, h1, h1', h2, h2', ok_bind, error_bind]
    exact simOut_error e
  | ok found =>
  have hfound : ∃ found', getFromSlice old' v' comparedby = .ok found' := by
    cases found with
    | none => exact ⟨none, gn h2⟩
    | some f =>
      obtain ⟨f', _, h2', -⟩ := gs f h2
      exact ⟨some f', h2'⟩
  obtain ⟨found', h2'⟩ := hfound
  cases h3 : fieldByName v comparedby with
  | error e =>
    simp only [stepNew, h1, h1', h2, h2', hf, h3, ok_bind, error_bind]
    exact simOut_error e
  | ok field =>
  cases h4 : structFieldIsExported field with
  | false =>
    simp only [stepNew, h1, h1', h2, h2', hf, h3, h4, ok_bind, Bool.not_false, if_true,
      throw_eq_error, error_bind]
    exact simOut_error _
  | true =>
  cases h5 : getComparedValueOf ff field with
  | error e =>
    simp only [stepNew, h1, h1', h2, h2', hf, h3, h4, h5, ok_bind, Bool.not_true,
      Bool.false_eq_true, if_false, error_bind, pure_eq_ok]
    exact simOut_error e
  | ok cv =>
  simp only [stepNew, h1, h1', h2, h2', hf, h3, h4, h5, ok_bind, Bool.not_true,
    Bool.false_eq_true, if_false, pure_eq_ok]
  cases found with
  | none =>
    rw [gn h2] at h2'
    cases h2'
    exact samePaths_setAdd d d' hd _ _ _
  | some f =>
    obtain ⟨f', m', h2'', hff, hcf⟩ := gs f h2
    rw [h2''] at h2'
    cases h2'
    have hz := getFromSlice_nonzero old v comparedby f h2
    have hz' := getFromSlice_nonzero old' v' comparedby f' h2''
    have hcv' : conforms Γ v = true := conforms_getElement Γ x v hcx h1
    simp only [hz, hz', Bool.not_false, if_true]
    have hnest : SimOut (cmp "" "" false {} v f) (cmp "" "" false {} v' f') :=
      hcmp m m' "" "" false {} {} v v' f f' hcv' hcf hvv hff (samePaths_refl _)
    cases isDirect
    · simp only [Bool.false_eq_true, if_false]
      exact simOut_bind _ _ _ _ hnest (fun r r' hr => SamePaths.merge _ d d' r r' hd hr)
    · simp only [if_true]
      rw [deepEqual_sim cmp v f v' f' hnest]
      cases deepEqual cmp v' f' with
      | error e => exact simOut_error e
      | ok b =>
        cases b
        · exact samePaths_setChange d d' hd _ _ _
        · exact hd

theorem stepOld_sim (Γ : Decls) (ff : Fmt)
    (new new' : GoValue) (comparedby : String) (key : String)
    (hlook : LookupSim Γ comparedby new new') (n : Nat) (x x' : GoValue)
    (hx : sameButExcluded n "" x x' = true) (hkey : keyField comparedby x = keyField comparedby x')
    (d d' : DiffDetails) (hd : SamePaths d d') :
    SimOut (stepOld ff new comparedby key d x) (stepOld ff new' comparedby key d' x') := by
  obtain ⟨herr, hok⟩ := getElement_sim n x x' hx
  cases h1 : getElement x with
  | error e =>
    have h1' := herr e h1
    simp only [stepOld, h1, h1', error_bind]
    exact simOut_error e
  | ok v =>
  obtain ⟨v', m, h1', hvv⟩ := hok v h1
  have hf : fieldByName v' comparedby = fieldByName v comparedby := by
    rw [fieldByName_keyField comparedby x v h1, fieldByName_keyField comparedby x' v' h1', hkey]
  obtain ⟨ge, gn, gs⟩ := hlook v v' hf.symm
  cases h2 : getFromSlice new v comparedby with
  | error e =>
    have h2' := ge e h2
    simp only [stepOld, h1, h1', h2, h2', ok_bind, error_bind]
    exact simOut_error e
  | ok found =>
  have hfound : ∃ found', getFromSlice new' v' comparedby = .ok found' ∧
      foundIsZero found' = foundIsZero found := by
    cases found with
    | none => exact ⟨none, gn h2, rfl⟩
    | some f =>
      obtain ⟨f', _, h2', -⟩ := gs f h2
      refine ⟨some f', h2', ?_⟩
      simp [foundIsZero, getFromSlice_nonzero new v comparedby f h2,
        getFromSlice_nonzero new' v' comparedby f' h2']
  obtain ⟨found', h2', hz⟩ := hfound
  cases h3 : fieldByName v comparedby with
  | error e =>
    simp only [stepOld, h1, h1', h2, h2', hf, h3, ok_bind, error_bind]
    exact simOut_error e
  | ok field =>
  cases h5 : getComparedValueOf ff field with
  | error e =>
    simp only [stepOld, h1, h1', h2, h2', hf, h3, h5, ok_bind, error_bind]
    exact simOut_error e
  | ok cv =>
  simp only [stepOld, h1, h1', h2, h2', hf, h3, h5, ok_bind, hz, pure_eq_ok]
  cases foundIsZero found
  · exact hd
  · exact samePaths_setDel d d' hd _ _ _
theorem getElement_scalar (t : GoType) (s : Scalar) :
    ∃ e, getElement (.scalar t s) = .error e := ⟨_, rfl⟩

theorem seqItems_sim (n : Nat) (cb : String) (old old' : GoValue) (hcb : cb ≠ "-")
    (hc : cb ≠ "") (h : sameButExcluded (n + 1) cb old old' = true) :
    (∀ e, seqItems old = .error e → seqItems old' = .error e) ∧
    (∀ l, seqItems old = .ok l → ∃ l', seqItems old' = .ok l' ∧
      (List.Forall₂ (fun a b => sameButExcluded n "" a b = true ∧
          keyField cb a = keyField cb b) l l' ∨
        (l' = l ∧ ∀ x ∈ l, ∃ e, getElement x = .error e))) := by
  cases old with
  | scalar t s =>
    rw [same_inv_eq n cb (.scalar t s) old' hcb (Or.inl rfl) h]
    refine ⟨fun e he => he, fun l hl => ⟨l, hl, Or.inr ⟨rfl, ?_⟩⟩⟩
    intro x hx
    cases s <;> simp [seqItems] at hl
    subst hl
    simp only [List.mem_map] at hx
    obtain ⟨b, -, rfl⟩ := hx
    exact getElement_scalar _ _
  | nilPtr t =>
    rw [same_inv_eq n cb (.nilPtr t) old' hcb (Or.inr (Or.inl ⟨t, rfl⟩)) h]
    exact ⟨fun e he => he, fun l hl => by simp [seqItems] at hl⟩
  | nilSlice t =>
    rw [same_inv_eq n cb (.nilSlice t) old' hcb (Or.inr (Or.inr (Or.inl ⟨t, rfl⟩))) h]
    refine ⟨fun e he => he, fun l hl => ⟨l, hl, Or.inl ?_⟩⟩
    simp only [seqItems, Except.ok.injEq] at hl
    subst hl
    exact List.Forall₂.nil
  | nilMap t =>
    rw [same_inv_eq n cb (.nilMap t) old' hcb (Or.inr (Or.inr (Or.inr (Or.inl ⟨t, rfl⟩)))) h]
    refine ⟨fun e he => he, fun l hl => ⟨l, hl, Or.inl ?_⟩⟩
    simp only [seqItems, Except.ok.injEq] at hl
    subst hl
    exact List.Forall₂.nil
  | slice t es =>
    obtain ⟨-, -, es', hes', hl⟩ := same_inv_keyed n cb (.slice t es) old' hcb hc rfl es rfl h
    refine ⟨fun e he => by simp [seqItems] at he, fun l hl' => ?_⟩
    simp only [seqItems, Except.ok.injEq] at hl'
    subst hl'
    exact ⟨es', seqItems_of_checkedItems old' es' hes', Or.inl hl⟩
  | array t es =>
    obtain ⟨-, -, es', hes', hl⟩ := same_inv_keyed n cb (.array t es) old' hcb hc rfl es rfl h
    refine ⟨fun e he => by simp [seqItems] at he, fun l hl' => ?_⟩
    simp only [seqItems, Except.ok.injEq] at hl'
    subst hl'
    exact ⟨es', seqItems_of_checkedItems old' es' hes', Or.inl hl⟩
  | struct t fs =>
    obtain ⟨gs, rfl, -⟩ := same_inv_struct n cb t fs old' hcb h
    exact ⟨fun e he => by simpa [seqItems] using he, fun l hl => by simp [seqItems] at hl⟩
  | map t es =>
    obtain ⟨fs, rfl, hl⟩ := same_inv_map n cb t es old' hcb h
    cases hl with
    | nil =>
      exact ⟨fun e he => by simp [seqItems] at he, fun l hl' => by
        simp only [seqItems, Except.ok.injEq] at hl'
        subst hl'
        exact ⟨[], rfl, Or.inl List.Forall₂.nil⟩⟩
    | cons _ _ =>
      exact ⟨fun e he => by simpa [seqItems] using he, fun l hl' => by simp [seqItems] at hl'⟩
  | ptr t e =>
    obtain ⟨e', rfl, he⟩ := same_inv_ptr n cb t e old' hcb h
    cases n with
    | zero => simp [sameButExcluded] at he
    | succ k =>
      cases e <;> cases e' <;> simp [sameButExcluded, hcb, hc, seqItems] at he ⊢
      rename_i u es u' fs
      cases es <;> cases fs <;> simp [agreeList, seqItems] at he ⊢
theorem checkedItems_of_isSeq (x : GoValue) (h : x.isSeq = true) :
    ∃ es, checkedItems x = .ok es := by
  cases x <;> simp [GoValue.isSeq] at h <;> exact ⟨_, rfl⟩

theorem compareBySlice_sim (Γ : Decls) (ff : Fmt) (cmp : Cmp)
    (hcmp : CmpSim Γ cmp) (n m : Nat) (new new' old old' : GoValue) (cb : String)
    (isDirect : Bool) (key : String) (hcb : cb ≠ "-") (hc : cb ≠ "")
    (hseq : new.isSeq = true) (hcn : conforms Γ new = true) (hco : conforms Γ old = true)
    (hn : sameButExcluded (n + 1) cb new new' = true)
    (ho : sameButExcluded (m + 1) cb old old' = true)
    (d d' : DiffDetails) (hd : SamePaths d d') :
    SimOut (compareBySlice ff cmp new old cb isDirect key d)
      (compareBySlice ff cmp new' old' cb isDirect key d') := by
  obtain ⟨newEs, hnew⟩ := checkedItems_of_isSeq new hseq
  obtain ⟨-, -, newEs', hnew', hl⟩ := same_inv_keyed n cb new new' hcb hc hseq newEs hnew hn
  have hsn := seqItems_of_checkedItems new newEs hnew
  have hsn' := seqItems_of_checkedItems new' newEs' hnew'
  have hconfNew := conforms_seqItems Γ new newEs hcn hsn
  have hlookNew : LookupSim Γ cb new new' :=
    lookupSim_of_items Γ n cb new new' newEs newEs' hsn hsn' (Or.inl hl) hconfNew
  obtain ⟨hoe, hoo⟩ := seqItems_sim m cb old old' hcb hc ho
  have hlookOld : LookupSim Γ cb old old' := by
    cases hso : seqItems old with
    | error e => exact lookupSim_of_error Γ cb old old' e hso (hoe e hso)
    | ok l =>
      obtain ⟨l', hso', hll⟩ := hoo l hso
      exact lookupSim_of_items Γ m cb old old' l l' hso hso' hll
        (conforms_seqItems Γ old l hco hso)
  simp only [compareBySlice, hnew, hnew', ok_bind]
  refine simOut_bind _ _ _ _
    (foldlM_sim _ _ _ newEs newEs' (forall₂_and_mem _ _ newEs newEs' hl hconfNew)
      (fun x x' hx a a' ha => stepNew_sim Γ ff cmp hcmp old old' cb isDirect key hlookOld n x x'
        hx.1.1 hx.1.2 hx.2 a a' ha) d d' hd) ?_
  intro r r' hr
  cases hso : seqItems old with
  | error e =>
    rw [hoe e hso]
    exact simOut_error e
  | ok l =>
    obtain ⟨l', hso', hll⟩ := hoo l hso
    rw [hso']
    simp only [ok_bind]
    rcases hll with hll | ⟨rfl, hfail⟩
    · exact foldlM_sim _ _ _ l l' hll
        (fun x x' hx a a' ha => stepOld_sim Γ ff new new' cb key hlookNew m x x' hx.1 hx.2
          a a' ha) r r' hr
    · cases l' with
      | nil => exact hr
      | cons x rest =>
        obtain ⟨e, he⟩ := hfail x (by simp)
        simp only [List.foldlM_cons, stepOld, he, error_bind]
        exact simOut_error e
theorem forall₂_get? {α β : Type} (R : α → β → Prop) (l : List α) (l' : List β)
    (h : List.Forall₂ R l l') :
    ∀ j : Nat, (l[j]? = none → l'[j]? = none) ∧
      (∀ a, l[j]? = some a → ∃ b, l'[j]? = some b ∧ R a b) := by
  induction h with
  | nil => intro j; simp
  | cons hx _ ih =>
    intro j
    cases j with
    | zero => simpa using hx
    | succ j => simpa using ih j

theorem forall₂_enumFrom {α β : Type} (R : α → β → Prop) (l : List α) (l' : List β)
    (h : List.Forall₂ R l l') :
    ∀ i : Nat, List.Forall₂ (fun a b => a.1 = b.1 ∧ R a.2 b.2) (l.enumFrom i) (l'.enumFrom i) := by
  induction h with
  | nil => intro i; exact List.Forall₂.nil
  | cons hx _ ih =>
    intro i
    exact List.Forall₂.cons ⟨rfl, hx⟩ (ih (i + 1))

theorem mem_enumFrom_get {α : Type} :
    ∀ (l : List α) (i j : Nat) (x : α), (j, x) ∈ l.enumFrom i → i ≤ j ∧ l[j - i]? = some x
  | [], _, _, _, h => by simp at h
  | a :: l, i, j, x, h => by
      simp only [List.enumFrom_cons, List.mem_cons, Prod.mk.injEq] at h
      rcases h with ⟨rfl, rfl⟩ | h
      · simp
      · obtain ⟨hle, hg⟩ := mem_enumFrom_get l (i + 1) j x h
        refine ⟨by omega, ?_⟩
        have : j - i = (j - (i + 1)) + 1 := by omega
        rw [this]
        simpa using hg

theorem fieldAt_sim (m : Nat) (cb : String) (old old' : GoValue) (hcb : cb ≠ "-")
    (h : sameButExcluded (m + 1) cb old old' = true) (j : Nat) :
    (∀ e, fieldAt old j = .error e → fieldAt old' j = .error e) ∧
    (∀ o, fieldAt old j = .ok o → ∃ u gs g o', old = .struct u gs ∧ gs[j]? = some g ∧
      g.1.Exported = true ∧ g.2 = o ∧ fieldAt old' j = .ok o' ∧
      sameButExcluded m (parseTag g.1.Tag).1 o o' = true) := by
  cases old with
  | struct u gs =>
    obtain ⟨gs', rfl, hl⟩ := same_inv_struct m cb u gs old' hcb h
    obtain ⟨hnone, hsome⟩ := forall₂_get? _ gs gs' hl j
    cases hg : gs[j]? with
    | none =>
      have hg' := hnone hg
      simp [fieldAt, hg, hg']
    | some g =>
      obtain ⟨g', hg', hgg, hv⟩ := hsome g hg
      cases hexp : g.1.Exported
      · have hexp' : g'.1.Exported = false := by rw [← hgg, hexp]
        simp [fieldAt, hg, hg', hexp, hexp']
      · have hexp' : g'.1.Exported = true := by rw [← hgg, hexp]
        simp only [hexp, if_true] at hv
        simp only [fieldAt, List.get?_eq_getElem?, hg, hg', hexp, hexp', if_true,
          reduceCtorEq, false_implies, implies_true, Except.ok.injEq, true_and]
        intro o ho
        subst ho
        exact ⟨u, gs, g, g'.2, rfl, hg, hexp, rfl, rfl, hv⟩
  | scalar t s =>
    rw [same_inv_eq m cb (.scalar t s) old' hcb (Or.inl rfl) h]
    simp [fieldAt]
  | nilPtr t =>
    rw [same_inv_eq m cb (.nilPtr t) old' hcb (Or.inr (Or.inl ⟨t, rfl⟩)) h]
    simp [fieldAt]
  | nilSlice t =>
    rw [same_inv_eq m cb (.nilSlice t) old' hcb (Or.inr (Or.inr (Or.inl ⟨t, rfl⟩))) h]
    simp [fieldAt]
  | nilMap t =>
    rw [same_inv_eq m cb (.nilMap t) old' hcb (Or.inr (Or.inr (Or.inr (Or.inl ⟨t, rfl⟩)))) h]
    simp [fieldAt]
  | ptr t e =>
    obtain ⟨e', rfl, -⟩ := same_inv_ptr m cb t e old' hcb h
    simp [fieldAt]
  | map t es =>
    obtain ⟨fs, rfl, -⟩ := same_inv_map m cb t es old' hcb h
    simp [fieldAt]
  | slice t es =>
    cases old' <;> simp [sameButExcluded, hcb] at h
    simp [fieldAt]
  | array t es =>
    cases old' <;> simp [sameButExcluded, hcb] at h
    simp [fieldAt]

theorem compareFields_sim (Γ : Decls) (cmp : Cmp) (hcmp : CmpSim Γ cmp) (n m : Nat)
    (key cb : String) (t : GoType) (fs fs' : List (StructField × GoValue))
    (old old' : GoValue) (hcb : cb ≠ "-")
    (hname : (GoValue.struct t fs).typeName = old.typeName)
    (hcn : conforms Γ (.struct t fs) = true) (hco : conforms Γ old = true)
    (hl : List.Forall₂ (fun f g => f.1 = g.1 ∧
      (if f.1.Exported then sameButExcluded n (parseTag f.1.Tag).1 f.2 g.2
       else ((parseTag f.1.Tag).1 == "-" || GoValue.beq f.2 g.2)) = true) fs fs')
    (ho : sameButExcluded (m + 1) cb old old' = true)
    (d d' : DiffDetails) (hd : SamePaths d d') :
    SimOut (compareFields cmp key old 0 fs d) (compareFields cmp key old' 0 fs' d') := by
  rw [compareFields_enum, compareFields_enum]
  simp only [conforms, Bool.and_eq_true, decide_eq_true_eq] at hcn
  refine foldlM_sim _ _ _ _ _
    (forall₂_and_mem _ (fun jf => jf ∈ fs.enumFrom 0) _ _ (forall₂_enumFrom _ fs fs' hl 0)
      (fun _ h => h)) ?_ d d' hd
  rintro ⟨j, f⟩ ⟨j', f'⟩ ⟨⟨hj, hmeta, hv⟩, hmem⟩ a a' ha
  simp only at hj hmeta hv
  subst hj
  cases hexp : f.1.Exported
  · have hexp' : f'.1.Exported = false := by rw [← hmeta, hexp]
    simp only [fieldStep, hexp, hexp', Bool.not_false, if_true]
    exact ha
  · have hexp' : f'.1.Exported = true := by rw [← hmeta, hexp]
    simp only [hexp, if_true] at hv
    simp only [fieldStep, hexp, hexp', Bool.not_true, Bool.false_eq_true, if_false, ← hmeta]
    obtain ⟨herr, hok⟩ := fieldAt_sim m cb old old' hcb ho j
    cases hf : fieldAt old j with
    | error e =>
      rw [herr e hf]
      exact simOut_error e
    | ok o =>
      obtain ⟨u, gs, g, o', rfl, hg, hgexp, rfl, hf', hoo⟩ := hok o hf
      rw [hf']
      simp only [ok_bind]
      simp only [conforms, Bool.and_eq_true, decide_eq_true_eq] at hco
      have hfj := (mem_enumFrom_get fs 0 j f hmem).2
      simp only [Nat.sub_zero] at hfj
      have hgf : g.1 = f.1 := by
        have h1 : (gs.map Prod.fst)[j]? = some g.1 := by simp [hg]
        have h2 : (fs.map Prod.fst)[j]? = some f.1 := by simp [hfj]
        have hnn : u.Name = t.Name := hname.symm
        rw [hco.1, hnn, ← hcn.1, h2] at h1
        exact (Option.some.inj h1).symm
      rw [hgf] at hoo
      exact hcmp n m _ _ _ a a' f.2 f'.2 g.2 o'
        (conformsFields_mem Γ fs hcn.2 f (mem_enumFrom_snd fs 0 j f hmem))
        (conformsFields_mem Γ gs hco.2 g (List.getElem?_mem hg)) hv hoo ha
theorem lookupKey_sim (Γ : Decls) (m : Nat) (k : GoValue) (es es' : List (GoValue × GoValue))
    (hl : List.Forall₂ (fun a b => a.1 = b.1 ∧ sameButExcluded m "" a.2 b.2 = true) es es') :
    (lookupKey k es = none → lookupKey k es' = none) ∧
    (∀ ov, lookupKey k es = some ov → ∃ ov', lookupKey k es' = some ov' ∧
      sameButExcluded m "" ov ov' = true ∧ (conformsEntries Γ es = true → conforms Γ ov = true)) := by
  induction hl with
  | nil => simp [lookupKey]
  | @cons a b l l' hab _ ih =>
    obtain ⟨a1, a2⟩ := a
    obtain ⟨b1, b2⟩ := b
    obtain ⟨hk, hv⟩ := hab
    simp only at hk hv
    subst hk
    simp only [lookupKey]
    cases goEq a1 k
    · simp only [Bool.false_eq_true, if_false, conformsEntries, Bool.and_eq_true]
      exact ⟨ih.1, fun ov hov => by
        obtain ⟨ov', h1, h2, h3⟩ := ih.2 ov hov
        exact ⟨ov', h1, h2, fun hc => h3 hc.2⟩⟩
    · simp only [if_true, reduceCtorEq, false_implies, Option.some.injEq, true_and,
        conformsEntries, Bool.and_eq_true]
      intro ov hov
      subst hov
      exact ⟨b2, rfl, hv, fun hc => hc.1.2⟩

theorem mapIndex_sim (Γ : Decls) (m : Nat) (cb : String) (old old' : GoValue) (hcb : cb ≠ "-")
    (h : sameButExcluded (m + 1) cb old old' = true) (k : GoValue) :
    (∀ e, mapIndex old k = .error e → mapIndex old' k = .error e) ∧
    (mapIndex old k = .ok none → mapIndex old' k = .ok none) ∧
    (∀ ov, mapIndex old k = .ok (some ov) → ∃ ov', mapIndex old' k = .ok (some ov') ∧
      sameButExcluded m "" ov ov' = true ∧ (conforms Γ old = true → conforms Γ ov = true)) := by
  cases old with
  | map t es =>
    obtain ⟨es', rfl, hl⟩ := same_inv_map m cb t es old' hcb h
    obtain ⟨hn, hs⟩ := lookupKey_sim Γ m k es es' hl
    simp only [mapIndex, conforms]
    split
    · simp only [reduceCtorEq, false_implies, implies_true, Except.ok.injEq, true_and]
      exact ⟨hn, hs⟩
    · simp
  | scalar t s =>
    rw [same_inv_eq m cb (.scalar t s) old' hcb (Or.inl rfl) h]
    simp [mapIndex]
  | nilPtr t =>
    rw [same_inv_eq m cb (.nilPtr t) old' hcb (Or.inr (Or.inl ⟨t, rfl⟩)) h]
    simp [mapIndex]
  | nilSlice t =>
    rw [same_inv_eq m cb (.nilSlice t) old' hcb (Or.inr (Or.inr (Or.inl ⟨t, rfl⟩))) h]
    simp [mapIndex]
  | nilMap t =>
    rw [same_inv_eq m cb (.nilMap t) old' hcb (Or.inr (Or.inr (Or.inr (Or.inl ⟨t, rfl⟩)))) h]
    simp only [mapIndex]
    split <;> simp
  | ptr t e =>
    obtain ⟨e', rfl, -⟩ := same_inv_ptr m cb t e old' hcb h
    simp [mapIndex]
  | struct t fs =>
    obtain ⟨gs, rfl, -⟩ := same_inv_struct m cb t fs old' hcb h
    simp [mapIndex]
  | slice t es =>
    cases old' <;> simp [sameButExcluded, hcb] at h
    simp [mapIndex]
  | array t es =>
    cases old' <;> simp [sameButExcluded, hcb] at h
    simp [mapIndex]

theorem mapRange_sim (m : Nat) (cb : String) (old old' : GoValue) (hcb : cb ≠ "-")
    (h : sameButExcluded (m + 1) cb old old' = true) :
    (∀ e, mapRange old = .error e → mapRange old' = .error e) ∧
    (∀ es, mapRange old = .ok es → ∃ es', mapRange old' = .ok es' ∧
      List.Forall₂ (fun a b => a.1 = b.1 ∧ sameButExcluded m "" a.2 b.2 = true) es es') := by
  cases old with
  | map t es =>
    obtain ⟨es', rfl, hl⟩ := same_inv_map m cb t es old' hcb h
    simp only [mapRange, reduceCtorEq, false_implies, implies_true, Except.ok.injEq, true_and]
    intro l hl'
    subst hl'
    exact ⟨es', rfl, hl⟩
  | scalar t s =>
    rw [same_inv_eq m cb (.scalar t s) old' hcb (Or.inl rfl) h]
    simp [mapRange]
  | nilPtr t =>
    rw [same_inv_eq m cb (.nilPtr t) old' hcb (Or.inr (Or.inl ⟨t, rfl⟩)) h]
    simp [mapRange]
  | nilSlice t =>
    rw [same_inv_eq m cb (.nilSlice t) old' hcb (Or.inr (Or.inr (Or.inl ⟨t, rfl⟩))) h]
    simp [mapRange]
  | nilMap t =>
    rw [same_inv_eq m cb (.nilMap t) old' hcb (Or.inr (Or.inr (Or.inr (Or.inl ⟨t, rfl⟩)))) h]
    simp only [mapRange, reduceCtorEq, false_implies, implies_true, Except.ok.injEq, true_and]
    intro l hl'
    subst hl'
    exact ⟨[], rfl, List.Forall₂.nil⟩
  | ptr t e =>
    obtain ⟨e', rfl, -⟩ := same_inv_ptr m cb t e old' hcb h
    simp [mapRange]
  | struct t fs =>
    obtain ⟨gs, rfl, -⟩ := same_inv_struct m cb t fs old' hcb h
    simp [mapRange]
  | slice t es =>
    cases old' <;> simp [sameButExcluded, hcb] at h
    simp [mapRange]
  | array t es =>
    cases old' <;> simp [sameButExcluded, hcb] at h
    simp [mapRange]

theorem stepMapNew_sim (Γ : Decls) (ff : Fmt) (fuel : Nat) (cmp : Cmp)
    (hcmp : CmpSim Γ cmp) (n m : Nat) (old old' : GoValue) (key : String) (isDirect : Bool)
    (hco : conforms Γ old = true) (ho : sameButExcluded (m + 1) "" old old' = true)
    (e e' : GoValue × GoValue) (hk : e.1 = e'.1) (hv : sameButExcluded n "" e.2 e'.2 = true)
    (hce : conforms Γ e.2 = true) (d d' : DiffDetails) (hd : SamePaths d d') :
    SimOut (stepMapNew ff fuel cmp old key "" isDirect d e)
      (stepMapNew ff fuel cmp old' key "" isDirect d' e') := by
  obtain ⟨herr, hnone, hsome⟩ := mapIndex_sim Γ m "" old old' (by decide) ho e.1
  simp only [stepMapNew, ← hk]
  cases h1 : toString ff fuel e.1 with
  | error err => exact simOut_error err
  | ok name =>
  simp only [ok_bind]
  cases h2 : mapIndex old e.1 with
  | error err =>
    rw [herr err h2]
    exact simOut_error err
  | ok found =>
    cases found with
    | none =>
      rw [hnone h2]
      exact samePaths_setAdd d d' hd _ _ _
    | some ov =>
      obtain ⟨ov', h2', hoo, hcov⟩ := hsome ov h2
      rw [h2']
      exact hcmp n m _ _ _ d d' e.2 e'.2 ov ov' hce (hcov hco) hv hoo hd

theorem stepMapOld_sim (Γ : Decls) (ff : Fmt) (fuel : Nat) (n : Nat)
    (new new' : GoValue) (key : String)
    (hn : sameButExcluded (n + 1) "" new new' = true)
    (e e' : GoValue × GoValue) (hk : e.1 = e'.1) (d d' : DiffDetails) (hd : SamePaths d d') :
    SimOut (stepMapOld ff fuel new key d e) (stepMapOld ff fuel new' key d' e') := by
  obtain ⟨herr, hnone, hsome⟩ := mapIndex_sim Γ n "" new new' (by decide) hn e.1
  simp only [stepMapOld, ← hk]
  cases h1 : toString ff fuel e.1 with
  | error err => exact simOut_error err
  | ok name =>
  simp only [ok_bind]
  cases h2 : mapIndex new e.1 with
  | error err =>
    rw [herr err h2]
    exact simOut_error err
  | ok found =>
    cases found with
    | none =>
      rw [hnone h2]
      exact samePaths_setDel d d' hd _ _ _
    | some ov =>
      obtain ⟨ov', h2', -, -⟩ := hsome ov h2
      rw [h2']
      exact hd
theorem same_shape (m : Nat) (cb : String) (x y : GoValue) (hcb : cb ≠ "-")
    (h : sameButExcluded (m + 1) cb x y = true) :
    ((x.isScalar = true ∨ (∃ t, x = .nilPtr t) ∨ (∃ t, x = .nilSlice t) ∨
      (∃ t, x = .nilMap t)) ∧ y = x) ∨
    (∃ t e e', x = .ptr t e ∧ y = .ptr t e' ∧ sameButExcluded m cb e e' = true) ∨
    (∃ t es es', x = .slice t es ∧ y = .slice t es') ∨
    (∃ t es es', x = .array t es ∧ y = .array t es') ∨
    (∃ t fs gs, x = .struct t fs ∧ y = .struct t gs) ∨
    (∃ t es es', x = .map t es ∧ y = .map t es') := by
  cases x with
  | scalar t s =>
    exact Or.inl ⟨Or.inl rfl, same_inv_eq m cb (.scalar t s) y hcb (Or.inl rfl) h⟩
  | nilPtr t =>
    exact Or.inl ⟨Or.inr (Or.inl ⟨t, rfl⟩),
      same_inv_eq m cb (.nilPtr t) y hcb (Or.inr (Or.inl ⟨t, rfl⟩)) h⟩
  | nilSlice t =>
    exact Or.inl ⟨Or.inr (Or.inr (Or.inl ⟨t, rfl⟩)),
      same_inv_eq m cb (.nilSlice t) y hcb (Or.inr (Or.inr (Or.inl ⟨t, rfl⟩))) h⟩
  | nilMap t =>
    exact Or.inl ⟨Or.inr (Or.inr (Or.inr ⟨t, rfl⟩)),
      same_inv_eq m cb (.nilMap t) y hcb (Or.inr (Or.inr (Or.inr (Or.inl ⟨t, rfl⟩)))) h⟩
  | ptr t e =>
    obtain ⟨e', rfl, he⟩ := same_inv_ptr m cb t e y hcb h
    exact Or.inr (Or.inl ⟨t, e, e', rfl, rfl, he⟩)
  | slice t es =>
    cases y <;> simp [sameButExcluded, hcb] at h
    exact Or.inr (Or.inr (Or.inl ⟨t, es, _, rfl, by rw [h.1]⟩))
  | array t es =>
    cases y <;> simp [sameButExcluded, hcb] at h
    exact Or.inr (Or.inr (Or.inr (Or.inl ⟨t, es, _, rfl, by rw [h.1]⟩)))
  | struct t fs =>
    obtain ⟨gs, rfl, -⟩ := same_inv_struct m cb t fs y hcb h
    exact Or.inr (Or.inr (Or.inr (Or.inr (Or.inl ⟨t, fs, gs, rfl, rfl⟩))))
  | map t es =>
    obtain ⟨fs, rfl, -⟩ := same_inv_map m cb t es y hcb h
    exact Or.inr (Or.inr (Or.inr (Or.inr (Or.inr ⟨t, es, fs, rfl, rfl⟩))))

theorem whole_deepEqual (m : Nat) (new old old' : GoValue)
    (hnew : new.isScalar = true ∨ new.isSeq = true)
    (h : sameButExcluded (m + 1) "" old old' = true) :
    goDeepEqual new old = goDeepEqual new old' := by
  rcases same_shape m "" old old' (by decide) h with ⟨-, rfl⟩ | ⟨t, e, e', rfl, rfl, -⟩ |
    ⟨t, es, es', rfl, rfl⟩ | ⟨t, es, es', rfl, rfl⟩ | ⟨t, fs, gs, rfl, rfl⟩ |
    ⟨t, es, es', rfl, rfl⟩
  · rfl
  · cases new <;> simp [GoValue.isScalar, GoValue.isSeq] at hnew <;> simp [goDeepEqual]
  · rw [same_inv_eq m "" (.slice t es) (.slice t es') (by decide)
      (Or.inr (Or.inr (Or.inr (Or.inr ⟨rfl, rfl⟩)))) h]
  · rw [same_inv_eq m "" (.array t es) (.array t es') (by decide)
      (Or.inr (Or.inr (Or.inr (Or.inr ⟨rfl, rfl⟩)))) h]
  · cases new <;> simp [GoValue.isScalar, GoValue.isSeq] at hnew <;> simp [goDeepEqual]
  · cases new <;> simp [GoValue.isScalar, GoValue.isSeq] at hnew <;> simp [goDeepEqual]

theorem compare_sim (Γ : Decls) (ff : Fmt) :
    ∀ (fuel : Nat), CmpSim Γ (compare ff fuel) := by
  intro fuel
  induction fuel using Nat.strong_induction_on with
  | _ fuel ih =>
  intro n m key cb isDirect d d' new new' old old' hcn hco hn ho hd
  cases fuel with
  | zero => exact simOut_error .outOfFuel
  | succ fuel =>
  by_cases hcb : cb = "-"
  · subst hcb
    rw [compare_excluded, compare_excluded]
    exact hd
  cases n with
  | zero => simp [sameButExcluded] at hn
  | succ n =>
  cases m with
  | zero => simp [sameButExcluded] at ho
  | succ m =>
  have htn : new'.typeName = new.typeName := by
    simp only [GoValue.typeName, same_typeOf _ cb new new' hcb hn]
  have hto : old'.typeName = old.typeName := by
    simp only [GoValue.typeName, same_typeOf _ cb old old' hcb ho]
  by_cases hname : new.typeName = old.typeName
  swap
  · rw [compare_name_mismatch ff fuel key cb isDirect d new old hcb hname,
      compare_name_mismatch ff fuel key cb isDirect d' new' old' hcb (by rw [htn, hto]; exact hname),
      htn, hto]
    exact simOut_error _
  have hname' : new'.typeName = old'.typeName := by rw [htn, hto]; exact hname
  have hih : CmpSim Γ (compare ff fuel) := ih fuel (Nat.lt_succ_self fuel)
  -- values that are compared whole
  have hwhole : (new.isScalar = true ∨ new.isSeq = true) → cb = "" → new' = new →
      SimOut (.ok (if goDeepEqual new old then d else d.setChange key (some old)))
        (.ok (if goDeepEqual new' old' then d' else d'.setChange key (some old'))) := by
    intro hk hc he
    subst hc
    subst he
    rw [← whole_deepEqual m new' old old' hk ho]
    cases goDeepEqual new' old
    · exact samePaths_setChange d d' hd _ _ _
    · exact hd
  have hseqc : new.isSeq = true →
      SimOut (compare ff (fuel + 1) key cb isDirect d new old)
        (compare ff (fuel + 1) key cb isDirect d' new' old') := by
    intro hs
    by_cases hc : cb = ""
    · have he := same_inv_eq n cb new new' hcb
        (Or.inr (Or.inr (Or.inr (Or.inr ⟨hs, hc⟩)))) hn
      subst hc
      rw [compare_unkeyed_seq ff fuel key isDirect d new old hs hname,
        compare_unkeyed_seq ff fuel key isDirect d' new' old' (by rw [he]; exact hs) hname']
      exact hwhole (Or.inr hs) rfl he
    · obtain ⟨es, hes⟩ := checkedItems_of_isSeq new hs
      obtain ⟨hs', -, -⟩ := same_inv_keyed n cb new new' hcb hc hs es hes hn
      rw [compare_keyed ff fuel key cb isDirect d new old hs hcb hc hname,
        compare_keyed ff fuel key cb isDirect d' new' old' hs' hcb hc hname']
      exact compareBySlice_sim Γ ff _ hih n m new new' old old' cb isDirect key hcb hc hs hcn hco
        hn ho d d' hd
  have hmapc : new.isMap = true → new'.isMap = true →
      SimOut (compare ff (fuel + 1) key cb isDirect d new old)
        (compare ff (fuel + 1) key cb isDirect d' new' old') := by
    intro hm hm'
    by_cases hc : cb = ""
    · subst hc
      obtain ⟨hne, hno⟩ := mapRange_sim n "" new new' hcb hn
      obtain ⟨hoe, hoo⟩ := mapRange_sim m "" old old' hcb ho
      cases hnew : mapRange new with
      | error e => cases new <;> simp [GoValue.isMap] at hm <;> simp [mapRange] at hnew
      | ok newEs =>
      obtain ⟨newEs', hnew', hln⟩ := hno newEs hnew
      cases hold : mapRange old with
      | error e =>
        rw [compare_map_panic ff fuel key isDirect d new old hm hname e hold,
          compare_map_panic ff fuel key isDirect d' new' old' hm' hname' e (hoe e hold)]
        exact simOut_error _
      | ok oldEs =>
        obtain ⟨oldEs', hold', hlo⟩ := hoo oldEs hold
        rw [compare_map ff fuel key isDirect d new old newEs oldEs hnew hold hname,
          compare_map ff fuel key isDirect d' new' old' newEs' oldEs' hnew' hold' hname']
        have hcv : ∀ e ∈ newEs, conforms Γ e.2 = true := by
          cases new <;> simp [GoValue.isMap] at hm
          · simp only [mapRange, Except.ok.injEq] at hnew
            subst hnew
            exact conformsEntries_mem Γ _ (by simpa [conforms] using hcn)
          · simp only [mapRange, Except.ok.injEq] at hnew
            subst hnew
            intro e he
            simp at he
        refine simOut_bind _ _ _ _
          (foldlM_sim _ _ _ newEs newEs' (forall₂_and_mem _ _ newEs newEs' hln hcv)
            (fun e e' he a a' ha => stepMapNew_sim Γ ff fuel _ hih n m old old' key isDirect hco
              ho e e' he.1.1 he.1.2 he.2 a a' ha) d d' hd) ?_
        intro r r' hr
        exact foldlM_sim _ _ _ oldEs oldEs' hlo
          (fun e e' he a a' ha => stepMapOld_sim Γ ff fuel n new new' key hn e e' he.1 a a' ha)
          r r' hr
    · rw [compare_annotated ff fuel key cb isDirect d new old (Or.inr hm) ⟨hc, hcb⟩ hname,
        compare_annotated ff fuel key cb isDirect d' new' old' (Or.inr hm') ⟨hc, hcb⟩ hname']
      exact simOut_error _
  cases new with
  | scalar t s =>
    have he := same_inv_eq n cb (.scalar t s) new' hcb (Or.inl rfl) hn
    by_cases hc : cb = ""
    · subst hc
      rw [compare_scalar ff fuel key isDirect d (.scalar t s) old rfl hname,
        compare_scalar ff fuel key isDirect d' new' old' (by rw [he]; rfl) hname']
      exact hwhole (Or.inl rfl) rfl he
    · rw [compare_annotated ff fuel key cb isDirect d (.scalar t s) old (Or.inl rfl) ⟨hc, hcb⟩
          hname,
        compare_annotated ff fuel key cb isDirect d' new' old' (Or.inl (by rw [he]; rfl))
          ⟨hc, hcb⟩ hname']
      exact simOut_error _
  | nilPtr t =>
    have he := same_inv_eq n cb (.nilPtr t) new' hcb (Or.inr (Or.inl ⟨t, rfl⟩)) hn
    subst he
    rw [compare_nilPtr ff fuel key cb isDirect d t old hcb hname,
      compare_nilPtr ff fuel key cb isDirect d' t old' hcb hname']
    rcases same_shape m cb old old' hcb ho with ⟨hk, rfl⟩ | ⟨u, e, e', rfl, rfl, -⟩ |
      ⟨u, es, es', rfl, rfl⟩ | ⟨u, es, es', rfl, rfl⟩ | ⟨u, fs, gs, rfl, rfl⟩ |
      ⟨u, es, es', rfl, rfl⟩
    · cases old' <;> first | exact hd | exact simOut_error _
    all_goals exact simOut_error _
  | ptr t e =>
    obtain ⟨e', rfl, hee⟩ := same_inv_ptr n cb t e new' hcb hn
    have hce : conforms Γ e = true := by simpa [conforms] using hcn
    rcases same_shape m cb old old' hcb ho with ⟨hk, rfl⟩ | ⟨u, f, f', rfl, rfl, hff⟩ |
      ⟨u, es, es', rfl, rfl⟩ | ⟨u, es, es', rfl, rfl⟩ | ⟨u, fs, gs, rfl, rfl⟩ |
      ⟨u, es, es', rfl, rfl⟩
    · have hnp : ∀ u f, old' ≠ .ptr u f := by
        intro u f hp
        subst hp
        rcases hk with hk | ⟨_, hk⟩ | ⟨_, hk⟩ | ⟨_, hk⟩
        · simp [GoValue.isScalar] at hk
        · cases hk
        · cases hk
        · cases hk
      rw [compare_ptr_panic ff fuel key cb isDirect d t e old' hcb hname hnp,
        compare_ptr_panic ff fuel key cb isDirect d' t e' old' hcb hname' hnp]
      exact simOut_error _
    · rw [compare_ptr ff fuel key cb isDirect d t u e f hcb hname,
        compare_ptr ff fuel key cb isDirect d' t u e' f' hcb hname']
      exact hih _ _ key cb isDirect d d' e e' f f' hce (by simpa [conforms] using hco) hee hff hd
    all_goals
      rw [compare_ptr_panic ff fuel key cb isDirect d t e _ hcb hname (fun _ _ h => by cases h),
        compare_ptr_panic ff fuel key cb isDirect d' t e' _ hcb hname' (fun _ _ h => by cases h)]
      exact simOut_error _
  | slice t es => exact hseqc rfl
  | nilSlice t => exact hseqc rfl
  | array t es => exact hseqc rfl
  | map t es =>
    obtain ⟨fs, rfl, -⟩ := same_inv_map n cb t es new' hcb hn
    exact hmapc rfl rfl
  | nilMap t =>
    have he := same_inv_eq n cb (.nilMap t) new' hcb
      (Or.inr (Or.inr (Or.inr (Or.inl ⟨t, rfl⟩)))) hn
    subst he
    exact hmapc rfl rfl
  | struct t fs =>
    obtain ⟨fs', rfl, hl⟩ := same_inv_struct n cb t fs new' hcb hn
    cases isDirect
    · rw [compare_struct_fields ff fuel key cb d t fs old hcb hname,
        compare_struct_fields ff fuel key cb d' t fs' old' hcb hname']
      exact compareFields_sim Γ _ hih n m key cb t fs fs' old old' hcb hname hcn hco hl ho d d' hd
    · rw [compare_struct_whole ff fuel key cb d t fs old hcb hname,
        compare_struct_whole ff fuel key cb d' t fs' old' hcb hname']
      have hnest : SimOut (diffWith (compare ff fuel) (.struct t fs) old)
          (diffWith (compare ff fuel) (.struct t fs') old') := by
        cases fuel with
        | zero => exact simOut_error .outOfFuel
        | succ k =>
          simp only [diffWith]
          rw [compare_struct_fields ff k "" "" {} t fs old (by decide) hname,
            compare_struct_fields ff k "" "" {} t fs' old' (by decide) hname']
          exact compareFields_sim Γ _ (ih k (by omega)) n m "" cb t fs fs' old old' hcb hname
            hcn hco hl ho {} {} (samePaths_refl _)
      rw [deepEqual_sim _ _ _ _ _ hnest]
      cases deepEqual (compare ff fuel) (.struct t fs') old' with
      | error e => exact simOut_error e
      | ok b =>
        cases b
        · exact samePaths_setChange d d' hd _ _ _
        · exact hd
theorem compareFields_excluded (ff : Fmt) (fuel : Nat) (key : String)
    (old : GoValue) (fs : List (StructField × GoValue)) (d r : DiffDetails)
    (f : StructField × GoValue) (hf : f ∈ fs) (htag : (parseTag f.1.Tag).1 = "-")
    (hnd : (fs.map (fun g => g.1.Name)).Nodup) (hseg : ∀ g ∈ fs, segment g.1.Name = true)
    (h : compareFields (compare ff fuel) key old 0 fs d = .ok r) :
    ∀ s p, Under (generate key f.1.Name) p → (p ∈ keysAt s r ↔ p ∈ keysAt s d) := by
  rw [compareFields_enum] at h
  obtain ⟨-, hk⟩ := foldlM_keys key _ (fs.enumFrom 0)
    (fun jf _ => fieldStep_logged _ (compare_logged ff fuel) key old jf) d r h
  intro s p hp
  rw [hk s p]
  refine ⟨fun hh => ?_, Or.inl⟩
  rcases hh with hh | ⟨⟨j, g⟩, hjg, rg, hrg, hpg⟩
  · exact hh
  · exfalso
    have hgm : g ∈ fs := mem_enumFrom_snd fs 0 j g hjg
    unfold fieldStep at hrg
    cases hexp : g.1.Exported
    · simp [hexp] at hrg
      subst hrg
      rw [keysAt_empty] at hpg
      simp at hpg
    · cases hold : fieldAt old j with
      | error e => simp [hexp, hold] at hrg
      | ok o =>
        simp only [hexp, hold, Bool.not_true, Bool.false_eq_true, if_false, ok_bind] at hrg
        have hu := Logged.under _ _ (compare_logged ff fuel _ _ _ _ _) rg hrg s p hpg
        have hnn := sep_generate key _ _ p (hseg g hgm) (hseg f hf) hu hp
        have hgf : g = f := List.inj_on_of_nodup_map hnd hgm hf hnn
        subst hgf
        rw [htag] at hrg
        cases fuel with
        | zero => simp [compare] at hrg
        | succ k =>
          rw [compare_excluded] at hrg
          cases hrg
          rw [keysAt_empty] at hpg
          simp at hpg

/-- C13 (as amended): take two pairs of conforming values in which `new'` differs from `new`,
and `old'` from `old`, only in the values held by fields annotated `-` that the field-by-field
recursion reaches (`sameButExcluded`: through records, pointers, map values and the elements
of keyed sequences, whose key fields are fields of the element records themselves and are
unchanged; sequences without a key annotation are compared whole and must be equal).  Then
`Diff` fails on both pairs, or succeeds on both with the same paths in Change, in Add and in
Del.  (Which error a failing run returns is not compared: a map is ranged in an unspecified
order, and the error of the first failing entry is returned.)  The comparison of an
excluded field returns the result unchanged, whatever the two values; and a record compared
field by field, whose field names are pairwise distinct segments, records nothing at or below
the path of an excluded field. -/
theorem C13_excluded_fields (Γ : Decls) (ff : Fmt) (fuel n m : Nat)
    (new new' old old' : GoValue)
    (key cb : String) (t : GoType) (fs : List (StructField × GoValue)) (rec0 : GoValue)
    (d r : DiffDetails) (f : StructField × GoValue)
    (hcn : conforms Γ new = true) (hco : conforms Γ old = true)
    (hn : sameButExcluded n "" new new' = true) (ho : sameButExcluded m "" old old' = true)
    (hcb : cb ≠ "-") (hname : (GoValue.struct t fs).typeName = rec0.typeName)
    (hf : f ∈ fs) (htag : (parseTag f.1.Tag).1 = "-")
    (hnd : (fs.map (fun g => g.1.Name)).Nodup) (hseg : ∀ g ∈ fs, segment g.1.Name = true)
    (hr : compare ff (fuel + 1) key cb false d (.struct t fs) rec0 = .ok r) :
    ((∀ e, Diff ff fuel new old = .error e → ∃ e', Diff ff fuel new' old' = .error e') ∧
     (∀ res, Diff ff fuel new old = .ok res → ∃ res', Diff ff fuel new' old' = .ok res' ∧
        ∀ p,
          (p ∈ (entries res.Change).map Prod.fst ↔ p ∈ (entries res'.Change).map Prod.fst) ∧
          (p ∈ (entries res.Add).map Prod.fst ↔ p ∈ (entries res'.Add).map Prod.fst) ∧
          (p ∈ (entries res.Del).map Prod.fst ↔ p ∈ (entries res'.Del).map Prod.fst))) ∧
    (∀ (k : String) (isDirect : Bool) (diff : DiffDetails) (x y : GoValue),
      compare ff (fuel + 1) k "-" isDirect diff x y = .ok diff) ∧
    (∀ p, Under (generate key f.1.Name) p →
      (p ∈ (entries r.Change).map Prod.fst ↔ p ∈ (entries d.Change).map Prod.fst) ∧
      (p ∈ (entries r.Add).map Prod.fst ↔ p ∈ (entries d.Add).map Prod.fst) ∧
      (p ∈ (entries r.Del).map Prod.fst ↔ p ∈ (entries d.Del).map Prod.fst)) := by
  refine ⟨?_, fun k isDirect diff x y => compare_excluded ff fuel k isDirect diff x y, ?_⟩
  · have hsim : SimOut (Diff ff fuel new old) (Diff ff fuel new' old') :=
      compare_sim Γ ff fuel n m "" "" false {} {} new new' old old' hcn hco hn ho
        (samePaths_refl _)
    cases h1 : Diff ff fuel new old with
    | error e =>
      cases h2 : Diff ff fuel new' old' with
      | error e' => simp
      | ok r' => rw [h1, h2] at hsim; exact absurd hsim (by simp [SimOut])
    | ok res =>
      cases h2 : Diff ff fuel new' old' with
      | error e' => rw [h1, h2] at hsim; exact absurd hsim (by simp [SimOut])
      | ok res' =>
        rw [h1, h2] at hsim
        simp only [reduceCtorEq, false_implies, implies_true, Except.ok.injEq, true_and]
        intro res0 hres0
        subst hres0
        exact ⟨res', rfl, fun p => ⟨hsim .change p, hsim .add p, hsim .del p⟩⟩
  · rw [compare_struct_fields ff fuel key cb d t fs rec0 hcb hname] at hr
    intro p hp
    have := compareFields_excluded ff fuel key rec0 fs d r f hf htag hnd hseg hr
    exact ⟨this .change p hp, this .add p hp, this .del p hp⟩
theorem C13_excluded_fields_witness :
    (conforms accountDecls (account "a" "s1" [item "x" "n1" 1]) = true ∧
     conforms accountDecls (account "b" "t1" [item "x" "m1" 2, item "y" "m" 3]) = true ∧
     sameButExcluded 4 "" (account "a" "s1" [item "x" "n1" 1])
       (account "a" "s2" [item "x" "n2" 1]) = true ∧
     sameButExcluded 4 "" (account "b" "t1" [item "x" "m1" 2, item "y" "m" 3])
       (account "b" "t2" [item "x" "m2" 2, item "y" "mm" 3]) = true ∧
     "" ≠ "-" ∧
     (GoValue.struct (.basic "Account") accountFields).typeName =
       (account "b" "t1" [item "x" "m1" 2, item "y" "m" 3]).typeName ∧
     ((⟨"Secret", true, "-"⟩, str "s1") : StructField × GoValue) ∈ accountFields ∧
     (parseTag ((⟨"Secret", true, "-"⟩, str "s1") : StructField × GoValue).1.Tag).1 = "-" ∧
     (accountFields.map (fun g => g.1.Name)).Nodup ∧
     (∀ g ∈ accountFields, segment g.1.Name = true) ∧
     compare ffNone (4 + 1) "" "" false {} (.struct (.basic "Account") accountFields)
       (account "b" "t1" [item "x" "m1" 2, item "y" "m" 3]) = .ok accountResult) ∧
    (((∀ e, Diff ffNone 4 (account "a" "s1" [item "x" "n1" 1])
          (account "b" "t1" [item "x" "m1" 2, item "y" "m" 3]) = .error e →
        ∃ e', Diff ffNone 4 (account "a" "s2" [item "x" "n2" 1])
          (account "b" "t2" [item "x" "m2" 2, item "y" "mm" 3]) = .error e') ∧
      (∀ res, Diff ffNone 4 (account "a" "s1" [item "x" "n1" 1])
          (account "b" "t1" [item "x" "m1" 2, item "y" "m" 3]) = .ok res →
        ∃ res', Diff ffNone 4 (account "a" "s2" [item "x" "n2" 1])
          (account "b" "t2" [item "x" "m2" 2, item "y" "mm" 3]) = .ok res' ∧
          ∀ p,
            (p ∈ (entries res.Change).map Prod.fst ↔ p ∈ (entries res'.Change).map Prod.fst) ∧
            (p ∈ (entries res.Add).map Prod.fst ↔ p ∈ (entries res'.Add).map Prod.fst) ∧
            (p ∈ (entries res.Del).map Prod.fst ↔ p ∈ (entries res'.Del).map Prod.fst))) ∧
     (∀ (k : String) (isDirect : Bool) (diff : DiffDetails) (x y : GoValue),
       compare ffNone (4 + 1) k "-" isDirect diff x y = .ok diff) ∧
     (∀ p, Under (generate ""
         ((⟨"Secret", true, "-"⟩, str "s1") : StructField × GoValue).1.Name) p →
       (p ∈ (entries accountResult.Change).map Prod.fst ↔
         p ∈ (entries ({} : DiffDetails).Change).map Prod.fst) ∧
       (p ∈ (entries accountResult.Add).map Prod.fst ↔
         p ∈ (entries ({} : DiffDetails).Add).map Prod.fst) ∧
       (p ∈ (entries accountResult.Del).map Prod.fst ↔
         p ∈ (entries ({} : DiffDetails).Del).map Prod.fst))) :=
  ⟨⟨by decide, by decide, by decide, by decide, by decide, by decide, by decide, by decide,
     by decide, by decide, by decide⟩,
   C13_excluded_fields accountDecls ffNone 4 4 4
     (account "a" "s1" [item "x" "n1" 1]) (account "a" "s2" [item "x" "n2" 1])
     (account "b" "t1" [item "x" "m1" 2, item "y" "m" 3])
     (account "b" "t2" [item "x" "m2" 2, item "y" "mm" 3])
     "" "" (.basic "Account") accountFields
     (account "b" "t1" [item "x" "m1" 2, item "y" "m" 3]) {} accountResult
     (⟨"Secret", true, "-"⟩, str "s1")
     (by decide) (by decide) (by decide) (by decide) (by decide) (by decide) (by decide)
     (by decide) (by decide) (by decide) (by decide)⟩

/-- C13, counterexample: in a record whose field `Items` is a `[]Item` without annotation,
the two inputs `(new, old)` and `(new', old)` differ only in the value of the field `Note`
of a sequence element, which is annotated `-`; yet `Diff` finds nothing on the first pair and
reports `Change[Items]` on the second: a sequence without a key annotation is compared whole
with `reflect.DeepEqual`, excluded fields included. -/
theorem C13_counterexample :
    Diff ffNone 3 (box [item "x" "n1" 1]) (box [item "x" "n1" 1]) = .ok {} ∧
    Diff ffNone 3 (box [item "x" "n2" 1]) (box [item "x" "n1" 1]) =
      .ok { Change := some [("Items",
        some (.slice (.slice "" (.basic "Item")) [item "x" "n1" 1]))] } := by
  decide

/-! ### Exchanging the two arguments -/

theorem Slot.swap_swap (s : Slot) : s.swap.swap = s := by
  cases s <;> rfl

theorem keys_write_empty (w : Write) (s : Slot) (p : String) :
    p ∈ keysAt s (({} : DiffDetails).write w) ↔ (w.slot = s ∧ p = w.path) := by
  rw [mem_keysAt_write, keysAt_empty]
  simp

theorem stepNew_keys (ff : Fmt) (cmp : Cmp) (old : GoValue)
    (comparedby : String) (isDirect : Bool) (key : String) (x : GoValue) (rx : DiffDetails)
    (h : stepNew ff cmp old comparedby isDirect key {} x = .ok rx) :
    ∃ vx cv found, getElement x = .ok vx ∧ selText ff comparedby x = some cv ∧
      getFromSlice old vx comparedby = .ok found ∧
      ((found = none ∧
          ∀ s p, p ∈ keysAt s rx ↔ (s = .add ∧ p = selector key comparedby cv)) ∨
       (∃ f tmp, found = some f ∧ cmp "" "" false {} vx f = .ok tmp ∧
          ((isDirect = true ∧ ∀ s p, p ∈ keysAt s rx ↔
              (s = .change ∧ tmp.isEmpty = false ∧ p = selector key comparedby cv)) ∨
           (isDirect = false ∧ ∀ s p, p ∈ keysAt s rx ↔
              ∃ q, q ∈ keysAt s tmp ∧ p = selector key comparedby cv ++ "." ++ q)))) := by
  unfold stepNew at h
  cases h1 : getElement x with
  | error e => simp [h1] at h
  | ok value =>
  cases h2 : getFromSlice old value comparedby with
  | error e => simp [h1, h2] at h
  | ok oldElement =>
  cases h3 : fieldByName value comparedby with
  | error e => simp [h1, h2, h3] at h
  | ok field =>
  cases h4 : structFieldIsExported field with
  | false => simp [h1, h2, h3, h4] at h
  | true =>
  cases h5 : getComparedValueOf ff field with
  | error e => simp [h1, h2, h3, h4, h5] at h
  | ok cv =>
  simp only [h1, h2, h3, h4, h5, ok_bind] at h
  have hsel : selText ff comparedby x = some cv := by simp [selText, h1, h3, h5]
  refine ⟨value, cv, oldElement, rfl, hsel, h2, ?_⟩
  cases oldElement with
  | none =>
    simp at h; subst h
    left
    refine ⟨rfl, fun s p => ?_⟩
    rw [show ({} : DiffDetails).setAdd (selector key comparedby cv) none =
      ({} : DiffDetails).write ⟨.add, selector key comparedby cv, none⟩ from rfl,
      keys_write_empty]
    constructor <;> rintro ⟨e1, e2⟩ <;> exact ⟨e1.symm, e2⟩
  | some f =>
    have hz := getFromSlice_nonzero old value comparedby f h2
    right
    cases isDirect
    · cases h6 : cmp "" "" false {} value f with
      | error e => simp [hz, h6] at h
      | ok tmp =>
        simp [hz, h6] at h
        subst h
        refine ⟨f, tmp, rfl, h6, Or.inr ⟨rfl, fun s p => ?_⟩⟩
        rw [merge_keys, keysAt_empty]
        simp
    · cases h6 : diffWith cmp value f with
      | error e => simp [hz, deepEqual, h6] at h
      | ok tmp =>
        simp only [hz, deepEqual_eq cmp value f tmp h6] at h
        refine ⟨f, tmp, rfl, h6, Or.inl ⟨rfl, fun s p => ?_⟩⟩
        cases he : tmp.isEmpty <;> simp [he] at h <;> subst h
        · rw [show ({} : DiffDetails).setChange (selector key comparedby cv) (some f) =
            ({} : DiffDetails).write ⟨.change, selector key comparedby cv, some f⟩ from rfl,
            keys_write_empty]
          constructor
          · rintro ⟨e1, e2⟩
            exact ⟨e1.symm, rfl, e2⟩
          · rintro ⟨e1, -, e2⟩
            exact ⟨e1.symm, e2⟩
        · rw [keysAt_empty]
          simp

theorem stepOld_keys (ff : Fmt) (new : GoValue) (comparedby : String)
    (key : String) (y : GoValue) (ry : DiffDetails)
    (h : stepOld ff new comparedby key {} y = .ok ry) :
    ∃ vy cv found, getElement y = .ok vy ∧ selText ff comparedby y = some cv ∧
      getFromSlice new vy comparedby = .ok found ∧
      ∀ s p, p ∈ keysAt s ry ↔
        (s = .del ∧ found = none ∧ p = selector key comparedby cv) := by
  unfold stepOld at h
  cases h1 : getElement y with
  | error e => simp [h1] at h
  | ok value =>
  cases h2 : getFromSlice new value comparedby with
  | error e => simp [h1, h2] at h
  | ok newElement =>
  cases h3 : fieldByName value comparedby with
  | error e => simp [h1, h2, h3] at h
  | ok field =>
  cases h5 : getComparedValueOf ff field with
  | error e => simp [h1, h2, h3, h5] at h
  | ok cv =>
  simp only [h1, h2, h3, h5, ok_bind] at h
  refine ⟨value, cv, newElement, rfl, by simp [selText, h1, h3, h5], h2, fun s p => ?_⟩
  cases newElement with
  | none =>
    simp [foundIsZero] at h
    subst h
    rw [show ({} : DiffDetails).setDel (selector key comparedby cv) (some value) =
      ({} : DiffDetails).write ⟨.del, selector key comparedby cv, some value⟩ from rfl,
      keys_write_empty]
    constructor
    · rintro ⟨e1, e2⟩
      exact ⟨e1.symm, rfl, e2⟩
    · rintro ⟨e1, -, e2⟩
      exact ⟨e1.symm, e2⟩
  | some g =>
    simp [foundIsZero, getFromSlice_nonzero new value comparedby g h2] at h
    subst h
    rw [keysAt_empty]
    simp
theorem SwapInto.nonempty (r r' : DiffDetails) (h : SwapInto r r')
    (he : r.isEmpty = false) : r'.isEmpty = false := by
  cases he' : r'.isEmpty with
  | false => rfl
  | true =>
    exfalso
    have hall := (isEmpty_iff r').mp he'
    have hne : ¬ ∀ s, keysAt s r = [] := fun hn => by
      rw [(isEmpty_iff r).mpr hn] at he
      cases he
    apply hne
    intro s
    cases hk : keysAt s r with
    | nil => rfl
    | cons p ps =>
      have hp := h s p (by rw [hk]; simp)
      rw [hall] at hp
      cases hp

/-- One half of the exchange on two keyed sequences: what the run on `(a, b)` records, the run
on `(b, a)` records with Add and Del exchanged, when every match of an element of `a` in `b`
is mutual. -/
theorem compareBySlice_swapInto (ff : Fmt) (cmp : Cmp) (a b : GoValue)
    (cb : String) (isDirect : Bool) (key : String) (aEs bEs : List GoValue)
    (ha : checkedItems a = .ok aEs) (hb : checkedItems b = .ok bEs)
    (hA : ∀ x ∈ aEs, ∀ vx f, getElement x = .ok vx → getFromSlice b vx cb = .ok (some f) →
      (∃ y ∈ bEs, getElement y = .ok f ∧ getFromSlice a f cb = .ok (some vx) ∧
        selText ff cb y = selText ff cb x) ∧
      ∀ tmp tmp', cmp "" "" false {} vx f = .ok tmp → cmp "" "" false {} f vx = .ok tmp' →
        SwapInto tmp tmp')
    (ra rb : DiffDetails)
    (h1 : compareBySlice ff cmp a b cb isDirect key {} = .ok ra)
    (h2 : compareBySlice ff cmp b a cb isDirect key {} = .ok rb) :
    SwapInto ra rb := by
  have hsa := seqItems_of_checkedItems a aEs ha
  have hsb := seqItems_of_checkedItems b bEs hb
  simp only [compareBySlice, ha, hb, hsa, hsb, ok_bind] at h1 h2
  cases e1 : aEs.foldlM (stepNew ff cmp b cb isDirect key) {} with
  | error e => simp [e1] at h1
  | ok d1 =>
  cases e2 : bEs.foldlM (stepNew ff cmp a cb isDirect key) {} with
  | error e => simp [e2] at h2
  | ok d2 =>
  simp only [e1, e2, ok_bind] at h1 h2
  obtain ⟨-, k1⟩ := foldlM_keys key _ aEs
    (fun x _ => stepNew_logged ff cmp b cb isDirect key x) {} d1 e1
  obtain ⟨-, k1'⟩ := foldlM_keys key _ bEs
    (fun x _ => stepOld_logged ff a cb key x) d1 ra h1
  obtain ⟨s2, k2⟩ := foldlM_keys key _ bEs
    (fun x _ => stepNew_logged ff cmp a cb isDirect key x) {} d2 e2
  obtain ⟨s2', k2'⟩ := foldlM_keys key _ aEs
    (fun x _ => stepOld_logged ff b cb key x) d2 rb h2
  intro s p hp
  rw [k1', k1, keysAt_empty] at hp
  rw [k2', k2, keysAt_empty]
  simp only [List.not_mem_nil, false_or] at hp ⊢
  rcases hp with ⟨x, hx, rx, hrx, hp⟩ | ⟨y, hy, ry, hry, hp⟩
  · obtain ⟨vx, cv, found, hvx, hcv, hfound, hcase⟩ :=
      stepNew_keys ff cmp b cb isDirect key x rx hrx
    rcases hcase with ⟨rfl, hk⟩ | ⟨f, tmp, rfl, htmp, hk⟩
    · -- unmatched in `b`: an Add here, a Del there
      obtain ⟨rfl, rfl⟩ := (hk s p).mp hp
      obtain ⟨rx', hrx'⟩ := s2' x hx
      obtain ⟨vx', cv', found', hvx', hcv', hfound', hk'⟩ :=
        stepOld_keys ff b cb key x rx' hrx'
      rw [hvx] at hvx'
      cases hvx'
      rw [hcv] at hcv'
      cases hcv'
      rw [hfound] at hfound'
      cases hfound'
      exact Or.inr ⟨x, hx, rx', hrx', (hk' _ _).mpr ⟨rfl, rfl, rfl⟩⟩
    · obtain ⟨⟨y, hy, hvy, hback, hsel⟩, hnest⟩ := hA x hx vx f hvx hfound
      obtain ⟨ry, hry⟩ := s2 y hy
      obtain ⟨vy, cvy, foundy, hvy', hcvy, hfoundy, hcasey⟩ :=
        stepNew_keys ff cmp a cb isDirect key y ry hry
      rw [hvy] at hvy'
      cases hvy'
      rw [hsel, hcv] at hcvy
      cases hcvy
      rw [hback] at hfoundy
      cases hfoundy
      rcases hcasey with ⟨hno, -⟩ | ⟨f', tmp', hf', htmp', hk'⟩
      · cases hno
      · cases hf'
        have hsw := hnest tmp tmp' htmp htmp'
        refine Or.inl ⟨y, hy, ry, hry, ?_⟩
        rcases hk with ⟨hd, hk⟩ | ⟨hd, hk⟩ <;>
          rcases hk' with ⟨hd', hk'⟩ | ⟨hd', hk'⟩
        · obtain ⟨rfl, hne, rfl⟩ := (hk s p).mp hp
          exact (hk' _ _).mpr ⟨rfl, SwapInto.nonempty tmp tmp' hsw hne, rfl⟩
        · rw [hd] at hd'
          cases hd'
        · rw [hd] at hd'
          cases hd'
        · obtain ⟨q, hq, rfl⟩ := (hk s p).mp hp
          exact (hk' _ _).mpr ⟨q, hsw s q hq, rfl⟩
  · -- an element of `b` unmatched in `a`: a Del here, an Add there
    obtain ⟨vy, cv, found, hvy, hcv, hfound, hk⟩ := stepOld_keys ff a cb key y ry hry
    obtain ⟨rfl, rfl, rfl⟩ := (hk s p).mp hp
    obtain ⟨ry', hry'⟩ := s2 y hy
    obtain ⟨vy', cv', found', hvy', hcv', hfound', hcase⟩ :=
      stepNew_keys ff cmp a cb isDirect key y ry' hry'
    rw [hvy] at hvy'
    cases hvy'
    rw [hcv] at hcv'
    cases hcv'
    rw [hfound] at hfound'
    cases hfound'
    rcases hcase with ⟨-, hk'⟩ | ⟨f, tmp, hf, -⟩
    · exact Or.inl ⟨y, hy, ry', hry', (hk' _ _).mpr ⟨rfl, rfl⟩⟩
    · cases hf
theorem stepMapNew_keys (ff : Fmt) (fuel : Nat) (cmp : Cmp) (old : GoValue)
    (key comparedby : String) (isDirect : Bool) (e : GoValue × GoValue) (re : DiffDetails)
    (h : stepMapNew ff fuel cmp old key comparedby isDirect {} e = .ok re) :
    ∃ found, mapIndex old e.1 = .ok found ∧
      ((found = none ∧
          ∀ s p, p ∈ keysAt s re ↔ (s = .add ∧ p = generate key (textOf ff e.1))) ∨
       (∃ w, found = some w ∧
          cmp (generate key (textOf ff e.1)) comparedby isDirect {} e.2 w = .ok re)) := by
  unfold stepMapNew at h
  cases h1 : toString ff fuel e.1 with
  | error err => simp [h1] at h
  | ok name =>
  obtain ⟨-, rfl⟩ := toString_ok ff fuel e.1 name h1
  cases h2 : mapIndex old e.1 with
  | error err => simp [h1, h2] at h
  | ok found =>
    refine ⟨found, rfl, ?_⟩
    cases found with
    | none =>
      simp [h1, h2] at h
      subst h
      left
      refine ⟨rfl, fun s p => ?_⟩
      rw [show ({} : DiffDetails).setAdd (generate key (textOf ff e.1)) none =
        ({} : DiffDetails).write ⟨.add, generate key (textOf ff e.1), none⟩ from rfl,
        keys_write_empty]
      constructor <;> rintro ⟨e1, e2⟩ <;> exact ⟨e1.symm, e2⟩
    | some w =>
      simp [h1, h2] at h
      exact Or.inr ⟨w, rfl, h⟩

theorem stepMapOld_keys (ff : Fmt) (fuel : Nat) (new : GoValue)
    (key : String) (e : GoValue × GoValue) (re : DiffDetails)
    (h : stepMapOld ff fuel new key {} e = .ok re) :
    ∃ found, mapIndex new e.1 = .ok found ∧
      ∀ s p, p ∈ keysAt s re ↔
        (s = .del ∧ found = none ∧ p = generate key (textOf ff e.1)) := by
  unfold stepMapOld at h
  cases h1 : toString ff fuel e.1 with
  | error err => simp [h1] at h
  | ok name =>
  obtain ⟨-, rfl⟩ := toString_ok ff fuel e.1 name h1
  cases h2 : mapIndex new e.1 with
  | error err => simp [h1, h2] at h
  | ok found =>
    refine ⟨found, rfl, fun s p => ?_⟩
    cases found with
    | none =>
      simp [h1, h2] at h
      subst h
      rw [show ({} : DiffDetails).setDel (generate key (textOf ff e.1)) (some e.2) =
        ({} : DiffDetails).write ⟨.del, generate key (textOf ff e.1), some e.2⟩ from rfl,
        keys_write_empty]
      constructor
      · rintro ⟨e1, e2⟩
        exact ⟨e1.symm, rfl, e2⟩
      · rintro ⟨e1, -, e2⟩
        exact ⟨e1.symm, e2⟩
    | some w =>
      simp [h1, h2] at h
      subst h
      rw [keysAt_empty]
      simp

/-- One half of the exchange on two maps: what the run on `(a, b)` records, the run on
`(b, a)` records with Add and Del exchanged, when every match of a key of `a` in `b` is
mutual. -/
theorem compareMap_swapInto (ff : Fmt) (fuel : Nat) (cmp : Cmp)
    (hcmp : ∀ key cb isDirect new old, Logged key (fun d => cmp key cb isDirect d new old))
    (a b : GoValue) (key cb : String) (isDirect : Bool) (aEs bEs : List (GoValue × GoValue))
    (hA : ∀ e ∈ aEs, ∀ w, mapIndex b e.1 = .ok (some w) →
      (∃ f ∈ bEs, f.2 = w ∧ mapIndex a f.1 = .ok (some e.2) ∧
        textOf ff f.1 = textOf ff e.1) ∧
      ∀ k r r', cmp k cb isDirect {} e.2 w = .ok r → cmp k cb isDirect {} w e.2 = .ok r' →
        SwapInto r r')
    (ra rb : DiffDetails)
    (h1 : (aEs.foldlM (stepMapNew ff fuel cmp b key cb isDirect) {} >>=
        fun d => bEs.foldlM (stepMapOld ff fuel a key) d) = .ok ra)
    (h2 : (bEs.foldlM (stepMapNew ff fuel cmp a key cb isDirect) {} >>=
        fun d => aEs.foldlM (stepMapOld ff fuel b key) d) = .ok rb) :
    SwapInto ra rb := by
  cases e1 : aEs.foldlM (stepMapNew ff fuel cmp b key cb isDirect) {} with
  | error e => simp [e1] at h1
  | ok d1 =>
  cases e2 : bEs.foldlM (stepMapNew ff fuel cmp a key cb isDirect) {} with
  | error e => simp [e2] at h2
  | ok d2 =>
  simp only [e1, e2, ok_bind] at h1 h2
  obtain ⟨-, k1⟩ := foldlM_keys key _ aEs
    (fun x _ => stepMapNew_logged ff fuel cmp hcmp b key cb isDirect x) {} d1 e1
  obtain ⟨-, k1'⟩ := foldlM_keys key _ bEs
    (fun x _ => stepMapOld_logged ff fuel a key x) d1 ra h1
  obtain ⟨s2, k2⟩ := foldlM_keys key _ bEs
    (fun x _ => stepMapNew_logged ff fuel cmp hcmp a key cb isDirect x) {} d2 e2
  obtain ⟨s2', k2'⟩ := foldlM_keys key _ aEs
    (fun x _ => stepMapOld_logged ff fuel b key x) d2 rb h2
  intro s p hp
  rw [k1', k1, keysAt_empty] at hp
  rw [k2', k2, keysAt_empty]
  simp only [List.not_mem_nil, false_or] at hp ⊢
  rcases hp with ⟨x, hx, rx, hrx, hp⟩ | ⟨y, hy, ry, hry, hp⟩
  · obtain ⟨found, hfound, hcase⟩ := stepMapNew_keys ff fuel cmp b key cb isDirect x rx hrx
    rcases hcase with ⟨rfl, hk⟩ | ⟨w, rfl, hw⟩
    · obtain ⟨rfl, rfl⟩ := (hk s p).mp hp
      obtain ⟨rx', hrx'⟩ := s2' x hx
      obtain ⟨found', hfound', hk'⟩ := stepMapOld_keys ff fuel b key x rx' hrx'
      rw [hfound] at hfound'
      cases hfound'
      exact Or.inr ⟨x, hx, rx', hrx', (hk' _ _).mpr ⟨rfl, rfl, rfl⟩⟩
    · obtain ⟨⟨f, hf, hfw, hback, htext⟩, hnest⟩ := hA x hx w hfound
      obtain ⟨rf, hrf⟩ := s2 f hf
      obtain ⟨found', hfound', hcase'⟩ :=
        stepMapNew_keys ff fuel cmp a key cb isDirect f rf hrf
      rw [hback] at hfound'
      cases hfound'
      rcases hcase' with ⟨hno, -⟩ | ⟨v, hv, hrv⟩
      · cases hno
      · cases hv
        rw [htext, hfw] at hrv
        exact Or.inl ⟨f, hf, rf, hrf, hnest _ rx rf hw hrv s p hp⟩
  · obtain ⟨found, hfound, hk⟩ := stepMapOld_keys ff fuel a key y ry hry
    obtain ⟨rfl, rfl, rfl⟩ := (hk s p).mp hp
    obtain ⟨ry', hry'⟩ := s2 y hy
    obtain ⟨found', hfound', hcase⟩ := stepMapNew_keys ff fuel cmp a key cb isDirect y ry' hry'
    rw [hfound] at hfound'
    cases hfound'
    rcases hcase with ⟨-, hk'⟩ | ⟨w, hw, -⟩
    · exact Or.inl ⟨y, hy, ry', hry', (hk' _ _).mpr ⟨rfl, rfl⟩⟩
    · cases hw
theorem forall₂_mem_left {α β : Type} (R : α → β → Prop) (l : List α) (l' : List β)
    (h : List.Forall₂ R l l') : ∀ x ∈ l, ∃ y ∈ l', R x y := by
  induction h with
  | nil => intro x hx; simp at hx
  | cons hx _ ih =>
    intro x hmem
    rcases List.mem_cons.mp hmem with rfl | hmem
    · exact ⟨_, by simp, hx⟩
    · obtain ⟨y, hy, hr⟩ := ih x hmem
      exact ⟨y, by simp [hy], hr⟩

theorem fieldAt_enum (t : GoType) (fs : List (StructField × GoValue)) (j : Nat)
    (f : StructField × GoValue) (hmem : (j, f) ∈ fs.enumFrom 0)
    (hexp : f.1.Exported = true) : fieldAt (.struct t fs) j = .ok f.2 := by
  have hg := (mem_enumFrom_get fs 0 j f hmem).2
  simp only [Nat.sub_zero] at hg
  simp [fieldAt, List.get?_eq_getElem?, hg, hexp]

/-- One half of the exchange on two records with the same field metadata. -/
theorem compareFields_swapInto (cmp : Cmp)
    (hcmp : ∀ key cb isDirect new old, Logged key (fun d => cmp key cb isDirect d new old))
    (key : String) (t u : GoType) (fs gs : List (StructField × GoValue))
    (hA : List.Forall₂ (fun f g => f.1 = g.1 ∧ (f.1.Exported = true →
      ∀ k r r', cmp k (parseTag f.1.Tag).1 (parseTag f.1.Tag).2 {} f.2 g.2 = .ok r →
        cmp k (parseTag f.1.Tag).1 (parseTag f.1.Tag).2 {} g.2 f.2 = .ok r' →
        SwapInto r r')) fs gs)
    (ra rb : DiffDetails)
    (h1 : compareFields cmp key (.struct u gs) 0 fs {} = .ok ra)
    (h2 : compareFields cmp key (.struct t fs) 0 gs {} = .ok rb) :
    SwapInto ra rb := by
  rw [compareFields_enum] at h1 h2
  obtain ⟨-, k1⟩ := foldlM_keys key _ (fs.enumFrom 0)
    (fun x _ => fieldStep_logged cmp hcmp key (.struct u gs) x) {} ra h1
  obtain ⟨s2, k2⟩ := foldlM_keys key _ (gs.enumFrom 0)
    (fun x _ => fieldStep_logged cmp hcmp key (.struct t fs) x) {} rb h2
  intro s p hp
  rw [k1, keysAt_empty] at hp
  rw [k2, keysAt_empty]
  simp only [List.not_mem_nil, false_or] at hp ⊢
  obtain ⟨⟨j, f⟩, hjf, rx, hrx, hp⟩ := hp
  obtain ⟨⟨j', g⟩, hjg, hjj, hfg, hnest⟩ :=
    forall₂_mem_left _ _ _ (forall₂_enumFrom _ fs gs hA 0) (j, f) hjf
  simp only at hjj hfg hnest
  subst hjj
  cases hexp : f.1.Exported with
  | false =>
    simp [fieldStep, hexp] at hrx
    subst hrx
    rw [keysAt_empty] at hp
    cases hp
  | true =>
    have hexpg : g.1.Exported = true := by rw [← hfg]; exact hexp
    obtain ⟨ry, hry⟩ := s2 (j, g) hjg
    simp only [fieldStep, hexp, Bool.not_true, Bool.false_eq_true, if_false,
      fieldAt_enum u gs j g hjg hexpg, ok_bind] at hrx
    have hry' := hry
    simp only [fieldStep, ← hfg, hexp, Bool.not_true, Bool.false_eq_true, if_false,
      fieldAt_enum t fs j f hjf hexp, ok_bind] at hry'
    exact ⟨(j, g), hjg, ry, hry, hnest hexp _ rx ry hrx hry' s p hp⟩
theorem beq_symm {α : Type} [DecidableEq α] (a b : α) : (a == b) = (b == a) := by
  by_cases h : a = b
  · subst h; rfl
  · have h' : ¬ b = a := fun e => h e.symm
    simp [h, h']

theorem floatEq_comm (na nb : Bool) (a b m : Nat) :
    (!na && !nb && (a == b || a % m == 0 && b % m == 0)) =
      (!nb && !na && (b == a || b % m == 0 && a % m == 0)) := by
  rw [beq_symm a b, Bool.and_comm (a % m == 0)]
  cases na <;> cases nb <;> rfl

theorem scalarEq_comm : ∀ s r : Scalar, scalarEq s r = scalarEq r s
  | .bool a, .bool b => beq_symm a b
  | .int a, .int b => beq_symm a b
  | .uint a, .uint b => beq_symm a b
  | .str a, .str b => beq_symm a b
  | .float32 a, .float32 b => floatEq_comm _ _ a b _
  | .float64 a, .float64 b => floatEq_comm _ _ a b _
  | .bool _, .int _ | .bool _, .uint _ | .bool _, .str _ | .bool _, .float32 _
  | .bool _, .float64 _ => rfl
  | .int _, .bool _ | .int _, .uint _ | .int _, .str _ | .int _, .float32 _
  | .int _, .float64 _ => rfl
  | .uint _, .bool _ | .uint _, .int _ | .uint _, .str _ | .uint _, .float32 _
  | .uint _, .float64 _ => rfl
  | .str _, .bool _ | .str _, .int _ | .str _, .uint _ | .str _, .float32 _
  | .str _, .float64 _ => rfl
  | .float32 _, .bool _ | .float32 _, .int _ | .float32 _, .uint _ | .float32 _, .str _
  | .float32 _, .float64 _ => rfl
  | .float64 _, .bool _ | .float64 _, .int _ | .float64 _, .uint _ | .float64 _, .str _
  | .float64 _, .float32 _ => rfl

theorem goDeepEqual_scalar_comm (a b : GoValue) (ha : a.isScalar = true)
    (hb : b.isScalar = true) : goDeepEqual a b = goDeepEqual b a := by
  cases a <;> simp [GoValue.isScalar] at ha
  cases b <;> simp [GoValue.isScalar] at hb
  simp only [goDeepEqual]
  rw [scalarEq_comm, beq_symm]

theorem swapInto_empty (r : DiffDetails) : SwapInto {} r := by
  intro s p hp
  rw [keysAt_empty] at hp
  cases hp

theorem swapInto_change (key : String) (v w : Option GoValue) :
    SwapInto (({} : DiffDetails).setChange key v) (({} : DiffDetails).setChange key w) := by
  intro s p hp
  have hp' : p ∈ keysAt s (({} : DiffDetails).write ⟨.change, key, v⟩) := hp
  show p ∈ keysAt s.swap (({} : DiffDetails).write ⟨.change, key, w⟩)
  rw [keys_write_empty] at hp' ⊢
  obtain ⟨rfl, rfl⟩ := hp'
  exact ⟨rfl, rfl⟩

/-- The two results of comparing whole: both record `Change[key]` or neither does. -/
theorem swapInto_whole (key : String) (c c' : Bool) (v w : Option GoValue) (h : c = c') :
    SwapInto (if c then ({} : DiffDetails) else ({} : DiffDetails).setChange key v)
      (if c' then ({} : DiffDetails) else ({} : DiffDetails).setChange key w) := by
  subst h
  cases c
  · exact swapInto_change key v w
  · exact swapInto_empty _

theorem swapFields_forall₂ (r : String → Bool → GoValue → GoValue → Bool) :
    ∀ (fs gs : List (StructField × GoValue)), swapFields r fs gs = true →
      List.Forall₂ (fun f g => f.1 = g.1 ∧ (f.1.Exported = true →
        r (parseTag f.1.Tag).1 (parseTag f.1.Tag).2 f.2 g.2 = true)) fs gs
  | [], [], _ => List.Forall₂.nil
  | [], _ :: _, h => by simp [swapFields] at h
  | _ :: _, [], h => by simp [swapFields] at h
  | f :: fs, g :: gs, h => by
      simp only [swapFields, Bool.and_eq_true, Bool.or_eq_true, Bool.not_eq_true',
        beq_iff_eq] at h
      refine List.Forall₂.cons ⟨h.1.1, fun hexp => ?_⟩ (swapFields_forall₂ r fs gs h.2)
      rcases h.1.2 with h' | h'
      · rw [hexp] at h'
        cases h'
      · exact h'
theorem stepMapNew_scalar (ff : Fmt) (fuel : Nat) (cmp : Cmp) (old : GoValue)
    (key comparedby : String) (isDirect : Bool) (e : GoValue × GoValue) (re : DiffDetails)
    (h : stepMapNew ff fuel cmp old key comparedby isDirect {} e = .ok re) :
    e.1.isScalar = true := by
  unfold stepMapNew at h
  cases h1 : toString ff fuel e.1 with
  | error err => simp [h1] at h
  | ok name => exact (toString_ok ff fuel e.1 name h1).1

theorem stepMapOld_scalar (ff : Fmt) (fuel : Nat) (new : GoValue)
    (key : String) (e : GoValue × GoValue) (re : DiffDetails)
    (h : stepMapOld ff fuel new key {} e = .ok re) : e.1.isScalar = true := by
  unfold stepMapOld at h
  cases h1 : toString ff fuel e.1 with
  | error err => simp [h1] at h
  | ok name => exact (toString_ok ff fuel e.1 name h1).1

theorem beq_trans_of {α : Type} [DecidableEq α] (a b c : α) (h1 : (a == b) = true)
    (h2 : (b == c) = true) : (a == c) = true := by
  rw [beq_iff_eq] at h1 h2 ⊢
  exact h1.trans h2

theorem floatEq_trans (na nb nc : Bool) (a b c m : Nat)
    (h1 : (!na && !nb && (a == b || a % m == 0 && b % m == 0)) = true)
    (h2 : (!nb && !nc && (b == c || b % m == 0 && c % m == 0)) = true) :
    (!na && !nc && (a == c || a % m == 0 && c % m == 0)) = true := by
  simp only [Bool.and_eq_true, Bool.not_eq_true', Bool.or_eq_true, beq_iff_eq] at h1 h2 ⊢
  obtain ⟨⟨ha, -⟩, hab⟩ := h1
  obtain ⟨⟨-, hc⟩, hbc⟩ := h2
  refine ⟨⟨ha, hc⟩, ?_⟩
  rcases hab with rfl | ⟨h3, h4⟩
  · exact hbc
  · rcases hbc with rfl | ⟨h5, h6⟩
    · exact Or.inr ⟨h3, h4⟩
    · exact Or.inr ⟨h3, h6⟩

theorem scalarEq_trans : ∀ s r q : Scalar, scalarEq s r = true → scalarEq r q = true →
    scalarEq s q = true
  | .bool a, .bool b, .bool c, h1, h2 => beq_trans_of a b c h1 h2
  | .int a, .int b, .int c, h1, h2 => beq_trans_of a b c h1 h2
  | .uint a, .uint b, .uint c, h1, h2 => beq_trans_of a b c h1 h2
  | .str a, .str b, .str c, h1, h2 => beq_trans_of a b c h1 h2
  | .float32 a, .float32 b, .float32 c, h1, h2 => floatEq_trans _ _ _ a b c _ h1 h2
  | .float64 a, .float64 b, .float64 c, h1, h2 => floatEq_trans _ _ _ a b c _ h1 h2
  | .bool _, .bool _, .int _, _, h2 | .bool _, .bool _, .uint _, _, h2
  | .bool _, .bool _, .str _, _, h2 | .bool _, .bool _, .float32 _, _, h2
  | .bool _, .bool _, .float64 _, _, h2 => by simp [scalarEq] at h2
  | .int _, .int _, .bool _, _, h2 | .int _, .int _, .uint _, _, h2
  | .int _, .int _, .str _, _, h2 | .int _, .int _, .float32 _, _, h2
  | .int _, .int _, .float64 _, _, h2 => by simp [scalarEq] at h2
  | .uint _, .uint _, .bool _, _, h2 | .uint _, .uint _, .int _, _, h2
  | .uint _, .uint _, .str _, _, h2 | .uint _, .uint _, .float32 _, _, h2
  | .uint _, .uint _, .float64 _, _, h2 => by simp [scalarEq] at h2
  | .str _, .str _, .bool _, _, h2 | .str _, .str _, .int _, _, h2
  | .str _, .str _, .uint _, _, h2 | .str _, .str _, .float32 _, _, h2
  | .str _, .str _, .float64 _, _, h2 => by simp [scalarEq] at h2
  | .float32 _, .float32 _, .bool _, _, h2 | .float32 _, .float32 _, .int _, _, h2
  | .float32 _, .float32 _, .uint _, _, h2 | .float32 _, .float32 _, .str _, _, h2
  | .float32 _, .float32 _, .float64 _, _, h2 => by simp [scalarEq] at h2
  | .float64 _, .float64 _, .bool _, _, h2 | .float64 _, .float64 _, .int _, _, h2
  | .float64 _, .float64 _, .uint _, _, h2 | .float64 _, .float64 _, .str _, _, h2
  | .float64 _, .float64 _, .float32 _, _, h2 => by simp [scalarEq] at h2
  | .bool _, .int _, _, h1, _ | .bool _, .uint _, _, h1, _ | .bool _, .str _, _, h1, _
  | .bool _, .float32 _, _, h1, _ | .bool _, .float64 _, _, h1, _ => by simp [scalarEq] at h1
  | .int _, .bool _, _, h1, _ | .int _, .uint _, _, h1, _ | .int _, .str _, _, h1, _
  | .int _, .float32 _, _, h1, _ | .int _, .float64 _, _, h1, _ => by simp [scalarEq] at h1
  | .uint _, .bool _, _, h1, _ | .uint _, .int _, _, h1, _ | .uint _, .str _, _, h1, _
  | .uint _, .float32 _, _, h1, _ | .uint _, .float64 _, _, h1, _ => by simp [scalarEq] at h1
  | .str _, .bool _, _, h1, _ | .str _, .int _, _, h1, _ | .str _, .uint _, _, h1, _
  | .str _, .float32 _, _, h1, _ | .str _, .float64 _, _, h1, _ => by simp [scalarEq] at h1
  | .float32 _, .bool _, _, h1, _ | .float32 _, .int _, _, h1, _ | .float32 _, .uint _, _, h1, _
  | .float32 _, .str _, _, h1, _ | .float32 _, .float64 _, _, h1, _ => by
      simp [scalarEq] at h1
  | .float64 _, .bool _, _, h1, _ | .float64 _, .int _, _, h1, _ | .float64 _, .uint _, _, h1, _
  | .float64 _, .str _, _, h1, _ | .float64 _, .float32 _, _, h1, _ => by
      simp [scalarEq] at h1
theorem goDeepEqual_key_symm : ∀ (k k' : GoValue), renders k = true →
    goDeepEqual k k' = true → goDeepEqual k' k = true
  | .scalar t a, .scalar u b, _, h => by
      simp only [goDeepEqual, Bool.and_eq_true] at h ⊢
      exact ⟨by rw [beq_symm]; exact h.1, by rw [scalarEq_comm]; exact h.2⟩
  | .ptr t e, .ptr u f, hr, h => by
      simp only [goDeepEqual, Bool.and_eq_true] at h ⊢
      exact ⟨by rw [beq_symm]; exact h.1,
        goDeepEqual_key_symm e f (by simpa [renders] using hr) h.2⟩
  | .scalar _ _, .ptr _ _, _, h | .scalar _ _, .nilPtr _, _, h
  | .scalar _ _, .slice _ _, _, h | .scalar _ _, .nilSlice _, _, h
  | .scalar _ _, .array _ _, _, h | .scalar _ _, .struct _ _, _, h
  | .scalar _ _, .map _ _, _, h | .scalar _ _, .nilMap _, _, h => by
      simp [goDeepEqual] at h
  | .ptr _ _, .scalar _ _, _, h | .ptr _ _, .nilPtr _, _, h
  | .ptr _ _, .slice _ _, _, h | .ptr _ _, .nilSlice _, _, h
  | .ptr _ _, .array _ _, _, h | .ptr _ _, .struct _ _, _, h
  | .ptr _ _, .map _ _, _, h | .ptr _ _, .nilMap _, _, h => by
      simp [goDeepEqual] at h
  | .nilPtr _, _, hr, _ | .slice _ _, _, hr, _ | .nilSlice _, _, hr, _ | .array _ _, _, hr, _
  | .struct _ _, _, hr, _ | .map _ _, _, hr, _ | .nilMap _, _, hr, _ => by
      simp [renders] at hr

theorem goDeepEqual_key_trans : ∀ (k k' k'' : GoValue), renders k = true →
    goDeepEqual k k' = true → goDeepEqual k' k'' = true → goDeepEqual k k'' = true
  | .scalar t a, k', k'', _, h1, h2 => by
      cases k' <;> simp only [goDeepEqual, Bool.and_eq_true, Bool.false_eq_true] at h1
      cases k'' <;> simp only [goDeepEqual, Bool.and_eq_true, Bool.false_eq_true] at h2
      simp only [goDeepEqual, Bool.and_eq_true]
      exact ⟨beq_trans_of _ _ _ h1.1 h2.1, scalarEq_trans _ _ _ h1.2 h2.2⟩
  | .ptr t e, k', k'', hr, h1, h2 => by
      cases k' <;> simp only [goDeepEqual, Bool.and_eq_true, Bool.false_eq_true] at h1
      cases k'' <;> simp only [goDeepEqual, Bool.and_eq_true, Bool.false_eq_true] at h2
      simp only [goDeepEqual, Bool.and_eq_true]
      exact ⟨beq_trans_of _ _ _ h1.1 h2.1,
        goDeepEqual_key_trans e _ _ (by simpa [renders] using hr) h1.2 h2.2⟩
  | .nilPtr _, _, _, hr, _, _ | .slice _ _, _, _, hr, _, _ | .nilSlice _, _, _, hr, _, _
  | .array _ _, _, _, hr, _, _ | .struct _ _, _, _, hr, _, _ | .map _ _, _, _, hr, _, _
  | .nilMap _, _, _, hr, _, _ => by
      simp [renders] at hr

theorem goEq_scalar : ∀ (x k : GoValue), k.isScalar = true → goEq x k = true →
    x.isScalar = true ∧ goDeepEqual x k = true
  | .scalar t a, .scalar u b, _, h => by
      simp only [goEq] at h
      simp only [goDeepEqual, GoValue.isScalar, true_and]
      exact h
  | .ptr _ _, .scalar _ _, _, h | .nilPtr _, .scalar _ _, _, h
  | .slice _ _, .scalar _ _, _, h | .nilSlice _, .scalar _ _, _, h
  | .array _ _, .scalar _ _, _, h | .struct _ _, .scalar _ _, _, h
  | .map _ _, .scalar _ _, _, h | .nilMap _, .scalar _ _, _, h => by
      simp [goEq] at h
  | _, .ptr _ _, hk, _ | _, .nilPtr _, hk, _ | _, .slice _ _, hk, _ | _, .nilSlice _, hk, _
  | _, .array _ _, hk, _ | _, .struct _ _, hk, _ | _, .map _ _, hk, _
  | _, .nilMap _, hk, _ => by
      simp [GoValue.isScalar] at hk

theorem goEq_of_deepEqual (x k : GoValue) (hx : x.isScalar = true) (hk : k.isScalar = true)
    (h : goDeepEqual x k = true) : goEq x k = true := by
  cases x <;> simp [GoValue.isScalar] at hx
  cases k <;> simp [GoValue.isScalar] at hk
  simp only [goDeepEqual] at h
  simp only [goEq]
  exact h

theorem renders_of_scalar (k : GoValue) (h : k.isScalar = true) : renders k = true := by
  cases k <;> simp [GoValue.isScalar] at h
  rfl

/-- Go's `==` on scalar keys is symmetric. -/
theorem goEq_scalar_symm (x k : GoValue) (hk : k.isScalar = true) (h : goEq x k = true) :
    goEq k x = true := by
  obtain ⟨hx, hd⟩ := goEq_scalar x k hk h
  exact goEq_of_deepEqual k x hk hx
    (goDeepEqual_key_symm x k (renders_of_scalar x hx) hd)

/-- Two keys equal to one scalar key are equal to each other. -/
theorem goEq_scalar_euclid (x y k : GoValue) (hk : k.isScalar = true)
    (hx : goEq x k = true) (hy : goEq y k = true) : goEq x y = true := by
  obtain ⟨hxs, hxd⟩ := goEq_scalar x k hk hx
  obtain ⟨hys, hyd⟩ := goEq_scalar y k hk hy
  exact goEq_of_deepEqual x y hxs hys
    (goDeepEqual_key_trans x k y (renders_of_scalar x hxs) hxd
      (goDeepEqual_key_symm y k (renders_of_scalar y hys) hyd))

theorem lookupKey_some (k w : GoValue) :
    ∀ es : List (GoValue × GoValue), lookupKey k es = some w →
      ∃ f ∈ es, goEq f.1 k = true ∧ f.2 = w
  | [], h => by simp [lookupKey] at h
  | (k', v) :: rest, h => by
      simp only [lookupKey] at h
      by_cases hk : goEq k' k = true
      · simp only [hk, if_true, Option.some.injEq] at h
        exact ⟨(k', v), by simp, hk, h⟩
      · simp only [hk, Bool.false_eq_true, if_false] at h
        obtain ⟨f, hf, h1, h2⟩ := lookupKey_some k w rest h
        exact ⟨f, by simp [hf], h1, h2⟩

/-- In a map with pairwise distinct keys, a scalar key equal to the key of an entry looks up
the value of that entry. -/
theorem lookupKey_unique (k : GoValue) (hk : k.isScalar = true) (e : GoValue × GoValue) :
    ∀ es : List (GoValue × GoValue), distinctMapKeys es = true → e ∈ es →
      goEq e.1 k = true → lookupKey k es = some e.2
  | [], _, he, _ => by simp at he
  | (k', v) :: rest, hd, he, hek => by
      simp only [distinctMapKeys, Bool.and_eq_true, List.all_eq_true, Bool.not_eq_true'] at hd
      rcases List.mem_cons.mp he with rfl | he
      · simp [lookupKey, hek]
      · have hne := (hd.1 e he).1
        have hk' : goEq k' k = false := by
          cases hc : goEq k' k with
          | false => rfl
          | true =>
            rw [goEq_scalar_euclid k' e.1 k hk hc hek] at hne
            cases hne
        simp only [lookupKey, hk', Bool.false_eq_true, if_false]
        exact lookupKey_unique k hk e rest hd.2 he hek

theorem mapIndex_lookup (m k : GoValue) (es : List (GoValue × GoValue)) (o : Option GoValue)
    (hm : mapRange m = .ok es) (h : mapIndex m k = .ok o) : o = lookupKey k es := by
  cases m <;> simp [mapRange] at hm <;> subst hm <;> simp only [mapIndex] at h
  · split at h
    · cases h
      rfl
    · cases h
  · split at h
    · cases h
      rfl
    · cases h
/-- In a keyed sequence with pairwise distinct keys, a key deeply equal to the key of an
element finds that element. -/
theorem findByKey_unique (comparedby : String) (x v kx k : GoValue) :
    ∀ es : List GoValue, distinctKeys comparedby es = true → x ∈ es →
      keyOf comparedby x = some (v, kx) → goDeepEqual kx k = true →
      findByKey comparedby k es = some v
  | [], _, hx, _, _ => by simp at hx
  | y :: rest, hd, hx, hk, hkk => by
      simp only [distinctKeys, Bool.and_eq_true] at hd
      cases hy : keyOf comparedby y with
      | none => simp [hy] at hd
      | some p =>
        obtain ⟨vy, ky⟩ := p
        simp only [hy] at hd
        rcases List.mem_cons.mp hx with rfl | hx
        · rw [hk] at hy
          cases hy
          simp [findByKey, hk, hkk]
        · have hrx : renders kx = true := by
            obtain ⟨-, fld, -, hfk, -, -, hr⟩ := keyOf_some comparedby x v kx hk
            exact hr
          have hry : renders ky = true := by
            obtain ⟨-, fld, -, hfk, -, -, hr⟩ := keyOf_some comparedby y vy ky hy
            exact hr
          have hfresh := hd.1
          simp only [freshKey, List.all_eq_true] at hfresh
          have hxy := hfresh x hx
          simp only [hk, Bool.and_eq_true, Bool.not_eq_true'] at hxy
          have hyk : goDeepEqual ky k = false := by
            cases hc : goDeepEqual ky k with
            | false => rfl
            | true =>
              have := goDeepEqual_key_trans ky k kx hry hc
                (goDeepEqual_key_symm kx k hrx hkk)
              rw [this] at hxy
              cases hxy.1
          simp only [findByKey, hy, hyk, Bool.false_eq_true, if_false]
          exact findByKey_unique comparedby x v kx k rest hd.2 hx hk hkk

theorem selText_keyOf (ff : Fmt) (comparedby : String) (x v k : GoValue)
    (h : keyOf comparedby x = some (v, k)) :
    selText ff comparedby x = some (keyText ff k) := by
  obtain ⟨hx, hk⟩ := keyOf_some comparedby x v k h
  obtain ⟨fld, hf, -, ht⟩ := hasKey_text ff comparedby v k hk
  simp [selText, hx, hf, ht]

theorem keyOf_of_mem (comparedby : String) (es : List GoValue)
    (hd : distinctKeys comparedby es = true) (x v : GoValue) (hx : x ∈ es)
    (hv : getElement x = .ok v) : ∃ k, keyOf comparedby x = some (v, k) := by
  cases hk : keyOf comparedby x with
  | none => exact absurd hk (distinctKeys_good comparedby es hd x hx)
  | some p =>
    obtain ⟨v', k⟩ := p
    have := (keyOf_some comparedby x v' k hk).1
    rw [hv] at this
    cases this
    exact ⟨k, rfl⟩

/-- With pairwise distinct keys on both sides, the match of an element of `a` in `b` is
matched back to it. -/
theorem keyed_mutual (cb : String) (a b : GoValue)
    (aEs bEs : List GoValue) (ha : seqItems a = .ok aEs) (hb : seqItems b = .ok bEs)
    (hda : distinctKeys cb aEs = true) (hdb : distinctKeys cb bEs = true)
    (x vx f : GoValue) (hx : x ∈ aEs) (hvx : getElement x = .ok vx)
    (hf : getFromSlice b vx cb = .ok (some f)) :
    ∃ y ∈ bEs, ∃ kx ky, keyOf cb x = some (vx, kx) ∧ keyOf cb y = some (f, ky) ∧
      goDeepEqual ky kx = true ∧ goDeepEqual kx ky = true ∧ getElement y = .ok f ∧
      getFromSlice a f cb = .ok (some vx) := by
  obtain ⟨kx, hkx⟩ := keyOf_of_mem cb aEs hda x vx hx hvx
  obtain ⟨-, hhx⟩ := keyOf_some cb x vx kx hkx
  have hga := distinctKeys_good cb aEs hda
  have hgb := distinctKeys_good cb bEs hdb
  rw [getFromSlice_good cb b vx kx bEs hb hhx hgb] at hf
  simp only [Except.ok.injEq] at hf
  obtain ⟨i, y, ky, hi, hky, hde, -⟩ := (findByKey_eq_some cb kx f bEs hgb).mp hf
  have hy : y ∈ bEs := List.getElem?_mem hi
  obtain ⟨hvy, hhy⟩ := keyOf_some cb y f ky hky
  have hry : renders ky = true := by
    obtain ⟨fld, -, -, -, -, hr⟩ := hhy
    exact hr
  have hsym := goDeepEqual_key_symm ky kx hry hde
  refine ⟨y, hy, kx, ky, hkx, hky, hde, hsym, hvy, ?_⟩
  rw [getFromSlice_good cb a f ky aEs ha hhy hga,
    findByKey_unique cb x vx kx ky aEs hda hx hkx hsym]
/-- With pairwise distinct keys in `a`, the entry of `b` found for a scalar key of `a` looks
up that key of `a` in turn. -/
theorem map_mutual (a b : GoValue) (aEs bEs : List (GoValue × GoValue))
    (ha : mapRange a = .ok aEs) (hb : mapRange b = .ok bEs)
    (hda : distinctMapKeys aEs = true) (e : GoValue × GoValue) (he : e ∈ aEs)
    (hes : e.1.isScalar = true) (w : GoValue) (hw : mapIndex b e.1 = .ok (some w))
    (hback : ∀ f ∈ bEs, ∃ o, mapIndex a f.1 = .ok o) :
    ∃ f ∈ bEs, goEq f.1 e.1 = true ∧ goEq e.1 f.1 = true ∧ f.2 = w ∧
      mapIndex a f.1 = .ok (some e.2) := by
  have hl := mapIndex_lookup b e.1 bEs _ hb hw
  obtain ⟨f, hf, hfe, hfw⟩ := lookupKey_some e.1 w bEs hl.symm
  have hef := goEq_scalar_symm f.1 e.1 hes hfe
  have hfs := (goEq_scalar f.1 e.1 hes hfe).1
  obtain ⟨o, ho⟩ := hback f hf
  have hl' := mapIndex_lookup a f.1 aEs o ha ho
  rw [lookupKey_unique f.1 hfs e aEs hda he hef] at hl'
  subst hl'
  exact ⟨f, hf, hfe, hef, hfw, ho⟩

theorem swappable_map (ff : Fmt) (n : Nat) (cb : String) (isDirect : Bool)
    (a b : GoValue) (hmap : a.isMap = true) (hcb : cb ≠ "-")
    (h : swappable ff (n + 1) cb isDirect a b = true) :
    ∃ aEs bEs, mapRange a = .ok aEs ∧ mapRange b = .ok bEs ∧
      distinctMapKeys aEs = true ∧ distinctMapKeys bEs = true ∧
      ∀ e ∈ aEs, ∀ f ∈ bEs, goEq f.1 e.1 = true →
        textOf ff f.1 = textOf ff e.1 ∧ swappable ff n "" isDirect e.2 f.2 = true := by
  have key : ∀ aEs, mapRange a = .ok aEs →
      (match mapRange a, mapRange b with
        | .ok aEs, .ok bEs =>
            distinctMapKeys aEs && distinctMapKeys bEs &&
            aEs.all (fun e => bEs.all (fun f =>
              !goEq f.1 e.1 ||
                (textOf ff f.1 == textOf ff e.1 && swappable ff n "" isDirect e.2 f.2)))
        | _, _ => false) = true →
      ∃ aEs bEs, mapRange a = .ok aEs ∧ mapRange b = .ok bEs ∧
        distinctMapKeys aEs = true ∧ distinctMapKeys bEs = true ∧
        ∀ e ∈ aEs, ∀ f ∈ bEs, goEq f.1 e.1 = true →
          textOf ff f.1 = textOf ff e.1 ∧ swappable ff n "" isDirect e.2 f.2 = true := by
    intro aEs ha hm
    rw [ha] at hm
    cases hb : mapRange b with
    | error e => simp [hb] at hm
    | ok bEs =>
      simp only [hb, Bool.and_eq_true, List.all_eq_true, Bool.or_eq_true, Bool.not_eq_true',
        beq_iff_eq] at hm
      refine ⟨aEs, bEs, ha, rfl, hm.1.1, hm.1.2, ?_⟩
      intro e he f hf hfe
      rcases hm.2 e he f hf with h1 | h1
      · rw [hfe] at h1
        cases h1
      · exact h1
  cases a <;> simp [GoValue.isMap] at hmap
  · exact key _ rfl (by simpa [swappable, hcb] using h)
  · exact key _ rfl (by simpa [swappable, hcb] using h)

theorem swappable_unkeyed (ff : Fmt) (n : Nat) (isDirect : Bool)
    (a b : GoValue) (hseq : a.isSeq = true)
    (h : swappable ff (n + 1) "" isDirect a b = true) :
    b.isSeq = true ∧ goDeepEqual a b = goDeepEqual b a := by
  cases a <;> simp [GoValue.isSeq] at hseq <;> simpa [swappable] using h

theorem swappable_keyed (ff : Fmt) (n : Nat) (cb : String) (isDirect : Bool)
    (a b : GoValue) (hseq : a.isSeq = true) (hcb : cb ≠ "-") (hc : cb ≠ "")
    (h : swappable ff (n + 1) cb isDirect a b = true) :
    b.isSeq = true ∧ ∃ aEs bEs, checkedItems a = .ok aEs ∧ checkedItems b = .ok bEs ∧
      (∀ x ∈ aEs, ∀ vx f, getElement x = .ok vx → getFromSlice b vx cb = .ok (some f) →
        (∃ y ∈ bEs, getElement y = .ok f ∧ getFromSlice a f cb = .ok (some vx) ∧
          selText ff cb y = selText ff cb x) ∧
        swappable ff n "" false vx f = true) ∧
      (∀ y ∈ bEs, ∀ vy g, getElement y = .ok vy → getFromSlice a vy cb = .ok (some g) →
        ∃ x ∈ aEs, getElement x = .ok g ∧ getFromSlice b g cb = .ok (some vy) ∧
          selText ff cb x = selText ff cb y) := by
  have key : b.isSeq = true →
      (match checkedItems a, checkedItems b with
        | .ok aEs, .ok bEs =>
            distinctKeys cb aEs && distinctKeys cb bEs &&
            aEs.all (fun x => bEs.all (fun y =>
              match keyOf cb x, keyOf cb y with
              | some (vx, kx), some (vy, ky) =>
                  !goDeepEqual ky kx ||
                    (keyText ff ky == keyText ff kx && swappable ff n "" false vx vy)
              | _, _ => true))
        | _, _ => false) = true →
      b.isSeq = true ∧ ∃ aEs bEs, checkedItems a = .ok aEs ∧ checkedItems b = .ok bEs ∧
      (∀ x ∈ aEs, ∀ vx f, getElement x = .ok vx → getFromSlice b vx cb = .ok (some f) →
        (∃ y ∈ bEs, getElement y = .ok f ∧ getFromSlice a f cb = .ok (some vx) ∧
          selText ff cb y = selText ff cb x) ∧
        swappable ff n "" false vx f = true) ∧
      (∀ y ∈ bEs, ∀ vy g, getElement y = .ok vy → getFromSlice a vy cb = .ok (some g) →
        ∃ x ∈ aEs, getElement x = .ok g ∧ getFromSlice b g cb = .ok (some vy) ∧
          selText ff cb x = selText ff cb y) := by
    intro hbs hm
    obtain ⟨aEs, ha⟩ := checkedItems_of_isSeq a hseq
    obtain ⟨bEs, hb⟩ := checkedItems_of_isSeq b hbs
    simp only [ha, hb, Bool.and_eq_true, List.all_eq_true] at hm
    obtain ⟨⟨hda, hdb⟩, hP⟩ := hm
    have hsa := seqItems_of_checkedItems a aEs ha
    have hsb := seqItems_of_checkedItems b bEs hb
    have hpair : ∀ x ∈ aEs, ∀ y ∈ bEs, ∀ vx kx vy ky, keyOf cb x = some (vx, kx) →
        keyOf cb y = some (vy, ky) → goDeepEqual ky kx = true →
        keyText ff ky = keyText ff kx ∧ swappable ff n "" false vx vy = true := by
      intro x hx y hy vx kx vy ky hkx hky hde
      have h1 := hP x hx y hy
      simp only [hkx, hky, hde, Bool.not_true, Bool.false_or, Bool.and_eq_true,
        beq_iff_eq] at h1
      exact h1
    refine ⟨hbs, aEs, bEs, ha, hb, ?_, ?_⟩
    · intro x hx vx f hvx hf
      obtain ⟨y, hy, kx, ky, hkx, hky, hde, -, hvy, hback⟩ :=
        keyed_mutual cb a b aEs bEs hsa hsb hda hdb x vx f hx hvx hf
      obtain ⟨ht, hs⟩ := hpair x hx y hy vx kx f ky hkx hky hde
      refine ⟨⟨y, hy, hvy, hback, ?_⟩, hs⟩
      rw [selText_keyOf ff cb y f ky hky, selText_keyOf ff cb x vx kx hkx, ht]
    · intro y hy vy g hvy hg
      obtain ⟨x, hx, ky, kx, hky, hkx, -, hde, hvx, hback⟩ :=
        keyed_mutual cb b a bEs aEs hsb hsa hdb hda y vy g hy hvy hg
      obtain ⟨ht, -⟩ := hpair x hx y hy g kx vy ky hkx hky hde
      refine ⟨x, hx, hvx, hback, ?_⟩
      rw [selText_keyOf ff cb y vy ky hky, selText_keyOf ff cb x g kx hkx, ht]
  cases a <;> simp [GoValue.isSeq] at hseq <;>
    simp only [swappable, beq_iff_eq, hcb, hc, false_or, Bool.or_eq_true, Bool.and_eq_true,
      if_false] at h <;>
    exact key h.1 h.2
theorem map_run_facts (ff : Fmt) (fuel : Nat) (cmp : Cmp)
    (hcmp : ∀ key cb isDirect new old, Logged key (fun d => cmp key cb isDirect d new old))
    (a b : GoValue) (key cb : String) (isDirect : Bool) (aEs bEs : List (GoValue × GoValue))
    (ra : DiffDetails)
    (h1 : (aEs.foldlM (stepMapNew ff fuel cmp b key cb isDirect) {} >>=
        fun d => bEs.foldlM (stepMapOld ff fuel a key) d) = .ok ra) :
    (∀ e ∈ aEs, e.1.isScalar = true ∧ ∃ o, mapIndex b e.1 = .ok o) ∧
    (∀ f ∈ bEs, f.1.isScalar = true ∧ ∃ o, mapIndex a f.1 = .ok o) := by
  cases e1 : aEs.foldlM (stepMapNew ff fuel cmp b key cb isDirect) {} with
  | error e => simp [e1] at h1
  | ok d1 =>
  simp only [e1, ok_bind] at h1
  obtain ⟨s1, -⟩ := foldlM_keys key _ aEs
    (fun x _ => stepMapNew_logged ff fuel cmp hcmp b key cb isDirect x) {} d1 e1
  obtain ⟨s1', -⟩ := foldlM_keys key _ bEs
    (fun x _ => stepMapOld_logged ff fuel a key x) d1 ra h1
  constructor
  · intro e he
    obtain ⟨re, hre⟩ := s1 e he
    obtain ⟨o, ho, -⟩ := stepMapNew_keys ff fuel cmp b key cb isDirect e re hre
    exact ⟨stepMapNew_scalar ff fuel cmp b key cb isDirect e re hre, o, ho⟩
  · intro f hf
    obtain ⟨re, hre⟩ := s1' f hf
    obtain ⟨o, ho, -⟩ := stepMapOld_keys ff fuel a key f re hre
    exact ⟨stepMapOld_scalar ff fuel a key f re hre, o, ho⟩

theorem isEmpty_swap (r r' : DiffDetails) (h : SwapInto r r') (h' : SwapInto r' r) :
    r.isEmpty = r'.isEmpty := by
  cases he : r.isEmpty with
  | false => exact (SwapInto.nonempty r r' h he).symm
  | true =>
    cases he' : r'.isEmpty with
    | true => rfl
    | false =>
      rw [SwapInto.nonempty r' r h' he'] at he
      cases he

/-- Exchanging the two arguments of `compare` exchanges the paths of Add and Del and keeps
those of Change, on two values that are matched mutually. -/
theorem compare_swap (ff : Fmt) :
    ∀ (fuel n : Nat) (key cb : String) (isDirect : Bool) (a b : GoValue)
      (ra rb : DiffDetails), swappable ff n cb isDirect a b = true →
      compare ff fuel key cb isDirect {} a b = .ok ra →
      compare ff fuel key cb isDirect {} b a = .ok rb →
      SwapInto ra rb ∧ SwapInto rb ra := by
  intro fuel
  induction fuel with
  | zero =>
    intro n key cb isDirect a b ra rb _ h1
    simp [compare] at h1
  | succ fuel ih =>
    intro n key cb isDirect a b ra rb hs h1 h2
    cases n with
    | zero => simp [swappable] at hs
    | succ n =>
    by_cases hcb : cb = "-"
    · subst hcb
      rw [compare_excluded] at h1 h2
      cases h1
      cases h2
      exact ⟨swapInto_empty _, swapInto_empty _⟩
    by_cases hname : a.typeName = b.typeName
    swap
    · rw [compare_name_mismatch ff fuel key cb isDirect {} a b hcb hname] at h1
      cases h1
    have hname' := hname.symm
    have hlog := fun key cb isDirect new old => compare_logged ff fuel key cb isDirect new old
    -- the three kinds handled through their elements
    have hmapc : a.isMap = true → SwapInto ra rb ∧ SwapInto rb ra := by
      intro hmap
      obtain ⟨aEs, bEs, ha, hb, hda, hdb, hP⟩ := swappable_map ff n cb isDirect a b hmap hcb hs
      by_cases hc : cb = ""
      swap
      · cases a <;> simp [GoValue.isMap] at hmap <;> simp [compare, hcb, hname, hc] at h1
      subst hc
      rw [compare_map ff fuel key isDirect {} a b aEs bEs ha hb hname] at h1
      rw [compare_map ff fuel key isDirect {} b a bEs aEs hb ha hname'] at h2
      obtain ⟨hfa, hfb⟩ := map_run_facts ff fuel (compare ff fuel) hlog a b key "" isDirect
        aEs bEs ra h1
      constructor
      · refine compareMap_swapInto ff fuel (compare ff fuel) hlog a b key "" isDirect aEs bEs
          ?_ ra rb h1 h2
        intro e he w hw
        obtain ⟨f, hf, hfe, -, hfw, hback⟩ := map_mutual a b aEs bEs ha hb hda e he
          (hfa e he).1 w hw (fun f hf => (hfb f hf).2)
        obtain ⟨ht, hsw⟩ := hP e he f hf hfe
        rw [hfw] at hsw
        exact ⟨⟨f, hf, hfw, hback, ht⟩,
          fun k r r' hr hr' => (ih n k "" isDirect e.2 w r r' hsw hr hr').1⟩
      · refine compareMap_swapInto ff fuel (compare ff fuel) hlog b a key "" isDirect bEs aEs
          ?_ rb ra h2 h1
        intro f hf v hv
        obtain ⟨e, he, -, hfe, hev, hback⟩ := map_mutual b a bEs aEs hb ha hdb f hf
          (hfb f hf).1 v hv (fun e he => (hfa e he).2)
        obtain ⟨ht, hsw⟩ := hP e he f hf hfe
        rw [hev] at hsw
        exact ⟨⟨e, he, hev, hback, ht.symm⟩,
          fun k r r' hr hr' => (ih n k "" isDirect v f.2 r' r hsw hr' hr).2⟩
    have hseqc : a.isSeq = true → SwapInto ra rb ∧ SwapInto rb ra := by
      intro hseq
      by_cases hc : cb = ""
      · subst hc
        obtain ⟨hbs, hde⟩ := swappable_unkeyed ff n isDirect a b hseq hs
        rw [compare_unkeyed_seq ff fuel key isDirect {} a b hseq hname] at h1
        rw [compare_unkeyed_seq ff fuel key isDirect {} b a hbs hname'] at h2
        cases h1
        cases h2
        exact ⟨swapInto_whole key _ _ _ _ hde, swapInto_whole key _ _ _ _ hde.symm⟩
      · obtain ⟨hbs, aEs, bEs, ha, hb, hA, hB⟩ :=
          swappable_keyed ff n cb isDirect a b hseq hcb hc hs
        rw [compare_keyed ff fuel key cb isDirect {} a b hseq hcb hc hname] at h1
        rw [compare_keyed ff fuel key cb isDirect {} b a hbs hcb hc hname'] at h2
        constructor
        · refine compareBySlice_swapInto ff (compare ff fuel) a b cb isDirect key aEs bEs
            ha hb ?_ ra rb h1 h2
          intro x hx vx f hvx hf
          obtain ⟨h3, h4⟩ := hA x hx vx f hvx hf
          exact ⟨h3, fun r r' hr hr' => (ih n "" "" false vx f r r' h4 hr hr').1⟩
        · refine compareBySlice_swapInto ff (compare ff fuel) b a cb isDirect key bEs aEs
            hb ha ?_ rb ra h2 h1
          intro y hy vy g hvy hg
          obtain ⟨x, hx, hxg, hback, hsel⟩ := hB y hy vy g hvy hg
          refine ⟨⟨x, hx, hxg, hback, hsel⟩, fun r r' hr hr' => ?_⟩
          have h4 := (hA x hx g vy hxg hback).2
          exact (ih n "" "" false g vy r' r h4 hr' hr).2
    cases a with
    | scalar t s =>
      have hb : b.isScalar = true := by simpa [swappable, hcb] using hs
      by_cases hc : cb = ""
      swap
      · simp [compare, hcb, hname, hc] at h1
      subst hc
      rw [compare_scalar ff fuel key isDirect {} (.scalar t s) b rfl hname] at h1
      rw [compare_scalar ff fuel key isDirect {} b _ hb hname'] at h2
      cases h1
      cases h2
      have hde := goDeepEqual_scalar_comm (.scalar t s) b rfl hb
      exact ⟨swapInto_whole key _ _ _ _ hde, swapInto_whole key _ _ _ _ hde.symm⟩
    | nilPtr t =>
      rw [compare_nilPtr ff fuel key cb isDirect {} t b hcb hname] at h1
      cases b <;> simp [swappable, hcb] at hs <;> simp at h1
      rw [compare_nilPtr ff fuel key cb isDirect {} _ _ hcb hname'] at h2
      simp at h2
      subst h1
      subst h2
      exact ⟨swapInto_empty _, swapInto_empty _⟩
    | ptr t e =>
      cases b with
      | ptr u f =>
        rw [compare_ptr ff fuel key cb isDirect {} t u e f hcb hname] at h1
        rw [compare_ptr ff fuel key cb isDirect {} u t f e hcb hname'] at h2
        exact ih n key cb isDirect e f ra rb (by simpa [swappable, hcb] using hs) h1 h2
      | _ =>
        rw [compare_ptr_panic ff fuel key cb isDirect {} t e _ hcb hname
          (fun u f hh => by cases hh)] at h1
        cases h1
    | struct t fs =>
      cases b with
      | struct u gs =>
        have hsf : swapFields (swappable ff n) fs gs = true := by
          simpa [swappable, hcb] using hs
        cases isDirect with
        | false =>
          rw [compare_struct_fields ff fuel key cb {} t fs _ hcb hname] at h1
          rw [compare_struct_fields ff fuel key cb {} u gs _ hcb hname'] at h2
          have hF := swapFields_forall₂ _ fs gs hsf
          constructor
          · refine compareFields_swapInto (compare ff fuel) hlog key t u fs gs ?_ ra rb h1 h2
            refine List.Forall₂.imp ?_ hF
            rintro f g ⟨hfg, hr⟩
            exact ⟨hfg, fun hexp k r r' e1 e2 => (ih n k _ _ f.2 g.2 r r' (hr hexp) e1 e2).1⟩
          · refine compareFields_swapInto (compare ff fuel) hlog key u t gs fs ?_ rb ra h2 h1
            refine List.Forall₂.imp ?_ hF.flip
            rintro g f ⟨hfg, hr⟩
            refine ⟨hfg.symm, fun hexp k r r' e1 e2 => ?_⟩
            rw [← hfg] at hexp e1 e2
            exact (ih n k _ _ f.2 g.2 r' r (hr hexp) e2 e1).2
        | true =>
          rw [compare_struct_whole ff fuel key cb {} t fs _ hcb hname] at h1
          rw [compare_struct_whole ff fuel key cb {} u gs _ hcb hname'] at h2
          cases e1 : diffWith (compare ff fuel) (.struct t fs) (.struct u gs) with
          | error e => simp [deepEqual, e1] at h1
          | ok tmp =>
          cases e2 : diffWith (compare ff fuel) (.struct u gs) (.struct t fs) with
          | error e => simp [deepEqual, e2] at h2
          | ok tmp' =>
          rw [deepEqual_eq _ _ _ tmp e1] at h1
          rw [deepEqual_eq _ _ _ tmp' e2] at h2
          simp only [ok_bind, Except.ok.injEq] at h1 h2
          subst h1
          subst h2
          have hsw := ih (n + 1) "" "" false (.struct t fs) (.struct u gs) tmp tmp'
            (by simpa [swappable] using hsf) e1 e2
          have hem := isEmpty_swap tmp tmp' hsw.1 hsw.2
          exact ⟨swapInto_whole key _ _ _ _ hem, swapInto_whole key _ _ _ _ hem.symm⟩
      | _ => simp [swappable, hcb] at hs
    | map t es => exact hmapc rfl
    | nilMap t => exact hmapc rfl
    | slice t es => exact hseqc rfl
    | nilSlice t => exact hseqc rfl
    | array t es => exact hseqc rfl
/-- An instance of `swappable` on two maps of maps with a shared key and keys of one side
only. -/
theorem swappable_maps :
    swappable ffNone 3 "" false
      (.map tMapOfMaps [(str "b.c", .map tMapStringInt []), (str "b", .map tMapStringInt [])])
      (.map tMapOfMaps [(str "b", .map tMapStringInt [(str "c", int 1)])]) = true := by
  decide

/-- C20 (as amended): let `a` and `b` be of one shape, with pairwise distinct keys in every
map and in every keyed sequence at every level, and such that a key of `a` and a key of `b`
that are equal render to the same text (`swappable`; a sequence compared whole is one on which
`reflect.DeepEqual` answers the same in both orders).  If `Diff(a, b)` and `Diff(b, a)` both
succeed, the paths of Add in the first are the paths of Del in the second, the paths of Del in
the first are the paths of Add in the second, and the two results have the same paths in
Change. -/
theorem C20_swap_arguments (ff : Fmt) (fuel fuel' n : Nat) (a b : GoValue)
    (ra rb : DiffDetails) (hs : swappable ff n "" false a b = true)
    (h1 : Diff ff fuel a b = .ok ra) (h2 : Diff ff fuel' b a = .ok rb) :
    (∀ p, p ∈ (entries ra.Add).map Prod.fst ↔ p ∈ (entries rb.Del).map Prod.fst) ∧
    (∀ p, p ∈ (entries ra.Del).map Prod.fst ↔ p ∈ (entries rb.Add).map Prod.fst) ∧
    (∀ p, p ∈ (entries ra.Change).map Prod.fst ↔ p ∈ (entries rb.Change).map Prod.fst) := by
  have h1' := Diff_mono ff fuel a b _ h1 (by simp) (max fuel fuel') (le_max_left _ _)
  have h2' := Diff_mono ff fuel' b a _ h2 (by simp) (max fuel fuel') (le_max_right _ _)
  obtain ⟨hab, hba⟩ := compare_swap ff (max fuel fuel') n "" "" false a b ra rb hs h1' h2'
  exact ⟨fun p => ⟨hab .add p, hba .del p⟩, fun p => ⟨hab .del p, hba .add p⟩,
    fun p => ⟨hab .change p, hba .change p⟩⟩

theorem C20_swap_arguments_witness :
    swappable ffNone 5 "" false newStudent oldStudent = true ∧
    Diff ffNone 5 newStudent oldStudent = .ok studentResult ∧
    Diff ffNone 5 oldStudent newStudent = .ok swappedStudentResult ∧
    (∀ p, p ∈ (entries studentResult.Add).map Prod.fst ↔
      p ∈ (entries swappedStudentResult.Del).map Prod.fst) ∧
    (∀ p, p ∈ (entries studentResult.Del).map Prod.fst ↔
      p ∈ (entries swappedStudentResult.Add).map Prod.fst) ∧
    (∀ p, p ∈ (entries studentResult.Change).map Prod.fst ↔
      p ∈ (entries swappedStudentResult.Change).map Prod.fst) :=
  ⟨by decide, by decide, by decide,
   C20_swap_arguments ffNone 5 5 5 newStudent oldStudent studentResult swappedStudentResult
     (by decide) (by decide) (by decide)⟩

/-- C20, counterexample: the maps `map[float64]int{0: 1}` and `map[float64]int{-0: 2}`.  The
two zeros are equal as keys, so each run finds the key of its first argument in the second
and records a change of the value, under the text of the key of its first argument: `0` in
`Diff(a, b)`, `-0` in `Diff(b, a)`.  Both runs succeed and their Change maps have different
paths.  The last part shows the two results for any float formatting. -/
theorem C20_counterexample :
    Diff ffZeros 3 posZeroMap negZeroMap = .ok (changeOnly "0" (int 2)) ∧
    Diff ffZeros 3 negZeroMap posZeroMap = .ok (changeOnly "-0" (int 1)) ∧
    "0" ∈ (entries (changeOnly "0" (int 2)).Change).map Prod.fst ∧
    "0" ∉ (entries (changeOnly "-0" (int 1)).Change).map Prod.fst ∧
    ∀ ff : Fmt,
      Diff ff 3 posZeroMap negZeroMap = .ok (changeOnly (ff.float 64 0) (int 2)) ∧
      Diff ff 3 negZeroMap posZeroMap = .ok (changeOnly (ff.float 64 (2 ^ 63)) (int 1)) :=
  ⟨by decide, by decide, by decide, by decide, fun _ => ⟨rfl, rfl⟩⟩

/-! ### Direct mode and what the nested comparison reports -/

theorem valueBeq_refl (x : GoValue) : GoValue.beq x x = true := (GoValue.beq_iff x x).mpr rfl

theorem forall₂_left_refl {α : Type} (R : α → α → Prop) :
    ∀ (l l' : List α), List.Forall₂ (fun a b => R a b) l l' →
      (∀ a b, R a b → R a a) → List.Forall₂ (fun a b => R a b) l l
  | [], [], _, _ => List.Forall₂.nil
  | _ :: _, [], h, _ => by cases h
  | [], _ :: _, h, _ => by cases h
  | a :: l, b :: l', h, hr => by
      cases h with
      | cons h1 h2 => exact List.Forall₂.cons (hr a b h1) (forall₂_left_refl R l l' h2 hr)

/-- A value that differs from another only in excluded fields differs from itself only in
excluded fields. -/
theorem sameButExcluded_left :
    ∀ (n : Nat) (cb : String) (x y : GoValue), sameButExcluded n cb x y = true →
      sameButExcluded n cb x x = true := by
  intro n
  induction n with
  | zero => intro cb x y h; simp [sameButExcluded] at h
  | succ n ih =>
    intro cb x y h
    by_cases hcb : cb = "-"
    · subst hcb
      simp [sameButExcluded]
    cases x with
    | scalar t s => simp [sameButExcluded, hcb]
    | nilPtr t => simp [sameButExcluded, hcb]
    | nilSlice t => simp [sameButExcluded, hcb]
    | nilMap t => simp [sameButExcluded, hcb]
    | ptr t e =>
      cases y <;> simp [sameButExcluded, hcb] at h
      simp only [sameButExcluded, beq_iff_eq, hcb, false_or, Bool.or_eq_true,
        Bool.and_eq_true, true_and]
      exact ih cb e _ h.2
    | slice t es =>
      cases y <;> simp only [sameButExcluded, beq_iff_eq, hcb, false_or, Bool.or_eq_true,
        Bool.and_eq_true, Bool.false_eq_true] at h
      rename_i u fs
      simp only [sameButExcluded, beq_iff_eq, hcb, false_or, Bool.or_eq_true,
        Bool.and_eq_true, true_and]
      by_cases hc : cb = ""
      · simp [hc]
      · simp only [hc, if_false] at h ⊢
        rw [agreeList_iff] at h ⊢
        refine forall₂_left_refl _ es fs h.2 ?_
        intro a b hab
        simp only [Bool.and_eq_true, sameField_eq] at hab ⊢
        exact ⟨ih "" a b hab.1, trivial, hab.2.2⟩
    | array t es =>
      cases y <;> simp only [sameButExcluded, beq_iff_eq, hcb, false_or, Bool.or_eq_true,
        Bool.and_eq_true, Bool.false_eq_true] at h
      rename_i u fs
      simp only [sameButExcluded, beq_iff_eq, hcb, false_or, Bool.or_eq_true,
        Bool.and_eq_true, true_and]
      by_cases hc : cb = ""
      · simp [hc]
      · simp only [hc, if_false] at h ⊢
        rw [agreeList_iff] at h ⊢
        refine forall₂_left_refl _ es fs h.2 ?_
        intro a b hab
        simp only [Bool.and_eq_true, sameField_eq] at hab ⊢
        exact ⟨ih "" a b hab.1, trivial, hab.2.2⟩
    | struct t fs =>
      cases y <;> simp only [sameButExcluded, beq_iff_eq, hcb, false_or, Bool.or_eq_true,
        Bool.and_eq_true, Bool.false_eq_true] at h
      rename_i u gs
      simp only [sameButExcluded, beq_iff_eq, hcb, false_or, Bool.or_eq_true,
        Bool.and_eq_true, true_and]
      rw [agreeFields_iff] at h ⊢
      refine forall₂_left_refl _ fs gs h.2 ?_
      intro f g hfg
      refine ⟨rfl, ?_⟩
      cases hexp : f.1.Exported
      · simp [valueBeq_refl]
      · have h2 := hfg.2
        simp only [hexp, if_true] at h2 ⊢
        exact ih _ f.2 g.2 h2
    | map t es =>
      cases y <;> simp only [sameButExcluded, beq_iff_eq, hcb, false_or, Bool.or_eq_true,
        Bool.and_eq_true, Bool.false_eq_true] at h
      rename_i u fs
      simp only [sameButExcluded, beq_iff_eq, hcb, false_or, Bool.or_eq_true,
        Bool.and_eq_true, true_and]
      rw [agreeEntries_iff] at h ⊢
      refine forall₂_left_refl _ es fs h.2 ?_
      intro a b hab
      exact ⟨rfl, ih "" a.2 b.2 hab.2⟩

theorem mem_enumFrom_of_get {α : Type} :
    ∀ (l : List α) (i j : Nat) (x : α), l[j]? = some x → (i + j, x) ∈ l.enumFrom i
  | [], _, _, _, h => by simp at h
  | a :: l, i, 0, x, h => by
      simp only [List.getElem?_cons_zero, Option.some.injEq] at h
      simp [h]
  | a :: l, i, j + 1, x, h => by
      simp only [List.getElem?_cons_succ] at h
      have := mem_enumFrom_of_get l (i + 1) j x h
      simp only [List.enumFrom_cons, List.mem_cons]
      right
      have e : i + 1 + j = i + (j + 1) := by omega
      rw [e] at this
      exact this

theorem isEmpty_of_mem (r : DiffDetails) (s : Slot) (p : String) (h : p ∈ keysAt s r) :
    r.isEmpty = false := by
  cases he : r.isEmpty with
  | false => rfl
  | true =>
    rw [(isEmpty_iff r).mp he s] at h
    cases h

/-- The direct branch of `compare` on a record, whatever the nested comparison gives. -/
theorem compare_struct_direct_all (ff : Fmt) (fuel : Nat) (p comparedby : String)
    (diff : DiffDetails) (t : GoType) (fs : List (StructField × GoValue)) (old : GoValue)
    (hcb : comparedby ≠ "-") (hname : (GoValue.struct t fs).typeName = old.typeName) :
    compare ff (fuel + 1) p comparedby true diff (.struct t fs) old =
      (match Diff ff fuel (.struct t fs) old with
       | .ok r => .ok (if r.isEmpty then diff else diff.setChange p (some old))
       | .error e => .error e) := by
  cases hsub : Diff ff fuel (.struct t fs) old with
  | ok r => exact compare_struct_direct ff fuel p comparedby diff t fs old r hcb hname hsub
  | error e =>
    have hd : deepEqual (compare ff fuel) (.struct t fs) old = .error e := by
      simp only [Diff] at hsub
      simp [deepEqual, hsub]
    simp [compare, hcb, hname, hd]

/-- The direct branch of the loop body of `compareBySlice` on a matched element, whatever the
nested comparison gives. -/
theorem stepNew_direct_all (ff : Fmt) (cmp : Cmp) (oldSeq : GoValue)
    (comparedby key : String) (diff : DiffDetails) (x v f : GoValue)
    (fld : Option (StructField × GoValue)) (cv : String)
    (hx : getElement x = .ok v) (hfound : getFromSlice oldSeq v comparedby = .ok (some f))
    (hfld : fieldByName v comparedby = .ok fld) (hexp : structFieldIsExported fld = true)
    (hcv : getComparedValueOf ff fld = .ok cv) :
    stepNew ff cmp oldSeq comparedby true key diff x =
      (match diffWith cmp v f with
       | .ok r =>
           .ok (if r.isEmpty then diff else diff.setChange (selector key comparedby cv) (some f))
       | .error e => .error e) := by
  cases hsub : diffWith cmp v f with
  | ok r =>
    exact stepNew_direct ff cmp oldSeq comparedby key diff x v f fld cv r hx hfound hfld hexp
      hcv hsub
  | error e =>
    have hz := getFromSlice_nonzero _ _ _ _ hfound
    simp [stepNew, hx, hfound, hfld, hexp, hcv, hz, deepEqual, hsub]

/-- The nested comparison finds nothing on two values that differ only in excluded fields,
when the old one compares empty with itself. -/
theorem Diff_same_empty (Γ : Decls) (ff : Fmt) (fuel n : Nat) (a b : GoValue)
    (hc : conforms Γ b = true) (hself : selfComparable fuel "" false b = true)
    (hsame : sameButExcluded n "" b a = true) :
    ∃ r, Diff ff fuel a b = .ok r ∧ r.isEmpty = true := by
  have h0 : compare ff fuel "" "" false {} b b = .ok {} :=
    compare_self ff fuel "" false b "" {} hself
  have hsim := compare_sim Γ ff fuel n n "" "" false {} {} b a b b hc hc hsame
    (sameButExcluded_left n "" b a hsame) (samePaths_refl _)
  rw [h0] at hsim
  cases h1 : compare ff fuel "" "" false {} a b with
  | error e => rw [h1] at hsim; exact absurd hsim (by simp [SimOut])
  | ok r =>
    rw [h1] at hsim
    refine ⟨r, h1, ?_⟩
    have := SamePaths.isEmpty _ _ hsim
    rw [← this]
    rfl

/-- The nested comparison reports a difference in an exported scalar field without
annotation. -/
theorem Diff_field_differs (ff : Fmt) (fuel : Nat) (t : GoType)
    (fs : List (StructField × GoValue)) (old : GoValue) (j : Nat)
    (f : StructField × GoValue) (o : GoValue) (r : DiffDetails)
    (hj : fs[j]? = some f) (hexp : f.1.Exported = true) (htag : f.1.Tag = "")
    (hs : f.2.isScalar = true) (ho : fieldAt old j = .ok o)
    (hne : goDeepEqual f.2 o = false)
    (h : Diff ff fuel (.struct t fs) old = .ok r) : r.isEmpty = false := by
  simp only [Diff, diffWith] at h
  cases fuel with
  | zero => simp [compare] at h
  | succ k =>
  by_cases hname : (GoValue.struct t fs).typeName = old.typeName
  swap
  · rw [compare_name_mismatch ff k "" "" false {} _ old (by decide) hname] at h
    cases h
  rw [compare_struct_fields ff k "" "" {} t fs old (by decide) hname, compareFields_enum] at h
  have hlog := fun key cb isDirect new old => compare_logged ff k key cb isDirect new old
  obtain ⟨hall, hkeys⟩ := foldlM_keys "" _ (fs.enumFrom 0)
    (fun x _ => fieldStep_logged (compare ff k) hlog "" old x) {} r h
  have hmem : (j, f) ∈ fs.enumFrom 0 := by
    have := mem_enumFrom_of_get fs 0 j f hj
    simpa using this
  obtain ⟨rx, hrx⟩ := hall (j, f) hmem
  have hpt : parseTag f.1.Tag = ("", false) := by rw [htag]; decide
  simp only [fieldStep, hexp, Bool.not_true, Bool.false_eq_true, if_false, ho, ok_bind,
    hpt] at hrx
  cases k with
  | zero => simp [compare] at hrx
  | succ k' =>
  by_cases hn2 : f.2.typeName = o.typeName
  swap
  · rw [compare_name_mismatch ff k' _ "" false {} _ o (by decide) hn2] at hrx
    cases hrx
  rw [compare_scalar ff k' _ false {} f.2 o hs hn2, hne] at hrx
  simp only [Bool.false_eq_true, if_false, Except.ok.injEq] at hrx
  apply isEmpty_of_mem r .change (generate "" f.1.Name)
  rw [hkeys]
  right
  refine ⟨(j, f), hmem, rx, ?_, ?_⟩
  · simp only [fieldStep, hexp, Bool.not_true, Bool.false_eq_true, if_false, ho, ok_bind,
      hpt]
    rw [compare_scalar ff k' _ false {} f.2 o hs hn2, hne]
    simp only [Bool.false_eq_true, if_false, Except.ok.injEq]
    exact hrx
  · rw [← hrx]
    exact (keys_write_empty ⟨.change, generate "" f.1.Name, some o⟩ .change _).mpr ⟨rfl, rfl⟩

/-- C6 (as amended): in Direct mode the nested comparison (`Diff` of the two values) decides
alone.  For a record at path `p`, and for an element of a keyed sequence matched with the old
element `f` at its selector path: when the nested comparison fails, so does the comparison;
when it reports something, the result is the given one with the single write
`Change[path] = old value`; when it reports nothing, the result is unchanged; no nested path
is written.  The nested comparison reports nothing on two values that differ only in fields
annotated `-` when the old one compares empty with itself, and it reports a difference in an
exported scalar field without annotation. -/
theorem C6_direct_mode (ff : Fmt) (fuel : Nat) (p comparedby : String)
    (diff : DiffDetails) (t : GoType) (fs : List (StructField × GoValue)) (old : GoValue)
    (oldSeq : GoValue) (keyField key : String) (x v f : GoValue)
    (fld : Option (StructField × GoValue)) (cv : String)
    (hcb : comparedby ≠ "-")
    (hname : (GoValue.struct t fs).typeName = old.typeName)
    (hx : getElement x = .ok v) (hfound : getFromSlice oldSeq v keyField = .ok (some f))
    (hfld : fieldByName v keyField = .ok fld) (hexp : structFieldIsExported fld = true)
    (hcv : getComparedValueOf ff fld = .ok cv) :
    compare ff (fuel + 1) p comparedby true diff (.struct t fs) old =
      (match Diff ff fuel (.struct t fs) old with
       | .ok r => .ok (if r.isEmpty then diff else diff.setChange p (some old))
       | .error e => .error e) ∧
    stepNew ff (compare ff fuel) oldSeq keyField true key diff x =
      (match Diff ff fuel v f with
       | .ok r =>
           .ok (if r.isEmpty then diff else diff.setChange (selector key keyField cv) (some f))
       | .error e => .error e) ∧
    (∀ (Γ : Decls) (n : Nat) (a b : GoValue), conforms Γ b = true →
      selfComparable fuel "" false b = true → sameButExcluded n "" b a = true →
      ∃ r, Diff ff fuel a b = .ok r ∧ r.isEmpty = true) ∧
    (∀ (u : GoType) (gs : List (StructField × GoValue)) (b : GoValue) (j : Nat)
      (g : StructField × GoValue) (o : GoValue) (r : DiffDetails),
      gs[j]? = some g → g.1.Exported = true → g.1.Tag = "" → g.2.isScalar = true →
      fieldAt b j = .ok o → goDeepEqual g.2 o = false →
      Diff ff fuel (.struct u gs) b = .ok r → r.isEmpty = false) :=
  ⟨compare_struct_direct_all ff fuel p comparedby diff t fs old hcb hname,
   stepNew_direct_all ff (compare ff fuel) oldSeq keyField key diff x v f fld cv
     hx hfound hfld hexp hcv,
   fun Γ n a b hc hself hsame => Diff_same_empty Γ ff fuel n a b hc hself hsame,
   fun u gs b j g o r hj hexp' htag hs ho hne h =>
     Diff_field_differs ff fuel u gs b j g o r hj hexp' htag hs ho hne h⟩

theorem C6_direct_mode_witness :
    ("" ≠ "-" ∧
     (GoValue.struct tContacts [(⟨"Phone", true, ""⟩, str "123456")]).typeName =
       (contacts "12345678").typeName ∧
     getElement (subjectPtr "Math" f88) = .ok (subject "Math" f88) ∧
     getFromSlice (subjects [subjectPtr "Math" f80, subjectPtr "Geography" f80])
       (subject "Math" f88) "Name" = .ok (some (subject "Math" f80)) ∧
     fieldByName (subject "Math" f88) "Name" = .ok (some (⟨"Name", true, ""⟩, str "Math")) ∧
     structFieldIsExported (some (⟨"Name", true, ""⟩, str "Math")) = true ∧
     getComparedValueOf ffNone (some (⟨"Name", true, ""⟩, str "Math")) = .ok "\"Math\"") ∧
    (compare ffNone (2 + 1) "Contacts1" "" true {}
        (.struct tContacts [(⟨"Phone", true, ""⟩, str "123456")]) (contacts "12345678") =
      (match Diff ffNone 2 (.struct tContacts [(⟨"Phone", true, ""⟩, str "123456")])
          (contacts "12345678") with
       | .ok r =>
           .ok (if r.isEmpty then {}
             else ({} : DiffDetails).setChange "Contacts1" (some (contacts "12345678")))
       | .error e => .error e) ∧
     stepNew ffNone (compare ffNone 2)
        (subjects [subjectPtr "Math" f80, subjectPtr "Geography" f80]) "Name" true "Subjects1" {}
        (subjectPtr "Math" f88) =
      (match Diff ffNone 2 (subject "Math" f88) (subject "Math" f80) with
       | .ok r =>
           .ok (if r.isEmpty then {}
             else ({} : DiffDetails).setChange (selector "Subjects1" "Name" "\"Math\"")
               (some (subject "Math" f80)))
       | .error e => .error e) ∧
     (∀ (Γ : Decls) (n : Nat) (a b : GoValue), conforms Γ b = true →
       selfComparable 2 "" false b = true → sameButExcluded n "" b a = true →
       ∃ r, Diff ffNone 2 a b = .ok r ∧ r.isEmpty = true) ∧
     (∀ (u : GoType) (gs : List (StructField × GoValue)) (b : GoValue) (j : Nat)
       (g : StructField × GoValue) (o : GoValue) (r : DiffDetails),
       gs[j]? = some g → g.1.Exported = true → g.1.Tag = "" → g.2.isScalar = true →
       fieldAt b j = .ok o → goDeepEqual g.2 o = false →
       Diff ffNone 2 (.struct u gs) b = .ok r → r.isEmpty = false)) :=
  ⟨⟨by decide, by decide, by decide, by decide, by decide, by decide, by decide⟩,
   C6_direct_mode ffNone 2 "Contacts1" "" {} tContacts [(⟨"Phone", true, ""⟩, str "123456")]
     (contacts "12345678")
     (subjects [subjectPtr "Math" f80, subjectPtr "Geography" f80]) "Name" "Subjects1"
     (subjectPtr "Math" f88) (subject "Math" f88) (subject "Math" f80)
     (some (⟨"Name", true, ""⟩, str "Math")) "\"Math\""
     (by decide) (by decide) (by decide) (by decide) (by decide) (by decide) (by decide)⟩

/-- C6, counterexample: two `Vault` records that differ in the unexported field `pin` are
compared in Direct mode and nothing is recorded, although they differ; and a `Reading` that
holds a NaN is compared in Direct mode with itself and `Change[R]` is recorded, although the
two values are the same. -/
theorem C6_counterexample :
    vault 1 ≠ vault 2 ∧
    compare ffNone 3 "V" "" true {} (vault 1) (vault 2) = .ok {} ∧
    compare ffNone 3 "R" "" true {} reading reading = .ok (changeOnly "R" reading) := by
  decide

/-- An instance of the nested comparison on two values that differ only in fields annotated
`-`: two accounts with other values in `Secret` and in the `Note` of an element. -/
theorem direct_ignores_excluded :
    Diff ffNone 4 (account "a" "s2" [item "x" "n2" 1]) (account "a" "s1" [item "x" "n1" 1]) =
      .ok {} ∧
    compare ffNone 5 "A" "" true {} (account "a" "s2" [item "x" "n2" 1])
      (account "a" "s1" [item "x" "n1" 1]) = .ok {} := by
  decide

end Modeldiff
